import Mathlib

/-!
The llvmir2hll IR core and the arithmetic-simplification driver.

A shallow embedding of

* `src/llvmir2hll/ir/eq_op_expr.cpp`, `or_op_expr.cpp`, `call_stmt.cpp`,
  `ufor_loop_stmt.cpp` (IR nodes), and
* `src/llvmir2hll/optimizer/optimizers/simplify_arithm_expr_optimizer.cpp`.

IR nodes are reference objects, so they live in a heap: a pointer is the index
of a cell, `none` is `nullptr`.  Member functions are state transformers on the
heap that return `Except Err _`; calling a member through a null pointer and a
failing `PRECONDITION_NON_NULL` are errors.  Virtual calls on sub-values
(`op1->clone()`, `init->replace(..)`, ...) are passed to each member function as
a parameter; the dispatchers `Value.clone`, `Value.isEqualTo` and
`Expression.replace` tie the knot by recursion on a fuel argument.
-/

deriving instance DecidableEq for Except

namespace Retdec

/-! ## Data model -/

/-- Pointer to an IR node: the index of its cell in the heap, `none` for `nullptr`. -/
abbrev Ptr := Option Nat

/-- Ways in which a member function can fail. -/
inductive Err
  /-- A member was called through a null (or dangling) pointer. -/
  | nullDeref
  /-- The check `PRECONDITION_NON_NULL` failed (the macro of `support/debug.h` is
  modelled from the spec: a fail-fast check). -/
  | precondition
  /-- The receiver does not have the class the member function belongs to. -/
  | badCast
  /-- The model ran out of fuel. -/
  | outOfFuel
  deriving DecidableEq, Repr

/-- Node classes of the IR whose implementation files are not part of this
development (they appear in `value_text_repr_visitor.h` and in the tests). -/
inductive Class
  | variable | constBool | constInt | constFloat | constString | constNullPointer
  | addOpExpr | subOpExpr | mulOpExpr | divOpExpr | modOpExpr | negOpExpr
  | neqOpExpr | ltOpExpr | ltEqOpExpr | gtOpExpr | gtEqOpExpr
  | andOpExpr | notOpExpr
  | bitAndOpExpr | bitOrOpExpr | bitXorOpExpr | bitShlOpExpr | bitShrOpExpr
  | ternaryOpExpr | addressOpExpr | derefOpExpr | assignOpExpr
  | arrayIndexOpExpr | structIndexOpExpr | commaOpExpr | callExpr
  | emptyStmt | breakStmt | continueStmt | returnStmt | unreachableStmt
  | intType | pointerType
  deriving DecidableEq, Repr

/-- Classes derived from `Expression`. -/
def Class.isExpression : Class → Bool
  | .emptyStmt | .breakStmt | .continueStmt | .returnStmt | .unreachableStmt => false
  | .intType | .pointerType => false
  | _ => true

/-- Classes derived from `Statement`. -/
def Class.isStatement : Class → Bool
  | .emptyStmt | .breakStmt | .continueStmt | .returnStmt | .unreachableStmt => true
  | _ => false

/-- The fields of an IR node.  The four classes implemented under `src/` have a
constructor of their own, with the fields of the C++ class; a node of any other
class is `other`, with its class, its non-pointer data (a name, a literal) and
the list of its operand pointers. -/
inductive Node
  /-- A node of class `EqOpExpr`, fields `op1`, `op2` of `BinaryOpExpr`. -/
  | eqOpExpr (op1 op2 : Ptr)
  /-- A node of class `OrOpExpr`, fields `op1`, `op2` of `BinaryOpExpr`. -/
  | orOpExpr (op1 op2 : Ptr)
  /-- A node of class `CallStmt`, field `call`. -/
  | callStmt (call : Ptr)
  /-- A node of class `UForLoopStmt`, fields in declaration order of the constructor. -/
  | uforLoopStmt (init : Ptr) (initIsDefinition : Bool) (cond step body : Ptr)
  /-- A node of a class implemented elsewhere. -/
  | other (cls : Class) (data : String) (operands : List Ptr)
  deriving DecidableEq, Repr

/-- Is the node an `Expression`? -/
def Node.isExpression : Node → Bool
  | .eqOpExpr _ _ => true
  | .orOpExpr _ _ => true
  | .callStmt _ => false
  | .uforLoopStmt _ _ _ _ _ => false
  | .other cls _ _ => cls.isExpression

/-- Is the node a `Statement`? -/
def Node.isStatement : Node → Bool
  | .eqOpExpr _ _ => false
  | .orOpExpr _ _ => false
  | .callStmt _ => true
  | .uforLoopStmt _ _ _ _ _ => true
  | .other cls _ _ => cls.isStatement

/-- Is the node a `CallExpr`? -/
def Node.isCallExpr : Node → Bool
  | .other .callExpr _ _ => true
  | _ => false

/-- A heap cell: the node's own fields and the state it inherits from `Value`
(`Subject` observers, metadata, address) and, for statements, `Statement`
(successor). -/
structure Cell where
  /-- Fields of the concrete class. -/
  node : Node
  /-- The registered observers (`Subject`). -/
  observers : List Nat
  /-- The successor (`Statement::succ`), `none` at the end of a block. -/
  succ : Ptr
  /-- The attached metadata (`Value::getMetadata`). -/
  metadata : String
  /-- The address (`Value::getAddress`). -/
  address : Nat
  deriving DecidableEq, Repr

/-- The heap of IR nodes. -/
abbrev Heap := List Cell

/-- A freshly constructed node: no observers, no successor, empty metadata. -/
def Cell.fresh (node : Node) (a : Nat) : Cell :=
  { node := node, observers := [], succ := none, metadata := "", address := a }

/-- Dereference a pointer. -/
def Heap.cell (h : Heap) (p : Ptr) : Except Err Cell :=
  match p with
  | none => .error .nullDeref
  | some a =>
    match h[a]? with
    | none => .error .nullDeref
    | some c => .ok c

/-- The operator `new`: the node is placed in the next free cell. -/
def Heap.alloc (h : Heap) (c : Cell) : Nat × Heap :=
  (h.length, h ++ [c])

/-- Write to the cell at `a`. -/
def Heap.update (h : Heap) (a : Nat) (f : Cell → Cell) : Heap :=
  match h[a]? with
  | none => h
  | some c => h.set a (f c)

/-- The pointer is null or points to a cell of the heap. -/
def Heap.valid (h : Heap) (p : Ptr) : Bool :=
  match p with
  | none => true
  | some a => decide (a < h.length)

/-- The fields of the node `p` points to, if any. -/
def Heap.node (h : Heap) (p : Ptr) : Option Node :=
  match p with
  | none => none
  | some a => (h[a]?).map Cell.node

/-- The cast `cast<T>(p)`: `p` when it points to a node of class `T`, otherwise null. -/
def cast (isT : Node → Bool) (h : Heap) (p : Ptr) : Ptr :=
  match h.node p with
  | some n => if isT n then p else none
  | none => none

/-- The test `isa<T>(p)`. -/
def isa (isT : Node → Bool) (h : Heap) (p : Ptr) : Bool :=
  (cast isT h p).isSome

/-! ## Subject, Value, Statement -/

/-- Insertion of `observer` into the observer set of a cell. -/
def Cell.addObserver (observer : Nat) (c : Cell) : Cell :=
  { c with observers :=
      if observer ∈ c.observers then c.observers else c.observers ++ [observer] }

/-- Removal of `observer` from the observer set of a cell. -/
def Cell.removeObserver (observer : Nat) (c : Cell) : Cell :=
  { c with observers := c.observers.filter (fun o => decide (o ≠ observer)) }

/-- Modelled from the spec: `Subject::addObserver`, whose source is missing.  The
spec speaks of the registered-observer set of a value, so registering is
insertion into a set. -/
def Subject.addObserver (h : Heap) (subject : Ptr) (observer : Nat) : Except Err Heap :=
  match subject with
  | none => .error .nullDeref
  | some a =>
    if a < h.length then .ok (h.update a (Cell.addObserver observer))
    else .error .nullDeref

/-- Modelled from the spec: `Subject::removeObserver`, whose source is missing:
removal from the registered-observer set (no effect when not registered). -/
def Subject.removeObserver (h : Heap) (subject : Ptr) (observer : Nat) : Except Err Heap :=
  match subject with
  | none => .error .nullDeref
  | some a =>
    if a < h.length then .ok (h.update a (Cell.removeObserver observer))
    else .error .nullDeref

/-- Is `observer` registered as an observer of `subject`? -/
def Subject.hasObserver (h : Heap) (subject : Nat) (observer : Nat) : Bool :=
  match h[subject]? with
  | none => false
  | some c => decide (observer ∈ c.observers)

/-- Modelled from the spec: `Value::getMetadata`. -/
def Value.getMetadata (h : Heap) (this : Nat) : Except Err String :=
  (h.cell (some this)).map Cell.metadata

/-- Modelled from the spec: `Value::setMetadata`. -/
def Value.setMetadata (h : Heap) (this : Nat) (data : String) : Except Err Heap :=
  if this < h.length then .ok (h.update this fun c => { c with metadata := data })
  else .error .nullDeref

/-- Modelled from the spec: `Value::getAddress`. -/
def Value.getAddress (h : Heap) (this : Nat) : Except Err Nat :=
  (h.cell (some this)).map Cell.address

/-- Modelled from the spec: `Statement::getSuccessor`. -/
def Statement.getSuccessor (h : Heap) (this : Nat) : Except Err Ptr :=
  (h.cell (some this)).map Cell.succ

/-- Modelled from the spec: `Statement::setSuccessor`, whose source is missing;
the spec describes the successor as a plain reference to the next statement. -/
def Statement.setSuccessor (h : Heap) (this : Nat) (newSucc : Ptr) : Except Err Heap :=
  if this < h.length then .ok (h.update this fun c => { c with succ := newSucc })
  else .error .nullDeref

/-- The short-circuit conjunction `a && b` of two calls that may fail: `b` is
evaluated only when `a` returned true. -/
def andAlso (a b : Except Err Bool) : Except Err Bool :=
  a.bind fun x => if x then b else .ok false

/-! ## EqOpExpr (`src/llvmir2hll/ir/eq_op_expr.cpp`) -/

/-- The cast `cast<EqOpExpr>(p)` followed by `getFirstOperand()`, `getSecondOperand()`. -/
def EqOpExpr.operands (h : Heap) (p : Ptr) : Option (Ptr × Ptr) :=
  match h.node p with
  | some (.eqOpExpr op1 op2) => some (op1, op2)
  | _ => none

/-- The function `EqOpExpr::create`. -/
def EqOpExpr.create (h : Heap) (op1 op2 : Ptr) : Except Err (Nat × Heap) :=
  match op1, op2 with
  | none, _ => .error .precondition
  | some _, none => .error .precondition
  | some _, some _ =>
    let (expr, h0) := h.alloc (Cell.fresh (.eqOpExpr op1 op2) 0)
    (Subject.addObserver h0 op1 expr).bind fun h1 =>
    (Subject.addObserver h1 op2 expr).bind fun h2 =>
    .ok (expr, h2)

/-- The function `EqOpExpr::isEqualTo`; `visEqualTo` is the virtual call `x->isEqualTo(y)`. -/
def EqOpExpr.isEqualTo (visEqualTo : Heap → Ptr → Ptr → Except Err Bool)
    (h : Heap) (this : Nat) (otherValue : Ptr) : Except Err Bool :=
  match EqOpExpr.operands h (some this) with
  | none => .error .badCast
  | some (op1, op2) =>
    match EqOpExpr.operands h otherValue with
    | some (o1, o2) => andAlso (visEqualTo h op1 o1) (visEqualTo h op2 o2)
    | none => .ok false

/-- The function `EqOpExpr::clone`; `vclone` is the virtual call `x->clone()`.  The two
arguments of `create` are evaluated from left to right. -/
def EqOpExpr.clone (vclone : Heap → Ptr → Except Err (Ptr × Heap))
    (h : Heap) (this : Nat) : Except Err (Ptr × Heap) :=
  match EqOpExpr.operands h (some this) with
  | none => .error .badCast
  | some (op1, op2) =>
    (vclone h op1).bind fun (c1, h1) =>
    (vclone h1 op2).bind fun (c2, h2) =>
    (EqOpExpr.create h2 c1 c2).bind fun (eqOpExpr, h3) =>
    (Value.getMetadata h3 this).bind fun md =>
    (Value.setMetadata h3 eqOpExpr md).bind fun h4 =>
    .ok (some eqOpExpr, h4)

/-! ## OrOpExpr (`src/llvmir2hll/ir/or_op_expr.cpp`) -/

/-- The cast `cast<OrOpExpr>(p)` followed by `getFirstOperand()`, `getSecondOperand()`. -/
def OrOpExpr.operands (h : Heap) (p : Ptr) : Option (Ptr × Ptr) :=
  match h.node p with
  | some (.orOpExpr op1 op2) => some (op1, op2)
  | _ => none

/-- The function `OrOpExpr::create`. -/
def OrOpExpr.create (h : Heap) (op1 op2 : Ptr) : Except Err (Nat × Heap) :=
  match op1, op2 with
  | none, _ => .error .precondition
  | some _, none => .error .precondition
  | some _, some _ =>
    let (expr, h0) := h.alloc (Cell.fresh (.orOpExpr op1 op2) 0)
    (Subject.addObserver h0 op1 expr).bind fun h1 =>
    (Subject.addObserver h1 op2 expr).bind fun h2 =>
    .ok (expr, h2)

/-- The function `OrOpExpr::isEqualTo`. -/
def OrOpExpr.isEqualTo (visEqualTo : Heap → Ptr → Ptr → Except Err Bool)
    (h : Heap) (this : Nat) (otherValue : Ptr) : Except Err Bool :=
  match OrOpExpr.operands h (some this) with
  | none => .error .badCast
  | some (op1, op2) =>
    match OrOpExpr.operands h otherValue with
    | some (o1, o2) => andAlso (visEqualTo h op1 o1) (visEqualTo h op2 o2)
    | none => .ok false

/-- The function `OrOpExpr::clone`. -/
def OrOpExpr.clone (vclone : Heap → Ptr → Except Err (Ptr × Heap))
    (h : Heap) (this : Nat) : Except Err (Ptr × Heap) :=
  match OrOpExpr.operands h (some this) with
  | none => .error .badCast
  | some (op1, op2) =>
    (vclone h op1).bind fun (c1, h1) =>
    (vclone h1 op2).bind fun (c2, h2) =>
    (OrOpExpr.create h2 c1 c2).bind fun (orOpExpr, h3) =>
    (Value.getMetadata h3 this).bind fun md =>
    (Value.setMetadata h3 orOpExpr md).bind fun h4 =>
    .ok (some orOpExpr, h4)

/-! ## CallStmt (`src/llvmir2hll/ir/call_stmt.cpp`) -/

/-- The function `CallStmt::getCall`. -/
def CallStmt.getCall (h : Heap) (this : Nat) : Except Err Ptr :=
  match h.node (some this) with
  | some (.callStmt call) => .ok call
  | _ => .error .badCast

/-- The cast `cast<CallStmt>(p)` followed by a read of the field `call`. -/
def CallStmt.callOf (h : Heap) (p : Ptr) : Option Ptr :=
  match h.node p with
  | some (.callStmt call) => some call
  | _ => none

/-- The function `CallStmt::isEqualTo`. -/
def CallStmt.isEqualTo (visEqualTo : Heap → Ptr → Ptr → Except Err Bool)
    (h : Heap) (this : Nat) (otherValue : Ptr) : Except Err Bool :=
  (CallStmt.getCall h this).bind fun call =>
    match CallStmt.callOf h otherValue with
    | some otherCall => visEqualTo h call otherCall
    | none => .ok false

/-- The function `CallStmt::setCall`. -/
def CallStmt.setCall (h : Heap) (this : Nat) (newCall : Ptr) : Except Err Heap :=
  match newCall with
  | none => .error .precondition
  | some _ =>
    (CallStmt.getCall h this).bind fun call =>
    (Subject.removeObserver h call this).bind fun h1 =>
    (Subject.addObserver h1 newCall this).bind fun h2 =>
    .ok (h2.update this fun c => { c with node := .callStmt newCall })

/-- The function `CallStmt::create`. -/
def CallStmt.create (h : Heap) (call succ : Ptr) (a : Nat) : Except Err (Nat × Heap) :=
  match call with
  | none => .error .precondition
  | some _ =>
    let (callStmt, h0) := h.alloc (Cell.fresh (.callStmt call) a)
    (Statement.setSuccessor h0 callStmt succ).bind fun h1 =>
    (Subject.addObserver h1 call callStmt).bind fun h2 =>
    .ok (callStmt, h2)

/-- The function `CallStmt::clone`. -/
def CallStmt.clone (vclone : Heap → Ptr → Except Err (Ptr × Heap))
    (h : Heap) (this : Nat) : Except Err (Ptr × Heap) :=
  (CallStmt.getCall h this).bind fun call =>
  (vclone h call).bind fun (c, h1) =>
  (Value.getAddress h1 this).bind fun a =>
  (CallStmt.create h1 c none a).bind fun (callStmt, h2) =>
  (Value.getMetadata h2 this).bind fun md =>
  (Value.setMetadata h2 callStmt md).bind fun h3 =>
  .ok (some callStmt, h3)

/-- The function `CallStmt::replace`; `vreplace` is the virtual call `call->replace(..)`. -/
def CallStmt.replace (vreplace : Heap → Ptr → Ptr → Ptr → Except Err Heap)
    (h : Heap) (this : Nat) (oldExpr newExpr : Ptr) : Except Err Heap :=
  (CallStmt.getCall h this).bind fun call =>
    if oldExpr = call ∧ isa Node.isCallExpr h newExpr = true then
      CallStmt.setCall h this (cast Node.isCallExpr h newExpr)
    else
      vreplace h call oldExpr newExpr

/-- The function `CallStmt::asExpression`. -/
def CallStmt.asExpression (h : Heap) (this : Nat) : Except Err Ptr :=
  CallStmt.getCall h this

/-- The function `CallStmt::update`. -/
def CallStmt.update (h : Heap) (this : Nat) (subject arg : Ptr) : Except Err Heap :=
  match subject, arg with
  | none, _ => .error .precondition
  | some _, none => .error .precondition
  | some _, some _ =>
    (CallStmt.getCall h this).bind fun call =>
      let newCall := cast Node.isCallExpr h arg
      if subject = call ∧ newCall.isSome = true then
        CallStmt.setCall h this newCall
      else
        .ok h

/-! ## UForLoopStmt (`src/llvmir2hll/ir/ufor_loop_stmt.cpp`) -/

/-- The constructor `UForLoopStmt::UForLoopStmt` under `new`: the flag
`initIsDefinition` starts as false. -/
def UForLoopStmt.new (h : Heap) (init cond step body : Ptr) (a : Nat) : Nat × Heap :=
  h.alloc (Cell.fresh (.uforLoopStmt init false cond step body) a)

/-- The function `UForLoopStmt::getInit`. -/
def UForLoopStmt.getInit (h : Heap) (this : Nat) : Except Err Ptr :=
  match h.node (some this) with
  | some (.uforLoopStmt init _ _ _ _) => .ok init
  | _ => .error .badCast

/-- The function `UForLoopStmt::getCond`. -/
def UForLoopStmt.getCond (h : Heap) (this : Nat) : Except Err Ptr :=
  match h.node (some this) with
  | some (.uforLoopStmt _ _ cond _ _) => .ok cond
  | _ => .error .badCast

/-- The function `UForLoopStmt::getStep`. -/
def UForLoopStmt.getStep (h : Heap) (this : Nat) : Except Err Ptr :=
  match h.node (some this) with
  | some (.uforLoopStmt _ _ _ step _) => .ok step
  | _ => .error .badCast

/-- The function `UForLoopStmt::getBody`. -/
def UForLoopStmt.getBody (h : Heap) (this : Nat) : Except Err Ptr :=
  match h.node (some this) with
  | some (.uforLoopStmt _ _ _ _ body) => .ok body
  | _ => .error .badCast

/-- The function `UForLoopStmt::isInitDefinition`. -/
def UForLoopStmt.isInitDefinition (h : Heap) (this : Nat) : Except Err Bool :=
  match h.node (some this) with
  | some (.uforLoopStmt _ initIsDefinition _ _ _) => .ok initIsDefinition
  | _ => .error .badCast

/-- Assignment to the field `init`. -/
def Node.withInit (newInit : Ptr) : Node → Node
  | .uforLoopStmt _ d cond step body => .uforLoopStmt newInit d cond step body
  | n => n

/-- Assignment to the field `cond`. -/
def Node.withCond (newCond : Ptr) : Node → Node
  | .uforLoopStmt init d _ step body => .uforLoopStmt init d newCond step body
  | n => n

/-- Assignment to the field `step`. -/
def Node.withStep (newStep : Ptr) : Node → Node
  | .uforLoopStmt init d cond _ body => .uforLoopStmt init d cond newStep body
  | n => n

/-- Assignment to the field `body`. -/
def Node.withBody (newBody : Ptr) : Node → Node
  | .uforLoopStmt init d cond step _ => .uforLoopStmt init d cond step newBody
  | n => n

/-- Assignment to the field `initIsDefinition`. -/
def Node.withInitIsDefinition (b : Bool) : Node → Node
  | .uforLoopStmt init _ cond step body => .uforLoopStmt init b cond step body
  | n => n

/-- The function `UForLoopStmt::setInit`. -/
def UForLoopStmt.setInit (h : Heap) (this : Nat) (newInit : Ptr) : Except Err Heap :=
  match newInit with
  | none => .error .precondition
  | some _ =>
    (UForLoopStmt.getInit h this).bind fun init =>
    (Subject.removeObserver h init this).bind fun h1 =>
    (Subject.addObserver h1 newInit this).bind fun h2 =>
    .ok (h2.update this fun c => { c with node := c.node.withInit newInit })

/-- The function `UForLoopStmt::setCond`. -/
def UForLoopStmt.setCond (h : Heap) (this : Nat) (newCond : Ptr) : Except Err Heap :=
  match newCond with
  | none => .error .precondition
  | some _ =>
    (UForLoopStmt.getCond h this).bind fun cond =>
    (Subject.removeObserver h cond this).bind fun h1 =>
    (Subject.addObserver h1 newCond this).bind fun h2 =>
    .ok (h2.update this fun c => { c with node := c.node.withCond newCond })

/-- The function `UForLoopStmt::setStep`. -/
def UForLoopStmt.setStep (h : Heap) (this : Nat) (newStep : Ptr) : Except Err Heap :=
  match newStep with
  | none => .error .precondition
  | some _ =>
    (UForLoopStmt.getStep h this).bind fun step =>
    (Subject.removeObserver h step this).bind fun h1 =>
    (Subject.addObserver h1 newStep this).bind fun h2 =>
    .ok (h2.update this fun c => { c with node := c.node.withStep newStep })

/-- The function `UForLoopStmt::setBody`. -/
def UForLoopStmt.setBody (h : Heap) (this : Nat) (newBody : Ptr) : Except Err Heap :=
  match newBody with
  | none => .error .precondition
  | some _ =>
    (UForLoopStmt.getBody h this).bind fun body =>
    (Subject.removeObserver h body this).bind fun h1 =>
    (Subject.addObserver h1 newBody this).bind fun h2 =>
    .ok (h2.update this fun c => { c with node := c.node.withBody newBody })

/-- The function `UForLoopStmt::markInitAsDefinition`. -/
def UForLoopStmt.markInitAsDefinition (h : Heap) (this : Nat) : Except Err Heap :=
  (UForLoopStmt.getInit h this).bind fun _ =>
    .ok (h.update this fun c => { c with node := c.node.withInitIsDefinition true })

/-- The function `UForLoopStmt::create`. -/
def UForLoopStmt.create (h : Heap) (init cond step body succ : Ptr) (a : Nat) :
    Except Err (Nat × Heap) :=
  match body with
  | none => .error .precondition
  | some _ =>
    let (stmt, h0) := UForLoopStmt.new h init cond step body a
    (Statement.setSuccessor h0 stmt succ).bind fun h1 =>
    (if init.isSome then Subject.addObserver h1 init stmt else .ok h1).bind fun h2 =>
    (if cond.isSome then Subject.addObserver h2 cond stmt else .ok h2).bind fun h3 =>
    (if step.isSome then Subject.addObserver h3 step stmt else .ok h3).bind fun h4 =>
    (Subject.addObserver h4 body stmt).bind fun h5 =>
    .ok (stmt, h5)

/-- The function `UForLoopStmt::clone`; `vclone` is the virtual call `x->clone()` and
`vcloneStatements` the call `Statement::cloneStatements(body)`.  The arguments of
`create` are evaluated from left to right. -/
def UForLoopStmt.clone (vclone vcloneStatements : Heap → Ptr → Except Err (Ptr × Heap))
    (h : Heap) (this : Nat) : Except Err (Ptr × Heap) :=
  match h.node (some this) with
  | some (.uforLoopStmt init _ cond step body) =>
    (vclone h init).bind fun (ci, h1) =>
    (vclone h1 cond).bind fun (cc, h2) =>
    (vclone h2 step).bind fun (cs, h3) =>
    (vcloneStatements h3 body).bind fun (cb, h4) =>
    (Value.getAddress h4 this).bind fun a =>
    (UForLoopStmt.create h4 ci cc cs cb none a).bind fun (loop, h5) =>
    (Value.getMetadata h5 this).bind fun md =>
    (Value.setMetadata h5 loop md).bind fun h6 =>
    .ok (some loop, h6)
  | _ => .error .badCast

/-- The function `UForLoopStmt::isEqualTo`. -/
def UForLoopStmt.isEqualTo (visEqualTo : Heap → Ptr → Ptr → Except Err Bool)
    (h : Heap) (this : Nat) (otherValue : Ptr) : Except Err Bool :=
  match h.node (some this) with
  | some (.uforLoopStmt init _ cond step body) =>
    match h.node otherValue with
    | some (.uforLoopStmt otherInit _ otherCond otherStep otherBody) =>
      andAlso (visEqualTo h init otherInit)
        (andAlso (visEqualTo h cond otherCond)
          (andAlso (visEqualTo h step otherStep) (visEqualTo h body otherBody)))
    | _ => .ok false
  | _ => .error .badCast

/-- The function `UForLoopStmt::replace`; `vreplace` is the virtual call `x->replace(..)`. -/
def UForLoopStmt.replace (vreplace : Heap → Ptr → Ptr → Ptr → Except Err Heap)
    (h : Heap) (this : Nat) (oldExpr newExpr : Ptr) : Except Err Heap :=
  (UForLoopStmt.getInit h this).bind fun init =>
  (if oldExpr = init then UForLoopStmt.setInit h this newExpr
   else if init.isSome then vreplace h init oldExpr newExpr
   else .ok h).bind fun h1 =>
  (UForLoopStmt.getCond h1 this).bind fun cond =>
  (if oldExpr = cond then UForLoopStmt.setCond h1 this cond
   else if cond.isSome then vreplace h1 cond oldExpr newExpr
   else .ok h1).bind fun h2 =>
  (UForLoopStmt.getStep h2 this).bind fun step =>
  (if oldExpr = step then UForLoopStmt.setStep h2 this newExpr
   else if step.isSome then vreplace h2 step oldExpr newExpr
   else .ok h2)

/-- The function `UForLoopStmt::asExpression`: a loop cannot be converted into an expression. -/
def UForLoopStmt.asExpression (_h : Heap) (_this : Nat) : Ptr :=
  none

/-- The function `UForLoopStmt::update`. -/
def UForLoopStmt.update (h : Heap) (this : Nat) (subject arg : Ptr) : Except Err Heap :=
  match subject with
  | none => .error .precondition
  | some _ =>
    (UForLoopStmt.getBody h this).bind fun body =>
    let newBody := cast Node.isStatement h arg
    if subject = body ∧ newBody.isSome = true then
      UForLoopStmt.setBody h this newBody
    else
      let newExpr := cast Node.isExpression h arg
      if newExpr.isSome = false then
        .ok h
      else
        (UForLoopStmt.getInit h this).bind fun init =>
        (UForLoopStmt.getCond h this).bind fun cond =>
        (UForLoopStmt.getStep h this).bind fun step =>
        if subject = init then UForLoopStmt.setInit h this newExpr
        else if subject = cond then UForLoopStmt.setCond h this newExpr
        else if subject = step then UForLoopStmt.setStep h this newExpr
        else .ok h

/-! ## Classes implemented elsewhere

`BinaryOpExpr` (the base of `EqOpExpr` and `OrOpExpr`), the classes of `other`
nodes and `Statement::cloneStatements` have no source in this development.  They
are modelled from the contract the spec gives for every node: `clone` is a deep
copy with fresh observer registrations and a copy of the metadata, `isEqualTo`
is structural comparison, `replace` substitutes direct operands and recurses
into the retained ones. -/

/-- Modelled from the spec: reading `op1` and `op2` of a `BinaryOpExpr` whose
class is implemented here. -/
def BinaryOpExpr.operands (h : Heap) (this : Nat) : Except Err (Ptr × Ptr) :=
  match h.node (some this) with
  | some (.eqOpExpr op1 op2) => .ok (op1, op2)
  | some (.orOpExpr op1 op2) => .ok (op1, op2)
  | _ => .error .badCast

/-- Assignment to the field `op1`. -/
def Node.withFirstOperand (first : Ptr) : Node → Node
  | .eqOpExpr _ op2 => .eqOpExpr first op2
  | .orOpExpr _ op2 => .orOpExpr first op2
  | n => n

/-- Assignment to the field `op2`. -/
def Node.withSecondOperand (second : Ptr) : Node → Node
  | .eqOpExpr op1 _ => .eqOpExpr op1 second
  | .orOpExpr op1 _ => .orOpExpr op1 second
  | n => n

/-- Modelled from the spec: `BinaryOpExpr::setFirstOperand`, missing from the
sources; it re-wires the observer edge like the setters of the statements. -/
def BinaryOpExpr.setFirstOperand (h : Heap) (this : Nat) (first : Ptr) : Except Err Heap :=
  match first with
  | none => .error .precondition
  | some _ =>
    (BinaryOpExpr.operands h this).bind fun (op1, _) =>
    (Subject.removeObserver h op1 this).bind fun h1 =>
    (Subject.addObserver h1 first this).bind fun h2 =>
    .ok (h2.update this fun c => { c with node := c.node.withFirstOperand first })

/-- Modelled from the spec: `BinaryOpExpr::setSecondOperand`, missing from the sources. -/
def BinaryOpExpr.setSecondOperand (h : Heap) (this : Nat) (second : Ptr) : Except Err Heap :=
  match second with
  | none => .error .precondition
  | some _ =>
    (BinaryOpExpr.operands h this).bind fun (_, op2) =>
    (Subject.removeObserver h op2 this).bind fun h1 =>
    (Subject.addObserver h1 second this).bind fun h2 =>
    .ok (h2.update this fun c => { c with node := c.node.withSecondOperand second })

/-- Modelled from the spec: `BinaryOpExpr::replace`, missing from the sources: an
operand that is `oldExpr` is substituted, any other operand is recursed into. -/
def BinaryOpExpr.replace (vreplace : Heap → Ptr → Ptr → Ptr → Except Err Heap)
    (h : Heap) (this : Nat) (oldExpr newExpr : Ptr) : Except Err Heap :=
  (BinaryOpExpr.operands h this).bind fun (op1, _) =>
  (if oldExpr = op1 then BinaryOpExpr.setFirstOperand h this newExpr
   else if op1.isSome then vreplace h op1 oldExpr newExpr
   else .ok h).bind fun h1 =>
  (BinaryOpExpr.operands h1 this).bind fun (_, op2) =>
  (if oldExpr = op2 then BinaryOpExpr.setSecondOperand h1 this newExpr
   else if op2.isSome then vreplace h1 op2 oldExpr newExpr
   else .ok h1)

/-- Reading the class, data and operands of an `other` node. -/
def Other.fields (h : Heap) (p : Ptr) : Option (Class × String × List Ptr) :=
  match h.node p with
  | some (.other cls data operands) => some (cls, data, operands)
  | _ => none

/-- Modelled from the spec: operand-wise structural comparison; two absent
operands are equal, an absent and a present one are not. -/
def Other.operandsEqual (visEqualTo : Heap → Ptr → Ptr → Except Err Bool) (h : Heap) :
    List Ptr → List Ptr → Except Err Bool
  | [], [] => .ok true
  | none :: ps, none :: qs => Other.operandsEqual visEqualTo h ps qs
  | some p :: ps, some q :: qs =>
    andAlso (visEqualTo h (some p) (some q)) (Other.operandsEqual visEqualTo h ps qs)
  | _, _ => .ok false

/-- Modelled from the spec: `isEqualTo` of a class implemented elsewhere: same
class, same data, structurally equal operands. -/
def Other.isEqualTo (visEqualTo : Heap → Ptr → Ptr → Except Err Bool)
    (h : Heap) (this : Nat) (otherValue : Ptr) : Except Err Bool :=
  match Other.fields h (some this) with
  | none => .error .badCast
  | some (cls, data, operands) =>
    match Other.fields h otherValue with
    | some (otherCls, otherData, otherOperands) =>
      if cls = otherCls ∧ data = otherData then
        Other.operandsEqual visEqualTo h operands otherOperands
      else .ok false
    | none => .ok false

/-- Modelled from the spec: deep copies of the operands, from left to right. -/
def Other.cloneOperands (vclone : Heap → Ptr → Except Err (Ptr × Heap)) :
    Heap → List Ptr → Except Err (List Ptr × Heap)
  | h, [] => .ok ([], h)
  | h, none :: ps =>
    (Other.cloneOperands vclone h ps).bind fun (cs, h1) => .ok (none :: cs, h1)
  | h, some p :: ps =>
    (vclone h (some p)).bind fun (c, h1) =>
    (Other.cloneOperands vclone h1 ps).bind fun (cs, h2) => .ok (c :: cs, h2)

/-- Registration of `observer` on every present operand. -/
def Other.addObservers (observer : Nat) : Heap → List Ptr → Except Err Heap
  | h, [] => .ok h
  | h, none :: ps => Other.addObservers observer h ps
  | h, some p :: ps =>
    (Subject.addObserver h (some p) observer).bind fun h1 => Other.addObservers observer h1 ps

/-- Modelled from the spec: `clone` of a class implemented elsewhere: a new node
of the same class and data over the clones of the operands, registered as their
observer, with a copy of the metadata and the address and without successor. -/
def Other.clone (vclone : Heap → Ptr → Except Err (Ptr × Heap))
    (h : Heap) (this : Nat) : Except Err (Ptr × Heap) :=
  match Other.fields h (some this) with
  | none => .error .badCast
  | some (cls, data, operands) =>
    (Other.cloneOperands vclone h operands).bind fun (cs, h1) =>
    (Value.getAddress h1 this).bind fun a =>
    let (n, h2) := h1.alloc (Cell.fresh (.other cls data cs) a)
    (Other.addObservers n h2 cs).bind fun h3 =>
    (Value.getMetadata h3 this).bind fun md =>
    (Value.setMetadata h3 n md).bind fun h4 =>
    .ok (some n, h4)

/-- Assignment to the operand slot `i` of an `other` node. -/
def Node.withOperand (i : Nat) (p : Ptr) : Node → Node
  | .other cls data operands => .other cls data (operands.set i p)
  | n => n

/-- Modelled from the spec: the setter of operand slot `i` of a class implemented
elsewhere, re-wiring the observer edge. -/
def Other.setOperand (h : Heap) (this : Nat) (i : Nat) (newOp : Ptr) : Except Err Heap :=
  match newOp with
  | none => .error .precondition
  | some _ =>
    match Other.fields h (some this) with
    | none => .error .badCast
    | some (_, _, operands) =>
      (Subject.removeObserver h (operands.getD i none) this).bind fun h1 =>
      (Subject.addObserver h1 newOp this).bind fun h2 =>
      .ok (h2.update this fun c => { c with node := c.node.withOperand i newOp })

/-- Modelled from the spec: `replace` over the operand slots `i`, `i+1`, ... that
held `operands` on entry. -/
def Other.replaceFrom (vreplace : Heap → Ptr → Ptr → Ptr → Except Err Heap)
    (this : Nat) (oldExpr newExpr : Ptr) : List Ptr → Nat → Heap → Except Err Heap
  | [], _, h => .ok h
  | op :: ops, i, h =>
    (if oldExpr = op then Other.setOperand h this i newExpr
     else if op.isSome then vreplace h op oldExpr newExpr
     else .ok h).bind fun h1 =>
    Other.replaceFrom vreplace this oldExpr newExpr ops (i + 1) h1

/-- Modelled from the spec: `replace` of an expression class implemented elsewhere. -/
def Other.replace (vreplace : Heap → Ptr → Ptr → Ptr → Except Err Heap)
    (h : Heap) (this : Nat) (oldExpr newExpr : Ptr) : Except Err Heap :=
  match Other.fields h (some this) with
  | none => .error .badCast
  | some (_, _, operands) => Other.replaceFrom vreplace this oldExpr newExpr operands 0 h

/-- Modelled from the spec: `Statement::cloneStatements`, missing from the
sources: every statement of the successor chain is cloned and the clones are
linked in the same order; the result is the clone of the first statement. -/
def Statement.cloneStatements (vclone : Heap → Ptr → Except Err (Ptr × Heap)) :
    Nat → Heap → Ptr → Except Err (Ptr × Heap)
  | 0, _, _ => .error .outOfFuel
  | _ + 1, h, none => .ok (none, h)
  | n + 1, h, some s =>
    (vclone h (some s)).bind fun (c, h1) =>
    (Statement.getSuccessor h1 s).bind fun next =>
    (Statement.cloneStatements vclone n h1 next).bind fun (rest, h2) =>
    match c with
    | none => .error .nullDeref
    | some c0 =>
      (Statement.setSuccessor h2 c0 rest).bind fun h3 => .ok (c, h3)

/-! ## Virtual dispatch -/

/-- The virtual call `this->isEqualTo(otherValue)`. -/
def Value.isEqualTo : Nat → Heap → Ptr → Ptr → Except Err Bool
  | 0, _, _, _ => .error .outOfFuel
  | _ + 1, _, none, _ => .error .nullDeref
  | fuel + 1, h, some this, otherValue =>
    match h.node (some this) with
    | none => .error .nullDeref
    | some (.eqOpExpr _ _) =>
      EqOpExpr.isEqualTo (fun h x y => Value.isEqualTo fuel h x y) h this otherValue
    | some (.orOpExpr _ _) =>
      OrOpExpr.isEqualTo (fun h x y => Value.isEqualTo fuel h x y) h this otherValue
    | some (.callStmt _) =>
      CallStmt.isEqualTo (fun h x y => Value.isEqualTo fuel h x y) h this otherValue
    | some (.uforLoopStmt _ _ _ _ _) =>
      UForLoopStmt.isEqualTo (fun h x y => Value.isEqualTo fuel h x y) h this otherValue
    | some (.other _ _ _) =>
      Other.isEqualTo (fun h x y => Value.isEqualTo fuel h x y) h this otherValue

/-- The virtual call `this->clone()`. -/
def Value.clone : Nat → Heap → Ptr → Except Err (Ptr × Heap)
  | 0, _, _ => .error .outOfFuel
  | _ + 1, _, none => .error .nullDeref
  | fuel + 1, h, some this =>
    match h.node (some this) with
    | none => .error .nullDeref
    | some (.eqOpExpr _ _) => EqOpExpr.clone (fun h x => Value.clone fuel h x) h this
    | some (.orOpExpr _ _) => OrOpExpr.clone (fun h x => Value.clone fuel h x) h this
    | some (.callStmt _) => CallStmt.clone (fun h x => Value.clone fuel h x) h this
    | some (.uforLoopStmt _ _ _ _ _) =>
      UForLoopStmt.clone (fun h x => Value.clone fuel h x)
        (Statement.cloneStatements (fun h x => Value.clone fuel h x) fuel) h this
    | some (.other _ _ _) => Other.clone (fun h x => Value.clone fuel h x) h this

/-- The virtual call `this->replace(oldExpr, newExpr)` through a pointer of type
`Expression*`: the receiver is an expression. -/
def Expression.replace : Nat → Heap → Ptr → Ptr → Ptr → Except Err Heap
  | 0, _, _, _, _ => .error .outOfFuel
  | _ + 1, _, none, _, _ => .error .nullDeref
  | fuel + 1, h, some this, oldExpr, newExpr =>
    match h.node (some this) with
    | none => .error .nullDeref
    | some (.eqOpExpr _ _) =>
      BinaryOpExpr.replace (fun h x o n => Expression.replace fuel h x o n) h this oldExpr newExpr
    | some (.orOpExpr _ _) =>
      BinaryOpExpr.replace (fun h x o n => Expression.replace fuel h x o n) h this oldExpr newExpr
    | some (.other cls _ _) =>
      if cls.isExpression then
        Other.replace (fun h x o n => Expression.replace fuel h x o n) h this oldExpr newExpr
      else .error .badCast
    | some _ => .error .badCast

/-- The virtual call `this->replace(oldExpr, newExpr)` through a pointer of type
`Statement*`. -/
def Statement.replace (fuel : Nat) (h : Heap) (this : Ptr) (oldExpr newExpr : Ptr) :
    Except Err Heap :=
  match this with
  | none => .error .nullDeref
  | some t =>
    match h.node this with
    | some (.callStmt _) => CallStmt.replace (Expression.replace fuel) h t oldExpr newExpr
    | some (.uforLoopStmt _ _ _ _ _) =>
      UForLoopStmt.replace (Expression.replace fuel) h t oldExpr newExpr
    | _ => .error .badCast

/-! ## SimplifyArithmExprOptimizer
(`src/llvmir2hll/optimizer/optimizers/simplify_arithm_expr_optimizer.cpp`) -/

/-- A sub-optimizer (`sub_optimizer.h`).  The body of `SubOptimizer::tryOptimize`
is not part of the sources, so it is a parameter: any function that may rewrite
the IR and returns whether it did. -/
structure SubOptimizer where
  /-- The function `SubOptimizer::getId`. -/
  getId : String
  /-- The function `SubOptimizer::tryOptimize`. -/
  tryOptimize : Heap → Ptr → Bool × Heap

/-- A global variable definition: the variable and its optional initializer. -/
structure GlobalVarDef where
  /-- The function `GlobalVarDef::getVar`. -/
  var : Ptr
  /-- The function `GlobalVarDef::getInitializer`, null when there is none. -/
  getInitializer : Ptr
  deriving DecidableEq, Repr

/-- A function of the module. -/
structure Function where
  /-- The name of the function. -/
  name : String
  /-- The head of the body, null for a declaration. -/
  body : Ptr
  /-- Is the function a definition? -/
  isDefinition : Bool
  deriving DecidableEq, Repr

/-- The module that is optimized: its global variables and functions, in the
order of `global_var_begin()` and `func_begin()`. -/
structure Module where
  /-- The global variable definitions. -/
  globalVars : List GlobalVarDef
  /-- The functions. -/
  funcs : List Function
  deriving DecidableEq, Repr

/-- The range `func_definition_begin() .. func_definition_end()`. -/
def Module.funcDefinitions (m : Module) : List Function :=
  m.funcs.filter fun f => f.isDefinition

/-- A record of one call `subOptim->tryOptimize(expr)`. -/
structure TryOptimizeCall where
  /-- The ID of the sub-optimizer that was called. -/
  subOptim : String
  /-- The expression it was given. -/
  expr : Ptr
  /-- The value it returned. -/
  result : Bool
  deriving DecidableEq, Repr

/-- The state of a `SimplifyArithmExprOptimizer` together with the IR it works
on.  `calls` is a history variable that is not in the C++ class: the calls of
`tryOptimize` made so far, oldest first. -/
structure SimplifyArithmExprOptimizer where
  /-- The field `subOptims`. -/
  subOptims : List SubOptimizer
  /-- The field `codeChanged` of `Optimizer`. -/
  codeChanged : Bool
  /-- The statements accessed since the last `restart()` (`OrderedAllVisitor`). -/
  accessedStmts : List Nat
  /-- The IR graph. -/
  ir : Heap
  /-- History of the calls of `tryOptimize`. -/
  calls : List TryOptimizeCall

/-- One iteration of the loop in `tryOptimizeInSubOptimizations`:
`codeChanged |= subOptim->tryOptimize(expr)`. -/
def SimplifyArithmExprOptimizer.tryOptimizeIn (expr : Ptr)
    (o : SimplifyArithmExprOptimizer) (subOptim : SubOptimizer) : SimplifyArithmExprOptimizer :=
  let r := subOptim.tryOptimize o.ir expr
  { o with
    codeChanged := o.codeChanged || r.1
    ir := r.2
    calls := o.calls ++ [{ subOptim := subOptim.getId, expr := expr, result := r.1 }] }

/-- The function `SimplifyArithmExprOptimizer::tryOptimizeInSubOptimizations`. -/
def SimplifyArithmExprOptimizer.tryOptimizeInSubOptimizations
    (o : SimplifyArithmExprOptimizer) (expr : Ptr) : SimplifyArithmExprOptimizer :=
  o.subOptims.foldl (SimplifyArithmExprOptimizer.tryOptimizeIn expr) o

/-- Modelled from the spec: `OrderedAllVisitor::restart`, missing from the
sources: the per-traversal state is reset. -/
def OrderedAllVisitor.restart (o : SimplifyArithmExprOptimizer) : SimplifyArithmExprOptimizer :=
  { o with accessedStmts := [] }

/-- The call `x->accept(this)` on every present operand, from left to right. -/
def OrderedAllVisitor.visitOperands
    (vaccept : SimplifyArithmExprOptimizer → Ptr → Except Err SimplifyArithmExprOptimizer) :
    SimplifyArithmExprOptimizer → List Ptr → Except Err SimplifyArithmExprOptimizer
  | o, [] => .ok o
  | o, none :: ps => OrderedAllVisitor.visitOperands vaccept o ps
  | o, some p :: ps =>
    (vaccept o (some p)).bind fun o1 => OrderedAllVisitor.visitOperands vaccept o1 ps

/-- Modelled from the spec: `OrderedAllVisitor::visitStmt`, missing from the
sources: a statement that was accessed since the last restart is not visited
again. -/
def OrderedAllVisitor.visitStmt
    (vaccept : SimplifyArithmExprOptimizer → Ptr → Except Err SimplifyArithmExprOptimizer)
    (o : SimplifyArithmExprOptimizer) (stmt : Ptr) : Except Err SimplifyArithmExprOptimizer :=
  match stmt with
  | none => .ok o
  | some s =>
    if s ∈ o.accessedStmts then .ok o
    else vaccept { o with accessedStmts := s :: o.accessedStmts } stmt

/-- Modelled from the spec: the `visit` functions of `OrderedAllVisitor`, missing
from the sources: the default traversal recurses into the operands from left to
right, into nested bodies and then into the successor; the node itself is not
processed. -/
def OrderedAllVisitor.visit
    (vaccept : SimplifyArithmExprOptimizer → Ptr → Except Err SimplifyArithmExprOptimizer)
    (o : SimplifyArithmExprOptimizer) (this : Nat) : Except Err SimplifyArithmExprOptimizer :=
  match o.ir.cell (some this) with
  | .error e => .error e
  | .ok c =>
    match c.node with
    | .eqOpExpr op1 op2 => OrderedAllVisitor.visitOperands vaccept o [op1, op2]
    | .orOpExpr op1 op2 => OrderedAllVisitor.visitOperands vaccept o [op1, op2]
    | .callStmt call =>
      (OrderedAllVisitor.visitOperands vaccept o [call]).bind fun o1 =>
        OrderedAllVisitor.visitStmt vaccept o1 c.succ
    | .uforLoopStmt init _ cond step body =>
      (OrderedAllVisitor.visitOperands vaccept o [init, cond, step]).bind fun o1 =>
      (OrderedAllVisitor.visitStmt vaccept o1 body).bind fun o2 =>
        OrderedAllVisitor.visitStmt vaccept o2 c.succ
    | .other cls _ operands =>
      (OrderedAllVisitor.visitOperands vaccept o operands).bind fun o1 =>
        if cls.isStatement then OrderedAllVisitor.visitStmt vaccept o1 c.succ else .ok o1

/-- The overloads `SimplifyArithmExprOptimizer::visit(T* expr)`, selected by the
class of the node `expr` points to (the double dispatch of `accept`).  The
optimizer overrides seventeen of them; every other class keeps the inherited
`OrderedAllVisitor::visit`. -/
def SimplifyArithmExprOptimizer.visit
    (vaccept : SimplifyArithmExprOptimizer → Ptr → Except Err SimplifyArithmExprOptimizer)
    (o : SimplifyArithmExprOptimizer) (expr : Nat) : Except Err SimplifyArithmExprOptimizer :=
  match o.ir.node (some expr) with
  | none => .error .nullDeref
  | some (.other .addOpExpr _ _) => .ok (o.tryOptimizeInSubOptimizations (some expr))
  | some (.other .subOpExpr _ _) => .ok (o.tryOptimizeInSubOptimizations (some expr))
  | some (.other .mulOpExpr _ _) => .ok (o.tryOptimizeInSubOptimizations (some expr))
  | some (.other .divOpExpr _ _) => .ok (o.tryOptimizeInSubOptimizations (some expr))
  | some (.other .modOpExpr _ _) => .ok (o.tryOptimizeInSubOptimizations (some expr))
  | some (.other .bitAndOpExpr _ _) => .ok (o.tryOptimizeInSubOptimizations (some expr))
  | some (.other .bitOrOpExpr _ _) => .ok (o.tryOptimizeInSubOptimizations (some expr))
  | some (.other .bitXorOpExpr _ _) => .ok (o.tryOptimizeInSubOptimizations (some expr))
  | some (.other .ltOpExpr _ _) => .ok (o.tryOptimizeInSubOptimizations (some expr))
  | some (.other .ltEqOpExpr _ _) => .ok (o.tryOptimizeInSubOptimizations (some expr))
  | some (.other .gtOpExpr _ _) => .ok (o.tryOptimizeInSubOptimizations (some expr))
  | some (.other .gtEqOpExpr _ _) => .ok (o.tryOptimizeInSubOptimizations (some expr))
  | some (.eqOpExpr _ _) => .ok (o.tryOptimizeInSubOptimizations (some expr))
  | some (.other .neqOpExpr _ _) => .ok (o.tryOptimizeInSubOptimizations (some expr))
  | some (.other .notOpExpr _ _) => .ok (o.tryOptimizeInSubOptimizations (some expr))
  | some (.orOpExpr _ _) => .ok (o.tryOptimizeInSubOptimizations (some expr))
  | some (.other .ternaryOpExpr _ _) => .ok (o.tryOptimizeInSubOptimizations (some expr))
  | some _ => OrderedAllVisitor.visit vaccept o expr

/-- The virtual call `value->accept(this)` on the optimizer. -/
def SimplifyArithmExprOptimizer.accept :
    Nat → SimplifyArithmExprOptimizer → Ptr → Except Err SimplifyArithmExprOptimizer
  | 0, _, _ => .error .outOfFuel
  | _ + 1, _, none => .error .nullDeref
  | fuel + 1, o, some value =>
    SimplifyArithmExprOptimizer.visit
      (fun o x => SimplifyArithmExprOptimizer.accept fuel o x) o value

/-- Modelled from the spec: `Function::accept` on an `OrderedAllVisitor`, missing
from the sources: the body chain is walked from its head. -/
def SimplifyArithmExprOptimizer.acceptFunction (fuel : Nat)
    (o : SimplifyArithmExprOptimizer) (func : Function) :
    Except Err SimplifyArithmExprOptimizer :=
  OrderedAllVisitor.visitStmt (fun o x => SimplifyArithmExprOptimizer.accept fuel o x) o func.body

/-- The body of the first `do` loop of `doOptimization`: one traversal of the
initializer of a global variable. -/
def SimplifyArithmExprOptimizer.globalVarPass
    (acceptExpr : SimplifyArithmExprOptimizer → Ptr → Except Err SimplifyArithmExprOptimizer)
    (g : GlobalVarDef) (o : SimplifyArithmExprOptimizer) :
    Except Err SimplifyArithmExprOptimizer :=
  let o0 := { o with codeChanged := false }
  match g.getInitializer with
  | some init => acceptExpr o0 (some init)
  | none => .ok o0

/-- The body of the second `do` loop of `doOptimization`: one traversal of a
function definition. -/
def SimplifyArithmExprOptimizer.funcPass
    (acceptFunc : SimplifyArithmExprOptimizer → Function → Except Err SimplifyArithmExprOptimizer)
    (f : Function) (o : SimplifyArithmExprOptimizer) :
    Except Err SimplifyArithmExprOptimizer :=
  let o0 := { o with codeChanged := false }
  acceptFunc (OrderedAllVisitor.restart o0) f

/-- The loop `do { body } while (codeChanged);`. -/
def SimplifyArithmExprOptimizer.doWhileCodeChanged
    (body : SimplifyArithmExprOptimizer → Except Err SimplifyArithmExprOptimizer) :
    Nat → SimplifyArithmExprOptimizer → Except Err SimplifyArithmExprOptimizer
  | 0, _ => .error .outOfFuel
  | fuel + 1, o =>
    (body o).bind fun o1 =>
      if o1.codeChanged then SimplifyArithmExprOptimizer.doWhileCodeChanged body fuel o1
      else .ok o1

/-- A `for` loop over a range of the module. -/
def SimplifyArithmExprOptimizer.forEach {α : Type}
    (body : α → SimplifyArithmExprOptimizer → Except Err SimplifyArithmExprOptimizer) :
    List α → SimplifyArithmExprOptimizer → Except Err SimplifyArithmExprOptimizer
  | [], o => .ok o
  | x :: xs, o => (body x o).bind fun o1 => SimplifyArithmExprOptimizer.forEach body xs o1

/-- The function `SimplifyArithmExprOptimizer::doOptimization`.  `acceptExpr` is the call
`init->accept(this)` and `acceptFunc` the call `(*i)->accept(this)`; `fuel` bounds
the number of iterations of each `do` loop. -/
def SimplifyArithmExprOptimizer.doOptimization
    (acceptExpr : SimplifyArithmExprOptimizer → Ptr → Except Err SimplifyArithmExprOptimizer)
    (acceptFunc : SimplifyArithmExprOptimizer → Function → Except Err SimplifyArithmExprOptimizer)
    (fuel : Nat) (module : Module) (o : SimplifyArithmExprOptimizer) :
    Except Err SimplifyArithmExprOptimizer :=
  (SimplifyArithmExprOptimizer.forEach
    (fun g => SimplifyArithmExprOptimizer.doWhileCodeChanged
      (SimplifyArithmExprOptimizer.globalVarPass acceptExpr g) fuel)
    module.globalVars o).bind fun o1 =>
  SimplifyArithmExprOptimizer.forEach
    (fun f => SimplifyArithmExprOptimizer.doWhileCodeChanged
      (SimplifyArithmExprOptimizer.funcPass acceptFunc f) fuel)
    module.funcDefinitions o1

/-! ## Specification-level notions used by the theorems -/

/-- What offering `expr` to every sub-optimizer means: each sub-optimizer of the
list is called once with `expr`, in list order, on the IR its predecessors left
behind.  The result is the record of the calls and the final IR. -/
def offerAll (expr : Ptr) : List SubOptimizer → Heap → List TryOptimizeCall × Heap
  | [], h => ([], h)
  | s :: ss, h =>
    let r := s.tryOptimize h expr
    let rest := offerAll expr ss r.2
    ({ subOptim := s.getId, expr := expr, result := r.1 } :: rest.1, rest.2)

/-- The run of one `do` loop: `FixpointRun pass n o o'` holds when, started in
`o`, the loop body `pass` is executed exactly `n` times, each of the first
`n - 1` executions leaves `codeChanged` true, the last one leaves it false, and
the final state is `o'`. -/
inductive FixpointRun
    (pass : SimplifyArithmExprOptimizer → Except Err SimplifyArithmExprOptimizer) :
    Nat → SimplifyArithmExprOptimizer → SimplifyArithmExprOptimizer → Prop
  | last {o o1 : SimplifyArithmExprOptimizer} :
    pass o = .ok o1 → o1.codeChanged = false → FixpointRun pass 1 o o1
  | again {n : Nat} {o o1 o2 : SimplifyArithmExprOptimizer} :
    pass o = .ok o1 → o1.codeChanged = true → FixpointRun pass n o1 o2 →
    FixpointRun pass (n + 1) o o2

/-- The run of a sequence of units: every unit, in order, is taken to its
fixpoint by a `FixpointRun`. -/
inductive UnitsRun :
    List (SimplifyArithmExprOptimizer → Except Err SimplifyArithmExprOptimizer) →
    SimplifyArithmExprOptimizer → SimplifyArithmExprOptimizer → Prop
  | nil {o : SimplifyArithmExprOptimizer} : UnitsRun [] o o
  | cons {pass : SimplifyArithmExprOptimizer → Except Err SimplifyArithmExprOptimizer}
    {passes : List (SimplifyArithmExprOptimizer → Except Err SimplifyArithmExprOptimizer)}
    {n : Nat} {o o1 o2 : SimplifyArithmExprOptimizer} :
    FixpointRun pass n o o1 → UnitsRun passes o1 o2 → UnitsRun (pass :: passes) o o2

/-- The units of a module in the order the spec gives: the initializer of every
global variable, then every function definition. -/
def Module.passes
    (acceptExpr : SimplifyArithmExprOptimizer → Ptr → Except Err SimplifyArithmExprOptimizer)
    (acceptFunc : SimplifyArithmExprOptimizer → Function → Except Err SimplifyArithmExprOptimizer)
    (m : Module) :
    List (SimplifyArithmExprOptimizer → Except Err SimplifyArithmExprOptimizer) :=
  m.globalVars.map (SimplifyArithmExprOptimizer.globalVarPass acceptExpr) ++
    m.funcDefinitions.map (SimplifyArithmExprOptimizer.funcPass acceptFunc)

/-- The operator kinds named for the arithmetic-simplification pass: arithmetic
(add, sub, mul, div, mod, neg), relational (eq, neq, lt, lt-eq, gt, gt-eq) and
logical (and, or, not). -/
def Node.isArithRelLogOp : Node → Bool
  | .eqOpExpr _ _ => true
  | .orOpExpr _ _ => true
  | .other cls _ _ =>
    decide (cls ∈ [Class.addOpExpr, .subOpExpr, .mulOpExpr, .divOpExpr, .modOpExpr, .negOpExpr,
      .neqOpExpr, .ltOpExpr, .ltEqOpExpr, .gtOpExpr, .gtEqOpExpr, .andOpExpr, .notOpExpr])
  | _ => false

/-- Is the node a `NegOpExpr` or an `AndOpExpr`? -/
def Node.isNegOrAnd : Node → Bool
  | .other .negOpExpr _ _ => true
  | .other .andOpExpr _ _ => true
  | _ => false

/-- A node without operands. -/
def Cell.leaf (cls : Class) (data : String) : Cell :=
  Cell.fresh (.other cls data []) 0

/-- A sub-optimizer that never rewrites anything. -/
def SubOptimizer.idle (id : String) : SubOptimizer :=
  { getId := id, tryOptimize := fun h _ => (false, h) }

/-- An optimizer with two idle sub-optimizers over the IR of `-x`: cell 0 is the
variable `x`, cell 1 the `NegOpExpr` over it. -/
def negExample : SimplifyArithmExprOptimizer :=
  { subOptims := [SubOptimizer.idle "A", SubOptimizer.idle "B"]
    codeChanged := false
    accessedStmts := []
    ir := [{ Cell.leaf .variable "x" with observers := [1] },
           Cell.fresh (.other .negOpExpr "" [some 0]) 0]
    calls := [] }

/-- The same optimizer over the IR of `x && y`: cells 0 and 1 are the variables,
cell 2 the `AndOpExpr`. -/
def andExample : SimplifyArithmExprOptimizer :=
  { negExample with
    ir := [{ Cell.leaf .variable "x" with observers := [2] },
           { Cell.leaf .variable "y" with observers := [2] },
           Cell.fresh (.other .andOpExpr "" [some 0, some 1]) 0] }

/-- The same optimizer over the IR of `x + y`. -/
def addExample : SimplifyArithmExprOptimizer :=
  { negExample with
    ir := [{ Cell.leaf .variable "x" with observers := [2] },
           { Cell.leaf .variable "y" with observers := [2] },
           Cell.fresh (.other .addOpExpr "" [some 0, some 1]) 0] }

/-- A sub-optimizer that appends a node to the IR, and reports a change, as long
as the IR has fewer than five cells. -/
def SubOptimizer.grow : SubOptimizer :=
  { getId := "grow"
    tryOptimize := fun h _ =>
      if h.length < 5 then (true, h ++ [Cell.leaf .constInt "0"]) else (false, h) }

/-- An optimizer with the sub-optimizer `grow` over the IR of `x + y`. -/
def growExample : SimplifyArithmExprOptimizer :=
  { subOptims := [SubOptimizer.grow]
    codeChanged := false
    accessedStmts := []
    ir := [{ Cell.leaf .variable "x" with observers := [2] },
           { Cell.leaf .variable "y" with observers := [2] },
           Cell.fresh (.other .addOpExpr "" [some 0, some 1]) 0]
    calls := [] }

/-- A module with one global variable, initialized with the `x + y` of cell 2. -/
def growModule : Module :=
  { globalVars := [{ var := some 0, getInitializer := some 2 }], funcs := [] }

/-- The state in which `doOptimization` leaves `growExample`: two nodes were
appended and `tryOptimize` was called three times. -/
def growFinal : SimplifyArithmExprOptimizer :=
  { subOptims := [SubOptimizer.grow]
    codeChanged := false
    accessedStmts := []
    ir := [{ Cell.leaf .variable "x" with observers := [2] },
           { Cell.leaf .variable "y" with observers := [2] },
           Cell.fresh (.other .addOpExpr "" [some 0, some 1]) 0,
           Cell.leaf .constInt "0", Cell.leaf .constInt "0"]
    calls := [{ subOptim := "grow", expr := some 2, result := true },
              { subOptim := "grow", expr := some 2, result := true },
              { subOptim := "grow", expr := some 2, result := false }] }

/-- Five operand-free nodes: the variables `i`, `c`, `s` (cells 0 to 2), an
empty statement (cell 3) and the variable `n` (cell 4). -/
def leaves : Heap :=
  [Cell.leaf .variable "i", Cell.leaf .variable "c", Cell.leaf .variable "s",
   Cell.leaf .emptyStmt "", Cell.leaf .variable "n"]

/-- The pointer has the static type `T*`: it is null or points to a node of class `T`. -/
def Heap.hasType (isT : Node → Bool) (h : Heap) (p : Ptr) : Bool :=
  match p with
  | none => true
  | some _ => isa isT h p

/-- The fields of the loop have their static types: `init`, `cond` and `step` are
of type `Expression*` and `body` is of type `Statement*`. -/
def UForLoopStmt.wellTyped (h : Heap) (this : Nat) : Bool :=
  match h.node (some this) with
  | some (.uforLoopStmt init _ cond step body) =>
    h.hasType Node.isExpression init && h.hasType Node.isExpression cond &&
      h.hasType Node.isExpression step && h.hasType Node.isStatement body
  | _ => false

/-- The heap `leaves` with a call `x()` in cell 5 and the statement `x();` that
wraps it in cell 6. -/
def callHeap : Heap :=
  [{ Cell.leaf .variable "i" with observers := [5] },
   Cell.leaf .variable "c", Cell.leaf .variable "s", Cell.leaf .emptyStmt "",
   Cell.leaf .variable "n",
   { Cell.fresh (.other .callExpr "" [some 0]) 0 with observers := [6] },
   Cell.fresh (.callStmt (some 5)) 0]

/-- The heap `leaves` with the loop `for (i; c; s) {}` in cell 5. -/
def loopHeap : Heap :=
  [{ Cell.leaf .variable "i" with observers := [5] },
   { Cell.leaf .variable "c" with observers := [5] },
   { Cell.leaf .variable "s" with observers := [5] },
   { Cell.leaf .emptyStmt "" with observers := [5] },
   Cell.leaf .variable "n",
   Cell.fresh (.uforLoopStmt (some 0) false (some 1) (some 2) (some 3)) 7]

/-- The heap `h'` extends `h`: every node of `h` is still there, with the same
fields (observers, successor and metadata may differ). -/
def Heap.Extends (h h' : Heap) : Prop :=
  ∀ a n, h.node (some a) = some n → h'.node (some a) = some n

/-- The heaps `h` and `h'` have the same nodes with the same fields. -/
def Heap.SameNodes (h h' : Heap) : Prop :=
  h'.length = h.length ∧ ∀ p, h'.node p = h.node p

/-- The nodes of the loop of the test
`MarksUForLoopInitAsDefinitionWhenVarIsDefinedInInitPart`: the variable `i`
(cell 0), the constant `1` (cell 1), the assignment `i = 1` (cell 2) and an empty
statement (cell 3). -/
def testNodes : Heap :=
  [{ Cell.leaf .variable "i" with observers := [2] },
   { Cell.leaf .constInt "1" with observers := [2] },
   Cell.fresh (.other .assignOpExpr "" [some 0, some 1]) 0,
   Cell.leaf .emptyStmt ""]

/-- The heap after the test has built `for (i = 1; ;) {}` with
`UForLoopStmt::create(i = 1, null, null, EmptyStmt)`: the loop is in cell 4. -/
def testLoop : Heap :=
  [{ Cell.leaf .variable "i" with observers := [2] },
   { Cell.leaf .constInt "1" with observers := [2] },
   { Cell.fresh (.other .assignOpExpr "" [some 0, some 1]) 0 with observers := [4] },
   { Cell.leaf .emptyStmt "" with observers := [4] },
   Cell.fresh (.uforLoopStmt (some 2) false none none (some 3)) 0]

/-- The heap `leaves` with the expressions `i == c` (cell 5) and `c || s` (cell 6). -/
def exprHeap : Heap :=
  [{ Cell.leaf .variable "i" with observers := [5] },
   { Cell.leaf .variable "c" with observers := [5, 6] },
   { Cell.leaf .variable "s" with observers := [6] },
   Cell.leaf .emptyStmt "",
   Cell.leaf .variable "n",
   Cell.fresh (.eqOpExpr (some 0) (some 1)) 0,
   Cell.fresh (.orOpExpr (some 1) (some 2)) 0]

/-! ## The observer invariant of a universal for-loop -/

/-- The values in the slots `init`, `cond`, `step`, `body` of the loop. -/
def UForLoopStmt.slots (h : Heap) (this : Nat) : List Ptr :=
  match h.node (some this) with
  | some (.uforLoopStmt init _ cond step body) => [init, cond, step, body]
  | _ => []

/-- The value `v` occupies one of the four slots of the loop. -/
def UForLoopStmt.occupies (h : Heap) (this v : Nat) : Bool :=
  decide (some v ∈ UForLoopStmt.slots h this)

/-- The observer invariant of the loop `this`: the loop is a registered observer
of `v` if and only if `v` occupies one of its slots. -/
def UForLoopStmt.ObserverInv (h : Heap) (this : Nat) : Prop :=
  ∀ v, Subject.hasObserver h v this = true ↔ UForLoopStmt.occupies h this v = true

/-- No value occupies two slots of the loop. -/
def UForLoopStmt.slotsDistinct (h : Heap) (this : Nat) : Bool :=
  decide (((UForLoopStmt.slots h this).filter Option.isSome).Nodup)

/-- Every registered observer is a node of the heap. -/
def Heap.observersAllocated (h : Heap) : Bool :=
  h.all fun c => c.observers.all fun o => decide (o < h.length)

/-- One operation on the loop `this` with valid arguments: a setter with a
non-null argument of the right kind, `replace` with expressions, or `update`
with a non-null subject. -/
inductive UForLoopStmt.Step (this : Nat) : Heap → Heap → Prop
  | setInit {h h' : Heap} (newInit : Nat) :
    isa Node.isExpression h (some newInit) = true →
    UForLoopStmt.setInit h this (some newInit) = .ok h' → UForLoopStmt.Step this h h'
  | setCond {h h' : Heap} (newCond : Nat) :
    isa Node.isExpression h (some newCond) = true →
    UForLoopStmt.setCond h this (some newCond) = .ok h' → UForLoopStmt.Step this h h'
  | setStep {h h' : Heap} (newStep : Nat) :
    isa Node.isExpression h (some newStep) = true →
    UForLoopStmt.setStep h this (some newStep) = .ok h' → UForLoopStmt.Step this h h'
  | setBody {h h' : Heap} (newBody : Nat) :
    isa Node.isStatement h (some newBody) = true →
    UForLoopStmt.setBody h this (some newBody) = .ok h' → UForLoopStmt.Step this h h'
  | replace {h h' : Heap} (fuel : Nat) (oldExpr : Ptr) (newExpr : Nat) :
    h.hasType Node.isExpression oldExpr = true →
    isa Node.isExpression h (some newExpr) = true →
    UForLoopStmt.replace (Expression.replace fuel) h this oldExpr (some newExpr) = .ok h' →
    UForLoopStmt.Step this h h'
  | update {h h' : Heap} (subject : Nat) (arg : Ptr) :
    UForLoopStmt.update h this (some subject) arg = .ok h' → UForLoopStmt.Step this h h'

/-- The states of the loop `this` that are reachable from `UForLoopStmt::create`
by operations with valid arguments, each operation starting in a state that
satisfies `guard`. -/
inductive UForLoopStmt.ReachableVia (guard : Heap → Prop) (this : Nat) : Heap → Prop
  | create (h0 h : Heap) (init cond step body succ : Ptr) (a : Nat) :
    h0.observersAllocated = true →
    h0.hasType Node.isExpression init = true → h0.hasType Node.isExpression cond = true →
    h0.hasType Node.isExpression step = true → isa Node.isStatement h0 body = true →
    UForLoopStmt.create h0 init cond step body succ a = .ok (this, h) →
    UForLoopStmt.ReachableVia guard this h
  | step {h h' : Heap} :
    UForLoopStmt.ReachableVia guard this h → guard h → UForLoopStmt.Step this h h' →
    UForLoopStmt.ReachableVia guard this h'

/-- The states reachable from `UForLoopStmt::create` by operations with valid
arguments. -/
def UForLoopStmt.Reachable (this : Nat) (h : Heap) : Prop :=
  UForLoopStmt.ReachableVia (fun _ => True) this h

/-- The heap after `create(i, i, s, EmptyStmt)` on `leaves`: the variable `i` is
both the `init` and the `cond` part of the loop in cell 5. -/
def sharedLoop : Heap :=
  [{ Cell.leaf .variable "i" with observers := [5] },
   Cell.leaf .variable "c",
   { Cell.leaf .variable "s" with observers := [5] },
   { Cell.leaf .emptyStmt "" with observers := [5] },
   Cell.leaf .variable "n",
   Cell.fresh (.uforLoopStmt (some 0) false (some 0) (some 2) (some 3)) 0]

/-- The heap after `setInit(n)` on `sharedLoop`: `i` is still the `cond` part,
but the loop is no longer registered as its observer. -/
def sharedLoopAfter : Heap :=
  [Cell.leaf .variable "i",
   Cell.leaf .variable "c",
   { Cell.leaf .variable "s" with observers := [5] },
   { Cell.leaf .emptyStmt "" with observers := [5] },
   { Cell.leaf .variable "n" with observers := [5] },
   Cell.fresh (.uforLoopStmt (some 4) false (some 0) (some 2) (some 3)) 0]

/-- What the loop `this` sees of the heap: `h'` has the same node at `this` as
`h` and the same values with `this` among their observers. -/
def UForLoopStmt.SameView (this : Nat) (h h' : Heap) : Prop :=
  h'.node (some this) = h.node (some this) ∧
    ∀ v, Subject.hasObserver h' v this = Subject.hasObserver h v this

/-- The heap after `replace(i, n)` on the loop of `loopHeap`: the variable `n` is
the `init` part. -/
def loopHeapReplaced : Heap :=
  [Cell.leaf .variable "i",
   { Cell.leaf .variable "c" with observers := [5] },
   { Cell.leaf .variable "s" with observers := [5] },
   { Cell.leaf .emptyStmt "" with observers := [5] },
   { Cell.leaf .variable "n" with observers := [5] },
   Cell.fresh (.uforLoopStmt (some 4) false (some 1) (some 2) (some 3)) 7]

/-- The heap `leaves` with `i == c` in cell 5, `i || c` in cell 6, `c == i` in
cell 7 and a second `i == c` in cell 8. -/
def eqOrHeap : Heap :=
  [{ Cell.leaf .variable "i" with observers := [5, 6, 7, 8] },
   { Cell.leaf .variable "c" with observers := [5, 6, 7, 8] },
   Cell.leaf .variable "s", Cell.leaf .emptyStmt "", Cell.leaf .variable "n",
   Cell.fresh (.eqOpExpr (some 0) (some 1)) 0,
   Cell.fresh (.orOpExpr (some 0) (some 1)) 0,
   Cell.fresh (.eqOpExpr (some 1) (some 0)) 0,
   Cell.fresh (.eqOpExpr (some 0) (some 1)) 0]

/-- The heap `callHeap` with a second call `c()` in cell 7. -/
def callHeap2 : Heap :=
  [{ Cell.leaf .variable "i" with observers := [5] },
   { Cell.leaf .variable "c" with observers := [7] },
   Cell.leaf .variable "s", Cell.leaf .emptyStmt "", Cell.leaf .variable "n",
   { Cell.fresh (.other .callExpr "" [some 0]) 0 with observers := [6] },
   Cell.fresh (.callStmt (some 5)) 0,
   Cell.fresh (.other .callExpr "" [some 1]) 0]

/-- The outcome `(c, h')` of a call made in the heap `h` that only allocates: the
cells of `h` are the first cells of `h'`, unchanged, and the returned node, if
any, is one of the cells allocated by the call. -/
def Heap.Fresh (h : Heap) (c : Ptr) (h' : Heap) : Prop :=
  h <+: h' ∧ ∀ x, c = some x → h.length ≤ x ∧ x < h'.length

/-- The heap `callHeap` in which the statement `x();` of cell 6 carries the
metadata `"md"` and the address 42. -/
def taggedCallHeap : Heap :=
  [{ Cell.leaf .variable "i" with observers := [5] },
   Cell.leaf .variable "c", Cell.leaf .variable "s", Cell.leaf .emptyStmt "",
   Cell.leaf .variable "n",
   { Cell.fresh (.other .callExpr "" [some 0]) 0 with observers := [6] },
   { Cell.fresh (.callStmt (some 5)) 42 with metadata := "md" }]

/-- The heap after cloning the statement of cell 6 of `taggedCallHeap`: the clone
of `i` is in cell 7, the clone of the call in cell 8 and the clone of the
statement in cell 9. -/
def taggedCallClone : Heap :=
  taggedCallHeap ++
  [{ Cell.leaf .variable "i" with observers := [8] },
   { Cell.fresh (.other .callExpr "" [some 7]) 0 with observers := [9] },
   { Cell.fresh (.callStmt (some 8)) 42 with metadata := "md" }]

/-- No sub-optimizer of the list `ss` rewrites the IR `ir`: whatever expression
it is offered, it returns false and leaves the IR as it is. -/
def SubOptimizer.idleOn (ss : List SubOptimizer) (ir : Heap) : Prop :=
  ∀ s ∈ ss, ∀ e, s.tryOptimize ir e = (false, ir)

/-- The optimizer state `o'` has the IR, the sub-optimizers and the flag
`codeChanged` of the state `o`. -/
def SimplifyArithmExprOptimizer.Unchanged (o o' : SimplifyArithmExprOptimizer) : Prop :=
  o'.ir = o.ir ∧ o'.subOptims = o.subOptims ∧ o'.codeChanged = o.codeChanged

/-- A module with one global variable initialized with the `x + y` of cell 2 and
one function definition without body statements. -/
def idleModule : Module :=
  { globalVars := [{ var := some 0, getInitializer := some 2 }],
    funcs := [{ name := "f", body := none, isDefinition := true }] }

/-- The state in which `doOptimization` leaves `addExample` on `idleModule`: the
IR is the one of `addExample`, and the two idle sub-optimizers were each offered
the `x + y` of cell 2 once. -/
def addIdleFinal : SimplifyArithmExprOptimizer :=
  { addExample with
    calls := [{ subOptim := "A", expr := some 2, result := false },
              { subOptim := "B", expr := some 2, result := false }] }

/-! ## GlobalVarsSorter

The sources of `GlobalVarsSorter` are missing; only its tests
(`tests/llvmir2hll/support/global_vars_sorter_tests.cpp`) are there.  The sorter
is modelled from the spec: the dependency graph has an edge from `A` to `B` when
the initializer of `B` references the variable of `A`; the definitions are
sorted topologically, ties being broken by the original name of the variable.
The input is kept apart from the heap of the IR: the sorter only reads the
identity and the names of a variable and the variables an initializer uses. -/

/-- Modelled from the spec: what the sorter reads of a `Variable`: the identity
of the object, the name it was created with and its current name (changed by
`setName`). -/
structure GlobalVarsSorter.Var where
  /-- The identity of the variable object. -/
  id : Nat
  /-- The function `Variable::getInitialName`. -/
  initialName : String
  /-- The function `Variable::getName`. -/
  name : String
  deriving DecidableEq, Repr

/-- Modelled from the spec: an initializer expression.  It is a constant, a use
of a variable, or an operator (address-of, dereference, ...) over
sub-expressions. -/
inductive GlobalVarsSorter.Init
  | const (value : Int)
  | var (id : Nat)
  | unary (cls : Class) (operand : GlobalVarsSorter.Init)
  | binary (cls : Class) (op1 op2 : GlobalVarsSorter.Init)
  deriving DecidableEq, Repr

/-- Modelled from the spec: a global definition as the sorter sees it: the
variable and its optional initializer. -/
structure GlobalVarsSorter.Def where
  /-- The function `GlobalVarDef::getVar`. -/
  var : GlobalVarsSorter.Var
  /-- The function `GlobalVarDef::getInitializer`, `none` when there is none. -/
  init : Option GlobalVarsSorter.Init
  deriving DecidableEq, Repr

/-- The variables an initializer references, directly or nested under operators. -/
def GlobalVarsSorter.Init.usedVars : GlobalVarsSorter.Init → List Nat
  | .const _ => []
  | .var id => [id]
  | .unary _ e => e.usedVars
  | .binary _ e1 e2 => e1.usedVars ++ e2.usedVars

/-- The variables the initializer of a definition references. -/
def GlobalVarsSorter.Def.usedVars (d : GlobalVarsSorter.Def) : List Nat :=
  match d.init with
  | none => []
  | some e => e.usedVars

/-- Modelled from the spec: the edge of the dependency graph: the initializer of
`b` references the variable of `a`. -/
def GlobalVarsSorter.dependsOn (b a : GlobalVarsSorter.Def) : Bool :=
  decide (a.var.id ∈ b.usedVars)

/-- The definition `d` depends on none of the definitions `rest`. -/
def GlobalVarsSorter.ready (rest : List GlobalVarsSorter.Def) (d : GlobalVarsSorter.Def) :
    Bool :=
  rest.all fun a => !GlobalVarsSorter.dependsOn d a

/-- The definition with the least original name; among definitions with the
same original name the earliest one.  Names are compared lexicographically,
character by character. -/
def GlobalVarsSorter.least : List GlobalVarsSorter.Def → Option GlobalVarsSorter.Def
  | [] => none
  | d :: ds =>
    match GlobalVarsSorter.least ds with
    | none => some d
    | some b => if b.var.initialName.data < d.var.initialName.data then some b else some d

/-- Modelled from the spec: the topological sort.  As long as definitions remain,
the one with the least original name among those that depend on no remaining
definition is emitted next; when none is ready the dependencies are cyclic and
the sort fails. -/
def GlobalVarsSorter.sortFrom : Nat → List GlobalVarsSorter.Def →
    Option (List GlobalVarsSorter.Def)
  | _, [] => some []
  | 0, _ :: _ => none
  | fuel + 1, d :: ds =>
    match GlobalVarsSorter.least ((d :: ds).filter (GlobalVarsSorter.ready (d :: ds))) with
    | none => none
    | some next =>
      (GlobalVarsSorter.sortFrom fuel ((d :: ds).erase next)).map fun rest => next :: rest

/-- Modelled from the spec: `GlobalVarsSorter::sortByInterdependencies`; `none` is
the internal-consistency failure on cyclic dependencies. -/
def GlobalVarsSorter.sortByInterdependencies (globalVars : List GlobalVarsSorter.Def) :
    Option (List GlobalVarsSorter.Def) :=
  GlobalVarsSorter.sortFrom globalVars.length globalVars

/-- The initializer dependencies among the definitions `l` are not cyclic. -/
def GlobalVarsSorter.Acyclic (l : List GlobalVarsSorter.Def) : Prop :=
  ∀ d, ¬ Relation.TransGen
    (fun a b => a ∈ l ∧ b ∈ l ∧ GlobalVarsSorter.dependsOn b a = true) d d

/-- The definition `int a;` of the tests, the variable renamed to `z`. -/
def GlobalVarsSorter.defA : GlobalVarsSorter.Def :=
  { var := { id := 0, initialName := "a", name := "z" }, init := none }

/-- The definition `int b = a;` of the tests, the variable renamed to `y`. -/
def GlobalVarsSorter.defB : GlobalVarsSorter.Def :=
  { var := { id := 1, initialName := "b", name := "y" }, init := some (.var 0) }

/-- The definition `int c = b;` of the tests, the variable renamed to `x`. -/
def GlobalVarsSorter.defC : GlobalVarsSorter.Def :=
  { var := { id := 2, initialName := "c", name := "x" }, init := some (.var 1) }

/-- The definition `int *p = &a;` of the tests: the use of `a` is nested under
an address-of.  The original name `0p` sorts before `a`. -/
def GlobalVarsSorter.defP : GlobalVarsSorter.Def :=
  { var := { id := 3, initialName := "0p", name := "p" },
    init := some (.unary .addressOpExpr (.var 0)) }

/-- The definition `d` may be emitted next from the definitions `l`: it depends on
none of them, and no definition of `l` that depends on none of them has a
smaller original name. -/
def GlobalVarsSorter.isNext (l : List GlobalVarsSorter.Def) (d : GlobalVarsSorter.Def) :
    Bool :=
  GlobalVarsSorter.ready l d &&
    l.all fun b => !GlobalVarsSorter.ready l b ||
      !decide (b.var.initialName.data < d.var.initialName.data)

/-- A valid sorted order: every definition may be emitted next from the
definitions from it on.  So every definition comes after the definitions it
depends on, and where several definitions could come next the one with the
least original name does. -/
def GlobalVarsSorter.inSortedOrder : List GlobalVarsSorter.Def → Bool
  | [] => true
  | d :: ds => GlobalVarsSorter.isNext (d :: ds) d && GlobalVarsSorter.inSortedOrder ds

/-- The definition `int b;` of the tests, the variable renamed to `y`. -/
def GlobalVarsSorter.declB : GlobalVarsSorter.Def :=
  { var := { id := 1, initialName := "b", name := "y" }, init := none }

/-- The definition `int c;` of the tests, the variable renamed to `x`. -/
def GlobalVarsSorter.declC : GlobalVarsSorter.Def :=
  { var := { id := 2, initialName := "c", name := "x" }, init := none }

/-! ## Function bodies as the function optimizers see them

The sources of `CopyPropagationOptimizer`, of `VarDefStmtOptimizer` and of the
utilities of `utils/ir` are missing; only their tests are there.  They are
modelled from the spec over function bodies without nested blocks: a body is
the chain of its statements, a statement has an identity and an optional label,
an expression is the tree of its operands. -/

/-- Modelled from the spec: what the optimizers read of a `Variable`: the
identity of the object, whether it is marked external, whether the module has a
name from debug information for it and whether it is a global variable of the
module. -/
structure Variable where
  /-- The identity of the variable object. -/
  id : Nat
  /-- The function `Variable::isExternal`. -/
  isExternal : Bool
  /-- The function `Module::hasAssignedDebugName` for the variable. -/
  hasDebugName : Bool
  /-- The function `Module::isGlobalVar` for the variable. -/
  isGlobal : Bool
  deriving DecidableEq, Repr

/-- Modelled from the spec: an expression as the tree of its operands.  A
constant carries the identity of its node. -/
inductive Expr
  | constInt (node : Nat) (value : Int)
  | variable (var : Variable)
  | addressOpExpr (operand : Expr)
  | derefOpExpr (operand : Expr)
  | binaryOpExpr (cls : Class) (op1 op2 : Expr)
  | callExpr (calledExpr : Expr)
  deriving DecidableEq, Repr

/-- Modelled from the spec: the function `skipDerefs` of `utils/ir`, missing from
the sources: the expression under the leading dereferences. -/
def skipDerefs : Expr → Expr
  | .derefOpExpr operand => skipDerefs operand
  | expr => expr

/-- Modelled from the spec: the function `skipAddresses` of `utils/ir`, missing
from the sources: the expression under the leading address-of operators. -/
def skipAddresses : Expr → Expr
  | .addressOpExpr operand => skipAddresses operand
  | expr => expr

/-- Is the expression a `DerefOpExpr`? -/
def Expr.isDerefOpExpr : Expr → Bool
  | .derefOpExpr _ => true
  | _ => false

/-- Is the expression an `AddressOpExpr`? -/
def Expr.isAddressOpExpr : Expr → Bool
  | .addressOpExpr _ => true
  | _ => false

/-- The variable `x` of the tests of `utils/ir`. -/
def varX : Expr :=
  .variable { id := 0, isExternal := false, hasDebugName := false, isGlobal := false }

/-! ## Construction of the optimizer and the optimizer IDs -/

/-- The class `ArithmExprEvaluator`, whose declaration is not part of the
sources; the optimizer only hands the pointer on to the created sub-optimizers,
so an evaluator is an object of which only the identity matters. -/
structure ArithmExprEvaluator where
  /-- The identity of the evaluator object. -/
  id : Nat
  deriving DecidableEq, Repr

/-- The singleton `SubOptimizerFactory::getInstance()`, whose declaration is not
part of the sources: the two members that `createSubOptimizers` calls. -/
structure SubOptimizerFactory where
  /-- The function `getRegisteredObjects`: the registered identifiers. -/
  getRegisteredObjects : List String
  /-- The function `createObject`: the object created for an identifier and the
  evaluator that is passed on to it. -/
  createObject : String → ArithmExprEvaluator → SubOptimizer

/-- The function `SimplifyArithmExprOptimizer::createSubOptimizers`: for every
registered identifier, in order, `subOptims.push_back(createObject(regObject,
arithmExprEvaluator))`. -/
def SimplifyArithmExprOptimizer.createSubOptimizers (factory : SubOptimizerFactory)
    (o : SimplifyArithmExprOptimizer) (arithmExprEvaluator : ArithmExprEvaluator) :
    SimplifyArithmExprOptimizer :=
  factory.getRegisteredObjects.foldl
    (fun o regObject =>
      { o with subOptims := o.subOptims ++ [factory.createObject regObject arithmExprEvaluator] })
    o

/-- The constructor `SimplifyArithmExprOptimizer(module, arithmExprEvaluator)`:
the base `Optimizer(module)` starts with `codeChanged` false and no
sub-optimizers, the two `PRECONDITION_NON_NULL` checks follow, and then
`createSubOptimizers`.  `ir` is the IR graph the module lives in. -/
def SimplifyArithmExprOptimizer.new (factory : SubOptimizerFactory) (ir : Heap)
    (module : Option Module) (arithmExprEvaluator : Option ArithmExprEvaluator) :
    Except Err SimplifyArithmExprOptimizer :=
  match module with
  | none => .error .precondition
  | some _ =>
    match arithmExprEvaluator with
    | none => .error .precondition
    | some evaluator =>
      .ok (SimplifyArithmExprOptimizer.createSubOptimizers factory
        { subOptims := [], codeChanged := false, accessedStmts := [], ir := ir, calls := [] }
        evaluator)

/-- A registry with the two identifiers `"A"` and `"B"`, whose objects are idle
sub-optimizers that carry the identifier and the identity of the evaluator in
their ID. -/
def exampleFactory : SubOptimizerFactory :=
  { getRegisteredObjects := ["A", "B"]
    createObject := fun regObject evaluator =>
      SubOptimizer.idle (regObject ++ toString evaluator.id) }

/-- A sub-optimizer that reports a change on every call and leaves the IR as it
is. -/
def SubOptimizer.always : SubOptimizer :=
  { getId := "always", tryOptimize := fun h _ => (true, h) }

/-- An optimizer with the sub-optimizer `always` over the IR of `x + y`. -/
def alwaysExample : SimplifyArithmExprOptimizer :=
  { growExample with subOptims := [SubOptimizer.always] }

/-- The states that `alwaysExample` can reach: the sub-optimizer list and the IR
stay what they are. -/
def alwaysInv (o : SimplifyArithmExprOptimizer) : Prop :=
  o.subOptims = alwaysExample.subOptims ∧ o.ir = alwaysExample.ir

/-- The state of an `AggressiveDerefOptimizer` (`aggressive_deref_optimizer.h`):
the module and the flag `codeChanged` of the base `Optimizer`, and the field
`intDerefFound`. -/
structure AggressiveDerefOptimizer where
  /-- The field `module` of `Optimizer`. -/
  module : Module
  /-- The field `codeChanged` of `Optimizer`. -/
  codeChanged : Bool
  /-- The field `intDerefFound`. -/
  intDerefFound : Bool
  deriving DecidableEq, Repr

/-- The function `AggressiveDerefOptimizer::getId`: `return "AggressiveDeref";`. -/
def AggressiveDerefOptimizer.getId (_this : AggressiveDerefOptimizer) : String :=
  "AggressiveDeref"

/-- Modelled from the spec: `CopyPropagationOptimizer::getId`, whose header is
missing from the sources; like the ID of `AggressiveDerefOptimizer`, the ID is
the class name without the suffix `Optimizer`. -/
def CopyPropagationOptimizer.getId : String := "CopyPropagation"

/-- Modelled from the spec: `VarDefStmtOptimizer::getId`, whose header is missing
from the sources; the class name without the suffix `Optimizer`. -/
def VarDefStmtOptimizer.getId : String := "VarDefStmt"

/-! ## Statements of a function body -/

/-- Modelled from the spec: the statement classes that occur in a body without
nested blocks.  A `GotoStmt` holds the identity of its target statement. -/
inductive StmtKind
  | varDefStmt (var : Variable) (init : Option Expr)
  | assignStmt (lhs rhs : Expr)
  | returnStmt (retVal : Option Expr)
  | callStmt (call : Expr)
  | gotoStmt (target : Nat)
  | emptyStmt
  deriving DecidableEq, Repr

/-- Modelled from the spec: a statement of a body: the identity of the node, its
label and what it does.  The successor of a statement is the next one of the
list that is the body. -/
structure Stmt where
  /-- The identity of the statement node. -/
  id : Nat
  /-- The function `Statement::getLabel`, absent when there is no label. -/
  label : Option String
  /-- The class of the statement with its parts. -/
  kind : StmtKind
  deriving DecidableEq, Repr

/-- The variables of an expression, one entry per occurrence, from left to
right. -/
def Expr.vars : Expr → List Variable
  | .constInt _ _ => []
  | .variable var => [var]
  | .addressOpExpr operand => operand.vars
  | .derefOpExpr operand => operand.vars
  | .binaryOpExpr _ op1 op2 => op1.vars ++ op2.vars
  | .callExpr calledExpr => calledExpr.vars

/-- The number of occurrences of a variable in an expression. -/
def Expr.occurrences (v : Variable) (e : Expr) : Nat :=
  e.vars.count v

/-- Does the expression contain a call? -/
def Expr.hasCall : Expr → Bool
  | .constInt _ _ => false
  | .variable _ => false
  | .addressOpExpr operand => operand.hasCall
  | .derefOpExpr operand => operand.hasCall
  | .binaryOpExpr _ op1 op2 => op1.hasCall || op2.hasCall
  | .callExpr _ => true

/-- Is the expression built from constants, variables and binary operators only,
so that its value depends on nothing but the values of its variables? -/
def Expr.isPlain : Expr → Bool
  | .constInt _ _ => true
  | .variable _ => true
  | .binaryOpExpr _ op1 op2 => op1.isPlain && op2.isPlain
  | _ => false

/-- Is the address of something that mentions the variable taken in the
expression? -/
def Expr.addressTaken (v : Variable) : Expr → Bool
  | .constInt _ _ => false
  | .variable _ => false
  | .addressOpExpr operand => decide (operand.occurrences v ≠ 0) || operand.addressTaken v
  | .derefOpExpr operand => operand.addressTaken v
  | .binaryOpExpr _ op1 op2 => op1.addressTaken v || op2.addressTaken v
  | .callExpr calledExpr => calledExpr.addressTaken v

/-- The expression with every occurrence of the variable replaced by
`newExpr`. -/
def Expr.substitute : Expr → Variable → Expr → Expr
  | .constInt node value, _, _ => .constInt node value
  | .variable var, v, newExpr => if var = v then newExpr else .variable var
  | .addressOpExpr operand, v, newExpr => .addressOpExpr (operand.substitute v newExpr)
  | .derefOpExpr operand, v, newExpr => .derefOpExpr (operand.substitute v newExpr)
  | .binaryOpExpr cls op1 op2, v, newExpr =>
    .binaryOpExpr cls (op1.substitute v newExpr) (op2.substitute v newExpr)
  | .callExpr calledExpr, v, newExpr => .callExpr (calledExpr.substitute v newExpr)

/-- All the expressions of a statement, the left-hand side of an assignment
included. -/
def StmtKind.exprs : StmtKind → List Expr
  | .varDefStmt _ init => init.toList
  | .assignStmt lhs rhs => [lhs, rhs]
  | .returnStmt retVal => retVal.toList
  | .callStmt call => [call]
  | .gotoStmt _ => []
  | .emptyStmt => []

/-- The expressions whose value a statement reads: everything but a variable
that is the left-hand side of an assignment. -/
def StmtKind.reads : StmtKind → List Expr
  | .assignStmt (.variable _) rhs => [rhs]
  | kind => kind.exprs

/-- The variable that a definition or an assignment to a variable is for.  An
assignment through a dereference has none. -/
def StmtKind.dest : StmtKind → Option Variable
  | .varDefStmt var _ => some var
  | .assignStmt (.variable var) _ => some var
  | _ => none

/-- The initializer of a definition, the right-hand side of an assignment. -/
def StmtKind.value : StmtKind → Option Expr
  | .varDefStmt _ init => init
  | .assignStmt _ rhs => some rhs
  | _ => none

/-- Is the statement a `VarDefStmt`? -/
def StmtKind.isVarDefStmt : StmtKind → Bool
  | .varDefStmt _ _ => true
  | _ => false

/-- Is the statement a `ReturnStmt`? -/
def StmtKind.isReturnStmt : StmtKind → Bool
  | .returnStmt _ => true
  | _ => false

/-- Is the statement a `GotoStmt`? -/
def StmtKind.isGotoStmt : StmtKind → Bool
  | .gotoStmt _ => true
  | _ => false

/-- Is the statement an assignment through something else than a variable? -/
def StmtKind.isIndirectStore : StmtKind → Bool
  | .assignStmt (.variable _) _ => false
  | .assignStmt _ _ => true
  | _ => false

/-- Is the statement the declaration `int v;` without an initializer? -/
def StmtKind.isDeclOf (v : Variable) : StmtKind → Bool
  | .varDefStmt var none => decide (var = v)
  | _ => false

/-- Does the statement contain a call? -/
def StmtKind.hasCall (kind : StmtKind) : Bool :=
  kind.exprs.any Expr.hasCall

/-- The number of occurrences of the variable in what the statement reads. -/
def Stmt.readCount (v : Variable) (s : Stmt) : Nat :=
  (s.kind.reads.map (Expr.occurrences v)).sum

/-- Does the variable occur in the statement, read or assigned? -/
def Stmt.mentions (v : Variable) (s : Stmt) : Bool :=
  s.kind.exprs.any fun e => decide (e.occurrences v ≠ 0)

/-- Does the statement give the variable a value? -/
def Stmt.writes (v : Variable) (s : Stmt) : Bool :=
  decide (s.kind.dest = some v) && s.kind.value.isSome

/-- The function `Statement::isGotoTarget`: is there a `GotoStmt` in the body
whose target is the statement? -/
def Stmt.isGotoTarget (s : Stmt) (body : List Stmt) : Bool :=
  body.any fun g => decide (g.kind = .gotoStmt s.id)

/-- The statement with the variable replaced by `newExpr` in the expressions it
reads; a variable on the left-hand side of an assignment stays. -/
def Stmt.substitute (v : Variable) (newExpr : Expr) (s : Stmt) : Stmt :=
  match s.kind with
  | .varDefStmt var init =>
    { s with kind := .varDefStmt var (init.map fun e => e.substitute v newExpr) }
  | .assignStmt lhs rhs =>
    { s with kind := .assignStmt lhs (rhs.substitute v newExpr) }
  | .returnStmt retVal =>
    { s with kind := .returnStmt (retVal.map fun e => e.substitute v newExpr) }
  | .callStmt call => { s with kind := .callStmt (call.substitute v newExpr) }
  | .gotoStmt _ => s
  | .emptyStmt => s

/-- The variable is protected when it has a name from debug information or is
marked external. -/
def Variable.isProtected (v : Variable) : Bool :=
  v.hasDebugName || v.isExternal

/-- The first element with the property, with what is before and after it. -/
def splitFirst {α : Type} (p : α → Bool) : List α → Option (List α × α × List α)
  | [] => none
  | x :: xs =>
    if p x then some ([], x, xs)
    else (splitFirst p xs).map fun r => (x :: r.1, r.2.1, r.2.2)

/-! ## CopyPropagationOptimizer

Modelled from section 4.4 of the spec for bodies without nested blocks.  The
oracles are the ones of such a body: a value is read by the statements up to
the next one that gives the variable a value, a global variable is also read by
every call, by every return and at the end of the body, and a variable may be
pointed to when its address is taken somewhere in the body. -/

/-- Modelled from the spec: may the variable be the target of a pointer?  It may
when its address is taken in the body. -/
def CopyPropagationOptimizer.mayBePointed (body : List Stmt) (v : Variable) : Bool :=
  body.any fun s => s.kind.exprs.any fun e => e.addressTaken v

/-- Modelled from the spec: is the value that the variable has before the
statements never read by them (rule 2)?  For a global variable this needs
another assignment to it before any call, return or the end of the body. -/
def CopyPropagationOptimizer.neverRead (v : Variable) : List Stmt → Bool
  | [] => !v.isGlobal
  | s :: rest =>
    if s.readCount v ≠ 0 then false
    else if v.isGlobal && (s.kind.hasCall || s.kind.isReturnStmt) then false
    else if s.writes v then true
    else CopyPropagationOptimizer.neverRead v rest

/-- Modelled from the spec: the number of uses of the value that the variable has
before the statements: its read occurrences up to and including the next
statement that gives it a value. -/
def CopyPropagationOptimizer.useCount (v : Variable) : List Stmt → Nat
  | [] => 0
  | s :: rest =>
    s.readCount v + if s.writes v then 0 else CopyPropagationOptimizer.useCount v rest

/-- Modelled from the spec: may the statement modify the variable (rules 3 and
4)?  It may when it defines or assigns it, when it contains a call and the
variable is global or may be pointed to, and when it stores through a pointer
and the variable may be pointed to. -/
def CopyPropagationOptimizer.mayModify (pointed : Variable → Bool) (s : Stmt)
    (w : Variable) : Bool :=
  decide (s.kind.dest = some w) ||
    ((w.isGlobal || pointed w) && s.kind.hasCall) ||
    (pointed w && s.kind.isIndirectStore)

/-- Does the statement read the variable on the left-hand side of an assignment
(under a dereference)? -/
def CopyPropagationOptimizer.readsInLhs (v : Variable) (s : Stmt) : Bool :=
  match s.kind with
  | .assignStmt (.variable _) _ => false
  | .assignStmt lhs _ => decide (lhs.occurrences v ≠ 0)
  | _ => false

/-- Modelled from the spec: the substitution of rule 3.  The statements are
searched for the first one that reads `v`; `rhs` is substituted there, unless a
statement on the way may modify a variable of `rhs` (rule 4) or the use is on
the left-hand side of an assignment (rule 5). -/
def CopyPropagationOptimizer.propagate (pointed : Variable → Bool) (v : Variable)
    (rhs : Expr) : List Stmt → Option (List Stmt)
  | [] => none
  | s :: rest =>
    if s.readCount v ≠ 0 then
      if CopyPropagationOptimizer.readsInLhs v s then none
      else some (s.substitute v rhs :: rest)
    else if rhs.vars.any (CopyPropagationOptimizer.mayModify pointed s) ||
        decide (s.kind.dest = some v) then none
    else (CopyPropagationOptimizer.propagate pointed v rhs rest).map fun r => s :: r

/-- Modelled from the spec: what is left of a definition or assignment `s` of
`v` whose value is not needed (rules 2, 3 and 6): a definition of a variable
that still occurs in the following statements loses its initializer, every
other statement is removed. -/
def CopyPropagationOptimizer.dropValue (s : Stmt) (v : Variable) (rest : List Stmt) :
    List Stmt :=
  match s.kind with
  | .varDefStmt _ (some _) =>
    if rest.any (Stmt.mentions v) then { s with kind := .varDefStmt v none } :: rest
    else rest
  | _ => rest

/-- Modelled from the spec: the rules of section 4.4 for the statement `s`,
followed by `rest`.  The result is what replaces `s :: rest`, or nothing when no
rule applies.  A statement that is not a definition of or an assignment to a
variable is left alone (rule 5), and so is one whose variable is protected
(rule 1) or may be pointed to, and one whose value contains a call.  A bare
declaration is removed when the variable does not occur any more; a value
that is never read is dropped (rules 2 and 6); the value of a local variable
with one use is substituted at the use (rule 3). -/
def CopyPropagationOptimizer.tryOptimize (pointed : Variable → Bool) (s : Stmt)
    (rest : List Stmt) : Option (List Stmt) :=
  match s.kind.dest with
  | none => none
  | some v =>
    if v.isProtected || pointed v then none
    else
      match s.kind.value with
      | none => if rest.any (Stmt.mentions v) then none else some rest
      | some rhs =>
        if rhs.hasCall then none
        else if CopyPropagationOptimizer.neverRead v rest then
          some (CopyPropagationOptimizer.dropValue s v rest)
        else if v.isGlobal then none
        else if rhs.isPlain && decide (rhs.occurrences v = 0) &&
            decide (CopyPropagationOptimizer.useCount v rest = 1) then
          (CopyPropagationOptimizer.propagate pointed v rhs rest).map
            (CopyPropagationOptimizer.dropValue s v)
        else none

/-- Modelled from the spec: the statements are tried in control-flow order; the
first one that a rule applies to is rewritten. -/
def CopyPropagationOptimizer.stepFrom (pointed : Variable → Bool) :
    List Stmt → Option (List Stmt)
  | [] => none
  | s :: rest =>
    match CopyPropagationOptimizer.tryOptimize pointed s rest with
    | some body => some body
    | none => (CopyPropagationOptimizer.stepFrom pointed rest).map fun r => s :: r

/-- Modelled from the spec: one pass over the body.  A body with a `GotoStmt` is
not a straight line; without an answer of the analyses for it, nothing is
optimized. -/
def CopyPropagationOptimizer.step (body : List Stmt) : Option (List Stmt) :=
  if body.any (fun s => s.kind.isGotoStmt) then none
  else CopyPropagationOptimizer.stepFrom (CopyPropagationOptimizer.mayBePointed body) body

/-- Modelled from the spec: the pass is re-run until nothing changes; `fuel`
bounds the number of runs. -/
def CopyPropagationOptimizer.run : Nat → List Stmt → Option (List Stmt)
  | 0, _ => none
  | fuel + 1, body =>
    match CopyPropagationOptimizer.step body with
    | none => some body
    | some body' => CopyPropagationOptimizer.run fuel body'

/-- Modelled from the spec: a body needs a statement; when every statement was
removed, an empty statement takes the slot. -/
def CopyPropagationOptimizer.withPlaceholder (body : List Stmt) : List Stmt :=
  match body with
  | [] => [{ id := 0, label := none, kind := .emptyStmt }]
  | _ => body

/-- Modelled from the spec: `CopyPropagationOptimizer::runOnFunction` on the body
of a function.  Every run removes a statement or an initializer, so twice the
length of the body, plus one, is fuel enough. -/
def CopyPropagationOptimizer.runOnFunction (body : List Stmt) : Option (List Stmt) :=
  (CopyPropagationOptimizer.run (2 * body.length + 1) body).map
    CopyPropagationOptimizer.withPlaceholder

/-- The measure that every run of the copy propagation decreases: a definition
with an initializer counts two, every other statement one. -/
def CopyPropagationOptimizer.weight : List Stmt → Nat
  | [] => 0
  | s :: rest =>
    (match s.kind with
      | .varDefStmt _ (some _) => 2
      | _ => 1) + CopyPropagationOptimizer.weight rest

/-- Is the statement a definition of, or an assignment to, a variable that has a
name from debug information or is marked external? -/
def Stmt.isProtectedDef (s : Stmt) : Bool :=
  match s.kind.dest with
  | some v => v.isProtected
  | none => false

/-- What identifies a definition or assignment: the identity of the statement,
its label, whether it is a `VarDefStmt`, and its variable. -/
def Stmt.shape (s : Stmt) : Nat × Option String × Bool × Option Variable :=
  (s.id, s.label, s.kind.isVarDefStmt, s.kind.dest)

/-- The definitions and assignments of protected variables of a body, in the
order of the chain. -/
def CopyPropagationOptimizer.protectedDefs (body : List Stmt) :
    List (Nat × Option String × Bool × Option Variable) :=
  (body.filter Stmt.isProtectedDef).map Stmt.shape

/-- A local variable that is not external and has no name from debug
information. -/
def localVar (id : Nat) : Variable :=
  { id := id, isExternal := false, hasDebugName := false, isGlobal := false }

/-- A local variable that is marked external. -/
def externalVar (id : Nat) : Variable :=
  { id := id, isExternal := true, hasDebugName := false, isGlobal := false }

/-- A local variable with a name from debug information. -/
def debugVar (id : Nat) : Variable :=
  { id := id, isExternal := false, hasDebugName := true, isGlobal := false }

/-- A global variable. -/
def globalVar (id : Nat) : Variable :=
  { id := id, isExternal := false, hasDebugName := false, isGlobal := true }

/-- The body of the test `DoNotOptimizeWhenAuxiliaryVariableIsExternal`:
`a = 1; b = a; return b` with two definitions, where `b` is external. -/
def auxExternalBody : List Stmt :=
  [{ id := 0, label := none, kind := .varDefStmt (localVar 0) (some (.constInt 9 1)) },
   { id := 1, label := none,
     kind := .varDefStmt (externalVar 1) (some (.variable (localVar 0))) },
   { id := 2, label := none, kind := .returnStmt (some (.variable (externalVar 1))) }]

/-! ## VarDefStmtOptimizer

Modelled from section 4.5 of the spec for bodies without nested blocks: the
declaration of a variable is moved to the first statement that mentions the
variable, and merged with it when that statement assigns the variable a value
that does not depend on it. -/

/-- The statement with the target of a `GotoStmt` renamed. -/
def Stmt.retarget (f : Nat → Nat) (s : Stmt) : Stmt :=
  match s.kind with
  | .gotoStmt target => { s with kind := .gotoStmt (f target) }
  | _ => s

/-- Modelled from the spec: the label of a declaration that moves away goes to the
statement that ends up in its position, the first of `stmts`. -/
def VarDefStmtOptimizer.transferLabel (label : Option String) : List Stmt → List Stmt
  | [] => []
  | s :: rest =>
    { s with label := (match label with
        | some l => some l
        | none => s.label) } :: rest

/-- Modelled from the spec: the right-hand side that becomes the initializer of
the declaration of `v`: the statement is an assignment to `v` whose right-hand
side does not reference `v`. -/
def VarDefStmtOptimizer.initializerFor (v : Variable) (s : Stmt) : Option Expr :=
  match s.kind with
  | .assignStmt (.variable var) rhs =>
    if var = v ∧ rhs.occurrences v = 0 then some rhs else none
  | _ => none

/-- Modelled from the spec: the new targets of the `GotoStmt`s when the
declaration `d` moves to the statement `s` over the statements `mid`: a jump to
`s` goes to the declaration, a jump to the declaration goes to the statement
that ends up in its position. -/
def VarDefStmtOptimizer.newTarget (d s : Stmt) (mid : List Stmt) (target : Nat) : Nat :=
  if target = s.id then d.id
  else
    match mid with
    | [] => target
    | m :: _ => if target = d.id then m.id else target

/-- Modelled from the spec: the declaration `d` of `v` at the statement `s` that
is the first to mention `v`.  When `s` assigns `v` a value that does not
reference `v`, the declaration takes the value as its initializer and `s` is
removed; otherwise the declaration is prepended to `s`.  The label of `s` goes
to the declaration, which keeps its own label only when it does not move. -/
def VarDefStmtOptimizer.place (v : Variable) (d s : Stmt) (mid : List Stmt) : List Stmt :=
  match VarDefStmtOptimizer.initializerFor v s, mid with
  | some rhs, [] =>
    [{ d with
       label := (match d.label with
         | some l => some l
         | none => s.label)
       kind := .varDefStmt v (some rhs) }]
  | some rhs, _ :: _ => [{ d with label := s.label, kind := .varDefStmt v (some rhs) }]
  | none, _ => [{ d with label := s.label }, { s with label := none }]

/-- Modelled from the spec: the body `pre ++ d :: mid ++ s :: post` after the
declaration `d` of `v` has moved to `s`. -/
def VarDefStmtOptimizer.moveTo (v : Variable) (pre : List Stmt) (d : Stmt) (mid : List Stmt)
    (s : Stmt) (post : List Stmt) : List Stmt :=
  (pre ++ VarDefStmtOptimizer.transferLabel d.label mid ++
      VarDefStmtOptimizer.place v d s mid ++ post).map
    (Stmt.retarget (VarDefStmtOptimizer.newTarget d s mid))

/-- Modelled from the spec: the optimization of the declaration of one variable.
The first bare declaration `int v;` of the body is looked up, and behind it the
first statement that mentions `v`.  Without such a declaration, or without a use
behind it, the body is left untouched; so it is when the declaration is already
in front of the use and cannot be merged with it. -/
def VarDefStmtOptimizer.tryOptimizeVarDefStmt (v : Variable) (body : List Stmt) :
    List Stmt :=
  match splitFirst (fun s => s.kind.isDeclOf v) body with
  | none => body
  | some (pre, d, after) =>
    match splitFirst (Stmt.mentions v) after with
    | none => body
    | some (mid, s, post) =>
      if (VarDefStmtOptimizer.initializerFor v s).isNone && mid.isEmpty then body
      else VarDefStmtOptimizer.moveTo v pre d mid s post

/-- The variables with a bare declaration in the body, in the order of the
declarations. -/
def VarDefStmtOptimizer.declaredVars (body : List Stmt) : List Variable :=
  body.filterMap fun s =>
    match s.kind with
    | .varDefStmt var none => some var
    | _ => none

/-- Modelled from the spec: `VarDefStmtOptimizer::runOnFunction` on the body of a
function: the declared variables are optimized one after the other, in the
order of the variables (of their identities). -/
def VarDefStmtOptimizer.runOnFunction (body : List Stmt) : List Stmt :=
  ((VarDefStmtOptimizer.declaredVars body).insertionSort fun a b => a.id ≤ b.id).foldl
    (fun body v => VarDefStmtOptimizer.tryOptimizeVarDefStmt v body) body

/-- What a statement is for the declaration motion of the variable `a`: the bare
declaration of `a`, an assignment to `a`, or another statement that mentions
`a`. -/
inductive VarDefStmtOptimizer.Role
  | decl (id : Nat)
  | assign (id : Nat) (rhs : Expr)
  | use
  deriving DecidableEq, Repr

/-- The role of a statement for the variable `a`; none for a statement that
neither declares nor mentions `a`. -/
def VarDefStmtOptimizer.role (a : Variable) (s : Stmt) : Option VarDefStmtOptimizer.Role :=
  if s.kind.isDeclOf a then some (.decl s.id)
  else if s.mentions a then
    match s.kind with
    | .assignStmt (.variable var) rhs =>
      if var = a then some (.assign s.id rhs) else some .use
    | _ => some .use
  else none

/-- The first bare declaration of `a` in the body is the statement `dId`, and the
first statement behind it that mentions `a` is the assignment `aId` of `e` to
`a`. -/
def VarDefStmtOptimizer.DeclThenAssign (a : Variable) (dId aId : Nat) (e : Expr)
    (body : List Stmt) : Prop :=
  ∃ us rest, body.filterMap (VarDefStmtOptimizer.role a) =
      us ++ .decl dId :: .assign aId e :: rest ∧
    ∀ u ∈ us, ∀ i, u ≠ VarDefStmtOptimizer.Role.decl i

/-- The body of the test `PreservesGotoTargetsAndLabelsWhenPrepending`:
`int a; g = 1; my_label: g = a; goto my_label`. -/
def gotoBody : List Stmt :=
  [{ id := 0, label := none, kind := .varDefStmt (localVar 0) none },
   { id := 1, label := none, kind := .assignStmt (.variable (globalVar 1)) (.constInt 9 1) },
   { id := 2, label := some "my_label",
     kind := .assignStmt (.variable (globalVar 1)) (.variable (localVar 0)) },
   { id := 3, label := none, kind := .gotoStmt 2 }]

/-- The body of the test `SimpleOptimizeToAssignStmtOptimize`:
`int a; a = b + c; return a`. -/
def mergeBody : List Stmt :=
  [{ id := 0, label := none, kind := .varDefStmt (localVar 0) none },
   { id := 1, label := none,
     kind := .assignStmt (.variable (localVar 0))
       (.binaryOpExpr .addOpExpr (.variable (localVar 1)) (.variable (localVar 2))) },
   { id := 2, label := none, kind := .returnStmt (some (.variable (localVar 0))) }]

/-! ## The type of an equality and of a logical or
(`EqOpExpr::getType`, `OrOpExpr::getType`) -/

/-- The first cell of the heap that holds the node `n`. -/
def Heap.lookup (n : Node) : Heap → Option Nat
  | [] => none
  | c :: cs => if c.node = n then some 0 else (Heap.lookup n cs).map fun a => a + 1

/-- The node of the integer type of the given width. -/
def IntType.node (size : Nat) : Node :=
  .other .intType (toString size) []

/-- Modelled from the spec: `IntType::create`, missing from the sources: the node
of the integer type of the given width; it is allocated when the heap has none
yet. -/
def IntType.create (h : Heap) (size : Nat) : Nat × Heap :=
  match h.lookup (IntType.node size) with
  | some t => (t, h)
  | none => h.alloc (Cell.fresh (IntType.node size) 0)

/-- The function `EqOpExpr::getType`: `return IntType::create(1);`. -/
def EqOpExpr.getType (h : Heap) (this : Nat) : Except Err (Nat × Heap) :=
  match EqOpExpr.operands h (some this) with
  | none => .error .badCast
  | some _ => .ok (IntType.create h 1)

/-- The function `OrOpExpr::getType`: `return IntType::create(1);`. -/
def OrOpExpr.getType (h : Heap) (this : Nat) : Except Err (Nat × Heap) :=
  match OrOpExpr.operands h (some this) with
  | none => .error .badCast
  | some _ => .ok (IntType.create h 1)

/-- The heap `exprHeap` with the integer type of width 32 in cell 7 and the
expression `i == (c || s)` in cell 8, whose second operand is not a variable. -/
def typedHeap : Heap :=
  [{ Cell.leaf .variable "i" with observers := [5, 8] },
   { Cell.leaf .variable "c" with observers := [5, 6] },
   { Cell.leaf .variable "s" with observers := [6] },
   Cell.leaf .emptyStmt "",
   Cell.leaf .variable "n",
   Cell.fresh (.eqOpExpr (some 0) (some 1)) 0,
   { Cell.fresh (.orOpExpr (some 1) (some 2)) 0 with observers := [8] },
   Cell.leaf .intType "32",
   Cell.fresh (.eqOpExpr (some 0) (some 6)) 0]

/-- The node `x` is an `EqOpExpr`, an `OrOpExpr` or a `CallStmt` whose operands
(the contained call, for a `CallStmt`) are among the values `vals`. -/
def Heap.builtFrom (h : Heap) (vals : List Ptr) (x : Ptr) : Bool :=
  match h.node x with
  | some (.eqOpExpr op1 op2) => decide (op1 ∈ vals) && decide (op2 ∈ vals)
  | some (.orOpExpr op1 op2) => decide (op1 ∈ vals) && decide (op2 ∈ vals)
  | some (.callStmt call) => decide (call ∈ vals)
  | _ => false

/-- The relation that `x->isEqualTo(y)` lifts from the operands to the nodes of
the three classes: the same class, and operands that are related position by
position. -/
def Heap.LiftedEq (h : Heap) (r : Ptr → Ptr → Prop) (x y : Ptr) : Prop :=
  (∃ a b a' b', h.node x = some (.eqOpExpr a b) ∧ h.node y = some (.eqOpExpr a' b') ∧
    r a a' ∧ r b b') ∨
  (∃ a b a' b', h.node x = some (.orOpExpr a b) ∧ h.node y = some (.orOpExpr a' b') ∧
    r a a' ∧ r b b') ∨
  (∃ c c', h.node x = some (.callStmt c) ∧ h.node y = some (.callStmt c') ∧ r c c')

/-! ## What a comparison reads -/

/-- The fields of a node that `isEqualTo` compares: everything but the flag
`initIsDefinition` of a loop. -/
def Node.parts : Node → Node
  | .uforLoopStmt init _ cond step body => .uforLoopStmt init false cond step body
  | n => n

/-- The heaps `h` and `h'` hold the same nodes up to the flag `initIsDefinition`
of the loops; successors, addresses, metadata and observers are arbitrary. -/
def Heap.SameParts (h h' : Heap) : Prop :=
  ∀ p, (h'.node p).map Node.parts = (h.node p).map Node.parts

/-- The heap `leaves` with the call `x(i)` in cell 5 and four statements: the call
statements of cells 6 and 7 hold the same call and differ in successor, address
and metadata; the loops of cells 8 and 9 hold the same parts and differ in
successor, address, metadata and the flag `initIsDefinition`. -/
def variantHeap : Heap :=
  [{ Cell.leaf .variable "i" with observers := [5, 8, 9] },
   { Cell.leaf .variable "c" with observers := [8, 9] },
   { Cell.leaf .variable "s" with observers := [8, 9] },
   { Cell.leaf .emptyStmt "" with observers := [8, 9] },
   Cell.leaf .variable "n",
   { Cell.fresh (.other .callExpr "" [some 0]) 0 with observers := [6, 7] },
   Cell.fresh (.callStmt (some 5)) 0,
   { Cell.fresh (.callStmt (some 5)) 42 with metadata := "md", succ := some 6 },
   Cell.fresh (.uforLoopStmt (some 0) false (some 1) (some 2) (some 3)) 7,
   { Cell.fresh (.uforLoopStmt (some 0) true (some 1) (some 2) (some 3)) 9 with
     metadata := "loop", succ := some 7 }]

/-! ## The frame of the operations on a loop -/

/-- What an operation on the loop `this` leaves alone: no cell is allocated,
every cell keeps its successor, metadata and address, and every node other than
`this` that is not an expression (every other statement) keeps its fields. -/
def UForLoopStmt.Frame (this : Nat) (h h' : Heap) : Prop :=
  h'.length = h.length ∧
  (∀ a, Statement.getSuccessor h' a = Statement.getSuccessor h a ∧
    Value.getMetadata h' a = Value.getMetadata h a ∧
    Value.getAddress h' a = Value.getAddress h a) ∧
  (∀ a nd, a ≠ this → nd.isExpression = false → h.node (some a) = some nd →
    h'.node (some a) = some nd)

/-- One call on the loop `this` that returns, with any arguments: a setter,
`replace` or `update`. -/
inductive UForLoopStmt.Op (this : Nat) : Heap → Heap → Prop
  | setInit {h h' : Heap} (newInit : Ptr) :
    UForLoopStmt.setInit h this newInit = .ok h' → UForLoopStmt.Op this h h'
  | setCond {h h' : Heap} (newCond : Ptr) :
    UForLoopStmt.setCond h this newCond = .ok h' → UForLoopStmt.Op this h h'
  | setStep {h h' : Heap} (newStep : Ptr) :
    UForLoopStmt.setStep h this newStep = .ok h' → UForLoopStmt.Op this h h'
  | setBody {h h' : Heap} (newBody : Ptr) :
    UForLoopStmt.setBody h this newBody = .ok h' → UForLoopStmt.Op this h h'
  | replace {h h' : Heap} (fuel : Nat) (oldExpr newExpr : Ptr) :
    UForLoopStmt.replace (Expression.replace fuel) h this oldExpr newExpr = .ok h' →
    UForLoopStmt.Op this h h'
  | update {h h' : Heap} (subject arg : Ptr) :
    UForLoopStmt.update h this subject arg = .ok h' → UForLoopStmt.Op this h h'

/-- The heap `loopHeap` after `markInitAsDefinition()` on the loop of cell 5. -/
def markedLoop : Heap :=
  [{ Cell.leaf .variable "i" with observers := [5] },
   { Cell.leaf .variable "c" with observers := [5] },
   { Cell.leaf .variable "s" with observers := [5] },
   { Cell.leaf .emptyStmt "" with observers := [5] },
   Cell.leaf .variable "n",
   Cell.fresh (.uforLoopStmt (some 0) true (some 1) (some 2) (some 3)) 7]

/-- The heap `markedLoop` after `replace(i, n)` and then `update(s, i)` on the
loop of cell 5: `n` is the `init` part and `i` the `step` part. -/
def markedLoopChanged : Heap :=
  [{ Cell.leaf .variable "i" with observers := [5] },
   { Cell.leaf .variable "c" with observers := [5] },
   Cell.leaf .variable "s",
   { Cell.leaf .emptyStmt "" with observers := [5] },
   { Cell.leaf .variable "n" with observers := [5] },
   Cell.fresh (.uforLoopStmt (some 4) true (some 1) (some 0) (some 3)) 7]

/-- The heap `markedLoop` after `replace(i, n)` on the loop of cell 5. -/
def markedLoopReplaced : Heap :=
  [Cell.leaf .variable "i",
   { Cell.leaf .variable "c" with observers := [5] },
   { Cell.leaf .variable "s" with observers := [5] },
   { Cell.leaf .emptyStmt "" with observers := [5] },
   { Cell.leaf .variable "n" with observers := [5] },
   Cell.fresh (.uforLoopStmt (some 4) true (some 1) (some 2) (some 3)) 7]

/-- The virtual call `vreplace` restricted to the receivers `parts`: a call on
any other receiver fails. -/
def UForLoopStmt.forwardOnlyTo (parts : List Ptr)
    (vreplace : Heap → Ptr → Ptr → Ptr → Except Err Heap) :
    Heap → Ptr → Ptr → Ptr → Except Err Heap :=
  fun h p oldExpr newExpr => if p ∈ parts then vreplace h p oldExpr newExpr else .error .badCast

/-- The heap `leaves` with the call `x(i)` in cell 5, the statement `x(i);` in
cell 6 and, in cell 7, the marked loop `for (i; c; s) x(i);` whose successor is
the empty statement of cell 3. -/
def bodyLoop : Heap :=
  [{ Cell.leaf .variable "i" with observers := [5, 7] },
   { Cell.leaf .variable "c" with observers := [7] },
   { Cell.leaf .variable "s" with observers := [7] },
   Cell.leaf .emptyStmt "",
   Cell.leaf .variable "n",
   { Cell.fresh (.other .callExpr "" [some 0]) 0 with observers := [6] },
   { Cell.fresh (.callStmt (some 5)) 0 with observers := [7] },
   { Cell.fresh (.uforLoopStmt (some 0) true (some 1) (some 2) (some 6)) 9 with
     succ := some 3 }]

/-- The heap `bodyLoop` after `replace(i, n)` on the loop of cell 7: `n` is the
`init` part, the call of the body still has the argument `i`. -/
def bodyLoopReplaced : Heap :=
  [{ Cell.leaf .variable "i" with observers := [5] },
   { Cell.leaf .variable "c" with observers := [7] },
   { Cell.leaf .variable "s" with observers := [7] },
   Cell.leaf .emptyStmt "",
   { Cell.leaf .variable "n" with observers := [7] },
   { Cell.fresh (.other .callExpr "" [some 0]) 0 with observers := [6] },
   { Cell.fresh (.callStmt (some 5)) 0 with observers := [7] },
   { Cell.fresh (.uforLoopStmt (some 4) true (some 1) (some 2) (some 6)) 9 with
     succ := some 3 }]

/-- The heap `leaves` with the loop `for (i; c; i) {}` in cell 5: the variable `i`
is both the `init` and the `step` part. -/
def twinLoop : Heap :=
  [{ Cell.leaf .variable "i" with observers := [5] },
   { Cell.leaf .variable "c" with observers := [5] },
   Cell.leaf .variable "s",
   { Cell.leaf .emptyStmt "" with observers := [5] },
   Cell.leaf .variable "n",
   Cell.fresh (.uforLoopStmt (some 0) false (some 1) (some 0) (some 3)) 0]

/-- The heap `twinLoop` after `update(i, n)` on the loop: `n` is the `init` part
and `i` is still the `step` part. -/
def twinLoopUpdated : Heap :=
  [Cell.leaf .variable "i",
   { Cell.leaf .variable "c" with observers := [5] },
   Cell.leaf .variable "s",
   { Cell.leaf .emptyStmt "" with observers := [5] },
   { Cell.leaf .variable "n" with observers := [5] },
   Cell.fresh (.uforLoopStmt (some 4) false (some 1) (some 0) (some 3)) 0]

/-- The heap `twinLoop` after `replace(i, n)` on the loop: `n` is both the `init`
and the `step` part. -/
def twinLoopReplaced : Heap :=
  [Cell.leaf .variable "i",
   { Cell.leaf .variable "c" with observers := [5] },
   Cell.leaf .variable "s",
   { Cell.leaf .emptyStmt "" with observers := [5] },
   { Cell.leaf .variable "n" with observers := [5] },
   Cell.fresh (.uforLoopStmt (some 4) false (some 1) (some 4) (some 3)) 0]

/-! ## Theorems: the arithmetic-simplification driver -/

@[simp] theorem bind_ok {α β : Type} (a : α) (f : α → Except Err β) :
    (Except.ok a : Except Err α).bind f = f a := rfl

@[simp] theorem bind_error {α β : Type} (e : Err) (f : α → Except Err β) :
    (Except.error e : Except Err α).bind f = .error e := rfl

theorem bind_eq_ok {α β : Type} {x : Except Err α} {f : α → Except Err β} {b : β}
    (hx : x.bind f = .ok b) : ∃ a, x = .ok a ∧ f a = .ok b := by
  cases x with
  | error e => simp at hx
  | ok a => exact ⟨a, rfl, hx⟩

theorem foldl_tryOptimizeIn (expr : Ptr) (ss : List SubOptimizer)
    (o : SimplifyArithmExprOptimizer) :
    (ss.foldl (SimplifyArithmExprOptimizer.tryOptimizeIn expr) o).calls =
        o.calls ++ (offerAll expr ss o.ir).1 ∧
    (ss.foldl (SimplifyArithmExprOptimizer.tryOptimizeIn expr) o).ir =
        (offerAll expr ss o.ir).2 ∧
    (ss.foldl (SimplifyArithmExprOptimizer.tryOptimizeIn expr) o).codeChanged =
        (o.codeChanged || ((offerAll expr ss o.ir).1.map TryOptimizeCall.result).any id) ∧
    (ss.foldl (SimplifyArithmExprOptimizer.tryOptimizeIn expr) o).subOptims = o.subOptims ∧
    (ss.foldl (SimplifyArithmExprOptimizer.tryOptimizeIn expr) o).accessedStmts =
        o.accessedStmts := by
  induction ss generalizing o with
  | nil => simp [offerAll]
  | cons s ss ih =>
    obtain ⟨h1, h2, h3, h4, h5⟩ := ih (SimplifyArithmExprOptimizer.tryOptimizeIn expr o s)
    simp only [List.foldl_cons, offerAll]
    refine ⟨?_, ?_, ?_, ?_, ?_⟩
    · rw [h1]; simp [SimplifyArithmExprOptimizer.tryOptimizeIn]
    · rw [h2]; simp [SimplifyArithmExprOptimizer.tryOptimizeIn]
    · rw [h3]; simp [SimplifyArithmExprOptimizer.tryOptimizeIn, Bool.or_assoc]
    · rw [h4]; simp [SimplifyArithmExprOptimizer.tryOptimizeIn]
    · rw [h5]; simp [SimplifyArithmExprOptimizer.tryOptimizeIn]

theorem offerAll_calls (expr : Ptr) (ss : List SubOptimizer) (h : Heap) :
    (offerAll expr ss h).1.map (fun c => (c.subOptim, c.expr)) =
      ss.map (fun s => (s.getId, expr)) := by
  induction ss generalizing h with
  | nil => simp [offerAll]
  | cons s ss ih => simp [offerAll, ih]

/-- C8: `tryOptimizeInSubOptimizations(expr)` calls `tryOptimize(expr)` on every
sub-optimizer exactly once, in the order of `subOptims`, each on the IR left by
the calls before it and whatever those calls returned; afterwards `codeChanged`
is its previous value OR-ed with all the returned results, so a true flag stays
true. -/
theorem tryOptimizeInSubOptimizations_offers_all
    (o : SimplifyArithmExprOptimizer) (expr : Ptr) :
    (o.tryOptimizeInSubOptimizations expr).calls =
        o.calls ++ (offerAll expr o.subOptims o.ir).1 ∧
    (offerAll expr o.subOptims o.ir).1.map (fun c => (c.subOptim, c.expr)) =
        o.subOptims.map (fun s => (s.getId, expr)) ∧
    (o.tryOptimizeInSubOptimizations expr).ir = (offerAll expr o.subOptims o.ir).2 ∧
    (o.tryOptimizeInSubOptimizations expr).codeChanged =
        (o.codeChanged ||
          ((offerAll expr o.subOptims o.ir).1.map TryOptimizeCall.result).any id) ∧
    (o.codeChanged = true → (o.tryOptimizeInSubOptimizations expr).codeChanged = true) ∧
    (o.tryOptimizeInSubOptimizations expr).subOptims = o.subOptims := by
  obtain ⟨h1, h2, h3, h4, _⟩ := foldl_tryOptimizeIn expr o.subOptims o
  refine ⟨h1, offerAll_calls expr o.subOptims o.ir, h2, h3, ?_, h4⟩
  intro hc
  unfold SimplifyArithmExprOptimizer.tryOptimizeInSubOptimizations
  rw [h3, hc]; rfl

/-- Witness of C8 on the IR of `x + y`, with the flag already set: both
sub-optimizers are called, in order, and the flag stays set. -/
theorem tryOptimizeInSubOptimizations_offers_all_witness :
    (({ addExample with codeChanged := true }).tryOptimizeInSubOptimizations (some 2)).calls =
        [{ subOptim := "A", expr := some 2, result := false },
         { subOptim := "B", expr := some 2, result := false }] ∧
    (({ addExample with codeChanged := true }).tryOptimizeInSubOptimizations
        (some 2)).codeChanged = true :=
  ⟨by decide,
   (tryOptimizeInSubOptimizations_offers_all
      { addExample with codeChanged := true } (some 2)).2.2.2.2.1 rfl⟩

theorem doWhileCodeChanged_run
    (pass : SimplifyArithmExprOptimizer → Except Err SimplifyArithmExprOptimizer)
    (fuel : Nat) (o o' : SimplifyArithmExprOptimizer)
    (h : SimplifyArithmExprOptimizer.doWhileCodeChanged pass fuel o = .ok o') :
    ∃ k, k < fuel ∧ FixpointRun pass (k + 1) o o' := by
  induction fuel generalizing o with
  | zero => simp [SimplifyArithmExprOptimizer.doWhileCodeChanged] at h
  | succ fuel ih =>
    simp only [SimplifyArithmExprOptimizer.doWhileCodeChanged] at h
    obtain ⟨o1, h1, h2⟩ := bind_eq_ok h
    by_cases hc : o1.codeChanged = true
    · rw [if_pos hc] at h2
      obtain ⟨k, hk, hrun⟩ := ih o1 h2
      exact ⟨k + 1, by omega, FixpointRun.again h1 hc hrun⟩
    · rw [if_neg hc] at h2
      cases h2
      exact ⟨0, by omega, FixpointRun.last h1 (by simpa using hc)⟩

theorem FixpointRun.codeChanged_false
    {pass : SimplifyArithmExprOptimizer → Except Err SimplifyArithmExprOptimizer}
    {n : Nat} {o o' : SimplifyArithmExprOptimizer} (h : FixpointRun pass n o o') :
    o'.codeChanged = false := by
  induction h with
  | last _ hc => exact hc
  | again _ _ _ ih => exact ih

theorem doWhileCodeChanged_of_run
    (pass : SimplifyArithmExprOptimizer → Except Err SimplifyArithmExprOptimizer)
    (n : Nat) (o o' : SimplifyArithmExprOptimizer) (h : FixpointRun pass n o o')
    (fuel : Nat) (hf : n ≤ fuel) :
    SimplifyArithmExprOptimizer.doWhileCodeChanged pass fuel o = .ok o' := by
  induction h generalizing fuel with
  | last h1 hc =>
    obtain ⟨fuel, rfl⟩ : ∃ m, fuel = m + 1 := ⟨fuel - 1, by omega⟩
    simp [SimplifyArithmExprOptimizer.doWhileCodeChanged, h1, hc]
  | again h1 hc hrun ih =>
    obtain ⟨fuel, rfl⟩ : ∃ m, fuel = m + 1 := ⟨fuel - 1, by omega⟩
    simp [SimplifyArithmExprOptimizer.doWhileCodeChanged, h1, hc, ih fuel (by omega)]

theorem forEach_run {α : Type}
    (mk : α → SimplifyArithmExprOptimizer → Except Err SimplifyArithmExprOptimizer)
    (fuel : Nat) (xs : List α) (o o' : SimplifyArithmExprOptimizer)
    (h : SimplifyArithmExprOptimizer.forEach
      (fun x => SimplifyArithmExprOptimizer.doWhileCodeChanged (mk x) fuel) xs o = .ok o') :
    UnitsRun (xs.map mk) o o' := by
  induction xs generalizing o with
  | nil =>
    simp only [SimplifyArithmExprOptimizer.forEach] at h
    cases h
    exact UnitsRun.nil
  | cons x xs ih =>
    simp only [SimplifyArithmExprOptimizer.forEach] at h
    obtain ⟨o1, h1, h2⟩ := bind_eq_ok h
    obtain ⟨k, _, hrun⟩ := doWhileCodeChanged_run (mk x) fuel o o1 h1
    exact UnitsRun.cons hrun (ih o1 h2)

theorem UnitsRun.append
    {ps qs : List (SimplifyArithmExprOptimizer → Except Err SimplifyArithmExprOptimizer)}
    {o o1 o2 : SimplifyArithmExprOptimizer}
    (h1 : UnitsRun ps o o1) (h2 : UnitsRun qs o1 o2) : UnitsRun (ps ++ qs) o o2 := by
  induction h1 with
  | nil => exact h2
  | cons hrun _ ih => exact UnitsRun.cons hrun (ih h2)

theorem UnitsRun.split
    {ps qs : List (SimplifyArithmExprOptimizer → Except Err SimplifyArithmExprOptimizer)}
    {o o2 : SimplifyArithmExprOptimizer}
    (h : UnitsRun (ps ++ qs) o o2) : ∃ o1, UnitsRun ps o o1 ∧ UnitsRun qs o1 o2 := by
  induction ps generalizing o with
  | nil => exact ⟨o, UnitsRun.nil, h⟩
  | cons p ps ih =>
    cases h with
    | cons hrun hrest =>
      obtain ⟨o1, ha, hb⟩ := ih hrest
      exact ⟨o1, UnitsRun.cons hrun ha, hb⟩

theorem forEach_of_run {α : Type}
    (mk : α → SimplifyArithmExprOptimizer → Except Err SimplifyArithmExprOptimizer)
    (xs : List α) (o o' : SimplifyArithmExprOptimizer) (h : UnitsRun (xs.map mk) o o') :
    ∃ bound, ∀ fuel, bound ≤ fuel →
      SimplifyArithmExprOptimizer.forEach
        (fun x => SimplifyArithmExprOptimizer.doWhileCodeChanged (mk x) fuel) xs o = .ok o' := by
  induction xs generalizing o with
  | nil =>
    cases h
    exact ⟨0, fun _ _ => rfl⟩
  | cons x xs ih =>
    cases h with
    | @cons _ _ n _ o1 _ hrun hrest =>
      obtain ⟨b, hb⟩ := ih o1 hrest
      refine ⟨max n b, fun fuel hf => ?_⟩
      simp only [SimplifyArithmExprOptimizer.forEach]
      rw [doWhileCodeChanged_of_run (mk x) n o o1 hrun fuel (le_trans (le_max_left n b) hf)]
      exact hb fuel (le_trans (le_max_right n b) hf)

/-- C6: the driver `doOptimization`.  Each `do` loop executes its body (reset of
`codeChanged`, then one traversal of the unit) and repeats exactly while the
body left `codeChanged` true: a unit whose first traversal reports no change is
traversed once; a unit whose first `k` traversals report a change and whose next
one does not is traversed `1 + k` times, given enough fuel; a loop that returns
has made such a run, whose last traversal left the flag false.  The whole driver
returns `o'` exactly when the units of the module, the global initializers first
and the function definitions after them, are taken to their fixpoints one after
the other. -/
theorem doOptimization_fixpoint
    (acceptExpr : SimplifyArithmExprOptimizer → Ptr → Except Err SimplifyArithmExprOptimizer)
    (acceptFunc : SimplifyArithmExprOptimizer → Function → Except Err SimplifyArithmExprOptimizer)
    (module : Module) :
    (∀ g o, SimplifyArithmExprOptimizer.globalVarPass acceptExpr g o =
        match g.getInitializer with
        | some init => acceptExpr { o with codeChanged := false } (some init)
        | none => .ok { o with codeChanged := false }) ∧
    (∀ f o, SimplifyArithmExprOptimizer.funcPass acceptFunc f o =
        acceptFunc { o with codeChanged := false, accessedStmts := [] } f) ∧
    (∀ pass fuel o o1, pass o = .ok o1 → o1.codeChanged = false →
        SimplifyArithmExprOptimizer.doWhileCodeChanged pass (fuel + 1) o = .ok o1) ∧
    (∀ pass k fuel o o', FixpointRun pass (1 + k) o o' → k < fuel →
        SimplifyArithmExprOptimizer.doWhileCodeChanged pass fuel o = .ok o') ∧
    (∀ pass fuel o o', SimplifyArithmExprOptimizer.doWhileCodeChanged pass fuel o = .ok o' →
        ∃ k, k < fuel ∧ FixpointRun pass (1 + k) o o' ∧ o'.codeChanged = false) ∧
    (∀ fuel o o',
        SimplifyArithmExprOptimizer.doOptimization acceptExpr acceptFunc fuel module o = .ok o' →
        UnitsRun (module.passes acceptExpr acceptFunc) o o') ∧
    (∀ o o', UnitsRun (module.passes acceptExpr acceptFunc) o o' →
        ∃ fuel, SimplifyArithmExprOptimizer.doOptimization
          acceptExpr acceptFunc fuel module o = .ok o') := by
  refine ⟨?_, ?_, ?_, ?_, ?_, ?_, ?_⟩
  · intro g o
    rfl
  · intro f o
    rfl
  · intro pass fuel o o1 h1 hc
    simp [SimplifyArithmExprOptimizer.doWhileCodeChanged, h1, hc]
  · intro pass k fuel o o' hrun hk
    exact doWhileCodeChanged_of_run pass (1 + k) o o' hrun fuel (by omega)
  · intro pass fuel o o' h
    obtain ⟨k, hk, hrun⟩ := doWhileCodeChanged_run pass fuel o o' h
    rw [Nat.add_comm] at hrun
    exact ⟨k, hk, hrun, hrun.codeChanged_false⟩
  · intro fuel o o' h
    unfold SimplifyArithmExprOptimizer.doOptimization at h
    obtain ⟨o1, h1, h2⟩ := bind_eq_ok h
    exact UnitsRun.append (forEach_run _ fuel _ o o1 h1) (forEach_run _ fuel _ o1 o' h2)
  · intro o o' h
    obtain ⟨o1, ha, hb⟩ := UnitsRun.split h
    obtain ⟨b1, h1⟩ := forEach_of_run _ _ o o1 ha
    obtain ⟨b2, h2⟩ := forEach_of_run _ _ o1 o' hb
    refine ⟨max b1 b2, ?_⟩
    unfold SimplifyArithmExprOptimizer.doOptimization
    rw [h1 _ (le_max_left b1 b2)]
    exact h2 _ (le_max_right b1 b2)

/-- Witness of C6: on a module with one global initializer whose first two
traversals report a change, the driver returns after the third traversal, and
the run is a run of the units of the module. -/
theorem doOptimization_fixpoint_witness :
    SimplifyArithmExprOptimizer.doOptimization (SimplifyArithmExprOptimizer.accept 2)
        (SimplifyArithmExprOptimizer.acceptFunction 2) 3 growModule growExample = .ok growFinal ∧
    UnitsRun (growModule.passes (SimplifyArithmExprOptimizer.accept 2)
        (SimplifyArithmExprOptimizer.acceptFunction 2)) growExample growFinal :=
  ⟨rfl,
   (doOptimization_fixpoint (SimplifyArithmExprOptimizer.accept 2)
      (SimplifyArithmExprOptimizer.acceptFunction 2) growModule).2.2.2.2.2.1
      3 growExample growFinal rfl⟩

/-- C7 fails for `NegOpExpr` and `AndOpExpr`: both are among the operator kinds
of the claim, yet the visit of the `NegOpExpr` of `-x` and of the `AndOpExpr` of
`x && y` returns without a single call of `tryOptimize`, although the optimizer
has two sub-optimizers. -/
theorem visit_neg_and_not_offered :
    (negExample.ir.node (some 1)).map Node.isArithRelLogOp = some true ∧
    (SimplifyArithmExprOptimizer.accept 2 negExample (some 1)).map
        (fun o => o.calls) = .ok [] ∧
    (andExample.ir.node (some 2)).map Node.isArithRelLogOp = some true ∧
    (SimplifyArithmExprOptimizer.accept 2 andExample (some 2)).map
        (fun o => o.calls) = .ok [] := by
  decide

/-- C7, amended: the visit of a node of kind add, sub, mul, div, mod, eq, neq,
lt, lt-eq, gt, gt-eq, or, not offers the node to every sub-optimizer, in order;
a `NegOpExpr` and an `AndOpExpr` are visited by the inherited
`OrderedAllVisitor::visit`, which does not offer the node itself. -/
theorem visit_offers_node
    (vaccept : SimplifyArithmExprOptimizer → Ptr → Except Err SimplifyArithmExprOptimizer)
    (o : SimplifyArithmExprOptimizer) (expr : Nat) (n : Node)
    (hn : o.ir.node (some expr) = some n) (hk : n.isArithRelLogOp = true) :
    (n.isNegOrAnd = false →
      SimplifyArithmExprOptimizer.visit vaccept o expr =
        .ok (o.tryOptimizeInSubOptimizations (some expr)) ∧
      (o.tryOptimizeInSubOptimizations (some expr)).calls =
        o.calls ++ (offerAll (some expr) o.subOptims o.ir).1 ∧
      (offerAll (some expr) o.subOptims o.ir).1.map (fun c => (c.subOptim, c.expr)) =
        o.subOptims.map (fun s => (s.getId, some expr))) ∧
    (n.isNegOrAnd = true →
      SimplifyArithmExprOptimizer.visit vaccept o expr =
        OrderedAllVisitor.visit vaccept o expr) := by
  obtain ⟨h1, _⟩ := foldl_tryOptimizeIn (some expr) o.subOptims o
  have h2 := offerAll_calls (some expr) o.subOptims o.ir
  constructor
  · intro hna
    refine ⟨?_, h1, h2⟩
    cases n with
    | eqOpExpr a b => simp [SimplifyArithmExprOptimizer.visit, hn]
    | orOpExpr a b => simp [SimplifyArithmExprOptimizer.visit, hn]
    | callStmt c => simp [Node.isArithRelLogOp] at hk
    | uforLoopStmt a b c d e => simp [Node.isArithRelLogOp] at hk
    | other cls d ops =>
      cases cls <;> simp [Node.isArithRelLogOp] at hk <;>
        simp [Node.isNegOrAnd] at hna <;> simp [SimplifyArithmExprOptimizer.visit, hn]
  · intro hna
    cases n with
    | eqOpExpr a b => simp [Node.isNegOrAnd] at hna
    | orOpExpr a b => simp [Node.isNegOrAnd] at hna
    | callStmt c => simp [Node.isNegOrAnd] at hna
    | uforLoopStmt a b c d e => simp [Node.isNegOrAnd] at hna
    | other cls d ops =>
      cases cls <;> simp [Node.isNegOrAnd] at hna <;>
        simp [SimplifyArithmExprOptimizer.visit, hn]

/-- Witness of C7, amended: the `AddOpExpr` of `x + y` is offered to both
sub-optimizers, the `NegOpExpr` of `-x` gets the inherited visit. -/
theorem visit_offers_node_witness :
    (SimplifyArithmExprOptimizer.visit (SimplifyArithmExprOptimizer.accept 1) addExample 2 =
        .ok (addExample.tryOptimizeInSubOptimizations (some 2)) ∧
      (addExample.tryOptimizeInSubOptimizations (some 2)).calls =
        addExample.calls ++ (offerAll (some 2) addExample.subOptims addExample.ir).1 ∧
      (offerAll (some 2) addExample.subOptims addExample.ir).1.map
          (fun c => (c.subOptim, c.expr)) =
        addExample.subOptims.map (fun s => (s.getId, some 2))) ∧
    SimplifyArithmExprOptimizer.visit (SimplifyArithmExprOptimizer.accept 1) negExample 1 =
      OrderedAllVisitor.visit (SimplifyArithmExprOptimizer.accept 1) negExample 1 :=
  ⟨(visit_offers_node (SimplifyArithmExprOptimizer.accept 1) addExample 2
      (.other .addOpExpr "" [some 0, some 1]) rfl rfl).1 rfl,
   (visit_offers_node (SimplifyArithmExprOptimizer.accept 1) negExample 1
      (.other .negOpExpr "" [some 0]) rfl rfl).2 rfl⟩

/-! ## Theorems: the heap -/

theorem Heap.getElem?_update (h : Heap) (a b : Nat) (f : Cell → Cell) :
    (h.update a f)[b]? = if a = b then (h[b]?).map f else h[b]? := by
  unfold Heap.update
  cases ha : h[a]? with
  | none =>
    by_cases hab : a = b
    · subst hab; simp [ha]
    · simp [hab]
  | some c =>
    by_cases hab : a = b
    · subst hab
      have hlt : a < h.length := by
        rcases List.getElem?_eq_some.1 ha with ⟨hlt, _⟩
        exact hlt
      simp [List.getElem?_set, ha, hlt]
    · simp [hab]

@[simp] theorem Heap.length_update (h : Heap) (a : Nat) (f : Cell → Cell) :
    (h.update a f).length = h.length := by
  unfold Heap.update
  cases h[a]? <;> simp

theorem Heap.node_update (h : Heap) (a : Nat) (f : Cell → Cell)
    (hf : ∀ c, (f c).node = c.node) (p : Ptr) : (h.update a f).node p = h.node p := by
  cases p with
  | none => rfl
  | some b =>
    simp only [Heap.node, Heap.getElem?_update]
    by_cases hab : a = b
    · simp only [hab, if_true]
      cases h[b]? <;> simp [hf]
    · simp [hab]

theorem Heap.getElem?_alloc (h : Heap) (c : Cell) (b : Nat) :
    (h ++ [c])[b]? = if b < h.length then h[b]? else if b = h.length then some c else none := by
  by_cases hb : b < h.length
  · simp [hb, List.getElem?_append_left hb]
  · by_cases hb2 : b = h.length
    · subst hb2; simp
    · have : h.length < b := by omega
      simp only [hb, hb2, if_false]
      rw [List.getElem?_append_right (by omega)]
      have : b - h.length = (b - h.length - 1) + 1 := by omega
      rw [this]; simp

theorem Heap.valid_lt {h : Heap} {a : Nat} (hv : h.valid (some a) = true) : a < h.length := by
  simpa [Heap.valid] using hv

/-- C10: the factories fail fast exactly on a missing required sub-value.  On a
heap in which every non-null argument points to a node, `CallStmt::create` fails
if and only if `call` is null, `EqOpExpr::create` and `OrOpExpr::create` fail if
and only if an operand is null, and `UForLoopStmt::create` fails if and only if
`body` is null, whatever `init`, `cond` and `step` are.  The failure is the
precondition check, which comes before `new` and before any `addObserver`; a
successful call returns the newly allocated node. -/
theorem create_fails_iff_null (h : Heap) (p q r b succ : Ptr) (a : Nat)
    (hp : h.valid p = true) (hq : h.valid q = true) (hr : h.valid r = true)
    (hb : h.valid b = true) :
    ((p = none → CallStmt.create h p succ a = .error .precondition) ∧
      (p ≠ none → ∃ h', CallStmt.create h p succ a = .ok (h.length, h') ∧
        h'.length = h.length + 1)) ∧
    ((p = none ∨ q = none → EqOpExpr.create h p q = .error .precondition) ∧
      (p ≠ none → q ≠ none → ∃ h', EqOpExpr.create h p q = .ok (h.length, h') ∧
        h'.length = h.length + 1)) ∧
    ((p = none ∨ q = none → OrOpExpr.create h p q = .error .precondition) ∧
      (p ≠ none → q ≠ none → ∃ h', OrOpExpr.create h p q = .ok (h.length, h') ∧
        h'.length = h.length + 1)) ∧
    ((b = none → UForLoopStmt.create h p q r b succ a = .error .precondition) ∧
      (b ≠ none → ∃ h', UForLoopStmt.create h p q r b succ a = .ok (h.length, h') ∧
        h'.length = h.length + 1)) := by
  refine ⟨⟨?_, ?_⟩, ⟨?_, ?_⟩, ⟨?_, ?_⟩, ⟨?_, ?_⟩⟩
  · rintro rfl; rfl
  · intro hne
    obtain ⟨x, rfl⟩ := Option.ne_none_iff_exists'.1 hne
    have hx : x < h.length + 1 := Nat.lt_succ_of_lt (Heap.valid_lt hp)
    simp [CallStmt.create, Heap.alloc, Statement.setSuccessor, Subject.addObserver, hx]
  · rintro (rfl | rfl)
    · rfl
    · cases p <;> rfl
  · intro hne1 hne2
    obtain ⟨x, rfl⟩ := Option.ne_none_iff_exists'.1 hne1
    obtain ⟨y, rfl⟩ := Option.ne_none_iff_exists'.1 hne2
    have hx : x < h.length + 1 := Nat.lt_succ_of_lt (Heap.valid_lt hp)
    have hy : y < h.length + 1 := Nat.lt_succ_of_lt (Heap.valid_lt hq)
    simp [EqOpExpr.create, Heap.alloc, Subject.addObserver, hx, hy]
  · rintro (rfl | rfl)
    · rfl
    · cases p <;> rfl
  · intro hne1 hne2
    obtain ⟨x, rfl⟩ := Option.ne_none_iff_exists'.1 hne1
    obtain ⟨y, rfl⟩ := Option.ne_none_iff_exists'.1 hne2
    have hx : x < h.length + 1 := Nat.lt_succ_of_lt (Heap.valid_lt hp)
    have hy : y < h.length + 1 := Nat.lt_succ_of_lt (Heap.valid_lt hq)
    simp [OrOpExpr.create, Heap.alloc, Subject.addObserver, hx, hy]
  · rintro rfl; rfl
  · intro hne
    obtain ⟨z, rfl⟩ := Option.ne_none_iff_exists'.1 hne
    have hz : z < h.length + 1 := Nat.lt_succ_of_lt (Heap.valid_lt hb)
    have key : ∀ (s : Ptr) (g : Heap), g.length = h.length + 1 → h.valid s = true →
        ∃ g', (if s.isSome then Subject.addObserver g s h.length else .ok g) = .ok g' ∧
          g'.length = h.length + 1 := by
      intro s g hg hs
      cases s with
      | none => exact ⟨g, rfl, hg⟩
      | some x =>
        have hx : x < g.length := by rw [hg]; exact Nat.lt_succ_of_lt (Heap.valid_lt hs)
        exact ⟨g.update x (Cell.addObserver h.length), by simp [Subject.addObserver, hx],
          by simp [hg]⟩
    simp only [UForLoopStmt.create, UForLoopStmt.new, Heap.alloc]
    obtain ⟨g1, e1, l1⟩ : ∃ g1, Statement.setSuccessor
        (h ++ [Cell.fresh (.uforLoopStmt p false q r (some z)) a]) h.length succ = .ok g1 ∧
        g1.length = h.length + 1 := by
      refine ⟨(h ++ [Cell.fresh (.uforLoopStmt p false q r (some z)) a]).update h.length
          fun c => { c with succ := succ }, ?_, ?_⟩
      · simp [Statement.setSuccessor]
      · simp
    rw [e1, bind_ok]
    obtain ⟨g2, e2, l2⟩ := key p g1 l1 hp
    rw [e2, bind_ok]
    obtain ⟨g3, e3, l3⟩ := key q g2 l2 hq
    rw [e3, bind_ok]
    obtain ⟨g4, e4, l4⟩ := key r g3 l3 hr
    rw [e4, bind_ok]
    have hz4 : z < g4.length := by rw [l4]; exact hz
    exact ⟨g4.update z (Cell.addObserver h.length), by simp [Subject.addObserver, hz4],
      by simp [l4]⟩

/-- Witness of C10 on the heap `leaves`: with a null `call`, operand or `body`
the factories fail on the precondition, with present arguments they succeed,
also when `init`, `cond` and `step` are null. -/
theorem create_fails_iff_null_witness :
    CallStmt.create leaves none (some 3) 0 = .error .precondition ∧
    EqOpExpr.create leaves (some 0) none = .error .precondition ∧
    OrOpExpr.create leaves none (some 1) = .error .precondition ∧
    UForLoopStmt.create leaves (some 0) (some 1) (some 2) none none 0 = .error .precondition ∧
    (∃ h', UForLoopStmt.create leaves none none none (some 3) none 0 = .ok (leaves.length, h') ∧
      h'.length = leaves.length + 1) :=
  ⟨(create_fails_iff_null leaves none none none (some 3) (some 3) 0 rfl rfl rfl rfl).1.1 rfl,
   (create_fails_iff_null leaves (some 0) none none none none 0 rfl rfl rfl rfl).2.1.1 (.inr rfl),
   (create_fails_iff_null leaves none (some 1) none none none 0 rfl rfl rfl rfl).2.2.1.1 (.inl rfl),
   (create_fails_iff_null leaves (some 0) (some 1) (some 2) none none 0 rfl rfl rfl rfl).2.2.2.1 rfl,
   (create_fails_iff_null leaves none none none (some 3) none 0 rfl rfl rfl rfl).2.2.2.2
     (by decide)⟩

theorem Node.not_isStatement_of_isExpression (n : Node) (hn : n.isExpression = true) :
    n.isStatement = false := by
  cases n with
  | eqOpExpr a b => rfl
  | orOpExpr a b => rfl
  | callStmt c => simp [Node.isExpression] at hn
  | uforLoopStmt a b c d e => simp [Node.isExpression] at hn
  | other cls d ops =>
    cases cls <;> simp [Node.isExpression, Class.isExpression] at hn <;> rfl

theorem cast_eq_some {isT : Node → Bool} {h : Heap} {p : Ptr}
    (hc : (cast isT h p).isSome = true) : ∃ n, h.node p = some n ∧ isT n = true := by
  unfold cast at hc
  cases hn : h.node p with
  | none => simp [hn] at hc
  | some n =>
    cases ht : isT n with
    | false => simp [hn, ht] at hc
    | true => exact ⟨n, rfl, ht⟩

theorem cast_isExpression_isStatement {h : Heap} {p : Ptr}
    (he : isa Node.isExpression h p = true) : cast Node.isStatement h p = none := by
  obtain ⟨n, hn, ht⟩ := cast_eq_some he
  simp [cast, hn, Node.not_isStatement_of_isExpression n ht]

theorem cast_isStatement_isExpression {h : Heap} {p : Ptr}
    (he : isa Node.isStatement h p = true) : cast Node.isExpression h p = none := by
  obtain ⟨n, hn, ht⟩ := cast_eq_some he
  cases hx : n.isExpression with
  | false => simp [cast, hn, hx]
  | true => simp [Node.not_isStatement_of_isExpression n hx] at ht

theorem hasType_ne {h : Heap} {p : Ptr} {s : Nat}
    (hp : h.hasType Node.isExpression p = true)
    (hs : isa Node.isStatement h (some s) = true) : some s ≠ p := by
  rintro rfl
  have h1 : isa Node.isExpression h (some s) = true := by simpa [Heap.hasType] using hp
  have h2 := cast_isExpression_isStatement h1
  simp [isa, h2] at hs

/-- C9: a mismatched update notification is a no-op.  `CallStmt::update` with
non-null arguments returns with the heap unchanged when `subject` is not the
contained call or `arg` is not a call expression.  `UForLoopStmt::update`
returns with the heap unchanged when `subject` is none of `init`, `cond`, `step`,
`body`, when `arg` is neither a statement nor an expression (a null `arg`
included) and, on a loop whose fields have their static types, when `subject`
is the body and `arg` an expression, and when `subject` is `init`, `cond` or
`step` and `arg` a statement.  The heap holds every slot, the flag, the
successor and every observer registration. -/
theorem update_mismatch_noop (h : Heap) (this subject : Nat) (arg : Ptr) :
    (∀ call, h.node (some this) = some (.callStmt call) → arg ≠ none →
      (some subject ≠ call ∨ isa Node.isCallExpr h arg = false) →
      CallStmt.update h this (some subject) arg = .ok h) ∧
    (∀ init d cond step body,
      h.node (some this) = some (.uforLoopStmt init d cond step body) →
      ((some subject ≠ init ∧ some subject ≠ cond ∧ some subject ≠ step ∧
          some subject ≠ body) ∨
        (isa Node.isStatement h arg = false ∧ isa Node.isExpression h arg = false) ∨
        (UForLoopStmt.wellTyped h this = true ∧ some subject = body ∧
          isa Node.isExpression h arg = true) ∨
        (UForLoopStmt.wellTyped h this = true ∧
          (some subject = init ∨ some subject = cond ∨ some subject = step) ∧
          isa Node.isStatement h arg = true)) →
      UForLoopStmt.update h this (some subject) arg = .ok h) := by
  constructor
  · intro call hn harg hmis
    obtain ⟨x, rfl⟩ := Option.ne_none_iff_exists'.1 harg
    simp only [CallStmt.update, CallStmt.getCall, hn, bind_ok]
    rcases hmis with hne | hne
    · simp [hne]
    · have : (cast Node.isCallExpr h (some x)).isSome = false := hne
      simp [this]
  · intro init d cond step body hn hmis
    have types : UForLoopStmt.wellTyped h this = true →
        h.hasType Node.isExpression init = true ∧ h.hasType Node.isExpression cond = true ∧
        h.hasType Node.isExpression step = true ∧ h.hasType Node.isStatement body = true := by
      intro hwt
      simp only [UForLoopStmt.wellTyped, hn, Bool.and_eq_true] at hwt
      exact ⟨hwt.1.1.1, hwt.1.1.2, hwt.1.2, hwt.2⟩
    simp only [UForLoopStmt.update, UForLoopStmt.getBody, UForLoopStmt.getInit,
      UForLoopStmt.getCond, UForLoopStmt.getStep, hn, bind_ok]
    rcases hmis with ⟨h1, h2, h3, h4⟩ | ⟨h1, h2⟩ | ⟨hwt, h1, h2⟩ | ⟨hwt, h1, h2⟩
    · simp [h1, h2, h3, h4]
    · have e1 : (cast Node.isStatement h arg).isSome = false := h1
      have e2 : (cast Node.isExpression h arg).isSome = false := h2
      simp [e1, e2]
    · obtain ⟨ti, tc, ts, tb⟩ := types hwt
      have e1 : cast Node.isStatement h arg = none := cast_isExpression_isStatement h2
      have hs : isa Node.isStatement h (some subject) = true := by
        rw [h1]; rw [← h1] at tb; simpa [Heap.hasType, h1] using tb
      have n1 := hasType_ne ti hs
      have n2 := hasType_ne tc hs
      have n3 := hasType_ne ts hs
      simp [e1, n1, n2, n3]
    · obtain ⟨ti, tc, ts, tb⟩ := types hwt
      have e2 : cast Node.isExpression h arg = none := cast_isStatement_isExpression h2
      have hb : some subject ≠ body := by
        intro hb
        have hs : isa Node.isStatement h (some subject) = true := by
          rw [← hb] at tb; simpa [Heap.hasType] using tb
        rcases h1 with h1 | h1 | h1
        · exact hasType_ne ti hs h1
        · exact hasType_ne tc hs h1
        · exact hasType_ne ts hs h1
      simp [e2, hb]

/-- Witness of C9: the statement `x();` notified about the variable `i`, and the
loop `for (i; c; s) {}` notified that its body is replaced by the expression
`n`, both stay as they are. -/
theorem update_mismatch_noop_witness :
    CallStmt.update callHeap 6 (some 0) (some 4) = .ok callHeap ∧
    UForLoopStmt.update loopHeap 5 (some 3) (some 4) = .ok loopHeap :=
  ⟨(update_mismatch_noop callHeap 6 0 (some 4)).1 (some 5) rfl (by decide) (.inl (by decide)),
   (update_mismatch_noop loopHeap 5 3 (some 4)).2 (some 0) false (some 1) (some 2) (some 3)
     rfl (.inr (.inr (.inl ⟨rfl, rfl, rfl⟩)))⟩

/-! ## Theorems: frame properties of the primitive operations -/

theorem Heap.node_lt {h : Heap} {a : Nat} {n : Node} (hn : h.node (some a) = some n) :
    a < h.length := by
  simp only [Heap.node] at hn
  cases hc : h[a]? with
  | none => simp [hc] at hn
  | some c =>
    rcases List.getElem?_eq_some.1 hc with ⟨hlt, _⟩
    exact hlt

theorem Heap.node_of_lt {h : Heap} {a : Nat} (ha : a < h.length) :
    ∃ n, h.node (some a) = some n := by
  simp [Heap.node, List.getElem?_eq_getElem ha]

theorem Heap.Extends.refl (h : Heap) : h.Extends h := fun _ _ hn => hn

theorem Heap.Extends.trans {h1 h2 h3 : Heap} (h12 : h1.Extends h2) (h23 : h2.Extends h3) :
    h1.Extends h3 := fun a n hn => h23 a n (h12 a n hn)

theorem Heap.Extends.length_le {h h' : Heap} (he : h.Extends h') : h.length ≤ h'.length := by
  by_contra hlt
  have hpos : h'.length < h.length := by omega
  obtain ⟨n, hn⟩ := Heap.node_of_lt hpos
  have := Heap.node_lt (he _ _ hn)
  omega

theorem Heap.SameNodes.same_refl (h : Heap) : h.SameNodes h := ⟨rfl, fun _ => rfl⟩

theorem Heap.SameNodes.same_trans {h1 h2 h3 : Heap} (h12 : h1.SameNodes h2)
    (h23 : h2.SameNodes h3) : h1.SameNodes h3 :=
  ⟨h23.1.trans h12.1, fun p => (h23.2 p).trans (h12.2 p)⟩

theorem Heap.SameNodes.extends {h h' : Heap} (hs : h.SameNodes h') : h.Extends h' :=
  fun a n hn => by rw [hs.2]; exact hn

theorem Heap.sameNodes_update (h : Heap) (a : Nat) (f : Cell → Cell)
    (hf : ∀ c, (f c).node = c.node) : h.SameNodes (h.update a f) :=
  ⟨Heap.length_update h a f, Heap.node_update h a f hf⟩

theorem Heap.extends_alloc (h : Heap) (c : Cell) : h.Extends (h ++ [c]) := by
  intro a n hn
  have ha := Heap.node_lt hn
  simp only [Heap.node] at hn ⊢
  rw [Heap.getElem?_alloc, if_pos ha]
  exact hn

theorem Heap.node_alloc (h : Heap) (c : Cell) : (h ++ [c]).node (some h.length) = some c.node := by
  simp [Heap.node]

theorem Subject.addObserver_sameNodes {h h' : Heap} {p : Ptr} {o : Nat}
    (hp : Subject.addObserver h p o = .ok h') : h.SameNodes h' := by
  cases p with
  | none => simp [Subject.addObserver] at hp
  | some a =>
    simp only [Subject.addObserver] at hp
    split at hp
    · cases hp
      exact Heap.sameNodes_update h a _ (fun _ => rfl)
    · cases hp

theorem Subject.removeObserver_sameNodes {h h' : Heap} {p : Ptr} {o : Nat}
    (hp : Subject.removeObserver h p o = .ok h') : h.SameNodes h' := by
  cases p with
  | none => simp [Subject.removeObserver] at hp
  | some a =>
    simp only [Subject.removeObserver] at hp
    split at hp
    · cases hp
      exact Heap.sameNodes_update h a _ (fun _ => rfl)
    · cases hp

theorem Value.setMetadata_sameNodes {h h' : Heap} {a : Nat} {md : String}
    (hp : Value.setMetadata h a md = .ok h') : h.SameNodes h' := by
  simp only [Value.setMetadata] at hp
  split at hp
  · cases hp
    exact Heap.sameNodes_update h a _ (fun _ => rfl)
  · cases hp

theorem Statement.setSuccessor_sameNodes {h h' : Heap} {a : Nat} {s : Ptr}
    (hp : Statement.setSuccessor h a s = .ok h') : h.SameNodes h' := by
  simp only [Statement.setSuccessor] at hp
  split at hp
  · cases hp
    exact Heap.sameNodes_update h a _ (fun _ => rfl)
  · cases hp

theorem Subject.addObserver_if_sameNodes {h h' : Heap} {p : Ptr} {o : Nat}
    (hp : (if p.isSome then Subject.addObserver h p o else .ok h) = .ok h') :
    h.SameNodes h' := by
  split at hp
  · exact Subject.addObserver_sameNodes hp
  · cases hp
    exact Heap.SameNodes.same_refl h

theorem Value.getMetadata_ok {h : Heap} {a : Nat} (ha : a < h.length) :
    ∃ md, Value.getMetadata h a = .ok md := by
  simp [Value.getMetadata, Heap.cell, List.getElem?_eq_getElem ha, Except.map]

theorem Value.getAddress_ok {h : Heap} {a : Nat} (ha : a < h.length) :
    ∃ ad, Value.getAddress h a = .ok ad := by
  simp [Value.getAddress, Heap.cell, List.getElem?_eq_getElem ha, Except.map]

theorem Value.setMetadata_ok {h : Heap} {a : Nat} (md : String) (ha : a < h.length) :
    ∃ h', Value.setMetadata h a md = .ok h' := by
  simp [Value.setMetadata, ha]

/-! ## Theorems: the factories -/

theorem eqOpExpr_create_spec {h h' : Heap} {op1 op2 : Ptr} {e : Nat}
    (hc : EqOpExpr.create h op1 op2 = .ok (e, h')) :
    e = h.length ∧ h'.node (some e) = some (.eqOpExpr op1 op2) ∧ h.Extends h' := by
  cases op1 with
  | none => simp [EqOpExpr.create] at hc
  | some x =>
    cases op2 with
    | none => simp [EqOpExpr.create] at hc
    | some y =>
      simp only [EqOpExpr.create, Heap.alloc] at hc
      obtain ⟨h1, e1, hc⟩ := bind_eq_ok hc
      obtain ⟨h2, e2, hc⟩ := bind_eq_ok hc
      cases hc
      have s1 := Subject.addObserver_sameNodes e1
      have s2 := Subject.addObserver_sameNodes e2
      refine ⟨rfl, ?_, ?_⟩
      · rw [s2.2, s1.2, Heap.node_alloc]; rfl
      · exact (Heap.extends_alloc h _).trans (s1.same_trans s2).extends

theorem orOpExpr_create_spec {h h' : Heap} {op1 op2 : Ptr} {e : Nat}
    (hc : OrOpExpr.create h op1 op2 = .ok (e, h')) :
    e = h.length ∧ h'.node (some e) = some (.orOpExpr op1 op2) ∧ h.Extends h' := by
  cases op1 with
  | none => simp [OrOpExpr.create] at hc
  | some x =>
    cases op2 with
    | none => simp [OrOpExpr.create] at hc
    | some y =>
      simp only [OrOpExpr.create, Heap.alloc] at hc
      obtain ⟨h1, e1, hc⟩ := bind_eq_ok hc
      obtain ⟨h2, e2, hc⟩ := bind_eq_ok hc
      cases hc
      have s1 := Subject.addObserver_sameNodes e1
      have s2 := Subject.addObserver_sameNodes e2
      refine ⟨rfl, ?_, ?_⟩
      · rw [s2.2, s1.2, Heap.node_alloc]; rfl
      · exact (Heap.extends_alloc h _).trans (s1.same_trans s2).extends

theorem callStmt_create_spec {h h' : Heap} {call succ : Ptr} {a e : Nat}
    (hc : CallStmt.create h call succ a = .ok (e, h')) :
    e = h.length ∧ h'.node (some e) = some (.callStmt call) ∧ h.Extends h' := by
  cases call with
  | none => simp [CallStmt.create] at hc
  | some x =>
    simp only [CallStmt.create, Heap.alloc] at hc
    obtain ⟨h1, e1, hc⟩ := bind_eq_ok hc
    obtain ⟨h2, e2, hc⟩ := bind_eq_ok hc
    cases hc
    have s1 := Statement.setSuccessor_sameNodes e1
    have s2 := Subject.addObserver_sameNodes e2
    refine ⟨rfl, ?_, ?_⟩
    · rw [s2.2, s1.2, Heap.node_alloc]; rfl
    · exact (Heap.extends_alloc h _).trans (s1.same_trans s2).extends

theorem uForLoopStmt_create_spec {h h' : Heap} {init cond step body succ : Ptr} {a e : Nat}
    (hc : UForLoopStmt.create h init cond step body succ a = .ok (e, h')) :
    e = h.length ∧ h'.node (some e) = some (.uforLoopStmt init false cond step body) ∧
      h.Extends h' := by
  cases body with
  | none => simp [UForLoopStmt.create] at hc
  | some x =>
    simp only [UForLoopStmt.create, UForLoopStmt.new, Heap.alloc] at hc
    obtain ⟨h1, e1, hc⟩ := bind_eq_ok hc
    obtain ⟨h2, e2, hc⟩ := bind_eq_ok hc
    obtain ⟨h3, e3, hc⟩ := bind_eq_ok hc
    obtain ⟨h4, e4, hc⟩ := bind_eq_ok hc
    obtain ⟨h5, e5, hc⟩ := bind_eq_ok hc
    cases hc
    have s1 := Statement.setSuccessor_sameNodes e1
    have s2 := Subject.addObserver_if_sameNodes e2
    have s3 := Subject.addObserver_if_sameNodes e3
    have s4 := Subject.addObserver_if_sameNodes e4
    have s5 := Subject.addObserver_sameNodes e5
    refine ⟨rfl, ?_, ?_⟩
    · rw [s5.2, s4.2, s3.2, s2.2, s1.2, Heap.node_alloc]; rfl
    · exact (Heap.extends_alloc h _).trans ((((s1.same_trans s2).same_trans s3).same_trans s4).same_trans s5).extends

/-! ## Theorems: the defects of `UForLoopStmt` -/

/-- C1 at a failing input: in the loop `for (i; c; s) {}` built by `create`,
`replace(c, n)` leaves the old `c` in the condition part, while the same call on
the `init` and `step` parts substitutes `n`. -/
theorem replace_cond_keeps_old_cond :
    UForLoopStmt.create leaves (some 0) (some 1) (some 2) (some 3) none 7 = .ok (5, loopHeap) ∧
    ((Statement.replace 2 loopHeap (some 5) (some 1) (some 4)).bind
        fun h => UForLoopStmt.getCond h 5) = .ok (some 1) ∧
    ((Statement.replace 2 loopHeap (some 5) (some 0) (some 4)).bind
        fun h => UForLoopStmt.getInit h 5) = .ok (some 4) ∧
    ((Statement.replace 2 loopHeap (some 5) (some 2) (some 4)).bind
        fun h => UForLoopStmt.getStep h 5) = .ok (some 4) := by
  decide

/-- C3 at a failing input: the loop `for (i = 1; ;) {}` of the test is accepted
by `create`, but its `clone()` and its `isEqualTo` against a loop (here itself)
call a member through the null `cond`. -/
theorem clone_isEqualTo_fail_without_cond :
    UForLoopStmt.create testNodes (some 2) none none (some 3) none 0 = .ok (4, testLoop) ∧
    Value.clone 4 testLoop (some 4) = .error .nullDeref ∧
    Value.isEqualTo 4 testLoop (some 4) (some 4) = .error .nullDeref := by
  decide

/-- A loop with an absent `init`, `cond` or `step` cannot be cloned, whatever
the fuel. -/
theorem UForLoopStmt.clone_fails_of_absent (h : Heap) (this : Nat)
    (init cond step body : Ptr) (d : Bool)
    (hn : h.node (some this) = some (.uforLoopStmt init d cond step body))
    (habs : init = none ∨ cond = none ∨ step = none) (fuel : Nat) :
    ∃ e, Value.clone fuel h (some this) = .error e := by
  have hnone : ∀ (f : Nat) (g : Heap), ∃ e, Value.clone f g none = .error e := by
    intro f g
    cases f <;> exact ⟨_, rfl⟩
  cases fuel with
  | zero => exact ⟨_, rfl⟩
  | succ f =>
    simp only [Value.clone, hn, UForLoopStmt.clone]
    cases e1 : Value.clone f h init with
    | error e => exact ⟨e, rfl⟩
    | ok r1 =>
      rcases habs with rfl | habs
      · obtain ⟨e, he⟩ := hnone f h
        rw [he] at e1
        cases e1
      · simp only [bind_ok]
        cases e2 : Value.clone f r1.2 cond with
        | error e => exact ⟨e, rfl⟩
        | ok r2 =>
          rcases habs with rfl | rfl
          · obtain ⟨e, he⟩ := hnone f r1.2
            rw [he] at e2
            cases e2
          · simp only [bind_ok]
            obtain ⟨e, he⟩ := hnone f r2.2
            rw [he]
            exact ⟨e, rfl⟩

/-- C5 at a failing input: after `markInitAsDefinition()` the loop
`for (i; c; s) {}` reports `isInitDefinition()`, its clone does not. -/
theorem clone_drops_initIsDefinition :
    ((UForLoopStmt.markInitAsDefinition loopHeap 5).bind
        fun h => UForLoopStmt.isInitDefinition h 5) = .ok true ∧
    ((UForLoopStmt.markInitAsDefinition loopHeap 5).bind fun h =>
      (Value.clone 3 h (some 5)).bind fun r =>
        match r.1 with
        | some l => UForLoopStmt.isInitDefinition r.2 l
        | none => .error .nullDeref) = .ok false := by
  decide

/-- The clone of a loop never is marked: whenever `clone()` of a
`UForLoopStmt` returns, `isInitDefinition()` of the result is false. -/
theorem UForLoopStmt.clone_isInitDefinition (fuel : Nat) (h h' : Heap) (this : Nat) (c : Ptr)
    (init cond step body : Ptr) (d : Bool)
    (hn : h.node (some this) = some (.uforLoopStmt init d cond step body))
    (hc : Value.clone fuel h (some this) = .ok (c, h')) :
    ∃ l, c = some l ∧ UForLoopStmt.isInitDefinition h' l = .ok false := by
  cases fuel with
  | zero => simp [Value.clone] at hc
  | succ f =>
    simp only [Value.clone, hn, UForLoopStmt.clone] at hc
    obtain ⟨⟨ci, h1⟩, _, hc⟩ := bind_eq_ok hc
    obtain ⟨⟨cc, h2⟩, _, hc⟩ := bind_eq_ok hc
    obtain ⟨⟨cs, h3⟩, _, hc⟩ := bind_eq_ok hc
    obtain ⟨⟨cb, h4⟩, _, hc⟩ := bind_eq_ok hc
    obtain ⟨a, _, hc⟩ := bind_eq_ok hc
    obtain ⟨⟨l, h5⟩, e5, hc⟩ := bind_eq_ok hc
    obtain ⟨md, _, hc⟩ := bind_eq_ok hc
    obtain ⟨h6, e6, hc⟩ := bind_eq_ok hc
    cases hc
    obtain ⟨_, hnode, _⟩ := uForLoopStmt_create_spec e5
    have s6 := Value.setMetadata_sameNodes e6
    refine ⟨l, rfl, ?_⟩
    simp [UForLoopStmt.isInitDefinition, s6.2, hnode]

/-! ## Theorems: `isEqualTo` is stable under heap extension -/

theorem Heap.Extends.node_ptr {h h' : Heap} (he : h.Extends h') {p : Ptr} {n : Node}
    (hn : h.node p = some n) : h'.node p = some n := by
  cases p with
  | none => simp [Heap.node] at hn
  | some a => exact he a n hn

theorem andAlso_eq_true {a b : Except Err Bool} :
    andAlso a b = .ok true ↔ a = .ok true ∧ b = .ok true := by
  unfold andAlso
  cases a with
  | error e => simp
  | ok x => cases x <;> simp

theorem eqOpExpr_operands_eq_some {h : Heap} {p : Ptr} {op1 op2 : Ptr} :
    EqOpExpr.operands h p = some (op1, op2) ↔ h.node p = some (.eqOpExpr op1 op2) := by
  unfold EqOpExpr.operands
  split <;> simp_all

theorem orOpExpr_operands_eq_some {h : Heap} {p : Ptr} {op1 op2 : Ptr} :
    OrOpExpr.operands h p = some (op1, op2) ↔ h.node p = some (.orOpExpr op1 op2) := by
  unfold OrOpExpr.operands
  split <;> simp_all

theorem CallStmt.callOf_eq_some {h : Heap} {p : Ptr} {call : Ptr} :
    CallStmt.callOf h p = some call ↔ h.node p = some (.callStmt call) := by
  unfold CallStmt.callOf
  split <;> simp_all

theorem Other.fields_eq_some {h : Heap} {p : Ptr} {cls : Class} {d : String} {ops : List Ptr} :
    Other.fields h p = some (cls, d, ops) ↔ h.node p = some (.other cls d ops) := by
  unfold Other.fields
  split <;> simp_all

theorem eqOpExpr_isEqualTo_mono (v : Heap → Ptr → Ptr → Except Err Bool)
    (hv : ∀ h h' a b, v h a b = .ok true → h.Extends h' → v h' a b = .ok true)
    (h h' : Heap) (this : Nat) (other : Ptr)
    (heq : EqOpExpr.isEqualTo v h this other = .ok true) (he : h.Extends h') :
    EqOpExpr.isEqualTo v h' this other = .ok true := by
  unfold EqOpExpr.isEqualTo at heq ⊢
  cases h1 : EqOpExpr.operands h (some this) with
  | none => simp [h1] at heq
  | some x =>
    obtain ⟨op1, op2⟩ := x
    cases h2 : EqOpExpr.operands h other with
    | none => simp [h1, h2] at heq
    | some y =>
      obtain ⟨o1, o2⟩ := y
      simp only [h1, h2] at heq
      rw [eqOpExpr_operands_eq_some.2 (he.node_ptr (eqOpExpr_operands_eq_some.1 h1)),
        eqOpExpr_operands_eq_some.2 (he.node_ptr (eqOpExpr_operands_eq_some.1 h2))]
      obtain ⟨a1, a2⟩ := andAlso_eq_true.1 heq
      exact andAlso_eq_true.2 ⟨hv _ _ _ _ a1 he, hv _ _ _ _ a2 he⟩

theorem orOpExpr_isEqualTo_mono (v : Heap → Ptr → Ptr → Except Err Bool)
    (hv : ∀ h h' a b, v h a b = .ok true → h.Extends h' → v h' a b = .ok true)
    (h h' : Heap) (this : Nat) (other : Ptr)
    (heq : OrOpExpr.isEqualTo v h this other = .ok true) (he : h.Extends h') :
    OrOpExpr.isEqualTo v h' this other = .ok true := by
  unfold OrOpExpr.isEqualTo at heq ⊢
  cases h1 : OrOpExpr.operands h (some this) with
  | none => simp [h1] at heq
  | some x =>
    obtain ⟨op1, op2⟩ := x
    cases h2 : OrOpExpr.operands h other with
    | none => simp [h1, h2] at heq
    | some y =>
      obtain ⟨o1, o2⟩ := y
      simp only [h1, h2] at heq
      rw [orOpExpr_operands_eq_some.2 (he.node_ptr (orOpExpr_operands_eq_some.1 h1)),
        orOpExpr_operands_eq_some.2 (he.node_ptr (orOpExpr_operands_eq_some.1 h2))]
      obtain ⟨a1, a2⟩ := andAlso_eq_true.1 heq
      exact andAlso_eq_true.2 ⟨hv _ _ _ _ a1 he, hv _ _ _ _ a2 he⟩

theorem CallStmt.getCall_eq_ok {h : Heap} {this : Nat} {call : Ptr} :
    CallStmt.getCall h this = .ok call ↔ h.node (some this) = some (.callStmt call) := by
  unfold CallStmt.getCall
  split <;> simp_all

theorem callStmt_isEqualTo_mono (v : Heap → Ptr → Ptr → Except Err Bool)
    (hv : ∀ h h' a b, v h a b = .ok true → h.Extends h' → v h' a b = .ok true)
    (h h' : Heap) (this : Nat) (other : Ptr)
    (heq : CallStmt.isEqualTo v h this other = .ok true) (he : h.Extends h') :
    CallStmt.isEqualTo v h' this other = .ok true := by
  unfold CallStmt.isEqualTo at heq ⊢
  obtain ⟨call, h1, heq⟩ := bind_eq_ok heq
  cases h2 : CallStmt.callOf h other with
  | none => simp [h2] at heq
  | some oc =>
    simp only [h2] at heq
    rw [CallStmt.getCall_eq_ok.2 (he.node_ptr (CallStmt.getCall_eq_ok.1 h1)), bind_ok,
      CallStmt.callOf_eq_some.2 (he.node_ptr (CallStmt.callOf_eq_some.1 h2))]
    exact hv _ _ _ _ heq he

theorem uForLoopStmt_isEqualTo_mono (v : Heap → Ptr → Ptr → Except Err Bool)
    (hv : ∀ h h' a b, v h a b = .ok true → h.Extends h' → v h' a b = .ok true)
    (h h' : Heap) (this : Nat) (other : Ptr)
    (heq : UForLoopStmt.isEqualTo v h this other = .ok true) (he : h.Extends h') :
    UForLoopStmt.isEqualTo v h' this other = .ok true := by
  unfold UForLoopStmt.isEqualTo at heq ⊢
  cases h1 : h.node (some this) with
  | none => simp [h1] at heq
  | some n =>
    cases n with
    | uforLoopStmt i d c s b =>
      cases h2 : h.node other with
      | none => simp [h1, h2] at heq
      | some m =>
        cases m with
        | uforLoopStmt oi od oc os ob =>
          simp only [h1, h2] at heq
          rw [he.node_ptr h1, he.node_ptr h2]
          obtain ⟨a1, heq⟩ := andAlso_eq_true.1 heq
          obtain ⟨a2, heq⟩ := andAlso_eq_true.1 heq
          obtain ⟨a3, a4⟩ := andAlso_eq_true.1 heq
          exact andAlso_eq_true.2 ⟨hv _ _ _ _ a1 he, andAlso_eq_true.2 ⟨hv _ _ _ _ a2 he,
            andAlso_eq_true.2 ⟨hv _ _ _ _ a3 he, hv _ _ _ _ a4 he⟩⟩⟩
        | _ => simp [h1, h2] at heq
    | _ => simp [h1] at heq

theorem Other.operandsEqual_mono (v : Heap → Ptr → Ptr → Except Err Bool)
    (hv : ∀ h h' a b, v h a b = .ok true → h.Extends h' → v h' a b = .ok true)
    (h h' : Heap) (he : h.Extends h') (ps qs : List Ptr)
    (heq : Other.operandsEqual v h ps qs = .ok true) :
    Other.operandsEqual v h' ps qs = .ok true := by
  induction ps generalizing qs with
  | nil =>
    cases qs with
    | nil => rfl
    | cons q qs => simp [Other.operandsEqual] at heq
  | cons p ps ih =>
    cases qs with
    | nil => cases p <;> simp [Other.operandsEqual] at heq
    | cons q qs =>
      cases p with
      | none =>
        cases q with
        | none =>
          simp only [Other.operandsEqual] at heq ⊢
          exact ih qs heq
        | some y => simp [Other.operandsEqual] at heq
      | some x =>
        cases q with
        | none => simp [Other.operandsEqual] at heq
        | some y =>
          simp only [Other.operandsEqual] at heq ⊢
          obtain ⟨a1, a2⟩ := andAlso_eq_true.1 heq
          exact andAlso_eq_true.2 ⟨hv _ _ _ _ a1 he, ih qs a2⟩

theorem other_isEqualTo_mono (v : Heap → Ptr → Ptr → Except Err Bool)
    (hv : ∀ h h' a b, v h a b = .ok true → h.Extends h' → v h' a b = .ok true)
    (h h' : Heap) (this : Nat) (other : Ptr)
    (heq : Other.isEqualTo v h this other = .ok true) (he : h.Extends h') :
    Other.isEqualTo v h' this other = .ok true := by
  unfold Other.isEqualTo at heq ⊢
  cases h1 : Other.fields h (some this) with
  | none => simp [h1] at heq
  | some x =>
    obtain ⟨cls, d, ops⟩ := x
    cases h2 : Other.fields h other with
    | none => simp [h1, h2] at heq
    | some y =>
      obtain ⟨ocls, od, oops⟩ := y
      simp only [h1, h2] at heq
      rw [Other.fields_eq_some.2 (he.node_ptr (Other.fields_eq_some.1 h1)),
        Other.fields_eq_some.2 (he.node_ptr (Other.fields_eq_some.1 h2))]
      by_cases hcd : cls = ocls ∧ d = od
      · simp only [hcd, and_self, if_true] at heq ⊢
        exact Other.operandsEqual_mono v hv h h' he _ _ heq
      · simp [hcd] at heq

theorem value_isEqualTo_mono (fuel : Nat) (h h' : Heap) (a b : Ptr)
    (heq : Value.isEqualTo fuel h a b = .ok true) (he : h.Extends h') :
    Value.isEqualTo fuel h' a b = .ok true := by
  induction fuel generalizing h h' a b with
  | zero => simp [Value.isEqualTo] at heq
  | succ f ih =>
    cases a with
    | none => simp [Value.isEqualTo] at heq
    | some this =>
      have hv : ∀ h h' a b, Value.isEqualTo f h a b = .ok true → h.Extends h' →
          Value.isEqualTo f h' a b = .ok true := fun h h' a b => ih h h' a b
      cases hn : h.node (some this) with
      | none => simp [Value.isEqualTo, hn] at heq
      | some n =>
        have hn' := he.node_ptr hn
        cases n with
        | eqOpExpr x y =>
          simp only [Value.isEqualTo, hn, hn'] at heq ⊢
          exact eqOpExpr_isEqualTo_mono _ hv h h' this b heq he
        | orOpExpr x y =>
          simp only [Value.isEqualTo, hn, hn'] at heq ⊢
          exact orOpExpr_isEqualTo_mono _ hv h h' this b heq he
        | callStmt x =>
          simp only [Value.isEqualTo, hn, hn'] at heq ⊢
          exact callStmt_isEqualTo_mono _ hv h h' this b heq he
        | uforLoopStmt i d c s bd =>
          simp only [Value.isEqualTo, hn, hn'] at heq ⊢
          exact uForLoopStmt_isEqualTo_mono _ hv h h' this b heq he
        | other cls d ops =>
          simp only [Value.isEqualTo, hn, hn'] at heq ⊢
          exact other_isEqualTo_mono _ hv h h' this b heq he

/-! ## Theorems: `clone` only extends the heap -/

theorem eqOpExpr_clone_extends (v : Heap → Ptr → Except Err (Ptr × Heap))
    (hv : ∀ h p c h', v h p = .ok (c, h') → h.Extends h')
    (h h' : Heap) (this : Nat) (c : Ptr)
    (hc : EqOpExpr.clone v h this = .ok (c, h')) : h.Extends h' := by
  unfold EqOpExpr.clone at hc
  cases h0 : EqOpExpr.operands h (some this) with
  | none => simp [h0] at hc
  | some x =>
    obtain ⟨op1, op2⟩ := x
    simp only [h0] at hc
    obtain ⟨⟨c1, h1⟩, e1, hc⟩ := bind_eq_ok hc
    obtain ⟨⟨c2, h2⟩, e2, hc⟩ := bind_eq_ok hc
    obtain ⟨⟨e, h3⟩, e3, hc⟩ := bind_eq_ok hc
    obtain ⟨md, _, hc⟩ := bind_eq_ok hc
    obtain ⟨h4, e4, hc⟩ := bind_eq_ok hc
    cases hc
    exact (((hv _ _ _ _ e1).trans (hv _ _ _ _ e2)).trans (eqOpExpr_create_spec e3).2.2).trans
      (Value.setMetadata_sameNodes e4).extends

theorem orOpExpr_clone_extends (v : Heap → Ptr → Except Err (Ptr × Heap))
    (hv : ∀ h p c h', v h p = .ok (c, h') → h.Extends h')
    (h h' : Heap) (this : Nat) (c : Ptr)
    (hc : OrOpExpr.clone v h this = .ok (c, h')) : h.Extends h' := by
  unfold OrOpExpr.clone at hc
  cases h0 : OrOpExpr.operands h (some this) with
  | none => simp [h0] at hc
  | some x =>
    obtain ⟨op1, op2⟩ := x
    simp only [h0] at hc
    obtain ⟨⟨c1, h1⟩, e1, hc⟩ := bind_eq_ok hc
    obtain ⟨⟨c2, h2⟩, e2, hc⟩ := bind_eq_ok hc
    obtain ⟨⟨e, h3⟩, e3, hc⟩ := bind_eq_ok hc
    obtain ⟨md, _, hc⟩ := bind_eq_ok hc
    obtain ⟨h4, e4, hc⟩ := bind_eq_ok hc
    cases hc
    exact (((hv _ _ _ _ e1).trans (hv _ _ _ _ e2)).trans (orOpExpr_create_spec e3).2.2).trans
      (Value.setMetadata_sameNodes e4).extends

theorem callStmt_clone_extends (v : Heap → Ptr → Except Err (Ptr × Heap))
    (hv : ∀ h p c h', v h p = .ok (c, h') → h.Extends h')
    (h h' : Heap) (this : Nat) (c : Ptr)
    (hc : CallStmt.clone v h this = .ok (c, h')) : h.Extends h' := by
  unfold CallStmt.clone at hc
  obtain ⟨call, _, hc⟩ := bind_eq_ok hc
  obtain ⟨⟨c1, h1⟩, e1, hc⟩ := bind_eq_ok hc
  obtain ⟨a, _, hc⟩ := bind_eq_ok hc
  obtain ⟨⟨e, h2⟩, e2, hc⟩ := bind_eq_ok hc
  obtain ⟨md, _, hc⟩ := bind_eq_ok hc
  obtain ⟨h3, e3, hc⟩ := bind_eq_ok hc
  cases hc
  exact ((hv _ _ _ _ e1).trans (callStmt_create_spec e2).2.2).trans
    (Value.setMetadata_sameNodes e3).extends

theorem uForLoopStmt_clone_extends (v vs : Heap → Ptr → Except Err (Ptr × Heap))
    (hv : ∀ h p c h', v h p = .ok (c, h') → h.Extends h')
    (hvs : ∀ h p c h', vs h p = .ok (c, h') → h.Extends h')
    (h h' : Heap) (this : Nat) (c : Ptr)
    (hc : UForLoopStmt.clone v vs h this = .ok (c, h')) : h.Extends h' := by
  unfold UForLoopStmt.clone at hc
  cases hn : h.node (some this) with
  | none => simp [hn] at hc
  | some n =>
    cases n with
    | uforLoopStmt i d cd s b =>
      simp only [hn] at hc
      obtain ⟨⟨ci, h1⟩, e1, hc⟩ := bind_eq_ok hc
      obtain ⟨⟨cc, h2⟩, e2, hc⟩ := bind_eq_ok hc
      obtain ⟨⟨cs, h3⟩, e3, hc⟩ := bind_eq_ok hc
      obtain ⟨⟨cb, h4⟩, e4, hc⟩ := bind_eq_ok hc
      obtain ⟨a, _, hc⟩ := bind_eq_ok hc
      obtain ⟨⟨l, h5⟩, e5, hc⟩ := bind_eq_ok hc
      obtain ⟨md, _, hc⟩ := bind_eq_ok hc
      obtain ⟨h6, e6, hc⟩ := bind_eq_ok hc
      cases hc
      exact (((((hv _ _ _ _ e1).trans (hv _ _ _ _ e2)).trans (hv _ _ _ _ e3)).trans
        (hvs _ _ _ _ e4)).trans (uForLoopStmt_create_spec e5).2.2).trans
        (Value.setMetadata_sameNodes e6).extends
    | _ => simp [hn] at hc

theorem Other.cloneOperands_extends (v : Heap → Ptr → Except Err (Ptr × Heap))
    (hv : ∀ h p c h', v h p = .ok (c, h') → h.Extends h')
    (ps : List Ptr) (h h' : Heap) (cs : List Ptr)
    (hc : Other.cloneOperands v h ps = .ok (cs, h')) : h.Extends h' := by
  induction ps generalizing h h' cs with
  | nil =>
    simp only [Other.cloneOperands] at hc
    cases hc
    exact Heap.Extends.refl _
  | cons p ps ih =>
    cases p with
    | none =>
      simp only [Other.cloneOperands] at hc
      obtain ⟨⟨cs1, h1⟩, e1, hc⟩ := bind_eq_ok hc
      cases hc
      exact ih h h1 cs1 e1
    | some x =>
      simp only [Other.cloneOperands] at hc
      obtain ⟨⟨c1, h1⟩, e1, hc⟩ := bind_eq_ok hc
      obtain ⟨⟨cs1, h2⟩, e2, hc⟩ := bind_eq_ok hc
      cases hc
      exact (hv _ _ _ _ e1).trans (ih h1 h2 cs1 e2)

theorem Other.addObservers_sameNodes (o : Nat) (ps : List Ptr) (h h' : Heap)
    (hc : Other.addObservers o h ps = .ok h') : h.SameNodes h' := by
  induction ps generalizing h with
  | nil =>
    simp only [Other.addObservers] at hc
    cases hc
    exact Heap.SameNodes.same_refl _
  | cons p ps ih =>
    cases p with
    | none =>
      simp only [Other.addObservers] at hc
      exact ih h hc
    | some x =>
      simp only [Other.addObservers] at hc
      obtain ⟨h1, e1, hc⟩ := bind_eq_ok hc
      exact (Subject.addObserver_sameNodes e1).same_trans (ih h1 hc)

theorem other_clone_extends (v : Heap → Ptr → Except Err (Ptr × Heap))
    (hv : ∀ h p c h', v h p = .ok (c, h') → h.Extends h')
    (h h' : Heap) (this : Nat) (c : Ptr)
    (hc : Other.clone v h this = .ok (c, h')) : h.Extends h' := by
  unfold Other.clone at hc
  cases h0 : Other.fields h (some this) with
  | none => simp [h0] at hc
  | some x =>
    obtain ⟨cls, d, ops⟩ := x
    simp only [h0, Heap.alloc] at hc
    obtain ⟨⟨cs, h1⟩, e1, hc⟩ := bind_eq_ok hc
    obtain ⟨a, _, hc⟩ := bind_eq_ok hc
    obtain ⟨h3, e3, hc⟩ := bind_eq_ok hc
    obtain ⟨md, _, hc⟩ := bind_eq_ok hc
    obtain ⟨h4, e4, hc⟩ := bind_eq_ok hc
    cases hc
    exact (((Other.cloneOperands_extends v hv _ _ _ _ e1).trans
      (Heap.extends_alloc h1 _)).trans (Other.addObservers_sameNodes _ _ _ _ e3).extends).trans
      (Value.setMetadata_sameNodes e4).extends

theorem Statement.cloneStatements_extends (v : Heap → Ptr → Except Err (Ptr × Heap))
    (hv : ∀ h p c h', v h p = .ok (c, h') → h.Extends h')
    (n : Nat) (h h' : Heap) (p c : Ptr)
    (hc : Statement.cloneStatements v n h p = .ok (c, h')) : h.Extends h' := by
  induction n generalizing h h' p c with
  | zero => simp [Statement.cloneStatements] at hc
  | succ n ih =>
    cases p with
    | none =>
      simp only [Statement.cloneStatements] at hc
      cases hc
      exact Heap.Extends.refl _
    | some s =>
      simp only [Statement.cloneStatements] at hc
      obtain ⟨⟨c1, h1⟩, e1, hc⟩ := bind_eq_ok hc
      obtain ⟨next, _, hc⟩ := bind_eq_ok hc
      obtain ⟨⟨rest, h2⟩, e2, hc⟩ := bind_eq_ok hc
      cases c1 with
      | none => simp at hc
      | some c0 =>
        simp only at hc
        obtain ⟨h3, e3, hc⟩ := bind_eq_ok hc
        cases hc
        exact ((hv _ _ _ _ e1).trans (ih h1 h2 next rest e2)).trans
          (Statement.setSuccessor_sameNodes e3).extends

theorem value_clone_extends (fuel : Nat) (h h' : Heap) (p c : Ptr)
    (hc : Value.clone fuel h p = .ok (c, h')) : h.Extends h' := by
  induction fuel generalizing h h' p c with
  | zero => simp [Value.clone] at hc
  | succ f ih =>
    cases p with
    | none => simp [Value.clone] at hc
    | some this =>
      have hv : ∀ h p c h', Value.clone f h p = .ok (c, h') → h.Extends h' :=
        fun h p c h' => ih h h' p c
      cases hn : h.node (some this) with
      | none => simp [Value.clone, hn] at hc
      | some n =>
        cases n with
        | eqOpExpr x y =>
          simp only [Value.clone, hn] at hc
          exact eqOpExpr_clone_extends _ hv h h' this c hc
        | orOpExpr x y =>
          simp only [Value.clone, hn] at hc
          exact orOpExpr_clone_extends _ hv h h' this c hc
        | callStmt x =>
          simp only [Value.clone, hn] at hc
          exact callStmt_clone_extends _ hv h h' this c hc
        | uforLoopStmt i d cd s b =>
          simp only [Value.clone, hn] at hc
          exact uForLoopStmt_clone_extends _ _ hv
            (fun h p c h' => Statement.cloneStatements_extends _ hv f h h' p c) h h' this c hc
        | other cls d ops =>
          simp only [Value.clone, hn] at hc
          exact other_clone_extends _ hv h h' this c hc

/-! ## Theorems: a clone is structurally equal to its original -/

theorem Subject.addObserver_ok {h : Heap} {a : Nat} (o : Nat) (ha : a < h.length) :
    Subject.addObserver h (some a) o = .ok (h.update a (Cell.addObserver o)) := by
  simp [Subject.addObserver, ha]

theorem Subject.removeObserver_ok {h : Heap} {a : Nat} (o : Nat) (ha : a < h.length) :
    Subject.removeObserver h (some a) o = .ok (h.update a (Cell.removeObserver o)) := by
  simp [Subject.removeObserver, ha]

theorem Statement.setSuccessor_ok {h : Heap} {a : Nat} (s : Ptr) (ha : a < h.length) :
    Statement.setSuccessor h a s = .ok (h.update a fun c => { c with succ := s }) := by
  simp [Statement.setSuccessor, ha]

theorem eqOpExpr_create_ok {h : Heap} {x y : Nat} (hx : x < h.length) (hy : y < h.length) :
    ∃ h', EqOpExpr.create h (some x) (some y) = .ok (h.length, h') := by
  simp only [EqOpExpr.create, Heap.alloc]
  rw [Subject.addObserver_ok _ (by simp; omega), bind_ok,
    Subject.addObserver_ok _ (by simp; omega), bind_ok]
  exact ⟨_, rfl⟩

theorem orOpExpr_create_ok {h : Heap} {x y : Nat} (hx : x < h.length) (hy : y < h.length) :
    ∃ h', OrOpExpr.create h (some x) (some y) = .ok (h.length, h') := by
  simp only [OrOpExpr.create, Heap.alloc]
  rw [Subject.addObserver_ok _ (by simp; omega), bind_ok,
    Subject.addObserver_ok _ (by simp; omega), bind_ok]
  exact ⟨_, rfl⟩

theorem callStmt_create_ok {h : Heap} {x : Nat} (succ : Ptr) (a : Nat) (hx : x < h.length) :
    ∃ h', CallStmt.create h (some x) succ a = .ok (h.length, h') := by
  simp only [CallStmt.create, Heap.alloc]
  rw [Statement.setSuccessor_ok _ (by simp), bind_ok,
    Subject.addObserver_ok _ (by simp; omega), bind_ok]
  exact ⟨_, rfl⟩

theorem uForLoopStmt_create_ok {h : Heap} {i c s b : Nat} (succ : Ptr) (a : Nat)
    (hi : i < h.length) (hc : c < h.length) (hs : s < h.length) (hb : b < h.length) :
    ∃ h', UForLoopStmt.create h (some i) (some c) (some s) (some b) succ a =
      .ok (h.length, h') := by
  simp only [UForLoopStmt.create, UForLoopStmt.new, Heap.alloc, Option.isSome_some, if_true]
  rw [Statement.setSuccessor_ok _ (by simp), bind_ok,
    Subject.addObserver_ok _ (by simp; omega), bind_ok,
    Subject.addObserver_ok _ (by simp; omega), bind_ok,
    Subject.addObserver_ok _ (by simp; omega), bind_ok,
    Subject.addObserver_ok _ (by simp; omega), bind_ok]
  exact ⟨_, rfl⟩

theorem Value.isEqualTo_receiver {fuel : Nat} {h : Heap} {p q : Ptr} {r : Bool}
    (heq : Value.isEqualTo fuel h p q = .ok r) : ∃ x, p = some x ∧ x < h.length := by
  cases fuel with
  | zero => simp [Value.isEqualTo] at heq
  | succ f =>
    cases p with
    | none => simp [Value.isEqualTo] at heq
    | some x =>
      cases hn : h.node (some x) with
      | none => simp [Value.isEqualTo, hn] at heq
      | some n => exact ⟨x, rfl, Heap.node_lt hn⟩

theorem eqOpExpr_clone_isEqualTo (f : Nat) (h : Heap) (n : Nat)
    (op1 op2 c1 c2 : Ptr) (h1 h2 : Heap)
    (hn : h.node (some n) = some (.eqOpExpr op1 op2))
    (hc1 : Value.clone f h op1 = .ok (c1, h1))
    (he1 : Value.isEqualTo f h1 c1 op1 = .ok true)
    (hc2 : Value.clone f h1 op2 = .ok (c2, h2))
    (he2 : Value.isEqualTo f h2 c2 op2 = .ok true) :
    ∃ c h', Value.clone (f + 1) h (some n) = .ok (c, h') ∧
      Value.isEqualTo (f + 1) h' c (some n) = .ok true := by
  have x1 := value_clone_extends f h h1 op1 c1 hc1
  have x2 := value_clone_extends f h1 h2 op2 c2 hc2
  obtain ⟨a1, rfl, l1⟩ := Value.isEqualTo_receiver he1
  obtain ⟨a2, rfl, l2⟩ := Value.isEqualTo_receiver he2
  have l1' : a1 < h2.length := lt_of_lt_of_le l1 x2.length_le
  obtain ⟨h3, e3⟩ := eqOpExpr_create_ok l1' l2
  obtain ⟨_, hnode, x3⟩ := eqOpExpr_create_spec e3
  have ln : n < h3.length :=
    lt_of_lt_of_le (Heap.node_lt hn) ((x1.trans x2).trans x3).length_le
  obtain ⟨md, emd⟩ := Value.getMetadata_ok ln
  obtain ⟨h4, e4⟩ := Value.setMetadata_ok md (Heap.node_lt hnode)
  have x4 := (Value.setMetadata_sameNodes e4).extends
  refine ⟨some h2.length, h4, ?_, ?_⟩
  · simp only [Value.clone, hn, EqOpExpr.clone, eqOpExpr_operands_eq_some.2 hn, hc1, bind_ok,
      hc2, e3, emd, e4]
  · have hnew : h4.node (some h2.length) = some (.eqOpExpr (some a1) (some a2)) :=
      x4.node_ptr hnode
    have hold : h4.node (some n) = some (.eqOpExpr op1 op2) :=
      (((x1.trans x2).trans x3).trans x4).node_ptr hn
    simp only [Value.isEqualTo, hnew, EqOpExpr.isEqualTo, eqOpExpr_operands_eq_some.2 hnew,
      eqOpExpr_operands_eq_some.2 hold]
    exact andAlso_eq_true.2
      ⟨value_isEqualTo_mono f h1 h4 _ _ he1 ((x2.trans x3).trans x4),
       value_isEqualTo_mono f h2 h4 _ _ he2 (x3.trans x4)⟩

theorem orOpExpr_clone_isEqualTo (f : Nat) (h : Heap) (n : Nat)
    (op1 op2 c1 c2 : Ptr) (h1 h2 : Heap)
    (hn : h.node (some n) = some (.orOpExpr op1 op2))
    (hc1 : Value.clone f h op1 = .ok (c1, h1))
    (he1 : Value.isEqualTo f h1 c1 op1 = .ok true)
    (hc2 : Value.clone f h1 op2 = .ok (c2, h2))
    (he2 : Value.isEqualTo f h2 c2 op2 = .ok true) :
    ∃ c h', Value.clone (f + 1) h (some n) = .ok (c, h') ∧
      Value.isEqualTo (f + 1) h' c (some n) = .ok true := by
  have x1 := value_clone_extends f h h1 op1 c1 hc1
  have x2 := value_clone_extends f h1 h2 op2 c2 hc2
  obtain ⟨a1, rfl, l1⟩ := Value.isEqualTo_receiver he1
  obtain ⟨a2, rfl, l2⟩ := Value.isEqualTo_receiver he2
  have l1' : a1 < h2.length := lt_of_lt_of_le l1 x2.length_le
  obtain ⟨h3, e3⟩ := orOpExpr_create_ok l1' l2
  obtain ⟨_, hnode, x3⟩ := orOpExpr_create_spec e3
  have ln : n < h3.length :=
    lt_of_lt_of_le (Heap.node_lt hn) ((x1.trans x2).trans x3).length_le
  obtain ⟨md, emd⟩ := Value.getMetadata_ok ln
  obtain ⟨h4, e4⟩ := Value.setMetadata_ok md (Heap.node_lt hnode)
  have x4 := (Value.setMetadata_sameNodes e4).extends
  refine ⟨some h2.length, h4, ?_, ?_⟩
  · simp only [Value.clone, hn, OrOpExpr.clone, orOpExpr_operands_eq_some.2 hn, hc1, bind_ok,
      hc2, e3, emd, e4]
  · have hnew : h4.node (some h2.length) = some (.orOpExpr (some a1) (some a2)) :=
      x4.node_ptr hnode
    have hold : h4.node (some n) = some (.orOpExpr op1 op2) :=
      (((x1.trans x2).trans x3).trans x4).node_ptr hn
    simp only [Value.isEqualTo, hnew, OrOpExpr.isEqualTo, orOpExpr_operands_eq_some.2 hnew,
      orOpExpr_operands_eq_some.2 hold]
    exact andAlso_eq_true.2
      ⟨value_isEqualTo_mono f h1 h4 _ _ he1 ((x2.trans x3).trans x4),
       value_isEqualTo_mono f h2 h4 _ _ he2 (x3.trans x4)⟩

theorem callStmt_clone_isEqualTo (f : Nat) (h : Heap) (n : Nat)
    (call c1 : Ptr) (h1 : Heap)
    (hn : h.node (some n) = some (.callStmt call))
    (hc1 : Value.clone f h call = .ok (c1, h1))
    (he1 : Value.isEqualTo f h1 c1 call = .ok true) :
    ∃ c h', Value.clone (f + 1) h (some n) = .ok (c, h') ∧
      Value.isEqualTo (f + 1) h' c (some n) = .ok true := by
  have x1 := value_clone_extends f h h1 call c1 hc1
  obtain ⟨a1, rfl, l1⟩ := Value.isEqualTo_receiver he1
  have ln1 : n < h1.length := lt_of_lt_of_le (Heap.node_lt hn) x1.length_le
  obtain ⟨ad, ead⟩ := Value.getAddress_ok ln1
  obtain ⟨h2, e2⟩ := callStmt_create_ok none ad l1
  obtain ⟨_, hnode, x2⟩ := callStmt_create_spec e2
  have ln : n < h2.length := lt_of_lt_of_le ln1 x2.length_le
  obtain ⟨md, emd⟩ := Value.getMetadata_ok ln
  obtain ⟨h3, e3⟩ := Value.setMetadata_ok md (Heap.node_lt hnode)
  have x3 := (Value.setMetadata_sameNodes e3).extends
  refine ⟨some h1.length, h3, ?_, ?_⟩
  · simp only [Value.clone, hn, CallStmt.clone, CallStmt.getCall_eq_ok.2 hn, hc1, bind_ok,
      ead, e2, emd, e3]
  · have hnew : h3.node (some h1.length) = some (.callStmt (some a1)) := x3.node_ptr hnode
    have hold : h3.node (some n) = some (.callStmt call) :=
      ((x1.trans x2).trans x3).node_ptr hn
    simp only [Value.isEqualTo, hnew, CallStmt.isEqualTo, CallStmt.getCall_eq_ok.2 hnew,
      CallStmt.callOf_eq_some.2 hold, bind_ok]
    exact value_isEqualTo_mono f h1 h3 _ _ he1 (x2.trans x3)

theorem uForLoopStmt_clone_isEqualTo (f : Nat) (h : Heap) (n : Nat)
    (init cond step body ci cc cs cb : Ptr) (d : Bool) (h1 h2 h3 h4 : Heap)
    (hn : h.node (some n) = some (.uforLoopStmt init d cond step body))
    (hc1 : Value.clone f h init = .ok (ci, h1))
    (he1 : Value.isEqualTo f h1 ci init = .ok true)
    (hc2 : Value.clone f h1 cond = .ok (cc, h2))
    (he2 : Value.isEqualTo f h2 cc cond = .ok true)
    (hc3 : Value.clone f h2 step = .ok (cs, h3))
    (he3 : Value.isEqualTo f h3 cs step = .ok true)
    (hc4 : Statement.cloneStatements (fun h x => Value.clone f h x) f h3 body = .ok (cb, h4))
    (he4 : Value.isEqualTo f h4 cb body = .ok true) :
    ∃ c h', Value.clone (f + 1) h (some n) = .ok (c, h') ∧
      Value.isEqualTo (f + 1) h' c (some n) = .ok true := by
  have x1 := value_clone_extends f h h1 init ci hc1
  have x2 := value_clone_extends f h1 h2 cond cc hc2
  have x3 := value_clone_extends f h2 h3 step cs hc3
  have x4 := Statement.cloneStatements_extends _
    (fun h p c h' => value_clone_extends f h h' p c) f h3 h4 body cb hc4
  obtain ⟨a1, rfl, l1⟩ := Value.isEqualTo_receiver he1
  obtain ⟨a2, rfl, l2⟩ := Value.isEqualTo_receiver he2
  obtain ⟨a3, rfl, l3⟩ := Value.isEqualTo_receiver he3
  obtain ⟨a4, rfl, l4⟩ := Value.isEqualTo_receiver he4
  have l1' : a1 < h4.length := lt_of_lt_of_le l1 ((x2.trans x3).trans x4).length_le
  have l2' : a2 < h4.length := lt_of_lt_of_le l2 (x3.trans x4).length_le
  have l3' : a3 < h4.length := lt_of_lt_of_le l3 x4.length_le
  have ln4 : n < h4.length :=
    lt_of_lt_of_le (Heap.node_lt hn) (((x1.trans x2).trans x3).trans x4).length_le
  obtain ⟨ad, ead⟩ := Value.getAddress_ok ln4
  obtain ⟨h5, e5⟩ := uForLoopStmt_create_ok none ad l1' l2' l3' l4
  obtain ⟨_, hnode, x5⟩ := uForLoopStmt_create_spec e5
  have ln : n < h5.length := lt_of_lt_of_le ln4 x5.length_le
  obtain ⟨md, emd⟩ := Value.getMetadata_ok ln
  obtain ⟨h6, e6⟩ := Value.setMetadata_ok md (Heap.node_lt hnode)
  have x6 := (Value.setMetadata_sameNodes e6).extends
  refine ⟨some h4.length, h6, ?_, ?_⟩
  · simp only [Value.clone, hn, UForLoopStmt.clone, hc1, bind_ok, hc2, hc3, hc4, ead, e5, emd,
      e6]
  · have hnew : h6.node (some h4.length) =
        some (.uforLoopStmt (some a1) false (some a2) (some a3) (some a4)) :=
      x6.node_ptr hnode
    have hold : h6.node (some n) = some (.uforLoopStmt init d cond step body) :=
      (((((x1.trans x2).trans x3).trans x4).trans x5).trans x6).node_ptr hn
    simp only [Value.isEqualTo, hnew, UForLoopStmt.isEqualTo, hold]
    exact andAlso_eq_true.2
      ⟨value_isEqualTo_mono f h1 h6 _ _ he1 ((((x2.trans x3).trans x4).trans x5).trans x6),
       andAlso_eq_true.2
        ⟨value_isEqualTo_mono f h2 h6 _ _ he2 (((x3.trans x4).trans x5).trans x6),
         andAlso_eq_true.2
          ⟨value_isEqualTo_mono f h3 h6 _ _ he3 ((x4.trans x5).trans x6),
           value_isEqualTo_mono f h4 h6 _ _ he4 (x5.trans x6)⟩⟩⟩

/-- C4: a clone is structurally equal to its original.  For an `EqOpExpr`, an
`OrOpExpr`, a `CallStmt` and a `UForLoopStmt` `n`: if every sub-part can be
cloned, in the order in which `clone()` of `n` clones them, and each clone
`isEqualTo` its sub-part (for the loop body: the result of `cloneStatements`
`isEqualTo` the body), then `n.clone()` returns and `n.clone().isEqualTo(n)` is
true.  The sub-parts are given the fuel `f`, the node itself `f + 1`. -/
theorem clone_isEqualTo_original (f : Nat) (h : Heap) (n : Nat) :
    (∀ op1 op2 c1 c2 h1 h2, h.node (some n) = some (.eqOpExpr op1 op2) →
      Value.clone f h op1 = .ok (c1, h1) → Value.isEqualTo f h1 c1 op1 = .ok true →
      Value.clone f h1 op2 = .ok (c2, h2) → Value.isEqualTo f h2 c2 op2 = .ok true →
      ∃ c h', Value.clone (f + 1) h (some n) = .ok (c, h') ∧
        Value.isEqualTo (f + 1) h' c (some n) = .ok true) ∧
    (∀ op1 op2 c1 c2 h1 h2, h.node (some n) = some (.orOpExpr op1 op2) →
      Value.clone f h op1 = .ok (c1, h1) → Value.isEqualTo f h1 c1 op1 = .ok true →
      Value.clone f h1 op2 = .ok (c2, h2) → Value.isEqualTo f h2 c2 op2 = .ok true →
      ∃ c h', Value.clone (f + 1) h (some n) = .ok (c, h') ∧
        Value.isEqualTo (f + 1) h' c (some n) = .ok true) ∧
    (∀ call c1 h1, h.node (some n) = some (.callStmt call) →
      Value.clone f h call = .ok (c1, h1) → Value.isEqualTo f h1 c1 call = .ok true →
      ∃ c h', Value.clone (f + 1) h (some n) = .ok (c, h') ∧
        Value.isEqualTo (f + 1) h' c (some n) = .ok true) ∧
    (∀ init d cond step body ci cc cs cb h1 h2 h3 h4,
      h.node (some n) = some (.uforLoopStmt init d cond step body) →
      Value.clone f h init = .ok (ci, h1) → Value.isEqualTo f h1 ci init = .ok true →
      Value.clone f h1 cond = .ok (cc, h2) → Value.isEqualTo f h2 cc cond = .ok true →
      Value.clone f h2 step = .ok (cs, h3) → Value.isEqualTo f h3 cs step = .ok true →
      Statement.cloneStatements (fun h x => Value.clone f h x) f h3 body = .ok (cb, h4) →
      Value.isEqualTo f h4 cb body = .ok true →
      ∃ c h', Value.clone (f + 1) h (some n) = .ok (c, h') ∧
        Value.isEqualTo (f + 1) h' c (some n) = .ok true) :=
  ⟨fun op1 op2 c1 c2 h1 h2 hn hc1 he1 hc2 he2 =>
      eqOpExpr_clone_isEqualTo f h n op1 op2 c1 c2 h1 h2 hn hc1 he1 hc2 he2,
   fun op1 op2 c1 c2 h1 h2 hn hc1 he1 hc2 he2 =>
      orOpExpr_clone_isEqualTo f h n op1 op2 c1 c2 h1 h2 hn hc1 he1 hc2 he2,
   fun call c1 h1 hn hc1 he1 => callStmt_clone_isEqualTo f h n call c1 h1 hn hc1 he1,
   fun init d cond step body ci cc cs cb h1 h2 h3 h4 hn hc1 he1 hc2 he2 hc3 he3 hc4 he4 =>
      uForLoopStmt_clone_isEqualTo f h n init cond step body ci cc cs cb d h1 h2 h3 h4
        hn hc1 he1 hc2 he2 hc3 he3 hc4 he4⟩

/-- Witness of C4: the expressions `i == c` and `c || s`, the statement `x();`
and the loop `for (i; c; s) {}` are cloned and the clones `isEqualTo` them. -/
theorem clone_isEqualTo_original_witness :
    (∃ c h', Value.clone 3 exprHeap (some 5) = .ok (c, h') ∧
      Value.isEqualTo 3 h' c (some 5) = .ok true) ∧
    (∃ c h', Value.clone 3 exprHeap (some 6) = .ok (c, h') ∧
      Value.isEqualTo 3 h' c (some 6) = .ok true) ∧
    (∃ c h', Value.clone 3 callHeap (some 6) = .ok (c, h') ∧
      Value.isEqualTo 3 h' c (some 6) = .ok true) ∧
    (∃ c h', Value.clone 3 loopHeap (some 5) = .ok (c, h') ∧
      Value.isEqualTo 3 h' c (some 5) = .ok true) :=
  ⟨(clone_isEqualTo_original 2 exprHeap 5).1 (some 0) (some 1) _ _ _ _ rfl rfl rfl rfl rfl,
   (clone_isEqualTo_original 2 exprHeap 6).2.1 (some 1) (some 2) _ _ _ _ rfl rfl rfl rfl rfl,
   (clone_isEqualTo_original 2 callHeap 6).2.2.1 (some 5) _ _ rfl rfl rfl,
   (clone_isEqualTo_original 2 loopHeap 5).2.2.2 (some 0) false (some 1) (some 2) (some 3)
     _ _ _ _ _ _ _ _ rfl rfl rfl rfl rfl rfl rfl rfl rfl⟩

/-! ## Theorems: the observer invariant of a universal for-loop -/

/-- C2 fails when one expression occupies two slots: after
`create(i, i, s, EmptyStmt)` and `setInit(n)`, a state reachable with valid
arguments, `i` still occupies the `cond` slot but the loop is not registered as
an observer of `i`. -/
theorem observerInv_fails_on_shared_slot :
    UForLoopStmt.Reachable 5 sharedLoopAfter ∧
    UForLoopStmt.occupies sharedLoopAfter 5 0 = true ∧
    Subject.hasObserver sharedLoopAfter 0 5 = false ∧
    ¬ UForLoopStmt.ObserverInv sharedLoopAfter 5 := by
  refine ⟨?_, by decide, by decide, ?_⟩
  · have h1 : UForLoopStmt.Reachable 5 sharedLoop :=
      UForLoopStmt.ReachableVia.create leaves sharedLoop (some 0) (some 0) (some 2) (some 3) none 0
        (by decide) (by decide) (by decide) (by decide) (by decide) (by decide)
    exact UForLoopStmt.ReachableVia.step h1 trivial
      (UForLoopStmt.Step.setInit 4 (by decide) (by decide))
  · intro hinv
    have := (hinv 0).2 (by decide)
    exact absurd this (by decide)

theorem Subject.hasObserver_update_same (h : Heap) (a : Nat) (f : Cell → Cell)
    (hf : ∀ c, (f c).observers = c.observers) (v o : Nat) :
    Subject.hasObserver (h.update a f) v o = Subject.hasObserver h v o := by
  simp only [Subject.hasObserver, Heap.getElem?_update]
  by_cases hav : a = v
  · simp only [hav, if_true]
    cases h[v]? <;> simp [hf]
  · simp [hav]

theorem Subject.hasObserver_addObserver {h h' : Heap} {a o : Nat}
    (hp : Subject.addObserver h (some a) o = .ok h') (v o' : Nat) :
    Subject.hasObserver h' v o' = true ↔
      (v = a ∧ o' = o) ∨ Subject.hasObserver h v o' = true := by
  simp only [Subject.addObserver] at hp
  split at hp
  · rename_i ha
    cases hp
    simp only [Subject.hasObserver, Heap.getElem?_update]
    by_cases hav : a = v
    · subst hav
      simp only [if_true, List.getElem?_eq_getElem ha, Option.map_some']
      by_cases hmem : o ∈ (h[a]).observers
      · simp only [Cell.addObserver, hmem, if_true, decide_eq_true_eq, true_and]
        constructor
        · exact fun hx => Or.inr hx
        · rintro (rfl | hx)
          · exact hmem
          · exact hx
      · simp only [Cell.addObserver, hmem, if_false, decide_eq_true_eq, true_and,
          List.mem_append, List.mem_singleton]
        constructor
        · rintro (hx | hx)
          · exact Or.inr hx
          · exact Or.inl hx
        · rintro (hx | hx)
          · exact Or.inr hx
          · exact Or.inl hx
    · have hva : ¬ v = a := fun e => hav e.symm
      simp [hav, hva]
  · cases hp

theorem Subject.hasObserver_removeObserver {h h' : Heap} {a o : Nat}
    (hp : Subject.removeObserver h (some a) o = .ok h') (v o' : Nat) :
    Subject.hasObserver h' v o' = true ↔
      ¬ (v = a ∧ o' = o) ∧ Subject.hasObserver h v o' = true := by
  simp only [Subject.removeObserver] at hp
  split at hp
  · rename_i ha
    cases hp
    simp only [Subject.hasObserver, Heap.getElem?_update]
    by_cases hav : a = v
    · subst hav
      simp only [if_true, List.getElem?_eq_getElem ha, Option.map_some', Cell.removeObserver,
        decide_eq_true_eq, List.mem_filter, true_and, not_and_self_iff]
      constructor
      · rintro ⟨hx, hy⟩
        exact ⟨by simpa using hy, hx⟩
      · rintro ⟨hx, hy⟩
        exact ⟨hy, by simpa using hx⟩
    · have hva : ¬ v = a := fun e => hav e.symm
      simp [hav, hva]
  · cases hp

theorem Subject.addObserver_lt {h h' : Heap} {a o : Nat}
    (hp : Subject.addObserver h (some a) o = .ok h') : a < h.length := by
  simp only [Subject.addObserver] at hp
  split at hp
  · assumption
  · cases hp

theorem Subject.removeObserver_some {h h' : Heap} {p : Ptr} {o : Nat}
    (hp : Subject.removeObserver h p o = .ok h') : ∃ a, p = some a ∧ a < h.length := by
  cases p with
  | none => simp [Subject.removeObserver] at hp
  | some a =>
    simp only [Subject.removeObserver] at hp
    split at hp
    · exact ⟨a, rfl, by assumption⟩
    · cases hp

/-- The effect of a setter: the observer edge of the receiver `recv` is moved
from the old value `old` to the new value `e`, and the node of `recv` is
rewritten by `g`. -/
theorem rewire_spec (g : Node → Node) (h h' : Heap) (recv e : Nat) (old : Ptr)
    (hset : ((Subject.removeObserver h old recv).bind fun h1 =>
      (Subject.addObserver h1 (some e) recv).bind fun h2 =>
        .ok (h2.update recv fun c => { c with node := g c.node })) = .ok h') :
    ∃ iv, old = some iv ∧ iv < h.length ∧ e < h.length ∧ h'.length = h.length ∧
      (∀ a, h'.node (some a) =
        if a = recv then (h.node (some a)).map g else h.node (some a)) ∧
      (∀ v o, Subject.hasObserver h' v o = true ↔
        (v = e ∧ o = recv) ∨ (¬ (v = iv ∧ o = recv) ∧ Subject.hasObserver h v o = true)) := by
  obtain ⟨h1, e1, hset⟩ := bind_eq_ok hset
  obtain ⟨h2, e2, hset⟩ := bind_eq_ok hset
  cases hset
  obtain ⟨iv, rfl, hiv⟩ := Subject.removeObserver_some e1
  have s1 := Subject.removeObserver_sameNodes e1
  have s2 := Subject.addObserver_sameNodes e2
  have he := Subject.addObserver_lt e2
  refine ⟨iv, rfl, hiv, by rw [← s1.1]; exact he, ?_, ?_, ?_⟩
  · rw [Heap.length_update, s2.1, s1.1]
  · intro a
    have hnode : h2.node (some a) = h.node (some a) := by rw [s2.2, s1.2]
    simp only [Heap.node, Heap.getElem?_update] at hnode ⊢
    by_cases har : a = recv
    · subst har
      simp only [if_true]
      rw [← hnode]
      cases h2[a]? <;> simp
    · have hra : ¬ recv = a := fun x => har x.symm
      simp only [har, hra, if_false]
      exact hnode
  · intro v o
    have hu := Subject.hasObserver_update_same h2 recv
      (fun c => { c with node := g c.node }) (fun _ => rfl) v o
    rw [hu, Subject.hasObserver_addObserver e2, Subject.hasObserver_removeObserver e1]

theorem UForLoopStmt.SameView.view_refl (this : Nat) (h : Heap) :
    UForLoopStmt.SameView this h h := ⟨rfl, fun _ => rfl⟩

theorem UForLoopStmt.SameView.view_trans {this : Nat} {h1 h2 h3 : Heap}
    (h12 : UForLoopStmt.SameView this h1 h2) (h23 : UForLoopStmt.SameView this h2 h3) :
    UForLoopStmt.SameView this h1 h3 :=
  ⟨h23.1.trans h12.1, fun v => (h23.2 v).trans (h12.2 v)⟩

theorem rewire_sameView (g : Node → Node) (h h' : Heap) (this recv e : Nat) (old : Ptr)
    (hne : recv ≠ this)
    (hset : ((Subject.removeObserver h old recv).bind fun h1 =>
      (Subject.addObserver h1 (some e) recv).bind fun h2 =>
        .ok (h2.update recv fun c => { c with node := g c.node })) = .ok h') :
    UForLoopStmt.SameView this h h' := by
  obtain ⟨iv, _, _, _, _, hnode, hobs⟩ := rewire_spec g h h' recv e old hset
  have htr : ¬ this = recv := fun x => hne x.symm
  refine ⟨?_, fun v => ?_⟩
  · rw [hnode, if_neg htr]
  · rw [Bool.eq_iff_iff, hobs]
    simp [htr]

theorem BinaryOpExpr.setFirstOperand_sameView {h h' : Heap} {this x : Nat} {first : Ptr}
    (hne : x ≠ this) (hs : BinaryOpExpr.setFirstOperand h x first = .ok h') :
    UForLoopStmt.SameView this h h' := by
  cases first with
  | none => simp [BinaryOpExpr.setFirstOperand] at hs
  | some e =>
    simp only [BinaryOpExpr.setFirstOperand] at hs
    obtain ⟨⟨op1, op2⟩, _, hs⟩ := bind_eq_ok hs
    exact rewire_sameView _ h h' this x e op1 hne hs

theorem BinaryOpExpr.setSecondOperand_sameView {h h' : Heap} {this x : Nat} {second : Ptr}
    (hne : x ≠ this) (hs : BinaryOpExpr.setSecondOperand h x second = .ok h') :
    UForLoopStmt.SameView this h h' := by
  cases second with
  | none => simp [BinaryOpExpr.setSecondOperand] at hs
  | some e =>
    simp only [BinaryOpExpr.setSecondOperand] at hs
    obtain ⟨⟨op1, op2⟩, _, hs⟩ := bind_eq_ok hs
    exact rewire_sameView _ h h' this x e op2 hne hs

theorem Other.setOperand_sameView {h h' : Heap} {this x i : Nat} {newOp : Ptr}
    (hne : x ≠ this) (hs : Other.setOperand h x i newOp = .ok h') :
    UForLoopStmt.SameView this h h' := by
  cases newOp with
  | none => simp [Other.setOperand] at hs
  | some e =>
    simp only [Other.setOperand] at hs
    cases hf : Other.fields h (some x) with
    | none => simp [hf] at hs
    | some y =>
      obtain ⟨cls, d, ops⟩ := y
      simp only [hf] at hs
      exact rewire_sameView _ h h' this x e _ hne hs

theorem binaryOpExpr_replace_frame (v : Heap → Ptr → Ptr → Ptr → Except Err Heap)
    (this : Nat) (nd : Node)
    (hv : ∀ g p o n g', g.node (some this) = some nd → v g p o n = .ok g' →
      UForLoopStmt.SameView this g g')
    (h h' : Heap) (x : Nat) (oldExpr newExpr : Ptr) (hne : x ≠ this)
    (hnd : h.node (some this) = some nd)
    (hr : BinaryOpExpr.replace v h x oldExpr newExpr = .ok h') :
    UForLoopStmt.SameView this h h' := by
  unfold BinaryOpExpr.replace at hr
  obtain ⟨⟨op1, q1⟩, _, hr⟩ := bind_eq_ok hr
  obtain ⟨h1, e1, hr⟩ := bind_eq_ok hr
  obtain ⟨⟨q2, op2⟩, _, hr⟩ := bind_eq_ok hr
  dsimp only at e1 hr
  have v1 : UForLoopStmt.SameView this h h1 := by
    by_cases c1 : oldExpr = op1
    · rw [if_pos c1] at e1
      exact BinaryOpExpr.setFirstOperand_sameView hne e1
    · rw [if_neg c1] at e1
      by_cases c2 : op1.isSome = true
      · rw [if_pos c2] at e1
        exact hv _ _ _ _ _ hnd e1
      · rw [if_neg c2] at e1
        cases e1
        exact UForLoopStmt.SameView.view_refl this _
  have hnd1 : h1.node (some this) = some nd := by rw [v1.1]; exact hnd
  have v2 : UForLoopStmt.SameView this h1 h' := by
    by_cases c1 : oldExpr = op2
    · rw [if_pos c1] at hr
      exact BinaryOpExpr.setSecondOperand_sameView hne hr
    · rw [if_neg c1] at hr
      by_cases c2 : op2.isSome = true
      · rw [if_pos c2] at hr
        exact hv _ _ _ _ _ hnd1 hr
      · rw [if_neg c2] at hr
        cases hr
        exact UForLoopStmt.SameView.view_refl this _
  exact v1.view_trans v2

theorem Other.replaceFrom_frame (v : Heap → Ptr → Ptr → Ptr → Except Err Heap)
    (this : Nat) (nd : Node)
    (hv : ∀ g p o n g', g.node (some this) = some nd → v g p o n = .ok g' →
      UForLoopStmt.SameView this g g')
    (x : Nat) (oldExpr newExpr : Ptr) (hne : x ≠ this) (ops : List Ptr) (i : Nat)
    (h h' : Heap) (hnd : h.node (some this) = some nd)
    (hr : Other.replaceFrom v x oldExpr newExpr ops i h = .ok h') :
    UForLoopStmt.SameView this h h' := by
  induction ops generalizing i h with
  | nil =>
    simp only [Other.replaceFrom] at hr
    cases hr
    exact UForLoopStmt.SameView.view_refl this _
  | cons op ops ih =>
    simp only [Other.replaceFrom] at hr
    obtain ⟨h1, e1, hr⟩ := bind_eq_ok hr
    have v1 : UForLoopStmt.SameView this h h1 := by
      by_cases c1 : oldExpr = op
      · rw [if_pos c1] at e1
        exact Other.setOperand_sameView hne e1
      · rw [if_neg c1] at e1
        by_cases c2 : op.isSome = true
        · rw [if_pos c2] at e1
          exact hv _ _ _ _ _ hnd e1
        · rw [if_neg c2] at e1
          cases e1
          exact UForLoopStmt.SameView.view_refl this _
    have hnd1 : h1.node (some this) = some nd := by rw [v1.1]; exact hnd
    exact v1.view_trans (ih (i + 1) h1 hnd1 hr)

theorem expression_replace_frame (this : Nat) (nd : Node) (hnexp : nd.isExpression = false)
    (fuel : Nat) (h h' : Heap) (p oldExpr newExpr : Ptr)
    (hnd : h.node (some this) = some nd)
    (hr : Expression.replace fuel h p oldExpr newExpr = .ok h') :
    UForLoopStmt.SameView this h h' := by
  induction fuel generalizing h h' p oldExpr newExpr with
  | zero => simp [Expression.replace] at hr
  | succ f ih =>
    cases p with
    | none => simp [Expression.replace] at hr
    | some x =>
      have hv : ∀ g p o n g', g.node (some this) = some nd →
          Expression.replace f g p o n = .ok g' → UForLoopStmt.SameView this g g' :=
        fun g p o n g' hg hx => ih g g' p o n hg hx
      cases hn : h.node (some x) with
      | none => simp [Expression.replace, hn] at hr
      | some n =>
        have hne : n.isExpression = true → x ≠ this := by
          intro hx heq
          subst heq
          rw [hn] at hnd
          cases hnd
          rw [hx] at hnexp
          cases hnexp
        cases n with
        | eqOpExpr a b =>
          simp only [Expression.replace, hn] at hr
          exact binaryOpExpr_replace_frame _ this nd hv h h' x _ _ (hne rfl) hnd hr
        | orOpExpr a b =>
          simp only [Expression.replace, hn] at hr
          exact binaryOpExpr_replace_frame _ this nd hv h h' x _ _ (hne rfl) hnd hr
        | callStmt a => simp [Expression.replace, hn] at hr
        | uforLoopStmt a b c d e => simp [Expression.replace, hn] at hr
        | other cls d ops =>
          simp only [Expression.replace, hn] at hr
          by_cases hcls : cls.isExpression = true
          · simp only [hcls, if_true, Other.replace, Other.fields_eq_some.2 hn] at hr
            exact Other.replaceFrom_frame _ this nd hv x _ _ (hne hcls) ops 0 h h' hnd hr
          · simp [hcls] at hr

theorem mem_set_of_nodup (l : List Ptr) (k iv e : Nat)
    (hk : l[k]? = some (some iv)) (hd : (l.filter Option.isSome).Nodup) (v : Nat) :
    some v ∈ l.set k (some e) ↔ v = e ∨ (v ≠ iv ∧ some v ∈ l) := by
  induction l generalizing k with
  | nil => simp at hk
  | cons x xs ih =>
    cases k with
    | zero =>
      have hx : x = some iv := by simpa using hk
      subst hx
      have hnot : some iv ∉ xs := by
        rw [List.filter_cons_of_pos (by rfl), List.nodup_cons] at hd
        intro hmem
        exact hd.1 (List.mem_filter.2 ⟨hmem, rfl⟩)
      simp only [List.set_cons_zero, List.mem_cons, Option.some.injEq]
      constructor
      · rintro (hv | hv)
        · exact Or.inl hv
        · exact Or.inr ⟨fun hvi => hnot (hvi ▸ hv), Or.inr hv⟩
      · rintro (hv | ⟨h1, h2 | h2⟩)
        · exact Or.inl hv
        · exact absurd h2 h1
        · exact Or.inr h2
    | succ k =>
      have hk' : xs[k]? = some (some iv) := by simpa using hk
      have hmemiv : some iv ∈ xs := List.getElem?_mem hk'
      have hd' : (xs.filter Option.isSome).Nodup ∧ x ≠ some iv := by
        cases x with
        | none =>
          refine ⟨?_, by simp⟩
          simpa using hd
        | some y =>
          rw [List.filter_cons_of_pos (by rfl), List.nodup_cons] at hd
          refine ⟨hd.2, ?_⟩
          intro hy
          apply hd.1
          rw [hy]
          exact List.mem_filter.2 ⟨hmemiv, rfl⟩
      simp only [List.set_cons_succ, List.mem_cons]
      rw [ih k hk' hd'.1]
      constructor
      · rintro (hv | hv | ⟨h1, h2⟩)
        · exact Or.inr ⟨fun hvi => hd'.2 (by rw [← hv, hvi]), Or.inl hv⟩
        · exact Or.inl hv
        · exact Or.inr ⟨h1, Or.inr h2⟩
      · rintro (hv | ⟨h1, h2 | h2⟩)
        · exact Or.inr (Or.inl hv)
        · exact Or.inl h2
        · exact Or.inr (Or.inr ⟨h1, h2⟩)

theorem UForLoopStmt.SameView.slots_eq {this : Nat} {h h' : Heap}
    (hv : UForLoopStmt.SameView this h h') :
    UForLoopStmt.slots h' this = UForLoopStmt.slots h this := by
  simp only [UForLoopStmt.slots, hv.1]

theorem UForLoopStmt.SameView.observerInv {this : Nat} {h h' : Heap}
    (hv : UForLoopStmt.SameView this h h') (hinv : UForLoopStmt.ObserverInv h this) :
    UForLoopStmt.ObserverInv h' this := by
  intro v
  rw [hv.2 v, UForLoopStmt.occupies, hv.slots_eq]
  exact hinv v

theorem UForLoopStmt.SameView.distinct {this : Nat} {h h' : Heap}
    (hv : UForLoopStmt.SameView this h h') (hd : UForLoopStmt.slotsDistinct h this = true) :
    UForLoopStmt.slotsDistinct h' this = true := by
  rw [UForLoopStmt.slotsDistinct, hv.slots_eq]
  exact hd

/-- A setter of slot `k` keeps the observer invariant when it starts in a state
in which no value occupies two slots. -/
theorem setter_observerInv (h h' : Heap) (this k iv e : Nat)
    (hinv : UForLoopStmt.ObserverInv h this)
    (hd : UForLoopStmt.slotsDistinct h this = true)
    (hk : (UForLoopStmt.slots h this)[k]? = some (some iv))
    (hslots : UForLoopStmt.slots h' this = (UForLoopStmt.slots h this).set k (some e))
    (hobs : ∀ v, Subject.hasObserver h' v this = true ↔
      v = e ∨ (v ≠ iv ∧ Subject.hasObserver h v this = true)) :
    UForLoopStmt.ObserverInv h' this := by
  intro v
  have hd' : ((UForLoopStmt.slots h this).filter Option.isSome).Nodup := by
    simpa [UForLoopStmt.slotsDistinct] using hd
  rw [hobs v, UForLoopStmt.occupies, hslots, decide_eq_true_eq,
    mem_set_of_nodup _ k iv e hk hd' v, hinv v, UForLoopStmt.occupies, decide_eq_true_eq]

theorem UForLoopStmt.getInit_eq_ok {h : Heap} {this : Nat} {init : Ptr}
    (hg : UForLoopStmt.getInit h this = .ok init) :
    ∃ d c s b, h.node (some this) = some (.uforLoopStmt init d c s b) := by
  unfold UForLoopStmt.getInit at hg
  split at hg
  · cases hg
    exact ⟨_, _, _, _, by assumption⟩
  · cases hg

theorem UForLoopStmt.getCond_eq_ok {h : Heap} {this : Nat} {cond : Ptr}
    (hg : UForLoopStmt.getCond h this = .ok cond) :
    ∃ i d s b, h.node (some this) = some (.uforLoopStmt i d cond s b) := by
  unfold UForLoopStmt.getCond at hg
  split at hg
  · cases hg
    exact ⟨_, _, _, _, by assumption⟩
  · cases hg

theorem UForLoopStmt.getStep_eq_ok {h : Heap} {this : Nat} {step : Ptr}
    (hg : UForLoopStmt.getStep h this = .ok step) :
    ∃ i d c b, h.node (some this) = some (.uforLoopStmt i d c step b) := by
  unfold UForLoopStmt.getStep at hg
  split at hg
  · cases hg
    exact ⟨_, _, _, _, by assumption⟩
  · cases hg

theorem UForLoopStmt.getBody_eq_ok {h : Heap} {this : Nat} {body : Ptr}
    (hg : UForLoopStmt.getBody h this = .ok body) :
    ∃ i d c s, h.node (some this) = some (.uforLoopStmt i d c s body) := by
  unfold UForLoopStmt.getBody at hg
  split at hg
  · cases hg
    exact ⟨_, _, _, _, by assumption⟩
  · cases hg

theorem UForLoopStmt.setInit_spec {h h' : Heap} {this e : Nat}
    (hs : UForLoopStmt.setInit h this (some e) = .ok h') :
    ∃ iv d c s b, h.node (some this) = some (.uforLoopStmt (some iv) d c s b) ∧
      h'.node (some this) = some (.uforLoopStmt (some e) d c s b) ∧
      ∀ v, Subject.hasObserver h' v this = true ↔
        v = e ∨ (v ≠ iv ∧ Subject.hasObserver h v this = true) := by
  simp only [UForLoopStmt.setInit] at hs
  obtain ⟨init, hg, hs⟩ := bind_eq_ok hs
  obtain ⟨d, c, s, b, hn⟩ := UForLoopStmt.getInit_eq_ok hg
  obtain ⟨iv, rfl, _, _, _, hnode, hobs⟩ := rewire_spec _ h h' this e init hs
  refine ⟨iv, d, c, s, b, hn, ?_, fun v => ?_⟩
  · rw [hnode, if_pos rfl, hn]; rfl
  · rw [hobs]; simp

theorem UForLoopStmt.setCond_spec {h h' : Heap} {this e : Nat}
    (hs : UForLoopStmt.setCond h this (some e) = .ok h') :
    ∃ i d cv s b, h.node (some this) = some (.uforLoopStmt i d (some cv) s b) ∧
      h'.node (some this) = some (.uforLoopStmt i d (some e) s b) ∧
      ∀ v, Subject.hasObserver h' v this = true ↔
        v = e ∨ (v ≠ cv ∧ Subject.hasObserver h v this = true) := by
  simp only [UForLoopStmt.setCond] at hs
  obtain ⟨cond, hg, hs⟩ := bind_eq_ok hs
  obtain ⟨i, d, s, b, hn⟩ := UForLoopStmt.getCond_eq_ok hg
  obtain ⟨cv, rfl, _, _, _, hnode, hobs⟩ := rewire_spec _ h h' this e cond hs
  refine ⟨i, d, cv, s, b, hn, ?_, fun v => ?_⟩
  · rw [hnode, if_pos rfl, hn]; rfl
  · rw [hobs]; simp

theorem UForLoopStmt.setStep_spec {h h' : Heap} {this e : Nat}
    (hs : UForLoopStmt.setStep h this (some e) = .ok h') :
    ∃ i d c sv b, h.node (some this) = some (.uforLoopStmt i d c (some sv) b) ∧
      h'.node (some this) = some (.uforLoopStmt i d c (some e) b) ∧
      ∀ v, Subject.hasObserver h' v this = true ↔
        v = e ∨ (v ≠ sv ∧ Subject.hasObserver h v this = true) := by
  simp only [UForLoopStmt.setStep] at hs
  obtain ⟨step, hg, hs⟩ := bind_eq_ok hs
  obtain ⟨i, d, c, b, hn⟩ := UForLoopStmt.getStep_eq_ok hg
  obtain ⟨sv, rfl, _, _, _, hnode, hobs⟩ := rewire_spec _ h h' this e step hs
  refine ⟨i, d, c, sv, b, hn, ?_, fun v => ?_⟩
  · rw [hnode, if_pos rfl, hn]; rfl
  · rw [hobs]; simp

theorem UForLoopStmt.setBody_spec {h h' : Heap} {this e : Nat}
    (hs : UForLoopStmt.setBody h this (some e) = .ok h') :
    ∃ i d c s bv, h.node (some this) = some (.uforLoopStmt i d c s (some bv)) ∧
      h'.node (some this) = some (.uforLoopStmt i d c s (some e)) ∧
      ∀ v, Subject.hasObserver h' v this = true ↔
        v = e ∨ (v ≠ bv ∧ Subject.hasObserver h v this = true) := by
  simp only [UForLoopStmt.setBody] at hs
  obtain ⟨body, hg, hs⟩ := bind_eq_ok hs
  obtain ⟨i, d, c, s, hn⟩ := UForLoopStmt.getBody_eq_ok hg
  obtain ⟨bv, rfl, _, _, _, hnode, hobs⟩ := rewire_spec _ h h' this e body hs
  refine ⟨i, d, c, s, bv, hn, ?_, fun v => ?_⟩
  · rw [hnode, if_pos rfl, hn]; rfl
  · rw [hobs]; simp

theorem UForLoopStmt.setInit_observerInv {h h' : Heap} {this e : Nat}
    (hinv : UForLoopStmt.ObserverInv h this) (hd : UForLoopStmt.slotsDistinct h this = true)
    (hs : UForLoopStmt.setInit h this (some e) = .ok h') :
    UForLoopStmt.ObserverInv h' this := by
  obtain ⟨iv, d, c, s, b, hn, hn', hobs⟩ := UForLoopStmt.setInit_spec hs
  exact setter_observerInv h h' this 0 iv e hinv hd (by simp [UForLoopStmt.slots, hn])
    (by simp [UForLoopStmt.slots, hn, hn']) hobs

theorem UForLoopStmt.setCond_observerInv {h h' : Heap} {this e : Nat}
    (hinv : UForLoopStmt.ObserverInv h this) (hd : UForLoopStmt.slotsDistinct h this = true)
    (hs : UForLoopStmt.setCond h this (some e) = .ok h') :
    UForLoopStmt.ObserverInv h' this := by
  obtain ⟨i, d, cv, s, b, hn, hn', hobs⟩ := UForLoopStmt.setCond_spec hs
  exact setter_observerInv h h' this 1 cv e hinv hd (by simp [UForLoopStmt.slots, hn])
    (by simp [UForLoopStmt.slots, hn, hn']) hobs

theorem UForLoopStmt.setStep_observerInv {h h' : Heap} {this e : Nat}
    (hinv : UForLoopStmt.ObserverInv h this) (hd : UForLoopStmt.slotsDistinct h this = true)
    (hs : UForLoopStmt.setStep h this (some e) = .ok h') :
    UForLoopStmt.ObserverInv h' this := by
  obtain ⟨i, d, c, sv, b, hn, hn', hobs⟩ := UForLoopStmt.setStep_spec hs
  exact setter_observerInv h h' this 2 sv e hinv hd (by simp [UForLoopStmt.slots, hn])
    (by simp [UForLoopStmt.slots, hn, hn']) hobs

theorem UForLoopStmt.setBody_observerInv {h h' : Heap} {this e : Nat}
    (hinv : UForLoopStmt.ObserverInv h this) (hd : UForLoopStmt.slotsDistinct h this = true)
    (hs : UForLoopStmt.setBody h this (some e) = .ok h') :
    UForLoopStmt.ObserverInv h' this := by
  obtain ⟨i, d, c, s, bv, hn, hn', hobs⟩ := UForLoopStmt.setBody_spec hs
  exact setter_observerInv h h' this 3 bv e hinv hd (by simp [UForLoopStmt.slots, hn])
    (by simp [UForLoopStmt.slots, hn, hn']) hobs

theorem Statement.setSuccessor_hasObserver {h h' : Heap} {a : Nat} {s : Ptr}
    (hp : Statement.setSuccessor h a s = .ok h') (v o : Nat) :
    Subject.hasObserver h' v o = Subject.hasObserver h v o := by
  simp only [Statement.setSuccessor] at hp
  split at hp
  · cases hp
    exact Subject.hasObserver_update_same h a (fun c => { c with succ := s }) (fun _ => rfl) v o
  · cases hp

theorem Subject.hasObserver_alloc_fresh (h0 : Heap) (nd : Node) (a v : Nat)
    (hal : h0.observersAllocated = true) :
    Subject.hasObserver (h0 ++ [Cell.fresh nd a]) v h0.length = false := by
  simp only [Subject.hasObserver, Heap.getElem?_alloc]
  by_cases hv : v < h0.length
  · simp only [hv, if_true]
    cases hc : h0[v]? with
    | none => rfl
    | some c =>
      simp only [decide_eq_false_iff_not]
      intro hmem
      have hall := List.all_eq_true.1 hal c (List.getElem?_mem hc)
      have := List.all_eq_true.1 hall _ hmem
      simp at this
  · by_cases hv2 : v = h0.length
    · simp [hv2, Cell.fresh]
    · simp [hv, hv2]

theorem Subject.hasObserver_addObserver_if {h h' : Heap} {p : Ptr} {o : Nat}
    (hp : (if p.isSome then Subject.addObserver h p o else .ok h) = .ok h') (v : Nat) :
    Subject.hasObserver h' v o = true ↔ some v = p ∨ Subject.hasObserver h v o = true := by
  cases p with
  | none =>
    simp only [Option.isSome_none, Bool.false_eq_true, if_false] at hp
    cases hp
    simp
  | some a =>
    simp only [Option.isSome_some, if_true] at hp
    rw [Subject.hasObserver_addObserver hp]
    simp

theorem UForLoopStmt.create_observerInv {h0 h : Heap} {init cond step body succ : Ptr}
    {a this : Nat} (hal : h0.observersAllocated = true)
    (hc : UForLoopStmt.create h0 init cond step body succ a = .ok (this, h)) :
    UForLoopStmt.ObserverInv h this := by
  obtain ⟨hthis, hnode, _⟩ := uForLoopStmt_create_spec hc
  cases body with
  | none => simp [UForLoopStmt.create] at hc
  | some bx =>
    simp only [UForLoopStmt.create, UForLoopStmt.new, Heap.alloc] at hc
    obtain ⟨g1, e1, hc⟩ := bind_eq_ok hc
    obtain ⟨g2, e2, hc⟩ := bind_eq_ok hc
    obtain ⟨g3, e3, hc⟩ := bind_eq_ok hc
    obtain ⟨g4, e4, hc⟩ := bind_eq_ok hc
    obtain ⟨g5, e5, hc⟩ := bind_eq_ok hc
    cases hc
    intro v
    have o1 : Subject.hasObserver g1 v h0.length = false := by
      rw [Statement.setSuccessor_hasObserver e1]
      exact Subject.hasObserver_alloc_fresh h0 _ a v hal
    have e5' : (if (some bx : Ptr).isSome then Subject.addObserver g4 (some bx) h0.length
        else .ok g4) = .ok h := by
      simpa using e5
    rw [Subject.hasObserver_addObserver_if e5', Subject.hasObserver_addObserver_if e4,
      Subject.hasObserver_addObserver_if e3, Subject.hasObserver_addObserver_if e2, o1]
    simp only [UForLoopStmt.occupies, UForLoopStmt.slots, hnode, decide_eq_true_eq,
      List.mem_cons, List.mem_singleton, List.not_mem_nil, or_false, Bool.false_eq_true]
    constructor
    · rintro (hx | hx | hx | hx)
      · exact Or.inr (Or.inr (Or.inr hx))
      · exact Or.inr (Or.inr (Or.inl hx))
      · exact Or.inr (Or.inl hx)
      · exact Or.inl hx
    · rintro (hx | hx | hx | hx)
      · exact Or.inr (Or.inr (Or.inr hx))
      · exact Or.inr (Or.inr (Or.inl hx))
      · exact Or.inr (Or.inl hx)
      · exact Or.inl hx

theorem cast_isSome {isT : Node → Bool} {h : Heap} {p : Ptr}
    (hc : (cast isT h p).isSome = true) : ∃ x, cast isT h p = some x := by
  cases hx : cast isT h p with
  | none => simp [hx] at hc
  | some x => exact ⟨x, rfl⟩

theorem UForLoopStmt.update_observerInv {h h' : Heap} {this subject : Nat} {arg : Ptr}
    (hinv : UForLoopStmt.ObserverInv h this) (hd : UForLoopStmt.slotsDistinct h this = true)
    (hu : UForLoopStmt.update h this (some subject) arg = .ok h') :
    UForLoopStmt.ObserverInv h' this := by
  simp only [UForLoopStmt.update] at hu
  obtain ⟨body, _, hu⟩ := bind_eq_ok hu
  by_cases c1 : some subject = body ∧ (cast Node.isStatement h arg).isSome = true
  · rw [if_pos c1] at hu
    obtain ⟨x, hx⟩ := cast_isSome c1.2
    rw [hx] at hu
    exact UForLoopStmt.setBody_observerInv hinv hd hu
  · rw [if_neg c1] at hu
    by_cases c2 : (cast Node.isExpression h arg).isSome = false
    · rw [if_pos c2] at hu
      cases hu
      exact hinv
    · rw [if_neg c2] at hu
      have c2' : (cast Node.isExpression h arg).isSome = true := by
        cases hq : (cast Node.isExpression h arg).isSome
        · exact absurd hq c2
        · rfl
      obtain ⟨x, hx⟩ := cast_isSome c2'
      rw [hx] at hu
      obtain ⟨init, _, hu⟩ := bind_eq_ok hu
      obtain ⟨cond, _, hu⟩ := bind_eq_ok hu
      obtain ⟨step, _, hu⟩ := bind_eq_ok hu
      by_cases d1 : some subject = init
      · rw [if_pos d1] at hu
        exact UForLoopStmt.setInit_observerInv hinv hd hu
      · rw [if_neg d1] at hu
        by_cases d2 : some subject = cond
        · rw [if_pos d2] at hu
          exact UForLoopStmt.setCond_observerInv hinv hd hu
        · rw [if_neg d2] at hu
          by_cases d3 : some subject = step
          · rw [if_pos d3] at hu
            exact UForLoopStmt.setStep_observerInv hinv hd hu
          · rw [if_neg d3] at hu
            cases hu
            exact hinv

theorem UForLoopStmt.slotsDistinct_ne {h : Heap} {this : Nat} {i c s b : Ptr} {d : Bool}
    (hn : h.node (some this) = some (.uforLoopStmt i d c s b))
    (hd : UForLoopStmt.slotsDistinct h this = true) :
    (∀ x, i = some x → c ≠ some x ∧ s ≠ some x) ∧ (∀ x, c = some x → s ≠ some x) := by
  have hd' : ([i, c, s, b].filter Option.isSome).Nodup := by
    simpa [UForLoopStmt.slotsDistinct, UForLoopStmt.slots, hn] using hd
  refine ⟨?_, ?_⟩
  · rintro x rfl
    rw [List.filter_cons_of_pos (by rfl), List.nodup_cons] at hd'
    refine ⟨?_, ?_⟩
    · rintro rfl
      exact hd'.1 (List.mem_filter.2 ⟨by simp, rfl⟩)
    · rintro rfl
      exact hd'.1 (List.mem_filter.2 ⟨by simp, rfl⟩)
  · rintro x rfl rfl
    cases i with
    | none =>
      rw [List.filter_cons_of_neg (by simp), List.filter_cons_of_pos (by rfl),
        List.nodup_cons] at hd'
      exact hd'.1 (List.mem_filter.2 ⟨by simp, rfl⟩)
    | some y =>
      rw [List.filter_cons_of_pos (by rfl), List.nodup_cons,
        List.filter_cons_of_pos (by rfl), List.nodup_cons] at hd'
      exact hd'.2.1 (List.mem_filter.2 ⟨by simp, rfl⟩)

theorem UForLoopStmt.retained_sameView {g g' : Heap} {this fuel : Nat} {p o n : Ptr}
    {i c s b : Ptr} {d : Bool}
    (hn : g.node (some this) = some (.uforLoopStmt i d c s b))
    (hr : (if p.isSome then Expression.replace fuel g p o n else .ok g) = .ok g') :
    UForLoopStmt.SameView this g g' := by
  by_cases hp : p.isSome = true
  · rw [if_pos hp] at hr
    exact expression_replace_frame this (.uforLoopStmt i d c s b) rfl fuel g g' p o n hn hr
  · rw [if_neg hp] at hr
    cases hr
    exact UForLoopStmt.SameView.view_refl this _

theorem UForLoopStmt.getCond_of_node {h : Heap} {this : Nat} {i c s b : Ptr} {d : Bool}
    (hn : h.node (some this) = some (.uforLoopStmt i d c s b)) :
    UForLoopStmt.getCond h this = .ok c := by
  simp [UForLoopStmt.getCond, hn]

theorem UForLoopStmt.getStep_of_node {h : Heap} {this : Nat} {i c s b : Ptr} {d : Bool}
    (hn : h.node (some this) = some (.uforLoopStmt i d c s b)) :
    UForLoopStmt.getStep h this = .ok s := by
  simp [UForLoopStmt.getStep, hn]

theorem UForLoopStmt.replace_observerInv {h h' : Heap} {this newExpr fuel : Nat}
    {oldExpr : Ptr}
    (hinv : UForLoopStmt.ObserverInv h this) (hd : UForLoopStmt.slotsDistinct h this = true)
    (hr : UForLoopStmt.replace (Expression.replace fuel) h this oldExpr (some newExpr) =
      .ok h') :
    UForLoopStmt.ObserverInv h' this := by
  unfold UForLoopStmt.replace at hr
  obtain ⟨i, hgi, hr⟩ := bind_eq_ok hr
  obtain ⟨h1, e1, hr⟩ := bind_eq_ok hr
  obtain ⟨c1, hgc, hr⟩ := bind_eq_ok hr
  obtain ⟨h2, e2, hr⟩ := bind_eq_ok hr
  obtain ⟨s2, hgs, hr⟩ := bind_eq_ok hr
  obtain ⟨d, c, s, b, hn⟩ := UForLoopStmt.getInit_eq_ok hgi
  obtain ⟨D1, D2⟩ := UForLoopStmt.slotsDistinct_ne hn hd
  by_cases a1 : oldExpr = i
  · -- the init part is substituted; the other two parts are retained
    rw [if_pos a1] at e1
    obtain ⟨iv, d', c', s', b', hn0, hn1, _⟩ := UForLoopStmt.setInit_spec e1
    have hi : i = some iv := by
      rw [hn] at hn0
      injection hn0 with hn0
      injection hn0
    have hn1' : h1.node (some this) = some (.uforLoopStmt (some newExpr) d c s b) := by
      rw [hn] at hn0
      injection hn0 with hn0
      injection hn0 with _ x1 x2 x3 x4
      rw [hn1, x1, x2, x3, x4]
    have inv1 := UForLoopStmt.setInit_observerInv hinv hd e1
    have hcc : c1 = c := by
      rw [UForLoopStmt.getCond_of_node hn1'] at hgc
      exact (Except.ok.inj hgc).symm
    have a2 : ¬ oldExpr = c1 := by
      rw [a1, hcc]
      exact fun x => (D1 iv hi).1 (x.symm.trans hi)
    rw [if_neg a2] at e2
    have v2 := UForLoopStmt.retained_sameView hn1' e2
    have hn2 : h2.node (some this) = _ := v2.1.trans hn1'
    have hss : s2 = s := by
      rw [UForLoopStmt.getStep_of_node hn2] at hgs
      exact (Except.ok.inj hgs).symm
    have a3 : ¬ oldExpr = s2 := by
      rw [a1, hss]
      exact fun x => (D1 iv hi).2 (x.symm.trans hi)
    rw [if_neg a3] at hr
    exact (UForLoopStmt.retained_sameView hn2 hr).observerInv (v2.observerInv inv1)
  · rw [if_neg a1] at e1
    have v1 := UForLoopStmt.retained_sameView hn e1
    have hn1 : h1.node (some this) = _ := v1.1.trans hn
    have inv1 := v1.observerInv hinv
    have hd1 := v1.distinct hd
    have hcc : c1 = c := by
      rw [UForLoopStmt.getCond_of_node hn1] at hgc
      exact (Except.ok.inj hgc).symm
    by_cases a2 : oldExpr = c1
    · -- setCond(cond): the condition part is registered again
      rw [if_pos a2] at e2
      cases hcv : c1 with
      | none =>
        rw [hcv] at e2
        simp [UForLoopStmt.setCond] at e2
      | some cv =>
        rw [hcv] at e2
        obtain ⟨i', d', cv', s', b', hn1', hn2, _⟩ := UForLoopStmt.setCond_spec e2
        have inv2 := UForLoopStmt.setCond_observerInv inv1 hd1 e2
        have hn2' : h2.node (some this) = some (.uforLoopStmt i d (some cv) s b) := by
          rw [hn1] at hn1'
          injection hn1' with hn1'
          injection hn1' with x0 x1 _ x3 x4
          rw [hn2, x0, x1, x3, x4]
        have hss : s2 = s := by
          rw [UForLoopStmt.getStep_of_node hn2'] at hgs
          exact (Except.ok.inj hgs).symm
        have a3 : ¬ oldExpr = s2 := by
          rw [a2, hss, hcv]
          exact fun x => D2 cv (by rw [← hcc, hcv]) x.symm
        rw [if_neg a3] at hr
        exact (UForLoopStmt.retained_sameView hn2' hr).observerInv inv2
    · rw [if_neg a2] at e2
      have v2 := UForLoopStmt.retained_sameView hn1 e2
      have hn2 : h2.node (some this) = _ := v2.1.trans hn1
      have inv2 := v2.observerInv inv1
      have hd2 := v2.distinct hd1
      by_cases a3 : oldExpr = s2
      · rw [if_pos a3] at hr
        exact UForLoopStmt.setStep_observerInv inv2 hd2 hr
      · rw [if_neg a3] at hr
        exact (UForLoopStmt.retained_sameView hn2 hr).observerInv inv2

theorem UForLoopStmt.Step.preserves_observerInv {this : Nat} {h h' : Heap}
    (hinv : UForLoopStmt.ObserverInv h this) (hd : UForLoopStmt.slotsDistinct h this = true)
    (hstep : UForLoopStmt.Step this h h') : UForLoopStmt.ObserverInv h' this := by
  cases hstep with
  | setInit e _ hs => exact UForLoopStmt.setInit_observerInv hinv hd hs
  | setCond e _ hs => exact UForLoopStmt.setCond_observerInv hinv hd hs
  | setStep e _ hs => exact UForLoopStmt.setStep_observerInv hinv hd hs
  | setBody e _ hs => exact UForLoopStmt.setBody_observerInv hinv hd hs
  | replace fuel o n _ _ hs => exact UForLoopStmt.replace_observerInv hinv hd hs
  | update subject arg hs => exact UForLoopStmt.update_observerInv hinv hd hs

/-- C2, amended: in every state reachable from `UForLoopStmt::create` by
`setInit`, `setCond`, `setStep`, `setBody`, `replace` and `update` with valid
arguments, each of them called in a state in which no value occupies two of the
four slots, the loop is a registered observer of a value `v` if and only if `v`
occupies one of its `init`, `cond`, `step` or `body` slots. -/
theorem observerInv_of_reachable (this : Nat) (h : Heap)
    (hreach : UForLoopStmt.ReachableVia
      (fun g => UForLoopStmt.slotsDistinct g this = true) this h) :
    ∀ v, Subject.hasObserver h v this = true ↔ UForLoopStmt.occupies h this v = true := by
  induction hreach with
  | create h0 h init cond step body succ a hal _ _ _ _ hc =>
    exact UForLoopStmt.create_observerInv hal hc
  | step _ hd hstep ih => exact UForLoopStmt.Step.preserves_observerInv ih hd hstep

/-- Witness of C2, amended: the state after `create(i, c, s, EmptyStmt)` and
`replace(i, n)` is reachable through states with distinct slots, and the loop
observes `n`, which is in the `init` slot, and not `i`, which is in no slot. -/
theorem observerInv_of_reachable_witness :
    UForLoopStmt.ReachableVia (fun g => UForLoopStmt.slotsDistinct g 5 = true) 5
        loopHeapReplaced ∧
    (Subject.hasObserver loopHeapReplaced 4 5 = true ↔
      UForLoopStmt.occupies loopHeapReplaced 5 4 = true) ∧
    (Subject.hasObserver loopHeapReplaced 0 5 = true ↔
      UForLoopStmt.occupies loopHeapReplaced 5 0 = true) :=
  have hreach : UForLoopStmt.ReachableVia (fun g => UForLoopStmt.slotsDistinct g 5 = true) 5
      loopHeapReplaced :=
    UForLoopStmt.ReachableVia.step
      (UForLoopStmt.ReachableVia.create leaves loopHeap (some 0) (some 1) (some 2) (some 3)
        none 7 (by decide) (by decide) (by decide) (by decide) (by decide)
        (by decide : UForLoopStmt.create leaves (some 0) (some 1) (some 2) (some 3) none 7 =
          .ok (5, loopHeap)))
      (by decide)
      (UForLoopStmt.Step.replace 2 (some 0) 4 (by decide) (by decide) (by decide))
  ⟨hreach, observerInv_of_reachable 5 loopHeapReplaced hreach 4,
    observerInv_of_reachable 5 loopHeapReplaced hreach 0⟩

/-- The condition part survives every `replace`: whenever `replace` of a loop
returns, `getCond()` is what it was before, whatever `oldExpr` and `newExpr`
are. -/
theorem UForLoopStmt.replace_keeps_cond {h h' : Heap} {this fuel : Nat} {oldExpr newExpr : Ptr}
    (hr : UForLoopStmt.replace (Expression.replace fuel) h this oldExpr newExpr = .ok h') :
    UForLoopStmt.getCond h' this = UForLoopStmt.getCond h this := by
  unfold UForLoopStmt.replace at hr
  obtain ⟨i, hgi, hr⟩ := bind_eq_ok hr
  obtain ⟨h1, e1, hr⟩ := bind_eq_ok hr
  obtain ⟨c1, hgc, hr⟩ := bind_eq_ok hr
  obtain ⟨h2, e2, hr⟩ := bind_eq_ok hr
  obtain ⟨s2, hgs, hr⟩ := bind_eq_ok hr
  obtain ⟨d, c, s, b, hn⟩ := UForLoopStmt.getInit_eq_ok hgi
  have p1 : ∃ i1, h1.node (some this) = some (.uforLoopStmt i1 d c s b) := by
    by_cases a1 : oldExpr = i
    · rw [if_pos a1] at e1
      cases newExpr with
      | none => simp [UForLoopStmt.setInit] at e1
      | some e =>
        obtain ⟨iv, d', c', s', b', hn0, hn1, _⟩ := UForLoopStmt.setInit_spec e1
        rw [hn] at hn0
        injection hn0 with hn0
        injection hn0 with _ x1 x2 x3 x4
        exact ⟨some e, by rw [hn1, x1, x2, x3, x4]⟩
    · rw [if_neg a1] at e1
      exact ⟨i, (UForLoopStmt.retained_sameView hn e1).1.trans hn⟩
  obtain ⟨i1, hn1⟩ := p1
  have hcc : c1 = c := by
    rw [UForLoopStmt.getCond_of_node hn1] at hgc
    exact (Except.ok.inj hgc).symm
  have hn2 : h2.node (some this) = some (.uforLoopStmt i1 d c s b) := by
    by_cases a2 : oldExpr = c1
    · rw [if_pos a2] at e2
      cases hcv : c1 with
      | none =>
        rw [hcv] at e2
        simp [UForLoopStmt.setCond] at e2
      | some cv =>
        rw [hcv] at e2
        obtain ⟨i', d', cv', s', b', hn1', hn2, _⟩ := UForLoopStmt.setCond_spec e2
        rw [hn1] at hn1'
        injection hn1' with hn1'
        injection hn1' with x0 x1 _ x3 x4
        rw [hn2, x0, x1, x3, x4, ← hcc, hcv]
    · rw [if_neg a2] at e2
      exact (UForLoopStmt.retained_sameView hn1 e2).1.trans hn1
  have p3 : ∃ s3, h'.node (some this) = some (.uforLoopStmt i1 d c s3 b) := by
    by_cases a3 : oldExpr = s2
    · rw [if_pos a3] at hr
      cases newExpr with
      | none => simp [UForLoopStmt.setStep] at hr
      | some e =>
        obtain ⟨i', d', c', sv, b', hn2', hn3, _⟩ := UForLoopStmt.setStep_spec hr
        rw [hn2] at hn2'
        injection hn2' with hn2'
        injection hn2' with x0 x1 x2 _ x4
        exact ⟨some e, by rw [hn3, x0, x1, x2, x4]⟩
    · rw [if_neg a3] at hr
      exact ⟨s, (UForLoopStmt.retained_sameView hn2 hr).1.trans hn2⟩
  obtain ⟨s3, hn3⟩ := p3
  rw [UForLoopStmt.getCond_of_node hn3, UForLoopStmt.getCond_of_node hn]

/-! ## Theorems: structural equality of the binary operators -/

theorem eqOpExpr_isEqualTo_iff (v : Heap → Ptr → Ptr → Except Err Bool) (h : Heap)
    (e : Nat) (op1 op2 other : Ptr) (hn : h.node (some e) = some (.eqOpExpr op1 op2)) :
    (EqOpExpr.isEqualTo v h e other = .ok true ↔
      ∃ o1 o2, h.node other = some (.eqOpExpr o1 o2) ∧
        v h op1 o1 = .ok true ∧ v h op2 o2 = .ok true) ∧
    ((∀ o1 o2, h.node other ≠ some (.eqOpExpr o1 o2)) →
      EqOpExpr.isEqualTo v h e other = .ok false) := by
  have h1 := eqOpExpr_operands_eq_some.2 hn
  unfold EqOpExpr.isEqualTo
  rw [h1]
  cases ho : EqOpExpr.operands h other with
  | none =>
    refine ⟨⟨fun hx => by simp at hx, ?_⟩, fun _ => rfl⟩
    rintro ⟨o1, o2, hx, _⟩
    rw [eqOpExpr_operands_eq_some.2 hx] at ho
    cases ho
  | some o =>
    obtain ⟨o1, o2⟩ := o
    have hx := eqOpExpr_operands_eq_some.1 ho
    refine ⟨?_, fun hne => absurd hx (hne o1 o2)⟩
    simp only [andAlso_eq_true]
    constructor
    · intro hh
      exact ⟨o1, o2, hx, hh⟩
    · rintro ⟨a, b, hab, hh⟩
      rw [hx] at hab
      cases hab
      exact hh

theorem orOpExpr_isEqualTo_iff (v : Heap → Ptr → Ptr → Except Err Bool) (h : Heap)
    (e : Nat) (op1 op2 other : Ptr) (hn : h.node (some e) = some (.orOpExpr op1 op2)) :
    (OrOpExpr.isEqualTo v h e other = .ok true ↔
      ∃ o1 o2, h.node other = some (.orOpExpr o1 o2) ∧
        v h op1 o1 = .ok true ∧ v h op2 o2 = .ok true) ∧
    ((∀ o1 o2, h.node other ≠ some (.orOpExpr o1 o2)) →
      OrOpExpr.isEqualTo v h e other = .ok false) := by
  have h1 := orOpExpr_operands_eq_some.2 hn
  unfold OrOpExpr.isEqualTo
  rw [h1]
  cases ho : OrOpExpr.operands h other with
  | none =>
    refine ⟨⟨fun hx => by simp at hx, ?_⟩, fun _ => rfl⟩
    rintro ⟨o1, o2, hx, _⟩
    rw [orOpExpr_operands_eq_some.2 hx] at ho
    cases ho
  | some o =>
    obtain ⟨o1, o2⟩ := o
    have hx := orOpExpr_operands_eq_some.1 ho
    refine ⟨?_, fun hne => absurd hx (hne o1 o2)⟩
    simp only [andAlso_eq_true]
    constructor
    · intro hh
      exact ⟨o1, o2, hx, hh⟩
    · rintro ⟨a, b, hab, hh⟩
      rw [hx] at hab
      cases hab
      exact hh

/-- C19: structural equality of `EqOpExpr` and `OrOpExpr` is "same class and
pairwise-equal operands".  For an `EqOpExpr` `e` with operands `op1`, `op2`, the
virtual call `e->isEqualTo(other)` returns true if and only if `other` is an
`EqOpExpr` with operands `o1`, `o2` such that `op1->isEqualTo(o1)` and
`op2->isEqualTo(o2)` return true: the operands are compared position by
position.  When `other` is of any other class (an `OrOpExpr` built from the same
operands, for example) the call returns false.  The same holds for `OrOpExpr`. -/
theorem isEqualTo_iff_same_class_and_operands (fuel : Nat) (h : Heap) (e : Nat)
    (op1 op2 other : Ptr) :
    (h.node (some e) = some (.eqOpExpr op1 op2) →
      (Value.isEqualTo (fuel + 1) h (some e) other = .ok true ↔
        ∃ o1 o2, h.node other = some (.eqOpExpr o1 o2) ∧
          Value.isEqualTo fuel h op1 o1 = .ok true ∧
          Value.isEqualTo fuel h op2 o2 = .ok true) ∧
      ((∀ o1 o2, h.node other ≠ some (.eqOpExpr o1 o2)) →
        Value.isEqualTo (fuel + 1) h (some e) other = .ok false)) ∧
    (h.node (some e) = some (.orOpExpr op1 op2) →
      (Value.isEqualTo (fuel + 1) h (some e) other = .ok true ↔
        ∃ o1 o2, h.node other = some (.orOpExpr o1 o2) ∧
          Value.isEqualTo fuel h op1 o1 = .ok true ∧
          Value.isEqualTo fuel h op2 o2 = .ok true) ∧
      ((∀ o1 o2, h.node other ≠ some (.orOpExpr o1 o2)) →
        Value.isEqualTo (fuel + 1) h (some e) other = .ok false)) := by
  constructor
  · intro hn
    have := eqOpExpr_isEqualTo_iff (fun h x y => Value.isEqualTo fuel h x y) h e op1 op2 other hn
    simpa only [Value.isEqualTo, hn] using this
  · intro hn
    have := orOpExpr_isEqualTo_iff (fun h x y => Value.isEqualTo fuel h x y) h e op1 op2 other hn
    simpa only [Value.isEqualTo, hn] using this

/-- On `eqOrHeap`, `i == c` is equal to the other `i == c`, and is equal neither
to `i || c` nor to `c == i`. -/
theorem isEqualTo_iff_same_class_and_operands_witness :
    Value.isEqualTo 2 eqOrHeap (some 5) (some 8) = .ok true ∧
    Value.isEqualTo 2 eqOrHeap (some 5) (some 6) = .ok false ∧
    Value.isEqualTo 2 eqOrHeap (some 6) (some 5) = .ok false ∧
    ¬ Value.isEqualTo 2 eqOrHeap (some 5) (some 7) = .ok true :=
  ⟨((isEqualTo_iff_same_class_and_operands 1 eqOrHeap 5 (some 0) (some 1) (some 8)).1
      (by decide)).1.2 ⟨some 0, some 1, by decide, by decide, by decide⟩,
   ((isEqualTo_iff_same_class_and_operands 1 eqOrHeap 5 (some 0) (some 1) (some 6)).1
      (by decide)).2 (fun _ _ hx => by cases hx),
   ((isEqualTo_iff_same_class_and_operands 1 eqOrHeap 6 (some 0) (some 1) (some 5)).2
      (by decide)).2 (fun _ _ hx => by cases hx),
   fun hx => by
    obtain ⟨o1, o2, hn, h1, _⟩ :=
      ((isEqualTo_iff_same_class_and_operands 1 eqOrHeap 5 (some 0) (some 1) (some 7)).1
        (by decide)).1.1 hx
    cases hn
    revert h1
    decide⟩

/-! ## Theorems: the setters and `update` of `CallStmt` and `UForLoopStmt` -/

/-- A setter returns when the old and the new value are allocated. -/
theorem rewire_ok (g : Node → Node) (h : Heap) (recv e iv : Nat)
    (hiv : iv < h.length) (he : e < h.length) :
    ∃ h', ((Subject.removeObserver h (some iv) recv).bind fun h1 =>
      (Subject.addObserver h1 (some e) recv).bind fun h2 =>
        .ok (h2.update recv fun c => { c with node := g c.node })) = .ok h' := by
  rw [Subject.removeObserver_ok _ hiv, bind_ok,
    Subject.addObserver_ok _ (by rw [Heap.length_update]; exact he), bind_ok]
  exact ⟨_, rfl⟩

/-- A write that touches neither the successor, nor the metadata, nor the address
of a cell leaves them as they were. -/
theorem Heap.fields_update (h : Heap) (a : Nat) (f : Cell → Cell)
    (hf : ∀ c, (f c).succ = c.succ ∧ (f c).metadata = c.metadata ∧
      (f c).address = c.address) (b : Nat) :
    Statement.getSuccessor (h.update a f) b = Statement.getSuccessor h b ∧
    Value.getMetadata (h.update a f) b = Value.getMetadata h b ∧
    Value.getAddress (h.update a f) b = Value.getAddress h b := by
  simp only [Statement.getSuccessor, Value.getMetadata, Value.getAddress, Heap.cell,
    Heap.getElem?_update]
  by_cases hab : a = b
  · simp only [hab, if_true]
    cases h[b]? with
    | none => simp
    | some c => simp [Except.map, (hf c).1, (hf c).2.1, (hf c).2.2]
  · simp [hab]

/-- A setter changes neither the successor, nor the metadata, nor the address
of any node. -/
theorem rewire_fields (g : Node → Node) (h h' : Heap) (recv e : Nat) (old : Ptr)
    (hset : ((Subject.removeObserver h old recv).bind fun h1 =>
      (Subject.addObserver h1 (some e) recv).bind fun h2 =>
        .ok (h2.update recv fun c => { c with node := g c.node })) = .ok h') (a : Nat) :
    Statement.getSuccessor h' a = Statement.getSuccessor h a ∧
    Value.getMetadata h' a = Value.getMetadata h a ∧
    Value.getAddress h' a = Value.getAddress h a := by
  obtain ⟨h1, e1, hset⟩ := bind_eq_ok hset
  obtain ⟨h2, e2, hset⟩ := bind_eq_ok hset
  cases hset
  obtain ⟨iv, rfl, hiv⟩ := Subject.removeObserver_some e1
  rw [Subject.removeObserver_ok _ hiv] at e1
  cases e1
  rw [Subject.addObserver_ok _ (Subject.addObserver_lt e2)] at e2
  cases e2
  have f1 := Heap.fields_update h iv (Cell.removeObserver recv) (fun _ => ⟨rfl, rfl, rfl⟩) a
  have f2 := Heap.fields_update (h.update iv (Cell.removeObserver recv)) e
    (Cell.addObserver recv) (fun _ => ⟨rfl, rfl, rfl⟩) a
  have f3 := Heap.fields_update
    ((h.update iv (Cell.removeObserver recv)).update e (Cell.addObserver recv)) recv
    (fun c => { c with node := g c.node }) (fun _ => ⟨rfl, rfl, rfl⟩) a
  exact ⟨f3.1.trans (f2.1.trans f1.1), f3.2.1.trans (f2.2.1.trans f1.2.1),
    f3.2.2.trans (f2.2.2.trans f1.2.2)⟩

theorem CallStmt.setCall_spec {h h' : Heap} {this e : Nat}
    (hs : CallStmt.setCall h this (some e) = .ok h') :
    ∃ cv, h.node (some this) = some (.callStmt (some cv)) ∧
      h'.node (some this) = some (.callStmt (some e)) ∧
      (∀ v, Subject.hasObserver h' v this = true ↔
        v = e ∨ (v ≠ cv ∧ Subject.hasObserver h v this = true)) ∧
      Statement.getSuccessor h' this = Statement.getSuccessor h this := by
  simp only [CallStmt.setCall] at hs
  obtain ⟨call, hg, hs⟩ := bind_eq_ok hs
  have hn := CallStmt.getCall_eq_ok.1 hg
  have hf := rewire_fields (fun _ => .callStmt (some e)) h h' this e call hs this
  obtain ⟨cv, rfl, _, _, _, hnode, hobs⟩ :=
    rewire_spec (fun _ => .callStmt (some e)) h h' this e call hs
  refine ⟨cv, hn, ?_, fun v => ?_, hf.1⟩
  · rw [hnode, if_pos rfl, hn]; rfl
  · rw [hobs]; simp

theorem CallStmt.setCall_ok {h : Heap} {this cv e : Nat}
    (hn : h.node (some this) = some (.callStmt (some cv)))
    (hcv : cv < h.length) (he : e < h.length) :
    ∃ h', CallStmt.setCall h this (some e) = .ok h' := by
  simp only [CallStmt.setCall]
  rw [CallStmt.getCall_eq_ok.2 hn, bind_ok]
  exact rewire_ok (fun _ => .callStmt (some e)) h this e cv hcv he

theorem isa_cast {isT : Node → Bool} {h : Heap} {p : Ptr} (hp : isa isT h p = true) :
    cast isT h p = p := by
  obtain ⟨n, hn, ht⟩ := cast_eq_some hp
  simp [cast, hn, ht]

theorem isa_lt {isT : Node → Bool} {h : Heap} {a : Nat} (hp : isa isT h (some a) = true) :
    a < h.length := by
  obtain ⟨n, hn, _⟩ := cast_eq_some hp
  exact Heap.node_lt hn

/-- C16, as stated: on `callHeap` the statement `x();` of cell 6 is notified that
its call (cell 5) is replaced by the variable `n` (cell 4), which is a non-null
expression; the contained call is still the old one afterwards, not `n`. -/
theorem update_keeps_call_on_non_call_expression :
    callHeap.node (some 6) = some (.callStmt (some 5)) ∧
    isa Node.isExpression callHeap (some 4) = true ∧
    CallStmt.update callHeap 6 (some 5) (some 4) = .ok callHeap ∧
    ((CallStmt.update callHeap 6 (some 5) (some 4)).bind fun h => CallStmt.getCall h 6) =
      .ok (some 5) := by
  decide

/-- C16, amended: for a `CallStmt` `s` whose contained call is `subject`, if `arg`
is a call expression then `s.update(subject, arg)` returns and the contained
call of `s` is `arg` afterwards; if `arg` is any other value (an expression
that is not a call, for example) the call does nothing. -/
theorem update_replaces_call_by_call_expression (h : Heap) (this subject arg : Nat)
    (hn : h.node (some this) = some (.callStmt (some subject)))
    (hsub : subject < h.length) :
    (isa Node.isCallExpr h (some arg) = true →
      ∃ h', CallStmt.update h this (some subject) (some arg) = .ok h' ∧
        CallStmt.getCall h' this = .ok (some arg)) ∧
    (isa Node.isCallExpr h (some arg) = false →
      CallStmt.update h this (some subject) (some arg) = .ok h) := by
  have hg := CallStmt.getCall_eq_ok.2 hn
  constructor
  · intro ha
    obtain ⟨h', hs⟩ := CallStmt.setCall_ok (e := arg) hn hsub (isa_lt ha)
    refine ⟨h', ?_, ?_⟩
    · simp only [CallStmt.update]
      rw [hg, bind_ok, isa_cast ha]
      simpa using hs
    · obtain ⟨_, _, hn', _⟩ := CallStmt.setCall_spec hs
      exact CallStmt.getCall_eq_ok.2 hn'
  · intro ha
    have hc : cast Node.isCallExpr h (some arg) = none := by
      cases hx : cast Node.isCallExpr h (some arg) with
      | none => rfl
      | some x => simp [isa, hx] at ha
    simp only [CallStmt.update]
    rw [hg, bind_ok, hc]
    simp

/-- On `callHeap2`, whose cell 7 holds a second call expression, notifying
the statement that its call is replaced by the new call makes it the contained
call. -/
theorem update_replaces_call_by_call_expression_witness :
    ∃ h', CallStmt.update callHeap2 6 (some 5) (some 7) = .ok h' ∧
      CallStmt.getCall h' 6 = .ok (some 7) :=
  (update_replaces_call_by_call_expression callHeap2 6 5 7 (by decide) (by decide)).1
    (by decide)

theorem UForLoopStmt.setInit_ok {h : Heap} {this iv e : Nat} {d : Bool} {c s b : Ptr}
    (hn : h.node (some this) = some (.uforLoopStmt (some iv) d c s b))
    (hiv : iv < h.length) (he : e < h.length) :
    ∃ h', UForLoopStmt.setInit h this (some e) = .ok h' := by
  simp only [UForLoopStmt.setInit, UForLoopStmt.getInit, hn]
  rw [bind_ok]
  exact rewire_ok (fun n => n.withInit (some e)) h this e iv hiv he

theorem UForLoopStmt.setCond_ok {h : Heap} {this cv e : Nat} {d : Bool} {i s b : Ptr}
    (hn : h.node (some this) = some (.uforLoopStmt i d (some cv) s b))
    (hcv : cv < h.length) (he : e < h.length) :
    ∃ h', UForLoopStmt.setCond h this (some e) = .ok h' := by
  simp only [UForLoopStmt.setCond, UForLoopStmt.getCond, hn]
  rw [bind_ok]
  exact rewire_ok (fun n => n.withCond (some e)) h this e cv hcv he

theorem UForLoopStmt.setStep_ok {h : Heap} {this sv e : Nat} {d : Bool} {i c b : Ptr}
    (hn : h.node (some this) = some (.uforLoopStmt i d c (some sv) b))
    (hsv : sv < h.length) (he : e < h.length) :
    ∃ h', UForLoopStmt.setStep h this (some e) = .ok h' := by
  simp only [UForLoopStmt.setStep, UForLoopStmt.getStep, hn]
  rw [bind_ok]
  exact rewire_ok (fun n => n.withStep (some e)) h this e sv hsv he

theorem UForLoopStmt.setBody_ok {h : Heap} {this bv e : Nat} {d : Bool} {i c s : Ptr}
    (hn : h.node (some this) = some (.uforLoopStmt i d c s (some bv)))
    (hbv : bv < h.length) (he : e < h.length) :
    ∃ h', UForLoopStmt.setBody h this (some e) = .ok h' := by
  simp only [UForLoopStmt.setBody, UForLoopStmt.getBody, hn]
  rw [bind_ok]
  exact rewire_ok (fun n => n.withBody (some e)) h this e bv hbv he

/-- C11: the setters are not total on a loop created with the part absent.  The
loop `for (i = 1; ;) {}` of `testLoop` is the one returned by
`UForLoopStmt::create(i = 1, null, null, EmptyStmt)`; on it `setCond(i)` and
`setStep(i)` with the non-null expression `i` dereference the null old part
(`cond->removeObserver(this)`, `step->removeObserver(this)`) instead of
succeeding, while `setInit(i)`, whose old part is present, succeeds with
`getInit()` equal to `i` and the loop registered as an observer of `i`. -/
theorem setter_fails_on_absent_part :
    UForLoopStmt.create testNodes (some 2) none none (some 3) none 0 = .ok (4, testLoop) ∧
    isa Node.isExpression testLoop (some 0) = true ∧
    UForLoopStmt.setCond testLoop 4 (some 0) = .error .nullDeref ∧
    UForLoopStmt.setStep testLoop 4 (some 0) = .error .nullDeref ∧
    ((UForLoopStmt.setInit testLoop 4 (some 0)).bind fun h =>
      (UForLoopStmt.getInit h 4).map fun i => (i, Subject.hasObserver h 0 4)) =
      .ok (some 0, true) := by
  decide

theorem isa_some {isT : Node → Bool} {h : Heap} {p : Ptr} (hp : isa isT h p = true) :
    ∃ a, p = some a ∧ a < h.length := by
  cases p with
  | none => simp [isa, cast, Heap.node] at hp
  | some a => exact ⟨a, rfl, isa_lt hp⟩

/-- C14: the function `CallStmt::replace(oldExpr, newExpr)` on a statement whose
contained call is `call`.  If `oldExpr` is `call` and `newExpr` is a call
expression, the call returns and `getCall()` is `newExpr` afterwards.  In every
other case (in particular when `oldExpr` is `call` and `newExpr` is not a call
expression) the call is exactly the one forwarded call
`call->replace(oldExpr, newExpr)`, whatever the virtual callee `v` is, and when
it returns `getCall()` is still `call`. -/
theorem callStmt_replace_cases (v : Heap → Ptr → Ptr → Ptr → Except Err Heap) (fuel : Nat)
    (h : Heap) (this cv : Nat) (oldExpr newExpr : Ptr)
    (hn : h.node (some this) = some (.callStmt (some cv))) (hcv : cv < h.length) :
    (oldExpr = some cv → isa Node.isCallExpr h newExpr = true →
      ∃ h', CallStmt.replace v h this oldExpr newExpr = .ok h' ∧
        CallStmt.getCall h' this = .ok newExpr) ∧
    (¬ (oldExpr = some cv ∧ isa Node.isCallExpr h newExpr = true) →
      CallStmt.replace v h this oldExpr newExpr = v h (some cv) oldExpr newExpr ∧
      ∀ h', CallStmt.replace (Expression.replace fuel) h this oldExpr newExpr = .ok h' →
        CallStmt.getCall h' this = .ok (some cv)) := by
  have hg := CallStmt.getCall_eq_ok.2 hn
  constructor
  · intro ho hc
    obtain ⟨e, rfl, he⟩ := isa_some hc
    obtain ⟨h', hs⟩ := CallStmt.setCall_ok (e := e) hn hcv he
    refine ⟨h', ?_, ?_⟩
    · simp only [CallStmt.replace]
      rw [hg, bind_ok, if_pos ⟨ho, hc⟩, isa_cast hc]
      exact hs
    · obtain ⟨_, _, hn', _⟩ := CallStmt.setCall_spec hs
      exact CallStmt.getCall_eq_ok.2 hn'
  · intro hneg
    have key : ∀ w, CallStmt.replace w h this oldExpr newExpr = w h (some cv) oldExpr newExpr := by
      intro w
      simp only [CallStmt.replace]
      rw [hg, bind_ok, if_neg hneg]
    refine ⟨key v, fun h' hr => ?_⟩
    rw [key] at hr
    have hv := expression_replace_frame this (.callStmt (some cv)) rfl fuel h h' (some cv)
      oldExpr newExpr hn hr
    exact CallStmt.getCall_eq_ok.2 (hv.1.trans hn)

/-- On `callHeap2`, replacing the call `x()` of the statement in cell 6 by the
call `c()` of cell 7 makes `c()` the contained call, and replacing it by the
variable `n` (not a call expression) leaves `x()` in place. -/
theorem callStmt_replace_cases_witness :
    (∃ h', CallStmt.replace (Expression.replace 3) callHeap2 6 (some 5) (some 7) = .ok h' ∧
      CallStmt.getCall h' 6 = .ok (some 7)) ∧
    (∀ h', CallStmt.replace (Expression.replace 3) callHeap2 6 (some 5) (some 4) = .ok h' →
      CallStmt.getCall h' 6 = .ok (some 5)) :=
  ⟨(callStmt_replace_cases (Expression.replace 3) 3 callHeap2 6 5 (some 5) (some 7)
      (by decide) (by decide)).1 rfl (by decide),
   ((callStmt_replace_cases (Expression.replace 3) 3 callHeap2 6 5 (some 5) (some 4)
      (by decide) (by decide)).2 (by decide)).2⟩

theorem Cell.mem_addObserver (o : Nat) (c : Cell) : o ∈ (Cell.addObserver o c).observers := by
  unfold Cell.addObserver
  by_cases hm : o ∈ c.observers <;> simp [hm]

/-- The result of `CallStmt::create` on an allocated call. -/
theorem callStmt_create_eq {h : Heap} {x : Nat} (succ : Ptr) (a : Nat) (hx : x < h.length) :
    CallStmt.create h (some x) succ a = .ok (h.length,
      ((h ++ [Cell.fresh (.callStmt (some x)) a]).update h.length
        fun c => { c with succ := succ }).update x (Cell.addObserver h.length)) := by
  simp only [CallStmt.create, Heap.alloc]
  rw [Statement.setSuccessor_ok _ (by simp), bind_ok,
    Subject.addObserver_ok _ (by simp; omega), bind_ok]

/-- The cell of the statement returned by `CallStmt::create`. -/
theorem callStmt_create_cell {h : Heap} {x : Nat} (succ : Ptr) (a : Nat) (hx : x < h.length) :
    (((h ++ [Cell.fresh (.callStmt (some x)) a]).update h.length
        fun c => { c with succ := succ }).update x (Cell.addObserver h.length))[h.length]? =
      some { Cell.fresh (.callStmt (some x)) a with succ := succ } := by
  have hne : ¬ x = h.length := by omega
  rw [Heap.getElem?_update, if_neg hne, Heap.getElem?_update, if_pos rfl, Heap.getElem?_alloc]
  simp

/-- C12: observer re-wiring of `CallStmt`.  After `CallStmt::create(call, succ, a)`
the new statement is registered as an observer of `call`, `getCall()` is `call`
and `getSuccessor()` is `succ`.  For a statement whose contained call is
`oldCall` and a call expression `c` different from `oldCall`, each of
`setCall(c)`, `update(oldCall, c)` and `replace(oldCall, c)` returns, and
afterwards `getCall()` is `c`, the statement is registered as an observer of `c`
and no longer as an observer of `oldCall`, and the successor is unchanged. -/
theorem callStmt_rewires_observers (v : Heap → Ptr → Ptr → Ptr → Except Err Heap)
    (h : Heap) (succ : Ptr) (a call this oldCall c : Nat) :
    (call < h.length →
      ∃ h', CallStmt.create h (some call) succ a = .ok (h.length, h') ∧
        Subject.hasObserver h' call h.length = true ∧
        CallStmt.getCall h' h.length = .ok (some call) ∧
        Statement.getSuccessor h' h.length = .ok succ) ∧
    (h.node (some this) = some (.callStmt (some oldCall)) → oldCall < h.length →
      isa Node.isCallExpr h (some c) = true → c ≠ oldCall →
      ∀ r ∈ [CallStmt.setCall h this (some c),
          CallStmt.update h this (some oldCall) (some c),
          CallStmt.replace v h this (some oldCall) (some c)],
        ∃ h', r = .ok h' ∧
          CallStmt.getCall h' this = .ok (some c) ∧
          Subject.hasObserver h' c this = true ∧
          Subject.hasObserver h' oldCall this = false ∧
          Statement.getSuccessor h' this = Statement.getSuccessor h this) := by
  constructor
  · intro hc
    refine ⟨_, callStmt_create_eq succ a hc, ?_, ?_, ?_⟩
    · have hne : ¬ h.length = call := by omega
      simp only [Subject.hasObserver, Heap.getElem?_update, Heap.getElem?_alloc, hc, hne,
        if_true, if_false]
      obtain ⟨x, hx⟩ : ∃ x, h[call]? = some x := ⟨h[call], List.getElem?_eq_getElem hc⟩
      simp [hx, Cell.mem_addObserver]
    · simp only [CallStmt.getCall, Heap.node, callStmt_create_cell succ a hc]
      rfl
    · simp only [Statement.getSuccessor, Heap.cell, callStmt_create_cell succ a hc]
      rfl
  · intro hn hold hc hne r hr
    have hg := CallStmt.getCall_eq_ok.2 hn
    have e1 : CallStmt.update h this (some oldCall) (some c) =
        CallStmt.setCall h this (some c) := by
      simp only [CallStmt.update]
      rw [hg, bind_ok, isa_cast hc]
      simp
    have e2 : CallStmt.replace v h this (some oldCall) (some c) =
        CallStmt.setCall h this (some c) := by
      simp only [CallStmt.replace]
      rw [hg, bind_ok, if_pos ⟨rfl, hc⟩, isa_cast hc]
    have hr' : r = CallStmt.setCall h this (some c) := by
      simp only [List.mem_cons, List.mem_singleton, List.not_mem_nil, or_false] at hr
      rcases hr with hr | hr | hr
      · exact hr
      · exact hr.trans e1
      · exact hr.trans e2
    obtain ⟨h', hs⟩ := CallStmt.setCall_ok (e := c) hn hold (isa_lt hc)
    obtain ⟨cv, hn0, hn', hobs, hsucc⟩ := CallStmt.setCall_spec hs
    have hcv : cv = oldCall := by
      rw [hn] at hn0
      injection hn0 with hn0
      injection hn0 with hn0
      injection hn0 with hn0
      exact hn0.symm
    subst hcv
    refine ⟨h', hr'.trans hs, CallStmt.getCall_eq_ok.2 hn', (hobs c).2 (Or.inl rfl), ?_, hsucc⟩
    cases hx : Subject.hasObserver h' cv this with
    | false => rfl
    | true =>
      rcases (hobs cv).1 hx with hh | hh
      · exact absurd hh.symm hne
      · exact absurd rfl hh.1

/-- On `leaves`, `CallStmt::create` over a call wires the new statement; on
`callHeap2`, `setCall`, `update` and `replace` move the statement of cell 6 from
the call of cell 5 to the call of cell 7. -/
theorem callStmt_rewires_observers_witness :
    (∃ h', CallStmt.create callHeap2 (some 7) (some 3) 9 = .ok (callHeap2.length, h') ∧
        Subject.hasObserver h' 7 callHeap2.length = true ∧
        CallStmt.getCall h' callHeap2.length = .ok (some 7) ∧
        Statement.getSuccessor h' callHeap2.length = .ok (some 3)) ∧
    (∀ r ∈ [CallStmt.setCall callHeap2 6 (some 7),
          CallStmt.update callHeap2 6 (some 5) (some 7),
          CallStmt.replace (Expression.replace 3) callHeap2 6 (some 5) (some 7)],
        ∃ h', r = .ok h' ∧
          CallStmt.getCall h' 6 = .ok (some 7) ∧
          Subject.hasObserver h' 7 6 = true ∧
          Subject.hasObserver h' 5 6 = false ∧
          Statement.getSuccessor h' 6 = Statement.getSuccessor callHeap2 6) :=
  ⟨(callStmt_rewires_observers (Expression.replace 3) callHeap2 (some 3) 9 7 6 5 7).1
      (by decide),
   (callStmt_rewires_observers (Expression.replace 3) callHeap2 (some 3) 9 7 6 5 7).2
      (by decide) (by decide) (by decide) (by decide)⟩

theorem UForLoopStmt.getBody_of_node {h : Heap} {this : Nat} {i c s b : Ptr} {d : Bool}
    (hn : h.node (some this) = some (.uforLoopStmt i d c s b)) :
    UForLoopStmt.getBody h this = .ok b := by
  simp [UForLoopStmt.getBody, hn]

theorem UForLoopStmt.getInit_of_node {h : Heap} {this : Nat} {i c s b : Ptr} {d : Bool}
    (hn : h.node (some this) = some (.uforLoopStmt i d c s b)) :
    UForLoopStmt.getInit h this = .ok i := by
  simp [UForLoopStmt.getInit, hn]

/-- The function `UForLoopStmt::update` with an expression `arg`: the first of
the slots `init`, `cond`, `step` that holds `subject` is set. -/
theorem UForLoopStmt.update_expression {h : Heap} {this : Nat} {i c s b : Ptr} {d : Bool}
    {subject arg : Ptr} (hn : h.node (some this) = some (.uforLoopStmt i d c s b))
    (hsub : subject.isSome = true) (harg : isa Node.isExpression h arg = true) :
    UForLoopStmt.update h this subject arg =
      if subject = i then UForLoopStmt.setInit h this arg
      else if subject = c then UForLoopStmt.setCond h this arg
      else if subject = s then UForLoopStmt.setStep h this arg
      else .ok h := by
  cases subject with
  | none => simp at hsub
  | some sv =>
    simp only [UForLoopStmt.update]
    rw [UForLoopStmt.getBody_of_node hn, bind_ok, cast_isExpression_isStatement harg,
      isa_cast harg]
    have harg' : arg.isSome = true := by
      obtain ⟨a, rfl, _⟩ := isa_some harg
      rfl
    simp only [Option.isSome_none, Bool.false_eq_true, and_false, if_false, harg']
    rw [UForLoopStmt.getInit_of_node hn, bind_ok, UForLoopStmt.getCond_of_node hn, bind_ok,
      UForLoopStmt.getStep_of_node hn, bind_ok]
    simp

/-- C13: the function `UForLoopStmt::update` splices the replacement into the
owning slot.  For a loop with slots `init`, `cond`, `step`, `body` and flag `d`,
an allocated `subject` and an expression `arg`: when `subject` is `init` the
call returns and the loop is `(arg, d, cond, step, body)` afterwards; when
`subject` is `cond` and not `init` it is `(init, d, arg, step, body)`; when
`subject` is `step` and neither `init` nor `cond` it is
`(init, d, cond, arg, body)`.  When `subject` is `body` and `arg` is a
statement, the loop is `(init, d, cond, step, arg)` afterwards.  In particular,
when `subject` occupies exactly one of `init`, `cond`, `step`, that slot holds
`arg` and the other slots and the flag are unchanged. -/
theorem update_splices_into_owning_slot (h : Heap) (this subject arg : Nat)
    (i c s b : Ptr) (d : Bool)
    (hn : h.node (some this) = some (.uforLoopStmt i d c s b))
    (hsub : subject < h.length) :
    (isa Node.isExpression h (some arg) = true →
      (some subject = i →
        ∃ h', UForLoopStmt.update h this (some subject) (some arg) = .ok h' ∧
          h'.node (some this) = some (.uforLoopStmt (some arg) d c s b)) ∧
      (some subject ≠ i → some subject = c →
        ∃ h', UForLoopStmt.update h this (some subject) (some arg) = .ok h' ∧
          h'.node (some this) = some (.uforLoopStmt i d (some arg) s b)) ∧
      (some subject ≠ i → some subject ≠ c → some subject = s →
        ∃ h', UForLoopStmt.update h this (some subject) (some arg) = .ok h' ∧
          h'.node (some this) = some (.uforLoopStmt i d c (some arg) b))) ∧
    (isa Node.isStatement h (some arg) = true → some subject = b →
      ∃ h', UForLoopStmt.update h this (some subject) (some arg) = .ok h' ∧
        h'.node (some this) = some (.uforLoopStmt i d c s (some arg))) := by
  constructor
  · intro harg
    have hu : UForLoopStmt.update h this (some subject) (some arg) = _ :=
      UForLoopStmt.update_expression hn rfl harg
    have ha := isa_lt harg
    refine ⟨fun h1 => ?_, fun h1 h2 => ?_, fun h1 h2 h3 => ?_⟩
    · subst h1
      obtain ⟨h', hs⟩ := UForLoopStmt.setInit_ok (e := arg) hn hsub ha
      refine ⟨h', by rw [hu, if_pos rfl]; exact hs, ?_⟩
      obtain ⟨iv, d', c', s', b', hn0, hn1, _⟩ := UForLoopStmt.setInit_spec hs
      rw [hn] at hn0
      injection hn0 with hn0
      injection hn0 with _ x1 x2 x3 x4
      rw [hn1, x1, x2, x3, x4]
    · subst h2
      obtain ⟨h', hs⟩ := UForLoopStmt.setCond_ok (e := arg) hn hsub ha
      refine ⟨h', by rw [hu, if_neg h1, if_pos rfl]; exact hs, ?_⟩
      obtain ⟨i', d', cv, s', b', hn0, hn1, _⟩ := UForLoopStmt.setCond_spec hs
      rw [hn] at hn0
      injection hn0 with hn0
      injection hn0 with x0 x1 _ x3 x4
      rw [hn1, x0, x1, x3, x4]
    · subst h3
      obtain ⟨h', hs⟩ := UForLoopStmt.setStep_ok (e := arg) hn hsub ha
      refine ⟨h', by rw [hu, if_neg h1, if_neg h2, if_pos rfl]; exact hs, ?_⟩
      obtain ⟨i', d', c', sv, b', hn0, hn1, _⟩ := UForLoopStmt.setStep_spec hs
      rw [hn] at hn0
      injection hn0 with hn0
      injection hn0 with x0 x1 x2 _ x4
      rw [hn1, x0, x1, x2, x4]
  · intro harg hb
    subst hb
    obtain ⟨h', hs⟩ := UForLoopStmt.setBody_ok (e := arg) hn hsub (isa_lt harg)
    refine ⟨h', ?_, ?_⟩
    · simp only [UForLoopStmt.update]
      rw [UForLoopStmt.getBody_of_node hn, bind_ok, isa_cast harg]
      simpa using hs
    · obtain ⟨i', d', c', s', bv, hn0, hn1, _⟩ := UForLoopStmt.setBody_spec hs
      rw [hn] at hn0
      injection hn0 with hn0
      injection hn0 with x0 x1 x2 x3 _
      rw [hn1, x0, x1, x2, x3]

/-- On `loopHeap`, notifying the loop `for (i; c; s) {}` that `c` is replaced by
the variable `n` puts `n` into the `cond` slot and leaves the rest. -/
theorem update_splices_into_owning_slot_witness :
    ∃ h', UForLoopStmt.update loopHeap 5 (some 1) (some 4) = .ok h' ∧
      h'.node (some 5) = some (.uforLoopStmt (some 0) false (some 4) (some 2) (some 3)) :=
  ((update_splices_into_owning_slot loopHeap 5 1 4 (some 0) (some 1) (some 2) (some 3) false
    (by decide) (by decide)).1 (by decide)).2.1 (by decide) rfl

/-! ## Theorems: `replace` keeps the heap size -/

theorem rewire_length (g : Node → Node) (h h' : Heap) (recv e : Nat) (old : Ptr)
    (hset : ((Subject.removeObserver h old recv).bind fun h1 =>
      (Subject.addObserver h1 (some e) recv).bind fun h2 =>
        .ok (h2.update recv fun c => { c with node := g c.node })) = .ok h') :
    h'.length = h.length := by
  obtain ⟨_, _, _, _, hl, _⟩ := rewire_spec g h h' recv e old hset
  exact hl

theorem BinaryOpExpr.setFirstOperand_length {h h' : Heap} {x : Nat} {first : Ptr}
    (hs : BinaryOpExpr.setFirstOperand h x first = .ok h') : h'.length = h.length := by
  cases first with
  | none => simp [BinaryOpExpr.setFirstOperand] at hs
  | some e =>
    simp only [BinaryOpExpr.setFirstOperand] at hs
    obtain ⟨⟨op1, op2⟩, _, hs⟩ := bind_eq_ok hs
    exact rewire_length _ h h' x e op1 hs

theorem BinaryOpExpr.setSecondOperand_length {h h' : Heap} {x : Nat} {second : Ptr}
    (hs : BinaryOpExpr.setSecondOperand h x second = .ok h') : h'.length = h.length := by
  cases second with
  | none => simp [BinaryOpExpr.setSecondOperand] at hs
  | some e =>
    simp only [BinaryOpExpr.setSecondOperand] at hs
    obtain ⟨⟨op1, op2⟩, _, hs⟩ := bind_eq_ok hs
    exact rewire_length _ h h' x e op2 hs

theorem Other.setOperand_length {h h' : Heap} {x i : Nat} {newOp : Ptr}
    (hs : Other.setOperand h x i newOp = .ok h') : h'.length = h.length := by
  cases newOp with
  | none => simp [Other.setOperand] at hs
  | some e =>
    simp only [Other.setOperand] at hs
    cases hf : Other.fields h (some x) with
    | none => simp [hf] at hs
    | some y =>
      obtain ⟨cls, d, ops⟩ := y
      simp only [hf] at hs
      exact rewire_length _ h h' x e _ hs

theorem binaryOpExpr_replace_length (v : Heap → Ptr → Ptr → Ptr → Except Err Heap)
    (hv : ∀ g p o n g', v g p o n = .ok g' → g'.length = g.length)
    (h h' : Heap) (x : Nat) (oldExpr newExpr : Ptr)
    (hr : BinaryOpExpr.replace v h x oldExpr newExpr = .ok h') :
    h'.length = h.length := by
  unfold BinaryOpExpr.replace at hr
  obtain ⟨⟨op1, q1⟩, _, hr⟩ := bind_eq_ok hr
  obtain ⟨h1, e1, hr⟩ := bind_eq_ok hr
  obtain ⟨⟨q2, op2⟩, _, hr⟩ := bind_eq_ok hr
  dsimp only at e1 hr
  have v1 : h1.length = h.length := by
    by_cases c1 : oldExpr = op1
    · rw [if_pos c1] at e1
      exact BinaryOpExpr.setFirstOperand_length e1
    · rw [if_neg c1] at e1
      by_cases c2 : op1.isSome = true
      · rw [if_pos c2] at e1
        exact hv _ _ _ _ _ e1
      · rw [if_neg c2] at e1
        cases e1
        rfl
  have v2 : h'.length = h1.length := by
    by_cases c1 : oldExpr = op2
    · rw [if_pos c1] at hr
      exact BinaryOpExpr.setSecondOperand_length hr
    · rw [if_neg c1] at hr
      by_cases c2 : op2.isSome = true
      · rw [if_pos c2] at hr
        exact hv _ _ _ _ _ hr
      · rw [if_neg c2] at hr
        cases hr
        rfl
  exact v2.trans v1

theorem Other.replaceFrom_length (v : Heap → Ptr → Ptr → Ptr → Except Err Heap)
    (hv : ∀ g p o n g', v g p o n = .ok g' → g'.length = g.length)
    (x : Nat) (oldExpr newExpr : Ptr) (ops : List Ptr) (i : Nat)
    (h h' : Heap) (hr : Other.replaceFrom v x oldExpr newExpr ops i h = .ok h') :
    h'.length = h.length := by
  induction ops generalizing i h with
  | nil =>
    simp only [Other.replaceFrom] at hr
    cases hr
    rfl
  | cons op ops ih =>
    simp only [Other.replaceFrom] at hr
    obtain ⟨h1, e1, hr⟩ := bind_eq_ok hr
    have v1 : h1.length = h.length := by
      by_cases c1 : oldExpr = op
      · rw [if_pos c1] at e1
        exact Other.setOperand_length e1
      · rw [if_neg c1] at e1
        by_cases c2 : op.isSome = true
        · rw [if_pos c2] at e1
          exact hv _ _ _ _ _ e1
        · rw [if_neg c2] at e1
          cases e1
          rfl
    exact (ih (i + 1) h1 hr).trans v1

/-- The virtual call `replace` on an expression allocates nothing. -/
theorem expression_replace_length (fuel : Nat) (h h' : Heap) (p oldExpr newExpr : Ptr)
    (hr : Expression.replace fuel h p oldExpr newExpr = .ok h') : h'.length = h.length := by
  induction fuel generalizing h h' p oldExpr newExpr with
  | zero => simp [Expression.replace] at hr
  | succ f ih =>
    cases p with
    | none => simp [Expression.replace] at hr
    | some x =>
      have hv : ∀ g p o n g', Expression.replace f g p o n = .ok g' → g'.length = g.length :=
        fun g p o n g' hx => ih g g' p o n hx
      cases hn : h.node (some x) with
      | none => simp [Expression.replace, hn] at hr
      | some n =>
        cases n with
        | eqOpExpr a b =>
          simp only [Expression.replace, hn] at hr
          exact binaryOpExpr_replace_length _ hv h h' x _ _ hr
        | orOpExpr a b =>
          simp only [Expression.replace, hn] at hr
          exact binaryOpExpr_replace_length _ hv h h' x _ _ hr
        | callStmt a => simp [Expression.replace, hn] at hr
        | uforLoopStmt a b c d e => simp [Expression.replace, hn] at hr
        | other cls d ops =>
          simp only [Expression.replace, hn] at hr
          by_cases hcls : cls.isExpression = true
          · simp only [hcls, if_true, Other.replace, Other.fields_eq_some.2 hn] at hr
            exact Other.replaceFrom_length _ hv x _ _ ops 0 h h' hr
          · simp [hcls] at hr

/-! ## Theorems: `UForLoopStmt::replace` on the init and step parts -/

theorem UForLoopStmt.setInit_length {h h' : Heap} {this e : Nat}
    (hs : UForLoopStmt.setInit h this (some e) = .ok h') : h'.length = h.length := by
  simp only [UForLoopStmt.setInit] at hs
  obtain ⟨init, _, hs⟩ := bind_eq_ok hs
  exact rewire_length _ h h' this e init hs

theorem UForLoopStmt.setCond_length {h h' : Heap} {this e : Nat}
    (hs : UForLoopStmt.setCond h this (some e) = .ok h') : h'.length = h.length := by
  simp only [UForLoopStmt.setCond] at hs
  obtain ⟨cond, _, hs⟩ := bind_eq_ok hs
  exact rewire_length _ h h' this e cond hs

theorem UForLoopStmt.setStep_length {h h' : Heap} {this e : Nat}
    (hs : UForLoopStmt.setStep h this (some e) = .ok h') : h'.length = h.length := by
  simp only [UForLoopStmt.setStep] at hs
  obtain ⟨step, _, hs⟩ := bind_eq_ok hs
  exact rewire_length _ h h' this e step hs

/-- The first stage of `UForLoopStmt::replace`: either the forwarded call on the
retained `init` fails, or the stage returns a heap of the same size in which
`init` is `newExpr` when it was `oldExpr` and is unchanged otherwise. -/
theorem UForLoopStmt.replace_stage_init (fuel : Nat) {h : Heap} {this iv n : Nat} {d : Bool}
    {c s b : Ptr} (old : Ptr)
    (hn : h.node (some this) = some (.uforLoopStmt (some iv) d c s b))
    (hiv : iv < h.length) (hnl : n < h.length) :
    (∃ err, old ≠ some iv ∧ Expression.replace fuel h (some iv) old (some n) = .error err ∧
      (if old = some iv then UForLoopStmt.setInit h this (some n)
        else Expression.replace fuel h (some iv) old (some n)) = .error err) ∨
    (∃ h1, (if old = some iv then UForLoopStmt.setInit h this (some n)
        else Expression.replace fuel h (some iv) old (some n)) = .ok h1 ∧
      h1.length = h.length ∧
      h1.node (some this) =
        some (.uforLoopStmt (if old = some iv then some n else some iv) d c s b)) := by
  by_cases c1 : old = some iv
  · right
    obtain ⟨h1, hs⟩ := UForLoopStmt.setInit_ok (e := n) hn hiv hnl
    refine ⟨h1, by rw [if_pos c1]; exact hs, UForLoopStmt.setInit_length hs, ?_⟩
    obtain ⟨iv', d', c', s', b', hn0, hn1, _⟩ := UForLoopStmt.setInit_spec hs
    rw [hn] at hn0
    injection hn0 with hn0
    injection hn0 with _ x1 x2 x3 x4
    rw [hn1, if_pos c1, x1, x2, x3, x4]
  · cases hr : Expression.replace fuel h (some iv) old (some n) with
    | error err =>
      left
      exact ⟨err, c1, rfl, by rw [if_neg c1]⟩
    | ok h1 =>
      right
      refine ⟨h1, by rw [if_neg c1], expression_replace_length _ _ _ _ _ _ hr, ?_⟩
      rw [if_neg c1]
      exact (expression_replace_frame this (.uforLoopStmt _ _ _ _ _) rfl fuel h h1 _ _ _ hn
        hr).1.trans hn

/-- The second stage of `UForLoopStmt::replace`, in which the setter is called
with the old `cond`: either the forwarded call on `cond` fails, or the stage
returns a heap of the same size with the same loop node. -/
theorem UForLoopStmt.replace_stage_cond (fuel : Nat) {h : Heap} {this cv : Nat} (n : Nat)
    {d : Bool} {i s b : Ptr} (old : Ptr)
    (hn : h.node (some this) = some (.uforLoopStmt i d (some cv) s b))
    (hcv : cv < h.length) :
    (∃ err, old ≠ some cv ∧ Expression.replace fuel h (some cv) old (some n) = .error err ∧
      (if old = some cv then UForLoopStmt.setCond h this (some cv)
        else Expression.replace fuel h (some cv) old (some n)) = .error err) ∨
    (∃ h1, (if old = some cv then UForLoopStmt.setCond h this (some cv)
        else Expression.replace fuel h (some cv) old (some n)) = .ok h1 ∧
      h1.length = h.length ∧
      h1.node (some this) = some (.uforLoopStmt i d (some cv) s b)) := by
  by_cases c1 : old = some cv
  · right
    obtain ⟨h1, hs⟩ := UForLoopStmt.setCond_ok (e := cv) hn hcv hcv
    refine ⟨h1, by rw [if_pos c1]; exact hs, UForLoopStmt.setCond_length hs, ?_⟩
    obtain ⟨i', d', c', s', b', hn0, hn1, _⟩ := UForLoopStmt.setCond_spec hs
    rw [hn] at hn0
    injection hn0 with hn0
    injection hn0 with x0 x1 _ x3 x4
    rw [hn1, x0, x1, x3, x4]
  · cases hr : Expression.replace fuel h (some cv) old (some n) with
    | error err =>
      left
      exact ⟨err, c1, rfl, by rw [if_neg c1]⟩
    | ok h1 =>
      right
      refine ⟨h1, by rw [if_neg c1], expression_replace_length _ _ _ _ _ _ hr, ?_⟩
      exact (expression_replace_frame this (.uforLoopStmt _ _ _ _ _) rfl fuel h h1 _ _ _ hn
        hr).1.trans hn

/-- The third stage of `UForLoopStmt::replace`: either the forwarded call on the
retained `step` fails, or the stage returns a heap of the same size in which
`step` is `newExpr` when it was `oldExpr` and is unchanged otherwise. -/
theorem UForLoopStmt.replace_stage_step (fuel : Nat) {h : Heap} {this sv n : Nat} {d : Bool}
    {i c b : Ptr} (old : Ptr)
    (hn : h.node (some this) = some (.uforLoopStmt i d c (some sv) b))
    (hsv : sv < h.length) (hnl : n < h.length) :
    (∃ err, old ≠ some sv ∧ Expression.replace fuel h (some sv) old (some n) = .error err ∧
      (if old = some sv then UForLoopStmt.setStep h this (some n)
        else Expression.replace fuel h (some sv) old (some n)) = .error err) ∨
    (∃ h1, (if old = some sv then UForLoopStmt.setStep h this (some n)
        else Expression.replace fuel h (some sv) old (some n)) = .ok h1 ∧
      h1.length = h.length ∧
      h1.node (some this) =
        some (.uforLoopStmt i d c (if old = some sv then some n else some sv) b)) := by
  by_cases c1 : old = some sv
  · right
    obtain ⟨h1, hs⟩ := UForLoopStmt.setStep_ok (e := n) hn hsv hnl
    refine ⟨h1, by rw [if_pos c1]; exact hs, UForLoopStmt.setStep_length hs, ?_⟩
    obtain ⟨i', d', c', s', b', hn0, hn1, _⟩ := UForLoopStmt.setStep_spec hs
    rw [hn] at hn0
    injection hn0 with hn0
    injection hn0 with x0 x1 x2 _ x4
    rw [hn1, if_pos c1, x0, x1, x2, x4]
  · cases hr : Expression.replace fuel h (some sv) old (some n) with
    | error err =>
      left
      exact ⟨err, c1, rfl, by rw [if_neg c1]⟩
    | ok h1 =>
      right
      refine ⟨h1, by rw [if_neg c1], expression_replace_length _ _ _ _ _ _ hr, ?_⟩
      rw [if_neg c1]
      exact (expression_replace_frame this (.uforLoopStmt _ _ _ _ _) rfl fuel h h1 _ _ _ hn
        hr).1.trans hn

/-- The function `UForLoopStmt::replace` on a loop with all three parts is the
sequence of its three stages. -/
theorem UForLoopStmt.replace_unroll (fuel : Nat) (h : Heap) (this iv cv sv n : Nat) (d : Bool)
    (b old : Ptr)
    (hn : h.node (some this) = some (.uforLoopStmt (some iv) d (some cv) (some sv) b))
    (hiv : iv < h.length) (hcv : cv < h.length) (hnl : n < h.length) :
    UForLoopStmt.replace (Expression.replace fuel) h this old (some n) =
      ((if old = some iv then UForLoopStmt.setInit h this (some n)
          else Expression.replace fuel h (some iv) old (some n)).bind fun h1 =>
       (if old = some cv then UForLoopStmt.setCond h1 this (some cv)
          else Expression.replace fuel h1 (some cv) old (some n)).bind fun h2 =>
        if old = some sv then UForLoopStmt.setStep h2 this (some n)
          else Expression.replace fuel h2 (some sv) old (some n)) := by
  unfold UForLoopStmt.replace
  rw [UForLoopStmt.getInit_of_node hn, bind_ok]
  simp only [Option.isSome_some, if_true]
  rcases UForLoopStmt.replace_stage_init fuel old hn hiv hnl with
    ⟨err, _, _, he⟩ | ⟨h1, he, hl1, hn1⟩
  · rw [he, bind_error, bind_error]
  · rw [he, bind_ok, bind_ok, UForLoopStmt.getCond_of_node hn1, bind_ok]
    simp only [Option.isSome_some, if_true]
    rcases UForLoopStmt.replace_stage_cond fuel n old hn1 (by rw [hl1]; exact hcv) with
      ⟨err, _, _, he2⟩ | ⟨h2, he2, hl2, hn2⟩
    · rw [he2, bind_error, bind_error]
    · rw [he2, bind_ok, bind_ok, UForLoopStmt.getStep_of_node hn2, bind_ok]
      simp only [Option.isSome_some, if_true]

/-- C15: the function `UForLoopStmt::replace` on the init and step parts of a
loop whose `init`, `cond` and `step` are all present, with a non-null
`newExpr`.  The call is the sequence of three stages, one per part, and the
stage of a part that is not `oldExpr` is exactly one forwarded call
`part->replace(oldExpr, newExpr)`.  The call can fail only with the failure of
one of these forwarded calls.  When it returns, `getInit()` is `newExpr` if
`oldExpr` was the init part and is the old init part otherwise, and `getStep()`
is `newExpr` if `oldExpr` was the step part and is the old step part
otherwise. -/
theorem uForLoopStmt_replace_init_step (fuel : Nat) (h : Heap) (this iv cv sv n : Nat)
    (d : Bool) (b old : Ptr)
    (hn : h.node (some this) = some (.uforLoopStmt (some iv) d (some cv) (some sv) b))
    (hiv : iv < h.length) (hcv : cv < h.length) (hsv : sv < h.length) (hnl : n < h.length) :
    UForLoopStmt.replace (Expression.replace fuel) h this old (some n) =
      ((if old = some iv then UForLoopStmt.setInit h this (some n)
          else Expression.replace fuel h (some iv) old (some n)).bind fun h1 =>
       (if old = some cv then UForLoopStmt.setCond h1 this (some cv)
          else Expression.replace fuel h1 (some cv) old (some n)).bind fun h2 =>
        if old = some sv then UForLoopStmt.setStep h2 this (some n)
          else Expression.replace fuel h2 (some sv) old (some n)) ∧
    (∀ h', UForLoopStmt.replace (Expression.replace fuel) h this old (some n) = .ok h' →
      UForLoopStmt.getInit h' this = .ok (if old = some iv then some n else some iv) ∧
      UForLoopStmt.getStep h' this = .ok (if old = some sv then some n else some sv)) ∧
    (∀ err, UForLoopStmt.replace (Expression.replace fuel) h this old (some n) = .error err →
      ∃ g p, p ∈ [some iv, some cv, some sv] ∧ old ≠ p ∧
        Expression.replace fuel g p old (some n) = .error err) := by
  have hu := UForLoopStmt.replace_unroll fuel h this iv cv sv n d b old hn hiv hcv hnl
  refine ⟨hu, ?_⟩
  rw [hu]
  rcases UForLoopStmt.replace_stage_init fuel old hn hiv hnl with
    ⟨err, hne, hf, he⟩ | ⟨h1, he, hl1, hn1⟩
  · rw [he, bind_error]
    refine ⟨fun h' hx => (by cases hx), fun err' hx => ?_⟩
    cases hx
    exact ⟨h, some iv, by simp, hne, hf⟩
  · rw [he, bind_ok]
    rcases UForLoopStmt.replace_stage_cond fuel n old hn1 (by rw [hl1]; exact hcv) with
      ⟨err, hne, hf, he2⟩ | ⟨h2, he2, hl2, hn2⟩
    · rw [he2, bind_error]
      refine ⟨fun h' hx => (by cases hx), fun err' hx => ?_⟩
      cases hx
      exact ⟨h1, some cv, by simp, hne, hf⟩
    · rw [he2, bind_ok]
      rcases UForLoopStmt.replace_stage_step fuel old hn2 (by rw [hl2, hl1]; exact hsv)
          (by rw [hl2, hl1]; exact hnl) with
        ⟨err, hne, hf, he3⟩ | ⟨h3, he3, hl3, hn3⟩
      · rw [he3]
        refine ⟨fun h' hx => (by cases hx), fun err' hx => ?_⟩
        cases hx
        exact ⟨h2, some sv, by simp, hne, hf⟩
      · rw [he3]
        refine ⟨fun h' hx => ?_, fun err' hx => by cases hx⟩
        cases hx
        exact ⟨UForLoopStmt.getInit_of_node hn3, UForLoopStmt.getStep_of_node hn3⟩

/-- On `loopHeap`, `replace(i, n)` on the loop `for (i; c; s) {}` returns
`loopHeapReplaced`, whose init part is `n` and whose step part is still `s`. -/
theorem uForLoopStmt_replace_init_step_witness :
    UForLoopStmt.replace (Expression.replace 2) loopHeap 5 (some 0) (some 4) =
      .ok loopHeapReplaced ∧
    UForLoopStmt.getInit loopHeapReplaced 5 = .ok (some 4) ∧
    UForLoopStmt.getStep loopHeapReplaced 5 = .ok (some 2) :=
  ⟨by decide,
   ((uForLoopStmt_replace_init_step 2 loopHeap 5 0 1 2 4 false (some 3) (some 0) (by decide)
      (by decide) (by decide) (by decide) (by decide)).2.1 loopHeapReplaced (by decide))⟩

/-! ## Theorems: `clone` touches no existing cell and returns a new node -/

theorem Heap.untouched_update {h g : Heap} (hp : h <+: g) (a : Nat) (f : Cell → Cell)
    (ha : h.length ≤ a) : h <+: g.update a f := by
  obtain ⟨t, rfl⟩ := hp
  unfold Heap.update
  cases (h ++ t)[a]? with
  | none => exact List.prefix_append h t
  | some c =>
    simp only
    rw [List.set_append_right _ _ ha]
    exact List.prefix_append _ _

theorem Heap.untouched_getElem? {h g : Heap} (hp : h <+: g) {a : Nat} (ha : a < h.length) :
    g[a]? = h[a]? := by
  obtain ⟨t, rfl⟩ := hp
  exact List.getElem?_append_left ha

theorem Heap.untouched_node {h g : Heap} (hp : h <+: g) {a : Nat} (ha : a < h.length) :
    g.node (some a) = h.node (some a) := by
  simp only [Heap.node, Heap.untouched_getElem? hp ha]

theorem Heap.untouched_hasObserver {h g : Heap} (hp : h <+: g) {v : Nat} (hv : v < h.length)
    (o : Nat) : Subject.hasObserver g v o = Subject.hasObserver h v o := by
  simp only [Subject.hasObserver, Heap.untouched_getElem? hp hv]

theorem Heap.untouched_fields {h g : Heap} (hp : h <+: g) {a : Nat} (ha : a < h.length) :
    Statement.getSuccessor g a = Statement.getSuccessor h a ∧
    Value.getMetadata g a = Value.getMetadata h a ∧
    Value.getAddress g a = Value.getAddress h a := by
  simp only [Statement.getSuccessor, Value.getMetadata, Value.getAddress, Heap.cell,
    Heap.untouched_getElem? hp ha, and_self]

theorem Subject.addObserver_untouched {h g g' : Heap} {x o : Nat} (hp : h <+: g)
    (hx : h.length ≤ x) (ha : Subject.addObserver g (some x) o = .ok g') : h <+: g' := by
  rw [Subject.addObserver_ok _ (Subject.addObserver_lt ha)] at ha
  cases ha
  exact Heap.untouched_update hp _ _ hx

theorem Statement.setSuccessor_lt {h h' : Heap} {a : Nat} {s : Ptr}
    (hp : Statement.setSuccessor h a s = .ok h') : a < h.length := by
  simp only [Statement.setSuccessor] at hp
  split at hp
  · assumption
  · cases hp

theorem Value.setMetadata_lt {h h' : Heap} {a : Nat} {md : String}
    (hp : Value.setMetadata h a md = .ok h') : a < h.length := by
  simp only [Value.setMetadata] at hp
  split at hp
  · assumption
  · cases hp

theorem Statement.setSuccessor_untouched {h g g' : Heap} {x : Nat} {s : Ptr} (hp : h <+: g)
    (hx : h.length ≤ x) (ha : Statement.setSuccessor g x s = .ok g') : h <+: g' := by
  rw [Statement.setSuccessor_ok _ (Statement.setSuccessor_lt ha)] at ha
  cases ha
  exact Heap.untouched_update hp _ _ hx

theorem Value.setMetadata_untouched {h g g' : Heap} {x : Nat} {md : String} (hp : h <+: g)
    (hx : h.length ≤ x) (ha : Value.setMetadata g x md = .ok g') : h <+: g' := by
  have hlt := Value.setMetadata_lt ha
  simp only [Value.setMetadata, hlt, if_true] at ha
  cases ha
  exact Heap.untouched_update hp _ _ hx

theorem Heap.SameNodes.lt_iff {h h' : Heap} (hs : h.SameNodes h') (x : Nat) :
    x < h'.length ↔ x < h.length := by
  rw [hs.1]

theorem Heap.Fresh.trans_left {h g g' : Heap} {c : Ptr} (hp : h <+: g)
    (hf : Heap.Fresh g c g') : Heap.Fresh h c g' :=
  ⟨hp.trans hf.1, fun x hx => ⟨hp.length_le.trans (hf.2 x hx).1, (hf.2 x hx).2⟩⟩

theorem eqOpExpr_create_wires {g g' : Heap} {x1 x2 e : Nat}
    (hc : EqOpExpr.create g (some x1) (some x2) = .ok (e, g')) :
    e = g.length ∧ g'.length = g.length + 1 ∧
    Subject.hasObserver g' x1 e = true ∧ Subject.hasObserver g' x2 e = true ∧
    ∀ h : Heap, h <+: g → h.length ≤ x1 → h.length ≤ x2 → h <+: g' := by
  simp only [EqOpExpr.create, Heap.alloc] at hc
  obtain ⟨h1, e1, hc⟩ := bind_eq_ok hc
  obtain ⟨h2, e2, hc⟩ := bind_eq_ok hc
  cases hc
  refine ⟨rfl, ?_, ?_, ?_, fun h hp l1 l2 => ?_⟩
  · rw [(Subject.addObserver_sameNodes e2).1, (Subject.addObserver_sameNodes e1).1]
    simp
  · exact (Subject.hasObserver_addObserver e2 x1 _).2
      (Or.inr ((Subject.hasObserver_addObserver e1 x1 _).2 (Or.inl ⟨rfl, rfl⟩)))
  · exact (Subject.hasObserver_addObserver e2 x2 _).2 (Or.inl ⟨rfl, rfl⟩)
  · exact Subject.addObserver_untouched
      (Subject.addObserver_untouched (hp.trans (List.prefix_append g _)) l1 e1) l2 e2

theorem orOpExpr_create_wires {g g' : Heap} {x1 x2 e : Nat}
    (hc : OrOpExpr.create g (some x1) (some x2) = .ok (e, g')) :
    e = g.length ∧ g'.length = g.length + 1 ∧
    Subject.hasObserver g' x1 e = true ∧ Subject.hasObserver g' x2 e = true ∧
    ∀ h : Heap, h <+: g → h.length ≤ x1 → h.length ≤ x2 → h <+: g' := by
  simp only [OrOpExpr.create, Heap.alloc] at hc
  obtain ⟨h1, e1, hc⟩ := bind_eq_ok hc
  obtain ⟨h2, e2, hc⟩ := bind_eq_ok hc
  cases hc
  refine ⟨rfl, ?_, ?_, ?_, fun h hp l1 l2 => ?_⟩
  · rw [(Subject.addObserver_sameNodes e2).1, (Subject.addObserver_sameNodes e1).1]
    simp
  · exact (Subject.hasObserver_addObserver e2 x1 _).2
      (Or.inr ((Subject.hasObserver_addObserver e1 x1 _).2 (Or.inl ⟨rfl, rfl⟩)))
  · exact (Subject.hasObserver_addObserver e2 x2 _).2 (Or.inl ⟨rfl, rfl⟩)
  · exact Subject.addObserver_untouched
      (Subject.addObserver_untouched (hp.trans (List.prefix_append g _)) l1 e1) l2 e2

theorem callStmt_create_wires {g g' : Heap} {x e a : Nat} {succ : Ptr}
    (hc : CallStmt.create g (some x) succ a = .ok (e, g')) :
    e = g.length ∧ g'.length = g.length + 1 ∧
    Subject.hasObserver g' x e = true ∧
    (x < g.length → Value.getAddress g' e = .ok a) ∧
    ∀ h : Heap, h <+: g → h.length ≤ x → h <+: g' := by
  simp only [CallStmt.create, Heap.alloc] at hc
  obtain ⟨h1, e1, hc⟩ := bind_eq_ok hc
  obtain ⟨h2, e2, hc⟩ := bind_eq_ok hc
  cases hc
  refine ⟨rfl, ?_, ?_, fun hx => ?_, fun h hp l1 => ?_⟩
  · rw [(Subject.addObserver_sameNodes e2).1, (Statement.setSuccessor_sameNodes e1).1]
    simp
  · exact (Subject.hasObserver_addObserver e2 x _).2 (Or.inl ⟨rfl, rfl⟩)
  · have hc := callStmt_create_eq succ a hx
    simp only [CallStmt.create, Heap.alloc, e1, bind_ok, e2] at hc
    injection hc with hc
    injection hc with _ hc
    rw [hc]
    simp only [Value.getAddress, Heap.cell, callStmt_create_cell succ a hx]
    rfl
  · exact Subject.addObserver_untouched
      (Statement.setSuccessor_untouched (hp.trans (List.prefix_append g _)) hp.length_le e1) l1 e2

theorem Subject.addObserver_if_untouched {h g g' : Heap} {p : Ptr} {o : Nat} (hp : h <+: g)
    (hx : ∀ x, p = some x → h.length ≤ x)
    (ha : (if p.isSome then Subject.addObserver g p o else .ok g) = .ok g') : h <+: g' := by
  cases p with
  | none =>
    simp only [Option.isSome_none, Bool.false_eq_true, if_false] at ha
    cases ha
    exact hp
  | some x =>
    simp only [Option.isSome_some, if_true] at ha
    exact Subject.addObserver_untouched hp (hx x rfl) ha

theorem uForLoopStmt_create_untouched {g g' h : Heap} {i c s b succ : Ptr} {e a : Nat}
    (hc : UForLoopStmt.create g i c s b succ a = .ok (e, g')) (hp : h <+: g)
    (hi : ∀ x, i = some x → h.length ≤ x) (hcd : ∀ x, c = some x → h.length ≤ x)
    (hs : ∀ x, s = some x → h.length ≤ x) (hb : ∀ x, b = some x → h.length ≤ x) :
    e = g.length ∧ g'.length = g.length + 1 ∧ h <+: g' := by
  cases b with
  | none => simp [UForLoopStmt.create] at hc
  | some y =>
    simp only [UForLoopStmt.create, UForLoopStmt.new, Heap.alloc] at hc
    obtain ⟨h1, e1, hc⟩ := bind_eq_ok hc
    obtain ⟨h2, e2, hc⟩ := bind_eq_ok hc
    obtain ⟨h3, e3, hc⟩ := bind_eq_ok hc
    obtain ⟨h4, e4, hc⟩ := bind_eq_ok hc
    obtain ⟨h5, e5, hc⟩ := bind_eq_ok hc
    cases hc
    refine ⟨rfl, ?_, ?_⟩
    · rw [(Subject.addObserver_sameNodes e5).1, (Subject.addObserver_if_sameNodes e4).1,
        (Subject.addObserver_if_sameNodes e3).1, (Subject.addObserver_if_sameNodes e2).1,
        (Statement.setSuccessor_sameNodes e1).1]
      simp
    · exact Subject.addObserver_untouched (Subject.addObserver_if_untouched
        (Subject.addObserver_if_untouched (Subject.addObserver_if_untouched
          (Statement.setSuccessor_untouched (hp.trans (List.prefix_append g _)) hp.length_le e1)
          hi e2) hcd e3) hs e4) (hb y rfl) e5

theorem Value.getMetadata_setMetadata {h h' : Heap} {a : Nat} {md : String}
    (hp : Value.setMetadata h a md = .ok h') : Value.getMetadata h' a = .ok md := by
  have hlt := Value.setMetadata_lt hp
  simp only [Value.setMetadata, hlt, if_true] at hp
  cases hp
  simp only [Value.getMetadata, Heap.cell, Heap.getElem?_update, if_true,
    List.getElem?_eq_getElem hlt]
  rfl

theorem Value.setMetadata_hasObserver {h h' : Heap} {a : Nat} {md : String}
    (hp : Value.setMetadata h a md = .ok h') (v o : Nat) :
    Subject.hasObserver h' v o = Subject.hasObserver h v o := by
  have hlt := Value.setMetadata_lt hp
  simp only [Value.setMetadata, hlt, if_true] at hp
  cases hp
  exact Subject.hasObserver_update_same h a (fun c => { c with metadata := md })
    (fun _ => rfl) v o

theorem Value.setMetadata_getAddress {h h' : Heap} {a : Nat} {md : String}
    (hp : Value.setMetadata h a md = .ok h') (b : Nat) :
    Value.getAddress h' b = Value.getAddress h b := by
  have hlt := Value.setMetadata_lt hp
  simp only [Value.setMetadata, hlt, if_true] at hp
  cases hp
  simp only [Value.getAddress, Heap.cell, Heap.getElem?_update]
  by_cases hab : a = b
  · simp only [hab, if_true]
    cases h[b]? with
    | none => rfl
    | some c => rfl
  · simp [hab]

/-- The clone of an `EqOpExpr`, in detail. -/
theorem eqOpExpr_clone_detail (v : Heap → Ptr → Except Err (Ptr × Heap))
    (hv : ∀ h p c h', v h p = .ok (c, h') → Heap.Fresh h c h')
    (h h' : Heap) (this : Nat) (c op1 op2 : Ptr)
    (hn : h.node (some this) = some (.eqOpExpr op1 op2))
    (hc : EqOpExpr.clone v h this = .ok (c, h')) :
    ∃ x x1 x2 h1 h2, c = some x ∧ v h op1 = .ok (some x1, h1) ∧
      v h1 op2 = .ok (some x2, h2) ∧
      h.length ≤ x1 ∧ h.length ≤ x2 ∧ h.length ≤ x ∧ x < h'.length ∧ h <+: h' ∧
      h'.node (some x) = some (.eqOpExpr (some x1) (some x2)) ∧
      Subject.hasObserver h' x1 x = true ∧ Subject.hasObserver h' x2 x = true ∧
      Value.getMetadata h' x = Value.getMetadata h this := by
  unfold EqOpExpr.clone at hc
  simp only [eqOpExpr_operands_eq_some.2 hn] at hc
  obtain ⟨⟨c1, h1⟩, e1, hc⟩ := bind_eq_ok hc
  obtain ⟨⟨c2, h2⟩, e2, hc⟩ := bind_eq_ok hc
  obtain ⟨⟨e, h3⟩, e3, hc⟩ := bind_eq_ok hc
  obtain ⟨md, emd, hc⟩ := bind_eq_ok hc
  obtain ⟨h4, e4, hc⟩ := bind_eq_ok hc
  cases hc
  have f1 := hv _ _ _ _ e1
  have f2 := hv _ _ _ _ e2
  cases c1 with
  | none => simp [EqOpExpr.create] at e3
  | some x1 =>
    cases c2 with
    | none => simp [EqOpExpr.create] at e3
    | some x2 =>
      obtain ⟨he, hl, o1, o2, hpre⟩ := eqOpExpr_create_wires e3
      have l1 : h.length ≤ x1 := (f1.2 x1 rfl).1
      have l2 : h.length ≤ x2 := f1.1.length_le.trans (f2.2 x2 rfl).1
      have p2 : h <+: h2 := f1.1.trans f2.1
      have p3 : h <+: h3 := hpre h p2 l1 l2
      have le : h.length ≤ e := by rw [he]; exact p2.length_le
      have s4 := Value.setMetadata_sameNodes e4
      refine ⟨e, x1, x2, h1, h2, rfl, e1, e2, l1, l2, le, ?_,
        Value.setMetadata_untouched p3 le e4, ?_, ?_, ?_, ?_⟩
      · rw [s4.1, hl, he]; omega
      · rw [s4.2]; exact (eqOpExpr_create_spec e3).2.1
      · rw [Value.setMetadata_hasObserver e4]; exact o1
      · rw [Value.setMetadata_hasObserver e4]; exact o2
      · rw [Value.getMetadata_setMetadata e4, ← emd]
        exact (Heap.untouched_fields p3 (Heap.node_lt hn)).2.1

/-- The clone of an `OrOpExpr`, in detail. -/
theorem orOpExpr_clone_detail (v : Heap → Ptr → Except Err (Ptr × Heap))
    (hv : ∀ h p c h', v h p = .ok (c, h') → Heap.Fresh h c h')
    (h h' : Heap) (this : Nat) (c op1 op2 : Ptr)
    (hn : h.node (some this) = some (.orOpExpr op1 op2))
    (hc : OrOpExpr.clone v h this = .ok (c, h')) :
    ∃ x x1 x2 h1 h2, c = some x ∧ v h op1 = .ok (some x1, h1) ∧
      v h1 op2 = .ok (some x2, h2) ∧
      h.length ≤ x1 ∧ h.length ≤ x2 ∧ h.length ≤ x ∧ x < h'.length ∧ h <+: h' ∧
      h'.node (some x) = some (.orOpExpr (some x1) (some x2)) ∧
      Subject.hasObserver h' x1 x = true ∧ Subject.hasObserver h' x2 x = true ∧
      Value.getMetadata h' x = Value.getMetadata h this := by
  unfold OrOpExpr.clone at hc
  simp only [orOpExpr_operands_eq_some.2 hn] at hc
  obtain ⟨⟨c1, h1⟩, e1, hc⟩ := bind_eq_ok hc
  obtain ⟨⟨c2, h2⟩, e2, hc⟩ := bind_eq_ok hc
  obtain ⟨⟨e, h3⟩, e3, hc⟩ := bind_eq_ok hc
  obtain ⟨md, emd, hc⟩ := bind_eq_ok hc
  obtain ⟨h4, e4, hc⟩ := bind_eq_ok hc
  cases hc
  have f1 := hv _ _ _ _ e1
  have f2 := hv _ _ _ _ e2
  cases c1 with
  | none => simp [OrOpExpr.create] at e3
  | some x1 =>
    cases c2 with
    | none => simp [OrOpExpr.create] at e3
    | some x2 =>
      obtain ⟨he, hl, o1, o2, hpre⟩ := orOpExpr_create_wires e3
      have l1 : h.length ≤ x1 := (f1.2 x1 rfl).1
      have l2 : h.length ≤ x2 := f1.1.length_le.trans (f2.2 x2 rfl).1
      have p2 : h <+: h2 := f1.1.trans f2.1
      have p3 : h <+: h3 := hpre h p2 l1 l2
      have le : h.length ≤ e := by rw [he]; exact p2.length_le
      have s4 := Value.setMetadata_sameNodes e4
      refine ⟨e, x1, x2, h1, h2, rfl, e1, e2, l1, l2, le, ?_,
        Value.setMetadata_untouched p3 le e4, ?_, ?_, ?_, ?_⟩
      · rw [s4.1, hl, he]; omega
      · rw [s4.2]; exact (orOpExpr_create_spec e3).2.1
      · rw [Value.setMetadata_hasObserver e4]; exact o1
      · rw [Value.setMetadata_hasObserver e4]; exact o2
      · rw [Value.getMetadata_setMetadata e4, ← emd]
        exact (Heap.untouched_fields p3 (Heap.node_lt hn)).2.1

/-- The clone of a `CallStmt`, in detail. -/
theorem callStmt_clone_detail (v : Heap → Ptr → Except Err (Ptr × Heap))
    (hv : ∀ h p c h', v h p = .ok (c, h') → Heap.Fresh h c h')
    (h h' : Heap) (this : Nat) (c call : Ptr)
    (hn : h.node (some this) = some (.callStmt call))
    (hc : CallStmt.clone v h this = .ok (c, h')) :
    ∃ x x1 h1, c = some x ∧ v h call = .ok (some x1, h1) ∧
      h.length ≤ x1 ∧ h.length ≤ x ∧ x < h'.length ∧ h <+: h' ∧
      h'.node (some x) = some (.callStmt (some x1)) ∧
      Subject.hasObserver h' x1 x = true ∧
      Value.getMetadata h' x = Value.getMetadata h this ∧
      Value.getAddress h' x = Value.getAddress h this := by
  unfold CallStmt.clone at hc
  rw [CallStmt.getCall_eq_ok.2 hn, bind_ok] at hc
  obtain ⟨⟨c1, h1⟩, e1, hc⟩ := bind_eq_ok hc
  obtain ⟨a, ea, hc⟩ := bind_eq_ok hc
  obtain ⟨⟨e, h2⟩, e2, hc⟩ := bind_eq_ok hc
  obtain ⟨md, emd, hc⟩ := bind_eq_ok hc
  obtain ⟨h3, e3, hc⟩ := bind_eq_ok hc
  cases hc
  have f1 := hv _ _ _ _ e1
  cases c1 with
  | none => simp [CallStmt.create] at e2
  | some x1 =>
    obtain ⟨he, hl, o1, had, hpre⟩ := callStmt_create_wires e2
    have l1 : h.length ≤ x1 := (f1.2 x1 rfl).1
    have p2 : h <+: h2 := hpre h f1.1 l1
    have le : h.length ≤ e := by rw [he]; exact f1.1.length_le
    have s3 := Value.setMetadata_sameNodes e3
    have hthis := Heap.node_lt hn
    refine ⟨e, x1, h1, rfl, e1, l1, le, ?_, Value.setMetadata_untouched p2 le e3, ?_, ?_, ?_, ?_⟩
    · rw [s3.1, hl, he]; omega
    · rw [s3.2]; exact (callStmt_create_spec e2).2.1
    · rw [Value.setMetadata_hasObserver e3]; exact o1
    · rw [Value.getMetadata_setMetadata e3, ← emd]
      exact (Heap.untouched_fields p2 hthis).2.1
    · rw [Value.setMetadata_getAddress e3, had (f1.2 x1 rfl).2, ← ea]
      exact (Heap.untouched_fields f1.1 hthis).2.2

theorem eqOpExpr_clone_fresh (v : Heap → Ptr → Except Err (Ptr × Heap))
    (hv : ∀ h p c h', v h p = .ok (c, h') → Heap.Fresh h c h')
    (h h' : Heap) (this : Nat) (c : Ptr)
    (hc : EqOpExpr.clone v h this = .ok (c, h')) : Heap.Fresh h c h' := by
  cases h0 : EqOpExpr.operands h (some this) with
  | none => simp [EqOpExpr.clone, h0] at hc
  | some x =>
    obtain ⟨op1, op2⟩ := x
    obtain ⟨x, _, _, _, _, rfl, _, _, _, _, hle, hlt, hp, _⟩ :=
      eqOpExpr_clone_detail v hv h h' this c op1 op2 (eqOpExpr_operands_eq_some.1 h0) hc
    exact ⟨hp, fun y hy => by cases hy; exact ⟨hle, hlt⟩⟩

theorem orOpExpr_clone_fresh (v : Heap → Ptr → Except Err (Ptr × Heap))
    (hv : ∀ h p c h', v h p = .ok (c, h') → Heap.Fresh h c h')
    (h h' : Heap) (this : Nat) (c : Ptr)
    (hc : OrOpExpr.clone v h this = .ok (c, h')) : Heap.Fresh h c h' := by
  cases h0 : OrOpExpr.operands h (some this) with
  | none => simp [OrOpExpr.clone, h0] at hc
  | some x =>
    obtain ⟨op1, op2⟩ := x
    obtain ⟨x, _, _, _, _, rfl, _, _, _, _, hle, hlt, hp, _⟩ :=
      orOpExpr_clone_detail v hv h h' this c op1 op2 (orOpExpr_operands_eq_some.1 h0) hc
    exact ⟨hp, fun y hy => by cases hy; exact ⟨hle, hlt⟩⟩

theorem callStmt_clone_fresh (v : Heap → Ptr → Except Err (Ptr × Heap))
    (hv : ∀ h p c h', v h p = .ok (c, h') → Heap.Fresh h c h')
    (h h' : Heap) (this : Nat) (c : Ptr)
    (hc : CallStmt.clone v h this = .ok (c, h')) : Heap.Fresh h c h' := by
  have hc' := hc
  unfold CallStmt.clone at hc'
  obtain ⟨call, hg, _⟩ := bind_eq_ok hc'
  obtain ⟨x, _, _, rfl, _, _, hle, hlt, hp, _⟩ :=
    callStmt_clone_detail v hv h h' this c call (CallStmt.getCall_eq_ok.1 hg) hc
  exact ⟨hp, fun y hy => by cases hy; exact ⟨hle, hlt⟩⟩

theorem uForLoopStmt_clone_fresh (v vs : Heap → Ptr → Except Err (Ptr × Heap))
    (hv : ∀ h p c h', v h p = .ok (c, h') → Heap.Fresh h c h')
    (hvs : ∀ h p c h', vs h p = .ok (c, h') → Heap.Fresh h c h')
    (h h' : Heap) (this : Nat) (c : Ptr)
    (hc : UForLoopStmt.clone v vs h this = .ok (c, h')) : Heap.Fresh h c h' := by
  unfold UForLoopStmt.clone at hc
  cases hn : h.node (some this) with
  | none => simp [hn] at hc
  | some n =>
    cases n with
    | uforLoopStmt i d cd s b =>
      simp only [hn] at hc
      obtain ⟨⟨ci, h1⟩, e1, hc⟩ := bind_eq_ok hc
      obtain ⟨⟨cc, h2⟩, e2, hc⟩ := bind_eq_ok hc
      obtain ⟨⟨cs, h3⟩, e3, hc⟩ := bind_eq_ok hc
      obtain ⟨⟨cb, h4⟩, e4, hc⟩ := bind_eq_ok hc
      obtain ⟨a, _, hc⟩ := bind_eq_ok hc
      obtain ⟨⟨l, h5⟩, e5, hc⟩ := bind_eq_ok hc
      obtain ⟨md, _, hc⟩ := bind_eq_ok hc
      obtain ⟨h6, e6, hc⟩ := bind_eq_ok hc
      cases hc
      have f1 := hv _ _ _ _ e1
      have f2 := Heap.Fresh.trans_left f1.1 (hv _ _ _ _ e2)
      have f3 := Heap.Fresh.trans_left f2.1 (hv _ _ _ _ e3)
      have f4 := Heap.Fresh.trans_left f3.1 (hvs _ _ _ _ e4)
      obtain ⟨he, hl, p5⟩ := uForLoopStmt_create_untouched e5 f4.1
        (fun x hx => (f1.2 x hx).1) (fun x hx => (f2.2 x hx).1)
        (fun x hx => (f3.2 x hx).1) (fun x hx => (f4.2 x hx).1)
      have le : h.length ≤ l := by rw [he]; exact f4.1.length_le
      refine ⟨Value.setMetadata_untouched p5 le e6, fun y hy => ?_⟩
      cases hy
      refine ⟨le, ?_⟩
      rw [(Value.setMetadata_sameNodes e6).1, hl, he]
      omega
    | _ => simp [hn] at hc

theorem Other.cloneOperands_fresh (v : Heap → Ptr → Except Err (Ptr × Heap))
    (hv : ∀ h p c h', v h p = .ok (c, h') → Heap.Fresh h c h')
    (ps : List Ptr) (h h' : Heap) (cs : List Ptr)
    (hc : Other.cloneOperands v h ps = .ok (cs, h')) :
    h <+: h' ∧ ∀ x, some x ∈ cs → h.length ≤ x := by
  induction ps generalizing h h' cs with
  | nil =>
    simp only [Other.cloneOperands] at hc
    cases hc
    exact ⟨List.prefix_refl _, fun x hx => by cases hx⟩
  | cons p ps ih =>
    cases p with
    | none =>
      simp only [Other.cloneOperands] at hc
      obtain ⟨⟨cs1, h1⟩, e1, hc⟩ := bind_eq_ok hc
      cases hc
      obtain ⟨p1, m1⟩ := ih h h1 cs1 e1
      refine ⟨p1, fun x hx => ?_⟩
      rcases List.mem_cons.1 hx with hx | hx
      · cases hx
      · exact m1 x hx
    | some x =>
      simp only [Other.cloneOperands] at hc
      obtain ⟨⟨c1, h1⟩, e1, hc⟩ := bind_eq_ok hc
      obtain ⟨⟨cs1, h2⟩, e2, hc⟩ := bind_eq_ok hc
      cases hc
      have f1 := hv _ _ _ _ e1
      obtain ⟨p1, m1⟩ := ih h1 h2 cs1 e2
      refine ⟨f1.1.trans p1, fun y hy => ?_⟩
      rcases List.mem_cons.1 hy with hy | hy
      · exact (f1.2 y hy.symm).1
      · exact f1.1.length_le.trans (m1 y hy)

theorem Other.addObservers_untouched (o : Nat) (ps : List Ptr) (h g g' : Heap) (hp : h <+: g)
    (hps : ∀ x, some x ∈ ps → h.length ≤ x)
    (hc : Other.addObservers o g ps = .ok g') : h <+: g' := by
  induction ps generalizing g with
  | nil =>
    simp only [Other.addObservers] at hc
    cases hc
    exact hp
  | cons p ps ih =>
    cases p with
    | none =>
      simp only [Other.addObservers] at hc
      exact ih g hp (fun x hx => hps x (List.mem_cons_of_mem _ hx)) hc
    | some x =>
      simp only [Other.addObservers] at hc
      obtain ⟨h1, e1, hc⟩ := bind_eq_ok hc
      exact ih h1 (Subject.addObserver_untouched hp (hps x (List.mem_cons_self _ _)) e1)
        (fun x hx => hps x (List.mem_cons_of_mem _ hx)) hc

theorem other_clone_fresh (v : Heap → Ptr → Except Err (Ptr × Heap))
    (hv : ∀ h p c h', v h p = .ok (c, h') → Heap.Fresh h c h')
    (h h' : Heap) (this : Nat) (c : Ptr)
    (hc : Other.clone v h this = .ok (c, h')) : Heap.Fresh h c h' := by
  unfold Other.clone at hc
  cases h0 : Other.fields h (some this) with
  | none => simp [h0] at hc
  | some x =>
    obtain ⟨cls, d, ops⟩ := x
    simp only [h0, Heap.alloc] at hc
    obtain ⟨⟨cs, h1⟩, e1, hc⟩ := bind_eq_ok hc
    obtain ⟨a, _, hc⟩ := bind_eq_ok hc
    obtain ⟨h3, e3, hc⟩ := bind_eq_ok hc
    obtain ⟨md, _, hc⟩ := bind_eq_ok hc
    obtain ⟨h4, e4, hc⟩ := bind_eq_ok hc
    cases hc
    obtain ⟨p1, m1⟩ := Other.cloneOperands_fresh v hv _ _ _ _ e1
    have p3 := Other.addObservers_untouched _ _ h _ _ (p1.trans (List.prefix_append h1 _)) m1 e3
    refine ⟨Value.setMetadata_untouched p3 p1.length_le e4, fun y hy => ?_⟩
    cases hy
    refine ⟨p1.length_le, ?_⟩
    rw [(Value.setMetadata_sameNodes e4).1, (Other.addObservers_sameNodes _ _ _ _ e3).1]
    simp

theorem Statement.cloneStatements_fresh (v : Heap → Ptr → Except Err (Ptr × Heap))
    (hv : ∀ h p c h', v h p = .ok (c, h') → Heap.Fresh h c h')
    (n : Nat) (h h' : Heap) (p c : Ptr)
    (hc : Statement.cloneStatements v n h p = .ok (c, h')) : Heap.Fresh h c h' := by
  induction n generalizing h h' p c with
  | zero => simp [Statement.cloneStatements] at hc
  | succ n ih =>
    cases p with
    | none =>
      simp only [Statement.cloneStatements] at hc
      cases hc
      exact ⟨List.prefix_refl _, fun x hx => by cases hx⟩
    | some s =>
      simp only [Statement.cloneStatements] at hc
      obtain ⟨⟨c1, h1⟩, e1, hc⟩ := bind_eq_ok hc
      obtain ⟨next, _, hc⟩ := bind_eq_ok hc
      obtain ⟨⟨rest, h2⟩, e2, hc⟩ := bind_eq_ok hc
      cases c1 with
      | none => simp at hc
      | some c0 =>
        simp only at hc
        obtain ⟨h3, e3, hc⟩ := bind_eq_ok hc
        cases hc
        have f1 := hv _ _ _ _ e1
        have f2 := ih h1 h2 next rest e2
        have l0 := f1.2 c0 rfl
        refine ⟨Statement.setSuccessor_untouched (f1.1.trans f2.1) l0.1 e3, fun y hy => ?_⟩
        cases hy
        refine ⟨l0.1, ?_⟩
        rw [(Statement.setSuccessor_sameNodes e3).1]
        exact Nat.lt_of_lt_of_le l0.2 f2.1.length_le

/-- The virtual call `clone` touches no cell that exists when it is made, and
the node it returns is one of the cells it allocates. -/
theorem value_clone_fresh (fuel : Nat) (h h' : Heap) (p c : Ptr)
    (hc : Value.clone fuel h p = .ok (c, h')) : Heap.Fresh h c h' := by
  induction fuel generalizing h h' p c with
  | zero => simp [Value.clone] at hc
  | succ f ih =>
    cases p with
    | none => simp [Value.clone] at hc
    | some this =>
      have hv : ∀ h p c h', Value.clone f h p = .ok (c, h') → Heap.Fresh h c h' :=
        fun h p c h' => ih h h' p c
      cases hn : h.node (some this) with
      | none => simp [Value.clone, hn] at hc
      | some n =>
        cases n with
        | eqOpExpr x y =>
          simp only [Value.clone, hn] at hc
          exact eqOpExpr_clone_fresh _ hv h h' this c hc
        | orOpExpr x y =>
          simp only [Value.clone, hn] at hc
          exact orOpExpr_clone_fresh _ hv h h' this c hc
        | callStmt x =>
          simp only [Value.clone, hn] at hc
          exact callStmt_clone_fresh _ hv h h' this c hc
        | uforLoopStmt i d cd s b =>
          simp only [Value.clone, hn] at hc
          exact uForLoopStmt_clone_fresh _ _ hv
            (fun h p c h' => Statement.cloneStatements_fresh _ hv f h h' p c) h h' this c hc
        | other cls d ops =>
          simp only [Value.clone, hn] at hc
          exact other_clone_fresh _ hv h h' this c hc

theorem value_clone_receiver {fuel : Nat} {h h' : Heap} {p c : Ptr}
    (hc : Value.clone fuel h p = .ok (c, h')) : ∃ a, p = some a ∧ a < h.length := by
  cases fuel with
  | zero => simp [Value.clone] at hc
  | succ f =>
    cases p with
    | none => simp [Value.clone] at hc
    | some a =>
      cases hn : h.node (some a) with
      | none => simp [Value.clone, hn] at hc
      | some n => exact ⟨a, rfl, Heap.node_lt hn⟩

theorem value_clone_ne {fuel : Nat} {h h' : Heap} {p : Ptr} {x : Nat}
    (hc : Value.clone fuel h p = .ok (some x, h')) : some x ≠ p := by
  obtain ⟨a, rfl, ha⟩ := value_clone_receiver hc
  have hx := ((value_clone_fresh fuel h h' _ _ hc).2 x rfl).1
  intro heq
  injection heq with heq
  omega

/-- A later `setCall` on another statement leaves the contained call of `n`. -/
theorem CallStmt.setCall_other {h h' : Heap} {x n : Nat} {e : Ptr} (hne : n ≠ x)
    (hs : CallStmt.setCall h x e = .ok h') : CallStmt.getCall h' n = CallStmt.getCall h n := by
  cases e with
  | none => simp [CallStmt.setCall] at hs
  | some e0 =>
    simp only [CallStmt.setCall] at hs
    obtain ⟨call, _, hs⟩ := bind_eq_ok hs
    obtain ⟨_, _, _, _, _, hnode, _⟩ :=
      rewire_spec (fun _ => .callStmt (some e0)) h h' x e0 call hs
    simp only [CallStmt.getCall, hnode n, if_neg hne]

/-- What `n->clone()` returns for an `EqOpExpr`, `OrOpExpr` or `CallStmt` `n`,
when it returns: the result is a node allocated by
the call, hence distinct from `n`; its slots hold the results of `clone()` on
the sub-parts of `n`, which are distinct from those sub-parts; it is registered
as an observer of each of them; it carries the metadata of `n` and, for a
`CallStmt`, the address of `n`.  Cloning changes no cell that existed before:
the slots of `n` and the observer registrations of every existing node are as
they were.  A later `setCall` on the clone of a `CallStmt` does not change
`n.getCall()`. -/
theorem value_clone_independent (fuel : Nat) (h h' : Heap) (n : Nat) (c : Ptr)
    (hc : Value.clone (fuel + 1) h (some n) = .ok (c, h')) :
    (∀ op1 op2, h.node (some n) = some (.eqOpExpr op1 op2) →
      ∃ x x1 x2 h1 h2, c = some x ∧ x ≠ n ∧ h.length ≤ x ∧
        Value.clone fuel h op1 = .ok (some x1, h1) ∧
        Value.clone fuel h1 op2 = .ok (some x2, h2) ∧
        h'.node (some x) = some (.eqOpExpr (some x1) (some x2)) ∧
        some x1 ≠ op1 ∧ some x2 ≠ op2 ∧
        Subject.hasObserver h' x1 x = true ∧ Subject.hasObserver h' x2 x = true ∧
        Value.getMetadata h' x = Value.getMetadata h n) ∧
    (∀ op1 op2, h.node (some n) = some (.orOpExpr op1 op2) →
      ∃ x x1 x2 h1 h2, c = some x ∧ x ≠ n ∧ h.length ≤ x ∧
        Value.clone fuel h op1 = .ok (some x1, h1) ∧
        Value.clone fuel h1 op2 = .ok (some x2, h2) ∧
        h'.node (some x) = some (.orOpExpr (some x1) (some x2)) ∧
        some x1 ≠ op1 ∧ some x2 ≠ op2 ∧
        Subject.hasObserver h' x1 x = true ∧ Subject.hasObserver h' x2 x = true ∧
        Value.getMetadata h' x = Value.getMetadata h n) ∧
    (∀ call, h.node (some n) = some (.callStmt call) →
      ∃ x x1 h1, c = some x ∧ x ≠ n ∧ h.length ≤ x ∧
        Value.clone fuel h call = .ok (some x1, h1) ∧
        h'.node (some x) = some (.callStmt (some x1)) ∧
        some x1 ≠ call ∧
        Subject.hasObserver h' x1 x = true ∧
        Value.getMetadata h' x = Value.getMetadata h n ∧
        Value.getAddress h' x = Value.getAddress h n ∧
        ∀ e h'', CallStmt.setCall h' x e = .ok h'' →
          CallStmt.getCall h'' n = CallStmt.getCall h n) ∧
    h'.node (some n) = h.node (some n) ∧
    (∀ v o, v < h.length → Subject.hasObserver h' v o = Subject.hasObserver h v o) := by
  have hv : ∀ h p c h', (fun h x => Value.clone fuel h x) h p = .ok (c, h') →
      Heap.Fresh h c h' := fun h p c h' => value_clone_fresh fuel h h' p c
  have hfr := value_clone_fresh _ _ _ _ _ hc
  obtain ⟨_, hn0, hnl⟩ := value_clone_receiver hc
  cases hn0
  refine ⟨fun op1 op2 hn => ?_, fun op1 op2 hn => ?_, fun call hn => ?_,
    Heap.untouched_node hfr.1 hnl, fun v o hvl => Heap.untouched_hasObserver hfr.1 hvl o⟩
  · simp only [Value.clone, hn] at hc
    obtain ⟨x, x1, x2, h1, h2, rfl, e1, e2, _, _, hle, _, _, hnode, o1, o2, hmd⟩ :=
      eqOpExpr_clone_detail _ hv h h' n c op1 op2 hn hc
    exact ⟨x, x1, x2, h1, h2, rfl, by omega, hle, e1, e2, hnode, value_clone_ne e1,
      value_clone_ne e2, o1, o2, hmd⟩
  · simp only [Value.clone, hn] at hc
    obtain ⟨x, x1, x2, h1, h2, rfl, e1, e2, _, _, hle, _, _, hnode, o1, o2, hmd⟩ :=
      orOpExpr_clone_detail _ hv h h' n c op1 op2 hn hc
    exact ⟨x, x1, x2, h1, h2, rfl, by omega, hle, e1, e2, hnode, value_clone_ne e1,
      value_clone_ne e2, o1, o2, hmd⟩
  · simp only [Value.clone, hn] at hc
    obtain ⟨x, x1, h1, rfl, e1, _, hle, _, hp, hnode, o1, hmd, had⟩ :=
      callStmt_clone_detail _ hv h h' n c call hn hc
    have hne : n ≠ x := by omega
    refine ⟨x, x1, h1, rfl, hne.symm, hle, e1, hnode, value_clone_ne e1, o1, hmd, had,
      fun e h'' hs => ?_⟩
    rw [CallStmt.setCall_other hne hs]
    simp only [CallStmt.getCall, Heap.untouched_node hp hnl]

theorem value_clone_isSome {fuel : Nat} {h h' : Heap} {p c : Ptr}
    (hc : Value.clone fuel h p = .ok (c, h')) : ∃ x, c = some x := by
  cases fuel with
  | zero => simp [Value.clone] at hc
  | succ f =>
    cases p with
    | none => simp [Value.clone] at hc
    | some this =>
      have hv : ∀ h p c h', (fun h x => Value.clone f h x) h p = .ok (c, h') →
          Heap.Fresh h c h' := fun h p c h' => value_clone_fresh f h h' p c
      cases hn : h.node (some this) with
      | none => simp [Value.clone, hn] at hc
      | some n =>
        cases n with
        | eqOpExpr a b =>
          simp only [Value.clone, hn] at hc
          obtain ⟨x, _, _, _, _, rfl, _⟩ := eqOpExpr_clone_detail _ hv h h' this c a b hn hc
          exact ⟨x, rfl⟩
        | orOpExpr a b =>
          simp only [Value.clone, hn] at hc
          obtain ⟨x, _, _, _, _, rfl, _⟩ := orOpExpr_clone_detail _ hv h h' this c a b hn hc
          exact ⟨x, rfl⟩
        | callStmt a =>
          simp only [Value.clone, hn] at hc
          obtain ⟨x, _, _, rfl, _⟩ := callStmt_clone_detail _ hv h h' this c a hn hc
          exact ⟨x, rfl⟩
        | uforLoopStmt i d cd s b =>
          simp only [Value.clone, hn, UForLoopStmt.clone] at hc
          obtain ⟨⟨ci, h1⟩, _, hc⟩ := bind_eq_ok hc
          obtain ⟨⟨cc, h2⟩, _, hc⟩ := bind_eq_ok hc
          obtain ⟨⟨cs, h3⟩, _, hc⟩ := bind_eq_ok hc
          obtain ⟨⟨cb, h4⟩, _, hc⟩ := bind_eq_ok hc
          obtain ⟨a, _, hc⟩ := bind_eq_ok hc
          obtain ⟨⟨l, h5⟩, _, hc⟩ := bind_eq_ok hc
          obtain ⟨md, _, hc⟩ := bind_eq_ok hc
          obtain ⟨h6, _, hc⟩ := bind_eq_ok hc
          cases hc
          exact ⟨_, rfl⟩
        | other cls d ops =>
          simp only [Value.clone, hn, Other.clone, Other.fields_eq_some.2 hn, Heap.alloc] at hc
          obtain ⟨⟨cs, h1⟩, _, hc⟩ := bind_eq_ok hc
          obtain ⟨a, _, hc⟩ := bind_eq_ok hc
          obtain ⟨h3, _, hc⟩ := bind_eq_ok hc
          obtain ⟨md, _, hc⟩ := bind_eq_ok hc
          obtain ⟨h4, _, hc⟩ := bind_eq_ok hc
          cases hc
          exact ⟨_, rfl⟩

/-- The function `EqOpExpr::clone` returns when the clones of the operands do. -/
theorem eqOpExpr_clone_ok (f : Nat) (h : Heap) (n : Nat) (op1 op2 c1 c2 : Ptr) (h1 h2 : Heap)
    (hn : h.node (some n) = some (.eqOpExpr op1 op2))
    (hc1 : Value.clone f h op1 = .ok (c1, h1))
    (hc2 : Value.clone f h1 op2 = .ok (c2, h2)) :
    ∃ c h', Value.clone (f + 1) h (some n) = .ok (c, h') := by
  have f1 := value_clone_fresh f h h1 op1 c1 hc1
  have f2 := value_clone_fresh f h1 h2 op2 c2 hc2
  obtain ⟨a1, rfl⟩ := value_clone_isSome hc1
  obtain ⟨a2, rfl⟩ := value_clone_isSome hc2
  have l1 : a1 < h2.length := lt_of_lt_of_le (f1.2 a1 rfl).2 f2.1.length_le
  obtain ⟨h3, e3⟩ := eqOpExpr_create_ok l1 (f2.2 a2 rfl).2
  obtain ⟨_, hnode, x3⟩ := eqOpExpr_create_spec e3
  have ln : n < h3.length :=
    lt_of_lt_of_le (Heap.node_lt hn) ((f1.1.trans f2.1).length_le.trans x3.length_le)
  obtain ⟨md, emd⟩ := Value.getMetadata_ok ln
  obtain ⟨h4, e4⟩ := Value.setMetadata_ok md (Heap.node_lt hnode)
  refine ⟨some h2.length, h4, ?_⟩
  simp only [Value.clone, hn, EqOpExpr.clone, eqOpExpr_operands_eq_some.2 hn, hc1, bind_ok,
    hc2, e3, emd, e4]

/-- The function `OrOpExpr::clone` returns when the clones of the operands do. -/
theorem orOpExpr_clone_ok (f : Nat) (h : Heap) (n : Nat) (op1 op2 c1 c2 : Ptr) (h1 h2 : Heap)
    (hn : h.node (some n) = some (.orOpExpr op1 op2))
    (hc1 : Value.clone f h op1 = .ok (c1, h1))
    (hc2 : Value.clone f h1 op2 = .ok (c2, h2)) :
    ∃ c h', Value.clone (f + 1) h (some n) = .ok (c, h') := by
  have f1 := value_clone_fresh f h h1 op1 c1 hc1
  have f2 := value_clone_fresh f h1 h2 op2 c2 hc2
  obtain ⟨a1, rfl⟩ := value_clone_isSome hc1
  obtain ⟨a2, rfl⟩ := value_clone_isSome hc2
  have l1 : a1 < h2.length := lt_of_lt_of_le (f1.2 a1 rfl).2 f2.1.length_le
  obtain ⟨h3, e3⟩ := orOpExpr_create_ok l1 (f2.2 a2 rfl).2
  obtain ⟨_, hnode, x3⟩ := orOpExpr_create_spec e3
  have ln : n < h3.length :=
    lt_of_lt_of_le (Heap.node_lt hn) ((f1.1.trans f2.1).length_le.trans x3.length_le)
  obtain ⟨md, emd⟩ := Value.getMetadata_ok ln
  obtain ⟨h4, e4⟩ := Value.setMetadata_ok md (Heap.node_lt hnode)
  refine ⟨some h2.length, h4, ?_⟩
  simp only [Value.clone, hn, OrOpExpr.clone, orOpExpr_operands_eq_some.2 hn, hc1, bind_ok,
    hc2, e3, emd, e4]

/-- The function `CallStmt::clone` returns when the clone of the call does. -/
theorem callStmt_clone_ok (f : Nat) (h : Heap) (n : Nat) (call c1 : Ptr) (h1 : Heap)
    (hn : h.node (some n) = some (.callStmt call))
    (hc1 : Value.clone f h call = .ok (c1, h1)) :
    ∃ c h', Value.clone (f + 1) h (some n) = .ok (c, h') := by
  have f1 := value_clone_fresh f h h1 call c1 hc1
  obtain ⟨a1, rfl⟩ := value_clone_isSome hc1
  have ln1 : n < h1.length := lt_of_lt_of_le (Heap.node_lt hn) f1.1.length_le
  obtain ⟨ad, ead⟩ := Value.getAddress_ok ln1
  obtain ⟨h2, e2⟩ := callStmt_create_ok none ad (f1.2 a1 rfl).2
  obtain ⟨_, hnode, x2⟩ := callStmt_create_spec e2
  have ln : n < h2.length := lt_of_lt_of_le ln1 x2.length_le
  obtain ⟨md, emd⟩ := Value.getMetadata_ok ln
  obtain ⟨h3, e3⟩ := Value.setMetadata_ok md (Heap.node_lt hnode)
  refine ⟨some h1.length, h3, ?_⟩
  simp only [Value.clone, hn, CallStmt.clone, CallStmt.getCall_eq_ok.2 hn, hc1, bind_ok,
    ead, e2, emd, e3]

/-- C17: a clone is independent of its original.  For an `EqOpExpr`, an
`OrOpExpr` and a `CallStmt` `n` whose sub-parts can be cloned (in the order in
which `clone()` of `n` clones them): `n->clone()` returns a node allocated by
the call, hence distinct from `n`; its slots hold the clones of the sub-parts
of `n`, which are distinct from those sub-parts; it is registered as an
observer of each of them; it carries the metadata of `n` and, for a `CallStmt`,
the address of `n`.  Cloning changes no cell that existed before: the slots of
`n` and the observer registrations of every existing node are as they were.  A
later `setCall` on the clone of a `CallStmt` does not change `n.getCall()`.  The
sub-parts are given the fuel `fuel`, the node itself `fuel + 1`. -/
theorem clone_independent_of_original (fuel : Nat) (h : Heap) (n : Nat) :
    (∀ op1 op2 c1 c2 h1 h2, h.node (some n) = some (.eqOpExpr op1 op2) →
      Value.clone fuel h op1 = .ok (c1, h1) → Value.clone fuel h1 op2 = .ok (c2, h2) →
      ∃ x x1 x2 h', c1 = some x1 ∧ c2 = some x2 ∧
        Value.clone (fuel + 1) h (some n) = .ok (some x, h') ∧ x ≠ n ∧ h.length ≤ x ∧
        h'.node (some x) = some (.eqOpExpr (some x1) (some x2)) ∧
        some x1 ≠ op1 ∧ some x2 ≠ op2 ∧
        Subject.hasObserver h' x1 x = true ∧ Subject.hasObserver h' x2 x = true ∧
        Value.getMetadata h' x = Value.getMetadata h n ∧
        h'.node (some n) = h.node (some n) ∧
        ∀ v o, v < h.length → Subject.hasObserver h' v o = Subject.hasObserver h v o) ∧
    (∀ op1 op2 c1 c2 h1 h2, h.node (some n) = some (.orOpExpr op1 op2) →
      Value.clone fuel h op1 = .ok (c1, h1) → Value.clone fuel h1 op2 = .ok (c2, h2) →
      ∃ x x1 x2 h', c1 = some x1 ∧ c2 = some x2 ∧
        Value.clone (fuel + 1) h (some n) = .ok (some x, h') ∧ x ≠ n ∧ h.length ≤ x ∧
        h'.node (some x) = some (.orOpExpr (some x1) (some x2)) ∧
        some x1 ≠ op1 ∧ some x2 ≠ op2 ∧
        Subject.hasObserver h' x1 x = true ∧ Subject.hasObserver h' x2 x = true ∧
        Value.getMetadata h' x = Value.getMetadata h n ∧
        h'.node (some n) = h.node (some n) ∧
        ∀ v o, v < h.length → Subject.hasObserver h' v o = Subject.hasObserver h v o) ∧
    (∀ call c1 h1, h.node (some n) = some (.callStmt call) →
      Value.clone fuel h call = .ok (c1, h1) →
      ∃ x x1 h', c1 = some x1 ∧
        Value.clone (fuel + 1) h (some n) = .ok (some x, h') ∧ x ≠ n ∧ h.length ≤ x ∧
        h'.node (some x) = some (.callStmt (some x1)) ∧
        some x1 ≠ call ∧
        Subject.hasObserver h' x1 x = true ∧
        Value.getMetadata h' x = Value.getMetadata h n ∧
        Value.getAddress h' x = Value.getAddress h n ∧
        h'.node (some n) = h.node (some n) ∧
        (∀ v o, v < h.length → Subject.hasObserver h' v o = Subject.hasObserver h v o) ∧
        ∀ e h'', CallStmt.setCall h' x e = .ok h'' →
          CallStmt.getCall h'' n = CallStmt.getCall h n) := by
  refine ⟨fun op1 op2 c1 c2 h1 h2 hn hc1 hc2 => ?_, fun op1 op2 c1 c2 h1 h2 hn hc1 hc2 => ?_,
    fun call c1 h1 hn hc1 => ?_⟩
  · obtain ⟨c, h', hc⟩ := eqOpExpr_clone_ok fuel h n op1 op2 c1 c2 h1 h2 hn hc1 hc2
    obtain ⟨he, _, _, hnn, hobs⟩ := value_clone_independent fuel h h' n c hc
    obtain ⟨x, x1, x2, g1, g2, rfl, hne, hle, e1, e2, hnode, n1, n2, o1, o2, hmd⟩ :=
      he op1 op2 hn
    rw [hc1] at e1
    injection e1 with e1
    injection e1 with e1 e1'
    subst e1 e1'
    rw [hc2] at e2
    injection e2 with e2
    injection e2 with e2 e2'
    subst e2 e2'
    exact ⟨x, x1, x2, h', rfl, rfl, hc, hne, hle, hnode, n1, n2, o1, o2, hmd, hnn, hobs⟩
  · obtain ⟨c, h', hc⟩ := orOpExpr_clone_ok fuel h n op1 op2 c1 c2 h1 h2 hn hc1 hc2
    obtain ⟨_, he, _, hnn, hobs⟩ := value_clone_independent fuel h h' n c hc
    obtain ⟨x, x1, x2, g1, g2, rfl, hne, hle, e1, e2, hnode, n1, n2, o1, o2, hmd⟩ :=
      he op1 op2 hn
    rw [hc1] at e1
    injection e1 with e1
    injection e1 with e1 e1'
    subst e1 e1'
    rw [hc2] at e2
    injection e2 with e2
    injection e2 with e2 e2'
    subst e2 e2'
    exact ⟨x, x1, x2, h', rfl, rfl, hc, hne, hle, hnode, n1, n2, o1, o2, hmd, hnn, hobs⟩
  · obtain ⟨c, h', hc⟩ := callStmt_clone_ok fuel h n call c1 h1 hn hc1
    obtain ⟨_, _, he, hnn, hobs⟩ := value_clone_independent fuel h h' n c hc
    obtain ⟨x, x1, g1, rfl, hne, hle, e1, hnode, n1, o1, hmd, had, hset⟩ := he call hn
    rw [hc1] at e1
    injection e1 with e1
    injection e1 with e1 e1'
    subst e1 e1'
    exact ⟨x, x1, h', rfl, hc, hne, hle, hnode, n1, o1, hmd, had, hnn, hobs, hset⟩

/-- On `taggedCallHeap` the clone of the statement `x();` of cell 6 is the new
statement of cell 9 over the new call of cell 8; it observes that call, carries
the metadata and the address of the original, and `setCall` on it leaves the
call of the original. -/
theorem clone_independent_of_original_witness :
    Value.clone 3 taggedCallHeap (some 6) = .ok (some 9, taggedCallClone) ∧
    ∃ x x1 h', (some 8 : Ptr) = some x1 ∧
      Value.clone 3 taggedCallHeap (some 6) = .ok (some x, h') ∧ x ≠ 6 ∧
      taggedCallHeap.length ≤ x ∧
      h'.node (some x) = some (.callStmt (some x1)) ∧
      some x1 ≠ (some 5 : Ptr) ∧
      Subject.hasObserver h' x1 x = true ∧
      Value.getMetadata h' x = Value.getMetadata taggedCallHeap 6 ∧
      Value.getAddress h' x = Value.getAddress taggedCallHeap 6 ∧
      h'.node (some 6) = taggedCallHeap.node (some 6) ∧
      (∀ v o, v < taggedCallHeap.length →
        Subject.hasObserver h' v o = Subject.hasObserver taggedCallHeap v o) ∧
      ∀ e h'', CallStmt.setCall h' x e = .ok h'' →
        CallStmt.getCall h'' 6 = CallStmt.getCall taggedCallHeap 6 :=
  ⟨by decide,
   (clone_independent_of_original 2 taggedCallHeap 6).2.2 (some 5) (some 8)
      (taggedCallHeap ++
        [{ Cell.leaf .variable "i" with observers := [8] },
         Cell.fresh (.other .callExpr "" [some 7]) 0])
      (by decide) (by decide)⟩

/-! ## Theorems: a pass that reports no change leaves the IR unchanged -/

theorem SimplifyArithmExprOptimizer.Unchanged.rfl_ (o : SimplifyArithmExprOptimizer) :
    SimplifyArithmExprOptimizer.Unchanged o o := ⟨rfl, rfl, rfl⟩

theorem SimplifyArithmExprOptimizer.Unchanged.then {o1 o2 o3 : SimplifyArithmExprOptimizer}
    (h12 : SimplifyArithmExprOptimizer.Unchanged o1 o2)
    (h23 : SimplifyArithmExprOptimizer.Unchanged o2 o3) :
    SimplifyArithmExprOptimizer.Unchanged o1 o3 :=
  ⟨h23.1.trans h12.1, h23.2.1.trans h12.2.1, h23.2.2.trans h12.2.2⟩

theorem SimplifyArithmExprOptimizer.Unchanged.idleOn {o1 o2 : SimplifyArithmExprOptimizer}
    (h12 : SimplifyArithmExprOptimizer.Unchanged o1 o2)
    (hi : SubOptimizer.idleOn o1.subOptims o1.ir) : SubOptimizer.idleOn o2.subOptims o2.ir := by
  rw [h12.1, h12.2.1]
  exact hi

theorem foldl_tryOptimizeIn_idle (expr : Ptr) (ss : List SubOptimizer)
    (o : SimplifyArithmExprOptimizer) (hi : SubOptimizer.idleOn ss o.ir) :
    SimplifyArithmExprOptimizer.Unchanged o
      (ss.foldl (SimplifyArithmExprOptimizer.tryOptimizeIn expr) o) := by
  induction ss generalizing o with
  | nil => exact SimplifyArithmExprOptimizer.Unchanged.rfl_ _
  | cons s ss ih =>
    have hs := hi s (List.mem_cons_self _ _) expr
    have h1 : SimplifyArithmExprOptimizer.Unchanged o
        (SimplifyArithmExprOptimizer.tryOptimizeIn expr o s) := by
      simp [SimplifyArithmExprOptimizer.Unchanged, SimplifyArithmExprOptimizer.tryOptimizeIn, hs]
    rw [List.foldl_cons]
    refine h1.then (ih _ ?_)
    rw [h1.1]
    exact fun t ht => hi t (List.mem_cons_of_mem _ ht)

theorem tryOptimizeInSubOptimizations_idle (o : SimplifyArithmExprOptimizer) (expr : Ptr)
    (hi : SubOptimizer.idleOn o.subOptims o.ir) :
    SimplifyArithmExprOptimizer.Unchanged o (o.tryOptimizeInSubOptimizations expr) :=
  foldl_tryOptimizeIn_idle expr o.subOptims o hi

theorem visitOperands_idle
    (v : SimplifyArithmExprOptimizer → Ptr → Except Err SimplifyArithmExprOptimizer)
    (hv : ∀ o p o', SubOptimizer.idleOn o.subOptims o.ir → v o p = .ok o' →
      SimplifyArithmExprOptimizer.Unchanged o o')
    (ps : List Ptr) (o o' : SimplifyArithmExprOptimizer)
    (hi : SubOptimizer.idleOn o.subOptims o.ir)
    (hr : OrderedAllVisitor.visitOperands v o ps = .ok o') :
    SimplifyArithmExprOptimizer.Unchanged o o' := by
  induction ps generalizing o with
  | nil =>
    simp only [OrderedAllVisitor.visitOperands] at hr
    cases hr
    exact SimplifyArithmExprOptimizer.Unchanged.rfl_ _
  | cons p ps ih =>
    cases p with
    | none =>
      simp only [OrderedAllVisitor.visitOperands] at hr
      exact ih o hi hr
    | some x =>
      simp only [OrderedAllVisitor.visitOperands] at hr
      obtain ⟨o1, e1, hr⟩ := bind_eq_ok hr
      have u1 := hv _ _ _ hi e1
      exact u1.then (ih o1 (u1.idleOn hi) hr)

theorem visitStmt_idle
    (v : SimplifyArithmExprOptimizer → Ptr → Except Err SimplifyArithmExprOptimizer)
    (hv : ∀ o p o', SubOptimizer.idleOn o.subOptims o.ir → v o p = .ok o' →
      SimplifyArithmExprOptimizer.Unchanged o o')
    (o o' : SimplifyArithmExprOptimizer) (stmt : Ptr)
    (hi : SubOptimizer.idleOn o.subOptims o.ir)
    (hr : OrderedAllVisitor.visitStmt v o stmt = .ok o') :
    SimplifyArithmExprOptimizer.Unchanged o o' := by
  cases stmt with
  | none =>
    simp only [OrderedAllVisitor.visitStmt] at hr
    cases hr
    exact SimplifyArithmExprOptimizer.Unchanged.rfl_ _
  | some s =>
    simp only [OrderedAllVisitor.visitStmt] at hr
    split at hr
    · cases hr
      exact SimplifyArithmExprOptimizer.Unchanged.rfl_ _
    · exact hv { o with accessedStmts := s :: o.accessedStmts } _ _ hi hr

theorem orderedAllVisitor_visit_idle
    (v : SimplifyArithmExprOptimizer → Ptr → Except Err SimplifyArithmExprOptimizer)
    (hv : ∀ o p o', SubOptimizer.idleOn o.subOptims o.ir → v o p = .ok o' →
      SimplifyArithmExprOptimizer.Unchanged o o')
    (o o' : SimplifyArithmExprOptimizer) (this : Nat)
    (hi : SubOptimizer.idleOn o.subOptims o.ir)
    (hr : OrderedAllVisitor.visit v o this = .ok o') :
    SimplifyArithmExprOptimizer.Unchanged o o' := by
  unfold OrderedAllVisitor.visit at hr
  cases hc : o.ir.cell (some this) with
  | error e => simp [hc] at hr
  | ok c =>
    simp only [hc] at hr
    cases hn : c.node with
    | eqOpExpr a b =>
      simp only [hn] at hr
      exact visitOperands_idle v hv _ o o' hi hr
    | orOpExpr a b =>
      simp only [hn] at hr
      exact visitOperands_idle v hv _ o o' hi hr
    | callStmt call =>
      simp only [hn] at hr
      obtain ⟨o1, e1, hr⟩ := bind_eq_ok hr
      have u1 := visitOperands_idle v hv _ o o1 hi e1
      exact u1.then (visitStmt_idle v hv o1 o' _ (u1.idleOn hi) hr)
    | uforLoopStmt i d cd s b =>
      simp only [hn] at hr
      obtain ⟨o1, e1, hr⟩ := bind_eq_ok hr
      obtain ⟨o2, e2, hr⟩ := bind_eq_ok hr
      have u1 := visitOperands_idle v hv _ o o1 hi e1
      have u2 := visitStmt_idle v hv o1 o2 _ (u1.idleOn hi) e2
      exact (u1.then u2).then (visitStmt_idle v hv o2 o' _ ((u1.then u2).idleOn hi) hr)
    | other cls d ops =>
      simp only [hn] at hr
      obtain ⟨o1, e1, hr⟩ := bind_eq_ok hr
      have u1 := visitOperands_idle v hv _ o o1 hi e1
      split at hr
      · exact u1.then (visitStmt_idle v hv o1 o' _ (u1.idleOn hi) hr)
      · cases hr
        exact u1

/-- The overload that `accept` selects either offers the node to the
sub-optimizers or is the inherited traversal. -/
theorem visit_cases
    (v : SimplifyArithmExprOptimizer → Ptr → Except Err SimplifyArithmExprOptimizer)
    (o : SimplifyArithmExprOptimizer) (expr : Nat) :
    SimplifyArithmExprOptimizer.visit v o expr = .error .nullDeref ∨
    SimplifyArithmExprOptimizer.visit v o expr =
      .ok (o.tryOptimizeInSubOptimizations (some expr)) ∨
    SimplifyArithmExprOptimizer.visit v o expr = OrderedAllVisitor.visit v o expr := by
  cases hn : o.ir.node (some expr) with
  | none => simp [SimplifyArithmExprOptimizer.visit, hn]
  | some n =>
    cases n with
    | eqOpExpr a b => simp [SimplifyArithmExprOptimizer.visit, hn]
    | orOpExpr a b => simp [SimplifyArithmExprOptimizer.visit, hn]
    | callStmt c => simp [SimplifyArithmExprOptimizer.visit, hn]
    | uforLoopStmt a b c d e => simp [SimplifyArithmExprOptimizer.visit, hn]
    | other cls d ops => cases cls <;> simp [SimplifyArithmExprOptimizer.visit, hn]

/-- With idle sub-optimizers, a traversal that returns has changed neither the
IR nor the flag `codeChanged`. -/
theorem accept_idle (fuel : Nat) (o : SimplifyArithmExprOptimizer) (p : Ptr)
    (o' : SimplifyArithmExprOptimizer) (hi : SubOptimizer.idleOn o.subOptims o.ir)
    (hr : SimplifyArithmExprOptimizer.accept fuel o p = .ok o') :
    SimplifyArithmExprOptimizer.Unchanged o o' := by
  induction fuel generalizing o p o' with
  | zero => simp [SimplifyArithmExprOptimizer.accept] at hr
  | succ f ih =>
    cases p with
    | none => simp [SimplifyArithmExprOptimizer.accept] at hr
    | some x =>
      simp only [SimplifyArithmExprOptimizer.accept] at hr
      rcases visit_cases (fun o x => SimplifyArithmExprOptimizer.accept f o x) o x with
        hc | hc | hc
      · rw [hc] at hr
        cases hr
      · rw [hc] at hr
        cases hr
        exact tryOptimizeInSubOptimizations_idle o (some x) hi
      · rw [hc] at hr
        exact orderedAllVisitor_visit_idle _ (fun o p o' hi hr => ih o p o' hi hr) o o' x hi hr

theorem globalVarPass_idle (k : Nat) (g : GlobalVarDef) (o o' : SimplifyArithmExprOptimizer)
    (hi : SubOptimizer.idleOn o.subOptims o.ir)
    (hr : SimplifyArithmExprOptimizer.globalVarPass (SimplifyArithmExprOptimizer.accept k) g o =
      .ok o') :
    o'.ir = o.ir ∧ o'.subOptims = o.subOptims ∧ o'.codeChanged = false := by
  unfold SimplifyArithmExprOptimizer.globalVarPass at hr
  cases hg : g.getInitializer with
  | none =>
    simp only [hg] at hr
    cases hr
    exact ⟨rfl, rfl, rfl⟩
  | some init =>
    simp only [hg] at hr
    exact accept_idle k { o with codeChanged := false } _ o' hi hr

theorem funcPass_idle (k : Nat) (f : Function) (o o' : SimplifyArithmExprOptimizer)
    (hi : SubOptimizer.idleOn o.subOptims o.ir)
    (hr : SimplifyArithmExprOptimizer.funcPass (SimplifyArithmExprOptimizer.acceptFunction k) f o =
      .ok o') :
    o'.ir = o.ir ∧ o'.subOptims = o.subOptims ∧ o'.codeChanged = false := by
  unfold SimplifyArithmExprOptimizer.funcPass SimplifyArithmExprOptimizer.acceptFunction at hr
  exact visitStmt_idle _ (fun o p o' hi hr => accept_idle k o p o' hi hr)
    (OrderedAllVisitor.restart { o with codeChanged := false }) o' _ hi hr

/-- A `do` loop whose body leaves `codeChanged` false executes the body once. -/
theorem doWhileCodeChanged_once
    (pass : SimplifyArithmExprOptimizer → Except Err SimplifyArithmExprOptimizer)
    (fuel : Nat) (o : SimplifyArithmExprOptimizer)
    (hp : ∀ o1, pass o = .ok o1 → o1.codeChanged = false) :
    SimplifyArithmExprOptimizer.doWhileCodeChanged pass (fuel + 1) o = pass o := by
  unfold SimplifyArithmExprOptimizer.doWhileCodeChanged
  cases hr : pass o with
  | error e => rfl
  | ok o1 => simp [hp o1 hr]

theorem doWhileCodeChanged_inv
    (pass : SimplifyArithmExprOptimizer → Except Err SimplifyArithmExprOptimizer)
    (J : SimplifyArithmExprOptimizer → Prop)
    (hJ : ∀ o o', J o → pass o = .ok o' → J o')
    (fuel : Nat) (o o' : SimplifyArithmExprOptimizer) (hJo : J o)
    (hr : SimplifyArithmExprOptimizer.doWhileCodeChanged pass fuel o = .ok o') : J o' := by
  induction fuel generalizing o with
  | zero => simp [SimplifyArithmExprOptimizer.doWhileCodeChanged] at hr
  | succ f ih =>
    simp only [SimplifyArithmExprOptimizer.doWhileCodeChanged] at hr
    obtain ⟨o1, e1, hr⟩ := bind_eq_ok hr
    split at hr
    · exact ih o1 (hJ o o1 hJo e1) hr
    · cases hr
      exact hJ o _ hJo e1

theorem forEach_inv {α : Type}
    (body : α → SimplifyArithmExprOptimizer → Except Err SimplifyArithmExprOptimizer)
    (J : SimplifyArithmExprOptimizer → Prop)
    (hJ : ∀ x o o', J o → body x o = .ok o' → J o')
    (xs : List α) (o o' : SimplifyArithmExprOptimizer) (hJo : J o)
    (hr : SimplifyArithmExprOptimizer.forEach body xs o = .ok o') : J o' := by
  induction xs generalizing o with
  | nil =>
    simp only [SimplifyArithmExprOptimizer.forEach] at hr
    cases hr
    exact hJo
  | cons x xs ih =>
    simp only [SimplifyArithmExprOptimizer.forEach] at hr
    obtain ⟨o1, e1, hr⟩ := bind_eq_ok hr
    exact ih o1 (hJ x o o1 hJo e1) hr

theorem forEach_congr_inv {α : Type}
    (b1 b2 : α → SimplifyArithmExprOptimizer → Except Err SimplifyArithmExprOptimizer)
    (J : SimplifyArithmExprOptimizer → Prop)
    (hb : ∀ x o, J o → b1 x o = b2 x o)
    (hJ : ∀ x o o', J o → b2 x o = .ok o' → J o')
    (xs : List α) (o : SimplifyArithmExprOptimizer) (hJo : J o) :
    SimplifyArithmExprOptimizer.forEach b1 xs o = SimplifyArithmExprOptimizer.forEach b2 xs o := by
  induction xs generalizing o with
  | nil => rfl
  | cons x xs ih =>
    simp only [SimplifyArithmExprOptimizer.forEach]
    rw [hb x o hJo]
    cases hr : b2 x o with
    | error e => rfl
    | ok o1 =>
      rw [bind_ok, bind_ok]
      exact ih o1 (hJ x o o1 hJo hr)

/-- C18: a pass that reports no change leaves the IR unchanged.  If every
sub-optimizer of the optimizer returns false and performs no rewrite on the IR
at hand, whatever expression it is offered, then `doOptimization` traverses
every global initializer and every function definition exactly once (each `do`
loop executes its body once), and when it returns the IR is the one it started
with: every cell, hence every node, every slot and every observer registration,
is what it was, so every `isEqualTo` comparison has the result it had before.
The module itself (which node is the initializer of which variable, which
statement the body of which function) is not written by the driver. -/
theorem doOptimization_idle_leaves_ir (k fuel : Nat) (module : Module)
    (o : SimplifyArithmExprOptimizer) (hi : SubOptimizer.idleOn o.subOptims o.ir) :
    SimplifyArithmExprOptimizer.doOptimization (SimplifyArithmExprOptimizer.accept k)
        (SimplifyArithmExprOptimizer.acceptFunction k) (fuel + 1) module o =
      ((SimplifyArithmExprOptimizer.forEach
          (SimplifyArithmExprOptimizer.globalVarPass (SimplifyArithmExprOptimizer.accept k))
          module.globalVars o).bind fun o1 =>
        SimplifyArithmExprOptimizer.forEach
          (SimplifyArithmExprOptimizer.funcPass (SimplifyArithmExprOptimizer.acceptFunction k))
          module.funcDefinitions o1) ∧
    ∀ fuel' o',
      SimplifyArithmExprOptimizer.doOptimization (SimplifyArithmExprOptimizer.accept k)
        (SimplifyArithmExprOptimizer.acceptFunction k) fuel' module o = .ok o' →
      o'.ir = o.ir ∧ o'.subOptims = o.subOptims ∧
      ∀ f p q, Value.isEqualTo f o'.ir p q = Value.isEqualTo f o.ir p q := by
  have hJg : ∀ (g : GlobalVarDef) (o1 o2 : SimplifyArithmExprOptimizer),
      (o1.ir = o.ir ∧ o1.subOptims = o.subOptims) →
      SimplifyArithmExprOptimizer.globalVarPass (SimplifyArithmExprOptimizer.accept k) g o1 =
        .ok o2 → (o2.ir = o.ir ∧ o2.subOptims = o.subOptims) ∧ o2.codeChanged = false := by
    intro g o1 o2 hJ hr
    have hi1 : SubOptimizer.idleOn o1.subOptims o1.ir := by rw [hJ.1, hJ.2]; exact hi
    obtain ⟨a, b, c⟩ := globalVarPass_idle k g o1 o2 hi1 hr
    exact ⟨⟨a.trans hJ.1, b.trans hJ.2⟩, c⟩
  have hJf : ∀ (f : Function) (o1 o2 : SimplifyArithmExprOptimizer),
      (o1.ir = o.ir ∧ o1.subOptims = o.subOptims) →
      SimplifyArithmExprOptimizer.funcPass (SimplifyArithmExprOptimizer.acceptFunction k) f o1 =
        .ok o2 → (o2.ir = o.ir ∧ o2.subOptims = o.subOptims) ∧ o2.codeChanged = false := by
    intro f o1 o2 hJ hr
    have hi1 : SubOptimizer.idleOn o1.subOptims o1.ir := by rw [hJ.1, hJ.2]; exact hi
    obtain ⟨a, b, c⟩ := funcPass_idle k f o1 o2 hi1 hr
    exact ⟨⟨a.trans hJ.1, b.trans hJ.2⟩, c⟩
  constructor
  · unfold SimplifyArithmExprOptimizer.doOptimization
    rw [forEach_congr_inv _
      (SimplifyArithmExprOptimizer.globalVarPass (SimplifyArithmExprOptimizer.accept k))
      (fun o1 => o1.ir = o.ir ∧ o1.subOptims = o.subOptims)
      (fun g o1 hJ => doWhileCodeChanged_once _ fuel o1 (fun o2 hr => (hJg g o1 o2 hJ hr).2))
      (fun g o1 o2 hJ hr => (hJg g o1 o2 hJ hr).1) module.globalVars o ⟨rfl, rfl⟩]
    cases hr : SimplifyArithmExprOptimizer.forEach
        (SimplifyArithmExprOptimizer.globalVarPass (SimplifyArithmExprOptimizer.accept k))
        module.globalVars o with
    | error e => rfl
    | ok o1 =>
      rw [bind_ok, bind_ok]
      have hJ1 := forEach_inv _ (fun o1 => o1.ir = o.ir ∧ o1.subOptims = o.subOptims)
        (fun g o1 o2 hJ hr => (hJg g o1 o2 hJ hr).1) module.globalVars o o1 ⟨rfl, rfl⟩ hr
      exact forEach_congr_inv _
        (SimplifyArithmExprOptimizer.funcPass (SimplifyArithmExprOptimizer.acceptFunction k))
        (fun o1 => o1.ir = o.ir ∧ o1.subOptims = o.subOptims)
        (fun f o1 hJ => doWhileCodeChanged_once _ fuel o1 (fun o2 hr => (hJf f o1 o2 hJ hr).2))
        (fun f o1 o2 hJ hr => (hJf f o1 o2 hJ hr).1) module.funcDefinitions o1 hJ1
  · intro fuel' o' hr
    unfold SimplifyArithmExprOptimizer.doOptimization at hr
    obtain ⟨o1, e1, hr⟩ := bind_eq_ok hr
    have hJ1 := forEach_inv _ (fun o1 => o1.ir = o.ir ∧ o1.subOptims = o.subOptims)
      (fun g o1 o2 hJ hr => doWhileCodeChanged_inv _ _
        (fun a b hJa hab => (hJg g a b hJa hab).1) fuel' o1 o2 hJ hr)
      module.globalVars o o1 ⟨rfl, rfl⟩ e1
    have hJ2 := forEach_inv _ (fun o1 => o1.ir = o.ir ∧ o1.subOptims = o.subOptims)
      (fun f o1 o2 hJ hr => doWhileCodeChanged_inv _ _
        (fun a b hJa hab => (hJf f a b hJa hab).1) fuel' o1 o2 hJ hr)
      module.funcDefinitions o1 o' hJ1 hr
    exact ⟨hJ2.1, hJ2.2, fun f p q => by rw [hJ2.1]⟩

/-- On `idleModule`, whose global initializer is the `x + y` of `addExample`,
the driver with the two idle sub-optimizers returns after one traversal of each
unit with the IR of `addExample`. -/
theorem doOptimization_idle_leaves_ir_witness :
    SimplifyArithmExprOptimizer.doOptimization (SimplifyArithmExprOptimizer.accept 2)
        (SimplifyArithmExprOptimizer.acceptFunction 2) 1 idleModule addExample =
      .ok addIdleFinal ∧
    addIdleFinal.ir = addExample.ir ∧ addIdleFinal.subOptims = addExample.subOptims ∧
      ∀ f p q, Value.isEqualTo f addIdleFinal.ir p q = Value.isEqualTo f addExample.ir p q :=
  ⟨rfl,
   (doOptimization_idle_leaves_ir 2 0 idleModule addExample
      (fun s hs e => by
        simp only [addExample, negExample, List.mem_cons, List.mem_singleton,
          List.not_mem_nil, or_false] at hs
        rcases hs with rfl | rfl <;> rfl)).2 1 addIdleFinal rfl⟩

/-! ## Theorems: the global-variable sorter -/

theorem GlobalVarsSorter.least_mem {l : List GlobalVarsSorter.Def} {d : GlobalVarsSorter.Def}
    (hl : GlobalVarsSorter.least l = some d) : d ∈ l := by
  induction l generalizing d with
  | nil => simp [GlobalVarsSorter.least] at hl
  | cons x xs ih =>
    simp only [GlobalVarsSorter.least] at hl
    cases hx : GlobalVarsSorter.least xs with
    | none =>
      simp only [hx] at hl
      cases hl
      exact List.mem_cons_self _ _
    | some b =>
      simp only [hx] at hl
      split at hl
      · cases hl
        exact List.mem_cons_of_mem _ (ih hx)
      · cases hl
        exact List.mem_cons_self _ _

theorem GlobalVarsSorter.least_isSome {l : List GlobalVarsSorter.Def} (hne : l ≠ []) :
    ∃ d, GlobalVarsSorter.least l = some d := by
  cases l with
  | nil => exact absurd rfl hne
  | cons x xs =>
    simp only [GlobalVarsSorter.least]
    cases GlobalVarsSorter.least xs with
    | none => exact ⟨x, rfl⟩
    | some b =>
      simp only
      split
      · exact ⟨b, rfl⟩
      · exact ⟨x, rfl⟩

theorem GlobalVarsSorter.Acyclic.mono {l l' : List GlobalVarsSorter.Def} (hsub : l' ⊆ l)
    (hac : GlobalVarsSorter.Acyclic l) : GlobalVarsSorter.Acyclic l' := by
  intro d hd
  exact hac d (hd.mono fun a b hab => ⟨hsub hab.1, hsub hab.2.1, hab.2.2⟩)

/-- Dependencies that strictly increase a rank are not cyclic. -/
theorem GlobalVarsSorter.Acyclic.of_rank (l : List GlobalVarsSorter.Def)
    (rank : GlobalVarsSorter.Def → Nat)
    (hr : ∀ a ∈ l, ∀ b ∈ l, GlobalVarsSorter.dependsOn b a = true → rank a < rank b) :
    GlobalVarsSorter.Acyclic l := by
  have key : ∀ a b, Relation.TransGen
      (fun a b => a ∈ l ∧ b ∈ l ∧ GlobalVarsSorter.dependsOn b a = true) a b →
      rank a < rank b := by
    intro a b hab
    induction hab with
    | single h => exact hr _ h.1 _ h.2.1 h.2.2
    | tail _ h ih => exact lt_trans ih (hr _ h.1 _ h.2.1 h.2.2)
  intro d hd
  exact lt_irrefl _ (key d d hd)

/-- Among finitely many definitions without cyclic dependencies one depends on
none of the others. -/
theorem GlobalVarsSorter.exists_ready {l : List GlobalVarsSorter.Def}
    (hac : GlobalVarsSorter.Acyclic l) (hne : l ≠ []) :
    ∃ d ∈ l, GlobalVarsSorter.ready l d = true := by
  haveI : IsStrictOrder GlobalVarsSorter.Def (Relation.TransGen
      (fun a b => a ∈ l ∧ b ∈ l ∧ GlobalVarsSorter.dependsOn b a = true)) :=
    { irrefl := hac, trans := fun _ _ _ => Relation.TransGen.trans }
  have hwf := Set.wellFoundedOn_iff.1 ((List.finite_toSet l).wellFoundedOn
    (r := Relation.TransGen
      (fun a b => a ∈ l ∧ b ∈ l ∧ GlobalVarsSorter.dependsOn b a = true)))
  obtain ⟨x, hx⟩ := List.exists_mem_of_ne_nil l hne
  obtain ⟨m, hm, hmin⟩ := hwf.has_min {y | y ∈ l} ⟨x, hx⟩
  refine ⟨m, hm, ?_⟩
  simp only [GlobalVarsSorter.ready, List.all_eq_true, Bool.not_eq_true']
  intro a ha
  cases hd : GlobalVarsSorter.dependsOn m a with
  | false => rfl
  | true => exact absurd ⟨Relation.TransGen.single ⟨ha, hm, hd⟩, ha, hm⟩ (hmin a ha)

theorem GlobalVarsSorter.sortFrom_spec (fuel : Nat) (l : List GlobalVarsSorter.Def)
    (hf : l.length ≤ fuel) (hac : GlobalVarsSorter.Acyclic l) :
    ∃ r, GlobalVarsSorter.sortFrom fuel l = some r ∧ r.Perm l ∧
      r.Pairwise (fun a b => GlobalVarsSorter.dependsOn a b = false) ∧
      ∀ a ∈ r, GlobalVarsSorter.dependsOn a a = false := by
  induction fuel generalizing l with
  | zero =>
    cases l with
    | nil => exact ⟨[], rfl, List.Perm.refl _, List.Pairwise.nil, fun a ha => by cases ha⟩
    | cons d ds => simp at hf
  | succ f ih =>
    cases l with
    | nil => exact ⟨[], rfl, List.Perm.refl _, List.Pairwise.nil, fun a ha => by cases ha⟩
    | cons d ds =>
      obtain ⟨m, hm, hready⟩ := GlobalVarsSorter.exists_ready hac (List.cons_ne_nil d ds)
      have hfne : (d :: ds).filter (GlobalVarsSorter.ready (d :: ds)) ≠ [] := by
        intro he
        have : m ∈ (d :: ds).filter (GlobalVarsSorter.ready (d :: ds)) :=
          List.mem_filter.2 ⟨hm, hready⟩
        rw [he] at this
        cases this
      obtain ⟨next, hnext⟩ := GlobalVarsSorter.least_isSome hfne
      obtain ⟨hmem, hrdy⟩ := List.mem_filter.1 (GlobalVarsSorter.least_mem hnext)
      have hlen : ((d :: ds).erase next).length ≤ f := by
        rw [List.length_erase_of_mem hmem]
        simp only [List.length_cons] at hf ⊢
        omega
      obtain ⟨r, hr, hperm, hpw, hself⟩ := ih ((d :: ds).erase next) hlen
        (hac.mono (List.erase_subset next (d :: ds)))
      have hall : ∀ b ∈ d :: ds, GlobalVarsSorter.dependsOn next b = false := by
        simpa only [GlobalVarsSorter.ready, List.all_eq_true, Bool.not_eq_true'] using hrdy
      refine ⟨next :: r, ?_, ?_, ?_, ?_⟩
      · simp only [GlobalVarsSorter.sortFrom, hnext, hr, Option.map_some']
      · exact (List.Perm.cons next hperm).trans (List.perm_cons_erase hmem).symm
      · refine List.Pairwise.cons (fun b hb => ?_) hpw
        exact hall b (List.mem_of_mem_erase (hperm.subset hb))
      · intro a ha
        rcases List.mem_cons.1 ha with ha | ha
        · rw [ha]
          exact hall next hmem
        · exact hself a ha

/-- C20: the function `GlobalVarsSorter::sortByInterdependencies` respects
dependencies.  For every list of global definitions without cyclic initializer
dependencies the sort returns a permutation of the input in which, whenever the
initializer of the definition at position `j` references the variable of the
definition at position `i`, directly or nested under operators such as
address-of, `i` is before `j`.  In particular the empty list gives the empty
list and a single definition gives itself. -/
theorem sortByInterdependencies_respects_dependencies
    (globalVars : List GlobalVarsSorter.Def) (hac : GlobalVarsSorter.Acyclic globalVars) :
    ∃ sorted, GlobalVarsSorter.sortByInterdependencies globalVars = some sorted ∧
      sorted.Perm globalVars ∧
      (∀ (i j : Nat) a b, sorted[i]? = some a → sorted[j]? = some b →
        GlobalVarsSorter.dependsOn b a = true → i < j) ∧
      (globalVars = [] → sorted = []) ∧
      (∀ d, globalVars = [d] → sorted = [d]) := by
  obtain ⟨r, hr, hperm, hpw, hself⟩ :=
    GlobalVarsSorter.sortFrom_spec globalVars.length globalVars (le_refl _) hac
  refine ⟨r, hr, hperm, fun i j a b hi hj hd => ?_, fun he => ?_, fun d he => ?_⟩
  · obtain ⟨hil, hia⟩ := List.getElem?_eq_some.1 hi
    obtain ⟨hjl, hjb⟩ := List.getElem?_eq_some.1 hj
    rcases Nat.lt_trichotomy i j with hlt | heq | hgt
    · exact hlt
    · subst heq
      rw [hia] at hjb
      subst hjb
      have := hself a (List.getElem?_mem hi)
      rw [this] at hd
      cases hd
    · have := List.pairwise_iff_getElem.1 hpw j i hjl hil hgt
      rw [hjb, hia, hd] at this
      cases this
  · rw [he] at hperm
    exact List.Perm.eq_nil hperm
  · rw [he] at hperm
    exact List.perm_singleton.1 hperm

/-- On the definitions of the tests, `p = &a; c = b; b = a; a`, the sort returns
`a; p = &a; b = a; c = b`: every definition comes after the ones it references,
also the one whose reference is nested under an address-of. -/
theorem sortByInterdependencies_respects_dependencies_witness :
    GlobalVarsSorter.sortByInterdependencies
        [GlobalVarsSorter.defP, GlobalVarsSorter.defC, GlobalVarsSorter.defB,
          GlobalVarsSorter.defA] =
      some [GlobalVarsSorter.defA, GlobalVarsSorter.defP, GlobalVarsSorter.defB,
        GlobalVarsSorter.defC] ∧
    ∃ sorted, GlobalVarsSorter.sortByInterdependencies
        [GlobalVarsSorter.defP, GlobalVarsSorter.defC, GlobalVarsSorter.defB,
          GlobalVarsSorter.defA] = some sorted ∧
      sorted.Perm [GlobalVarsSorter.defP, GlobalVarsSorter.defC, GlobalVarsSorter.defB,
          GlobalVarsSorter.defA] ∧
      (∀ (i j : Nat) a b, sorted[i]? = some a → sorted[j]? = some b →
        GlobalVarsSorter.dependsOn b a = true → i < j) ∧
      (([GlobalVarsSorter.defP, GlobalVarsSorter.defC, GlobalVarsSorter.defB,
          GlobalVarsSorter.defA] : List GlobalVarsSorter.Def) = [] → sorted = []) ∧
      (∀ d, [GlobalVarsSorter.defP, GlobalVarsSorter.defC, GlobalVarsSorter.defB,
          GlobalVarsSorter.defA] = [d] → sorted = [d]) :=
  ⟨by decide,
   sortByInterdependencies_respects_dependencies
    [GlobalVarsSorter.defP, GlobalVarsSorter.defC, GlobalVarsSorter.defB,
      GlobalVarsSorter.defA]
    (GlobalVarsSorter.Acyclic.of_rank _ (fun d => d.var.id) (by decide))⟩

/-! ## Theorems: the order the global-variable sorter establishes -/

theorem GlobalVarsSorter.least_le {l : List GlobalVarsSorter.Def} {d : GlobalVarsSorter.Def}
    (hl : GlobalVarsSorter.least l = some d) :
    ∀ b ∈ l, ¬ b.var.initialName.data < d.var.initialName.data := by
  induction l generalizing d with
  | nil => simp [GlobalVarsSorter.least] at hl
  | cons x xs ih =>
    simp only [GlobalVarsSorter.least] at hl
    cases hx : GlobalVarsSorter.least xs with
    | none =>
      simp only [hx] at hl
      cases hl
      intro b hb
      rcases List.mem_cons.1 hb with hb | hb
      · rw [hb]
        exact lt_irrefl _
      · cases xs with
        | nil => cases hb
        | cons y ys =>
          obtain ⟨z, hz⟩ := GlobalVarsSorter.least_isSome (List.cons_ne_nil y ys)
          rw [hz] at hx
          cases hx
    | some m =>
      simp only [hx] at hl
      have hm := ih hx
      by_cases hlt : m.var.initialName.data < x.var.initialName.data
      · rw [if_pos hlt] at hl
        cases hl
        intro b hb
        rcases List.mem_cons.1 hb with hb | hb
        · rw [hb]
          exact lt_asymm hlt
        · exact hm b hb
      · rw [if_neg hlt] at hl
        cases hl
        intro b hb
        rcases List.mem_cons.1 hb with hb | hb
        · rw [hb]
          exact lt_irrefl _
        · exact fun h => hm b hb (lt_of_lt_of_le h (not_lt.1 hlt))

theorem GlobalVarsSorter.ready_congr {l l' : List GlobalVarsSorter.Def}
    (h : ∀ a, a ∈ l ↔ a ∈ l') (d : GlobalVarsSorter.Def) :
    GlobalVarsSorter.ready l d = GlobalVarsSorter.ready l' d := by
  rw [Bool.eq_iff_iff]
  simp only [GlobalVarsSorter.ready, List.all_eq_true, h]

theorem GlobalVarsSorter.isNext_congr {l l' : List GlobalVarsSorter.Def}
    (h : ∀ a, a ∈ l ↔ a ∈ l') (d : GlobalVarsSorter.Def) :
    GlobalVarsSorter.isNext l d = GlobalVarsSorter.isNext l' d := by
  rw [Bool.eq_iff_iff]
  simp only [GlobalVarsSorter.isNext, Bool.and_eq_true, List.all_eq_true, h,
    GlobalVarsSorter.ready_congr h]

theorem GlobalVarsSorter.isNext_of_least {l : List GlobalVarsSorter.Def}
    {d : GlobalVarsSorter.Def}
    (hl : GlobalVarsSorter.least (l.filter (GlobalVarsSorter.ready l)) = some d) :
    d ∈ l ∧ GlobalVarsSorter.isNext l d = true := by
  obtain ⟨hmem, hrdy⟩ := List.mem_filter.1 (GlobalVarsSorter.least_mem hl)
  refine ⟨hmem, ?_⟩
  simp only [GlobalVarsSorter.isNext, Bool.and_eq_true, hrdy, true_and, List.all_eq_true,
    Bool.or_eq_true, Bool.not_eq_true', decide_eq_false_iff_not]
  intro b hb
  cases hrb : GlobalVarsSorter.ready l b with
  | false => exact Or.inl rfl
  | true => exact Or.inr (GlobalVarsSorter.least_le hl b (List.mem_filter.2 ⟨hb, hrb⟩))

/-- What the sort returns is a permutation of its input. -/
theorem GlobalVarsSorter.sortFrom_perm (fuel : Nat) (l r : List GlobalVarsSorter.Def)
    (hs : GlobalVarsSorter.sortFrom fuel l = some r) : r.Perm l := by
  induction fuel generalizing l r with
  | zero =>
    cases l with
    | nil =>
      simp only [GlobalVarsSorter.sortFrom] at hs
      cases hs
      exact List.Perm.refl _
    | cons d ds => simp [GlobalVarsSorter.sortFrom] at hs
  | succ f ih =>
    cases l with
    | nil =>
      simp only [GlobalVarsSorter.sortFrom] at hs
      cases hs
      exact List.Perm.refl _
    | cons d ds =>
      simp only [GlobalVarsSorter.sortFrom] at hs
      cases hn : GlobalVarsSorter.least
          ((d :: ds).filter (GlobalVarsSorter.ready (d :: ds))) with
      | none => simp [hn] at hs
      | some next =>
        simp only [hn] at hs
        cases hr : GlobalVarsSorter.sortFrom f ((d :: ds).erase next) with
        | none => simp [hr] at hs
        | some r' =>
          simp only [hr, Option.map_some'] at hs
          cases hs
          have hmem := (GlobalVarsSorter.isNext_of_least hn).1
          exact (List.Perm.cons next (ih _ _ hr)).trans (List.perm_cons_erase hmem).symm

/-- What the sort returns is in sorted order. -/
theorem GlobalVarsSorter.sortFrom_inSortedOrder (fuel : Nat) (l r : List GlobalVarsSorter.Def)
    (hs : GlobalVarsSorter.sortFrom fuel l = some r) :
    GlobalVarsSorter.inSortedOrder r = true := by
  induction fuel generalizing l r with
  | zero =>
    cases l with
    | nil =>
      simp only [GlobalVarsSorter.sortFrom] at hs
      cases hs
      rfl
    | cons d ds => simp [GlobalVarsSorter.sortFrom] at hs
  | succ f ih =>
    cases l with
    | nil =>
      simp only [GlobalVarsSorter.sortFrom] at hs
      cases hs
      rfl
    | cons d ds =>
      have hperm := GlobalVarsSorter.sortFrom_perm _ _ _ hs
      simp only [GlobalVarsSorter.sortFrom] at hs
      cases hn : GlobalVarsSorter.least
          ((d :: ds).filter (GlobalVarsSorter.ready (d :: ds))) with
      | none => simp [hn] at hs
      | some next =>
        simp only [hn] at hs
        cases hr : GlobalVarsSorter.sortFrom f ((d :: ds).erase next) with
        | none => simp [hr] at hs
        | some r' =>
          simp only [hr, Option.map_some'] at hs
          cases hs
          simp only [GlobalVarsSorter.inSortedOrder, Bool.and_eq_true]
          refine ⟨?_, ih _ _ hr⟩
          rw [GlobalVarsSorter.isNext_congr (fun a => hperm.mem_iff) next]
          exact (GlobalVarsSorter.isNext_of_least hn).2

/-- An input in sorted order is returned as it is. -/
theorem GlobalVarsSorter.sortFrom_of_inSortedOrder (fuel : Nat) (l : List GlobalVarsSorter.Def)
    (hf : l.length ≤ fuel) (hso : GlobalVarsSorter.inSortedOrder l = true) :
    GlobalVarsSorter.sortFrom fuel l = some l := by
  induction l generalizing fuel with
  | nil => cases fuel <;> rfl
  | cons d ds ih =>
    cases fuel with
    | zero => simp at hf
    | succ f =>
      simp only [GlobalVarsSorter.inSortedOrder, Bool.and_eq_true] at hso
      obtain ⟨hnext, hrest⟩ := hso
      simp only [GlobalVarsSorter.isNext, Bool.and_eq_true, List.all_eq_true,
        Bool.or_eq_true, Bool.not_eq_true', decide_eq_false_iff_not] at hnext
      obtain ⟨hrdy, hmin⟩ := hnext
      have hleast : GlobalVarsSorter.least
          ((d :: ds).filter (GlobalVarsSorter.ready (d :: ds))) = some d := by
        rw [List.filter_cons_of_pos hrdy]
        simp only [GlobalVarsSorter.least]
        cases hx : GlobalVarsSorter.least (ds.filter (GlobalVarsSorter.ready (d :: ds))) with
        | none => rfl
        | some m =>
          obtain ⟨hm1, hm2⟩ := List.mem_filter.1 (GlobalVarsSorter.least_mem hx)
          have hnot : ¬ m.var.initialName.data < d.var.initialName.data := by
            rcases hmin m (List.mem_cons_of_mem _ hm1) with h | h
            · rw [hm2] at h
              cases h
            · exact h
          simp only [if_neg hnot]
      simp only [GlobalVarsSorter.sortFrom, hleast, List.erase_cons_head]
      rw [ih f (by simpa using hf) hrest]
      rfl

theorem perm_pairwise_unique {α : Type} (r : α → α → Prop) (l₁ l₂ : List α)
    (hp : l₁.Perm l₂) (h₁ : l₁.Pairwise r) (h₂ : l₂.Pairwise r)
    (hanti : ∀ a ∈ l₁, ∀ b ∈ l₁, r a b → r b a → a = b) : l₁ = l₂ := by
  induction l₁ generalizing l₂ with
  | nil => exact hp.nil_eq
  | cons a t ih =>
    cases l₂ with
    | nil => exact absurd hp.length_eq (by simp)
    | cons b t₂ =>
      have hab : a = b := by
        have ha : a ∈ b :: t₂ := hp.subset (List.mem_cons_self _ _)
        have hb : b ∈ a :: t := hp.symm.subset (List.mem_cons_self _ _)
        rcases List.mem_cons.1 ha with ha | ha
        · exact ha
        · rcases List.mem_cons.1 hb with hb' | hb'
          · exact hb'.symm
          · exact hanti a (List.mem_cons_self _ _) b hb
              (List.rel_of_pairwise_cons h₁ hb') (List.rel_of_pairwise_cons h₂ ha)
      subst hab
      rw [ih t₂ ((List.perm_cons a).1 hp) (List.Pairwise.of_cons h₁) (List.Pairwise.of_cons h₂)
        (fun x hx y hy => hanti x (List.mem_cons_of_mem _ hx) y (List.mem_cons_of_mem _ hy))]

theorem GlobalVarsSorter.ready_of_independent {l : List GlobalVarsSorter.Def}
    (hind : ∀ a ∈ l, ∀ b ∈ l, GlobalVarsSorter.dependsOn b a = false)
    {b : GlobalVarsSorter.Def} (hb : b ∈ l) : GlobalVarsSorter.ready l b = true := by
  simp only [GlobalVarsSorter.ready, List.all_eq_true, Bool.not_eq_true']
  exact fun a ha => hind a ha b hb

/-- Without dependencies the sorted order is the ascending order of the original
names. -/
theorem GlobalVarsSorter.inSortedOrder_independent (l : List GlobalVarsSorter.Def)
    (hind : ∀ a ∈ l, ∀ b ∈ l, GlobalVarsSorter.dependsOn b a = false)
    (hso : GlobalVarsSorter.inSortedOrder l = true) :
    l.Pairwise (fun a b => a.var.initialName.data ≤ b.var.initialName.data) := by
  induction l with
  | nil => exact List.Pairwise.nil
  | cons d ds ih =>
    simp only [GlobalVarsSorter.inSortedOrder, Bool.and_eq_true] at hso
    obtain ⟨hnext, hrest⟩ := hso
    simp only [GlobalVarsSorter.isNext, Bool.and_eq_true, List.all_eq_true,
      Bool.or_eq_true, Bool.not_eq_true', decide_eq_false_iff_not] at hnext
    refine List.Pairwise.cons (fun b hb => ?_)
      (ih (fun a ha b hb => hind a (List.mem_cons_of_mem _ ha) b (List.mem_cons_of_mem _ hb))
        hrest)
    have hb' : b ∈ d :: ds := List.mem_cons_of_mem _ hb
    rcases hnext.2 b hb' with h | h
    · rw [GlobalVarsSorter.ready_of_independent hind hb'] at h
      cases h
    · exact not_lt.1 h

theorem GlobalVarsSorter.acyclic_of_independent {l : List GlobalVarsSorter.Def}
    (hind : ∀ a ∈ l, ∀ b ∈ l, GlobalVarsSorter.dependsOn b a = false) :
    GlobalVarsSorter.Acyclic l :=
  GlobalVarsSorter.Acyclic.of_rank l (fun _ => 0) (fun a ha b hb hd => by
    rw [hind a ha b hb] at hd
    cases hd)

/-- C21: the function `GlobalVarsSorter::sortByInterdependencies` breaks ties by
original name.  For every list of global definitions in which no initializer
references the variable of a definition of the list, the sort returns a
permutation of the input in ascending lexicographic order of the original names
of the variables; the current names do not enter.  When the original names are
pairwise different, every order of the input gives the same result. -/
theorem sortByInterdependencies_orders_by_original_name
    (globalVars : List GlobalVarsSorter.Def)
    (hind : ∀ a ∈ globalVars, ∀ b ∈ globalVars, GlobalVarsSorter.dependsOn b a = false) :
    ∃ sorted, GlobalVarsSorter.sortByInterdependencies globalVars = some sorted ∧
      sorted.Perm globalVars ∧
      sorted.Pairwise (fun a b => a.var.initialName.data ≤ b.var.initialName.data) ∧
      ((globalVars.map fun d => d.var.initialName.data).Nodup →
        ∀ other, other.Perm globalVars →
          GlobalVarsSorter.sortByInterdependencies other = some sorted) := by
  have key : ∀ l : List GlobalVarsSorter.Def,
      (∀ a ∈ l, ∀ b ∈ l, GlobalVarsSorter.dependsOn b a = false) →
      ∃ sorted, GlobalVarsSorter.sortByInterdependencies l = some sorted ∧ sorted.Perm l ∧
        sorted.Pairwise (fun a b => a.var.initialName.data ≤ b.var.initialName.data) := by
    intro l hl
    obtain ⟨r, hr, hperm, _, _⟩ := GlobalVarsSorter.sortFrom_spec l.length l (le_refl _)
      (GlobalVarsSorter.acyclic_of_independent hl)
    refine ⟨r, hr, hperm, GlobalVarsSorter.inSortedOrder_independent r ?_
      (GlobalVarsSorter.sortFrom_inSortedOrder _ _ _ hr)⟩
    exact fun a ha b hb => hl a (hperm.subset ha) b (hperm.subset hb)
  obtain ⟨sorted, hs, hperm, hpw⟩ := key globalVars hind
  refine ⟨sorted, hs, hperm, hpw, fun hnd other ho => ?_⟩
  obtain ⟨sorted', hs', hperm', hpw'⟩ := key other
    (fun a ha b hb => hind a (ho.subset ha) b (ho.subset hb))
  rw [hs']
  congr 1
  refine perm_pairwise_unique _ sorted' sorted ((hperm'.trans ho).trans hperm.symm) hpw' hpw ?_
  intro a ha b hb hab hba
  have hinj := List.inj_on_of_nodup_map hnd
  exact hinj ((hperm'.trans ho).subset ha) ((hperm'.trans ho).subset hb) (le_antisymm hab hba)

/-- On the definitions of the tests, `int a; int b; int c;` renamed to `z`, `y`,
`x`, the sort returns them in the order of the original names `a`, `b`, `c`,
also when they are given in another order. -/
theorem sortByInterdependencies_orders_by_original_name_witness :
    GlobalVarsSorter.sortByInterdependencies
        [GlobalVarsSorter.declC, GlobalVarsSorter.defA, GlobalVarsSorter.declB] =
      some [GlobalVarsSorter.defA, GlobalVarsSorter.declB, GlobalVarsSorter.declC] ∧
    ∃ sorted, GlobalVarsSorter.sortByInterdependencies
        [GlobalVarsSorter.defA, GlobalVarsSorter.declB, GlobalVarsSorter.declC] = some sorted ∧
      sorted.Perm [GlobalVarsSorter.defA, GlobalVarsSorter.declB, GlobalVarsSorter.declC] ∧
      sorted.Pairwise (fun a b => a.var.initialName.data ≤ b.var.initialName.data) ∧
      (([GlobalVarsSorter.defA, GlobalVarsSorter.declB, GlobalVarsSorter.declC].map
          fun d => d.var.initialName.data).Nodup →
        ∀ other,
          other.Perm [GlobalVarsSorter.defA, GlobalVarsSorter.declB, GlobalVarsSorter.declC] →
          GlobalVarsSorter.sortByInterdependencies other = some sorted) :=
  ⟨by decide,
   sortByInterdependencies_orders_by_original_name
    [GlobalVarsSorter.defA, GlobalVarsSorter.declB, GlobalVarsSorter.declC] (by decide)⟩

/-- C22: the function `GlobalVarsSorter::sortByInterdependencies` is idempotent.
Whatever the sort returns for a list `x`, sorted again it is returned as it is;
for a list without cyclic dependencies the sort does return.  An input that is
already in a valid sorted order (every definition after the definitions it
depends on, and the least original name first wherever several definitions
could come next) is returned unchanged. -/
theorem sortByInterdependencies_idempotent (x : List GlobalVarsSorter.Def) :
    ((GlobalVarsSorter.sortByInterdependencies x).bind
        GlobalVarsSorter.sortByInterdependencies =
      GlobalVarsSorter.sortByInterdependencies x) ∧
    (GlobalVarsSorter.Acyclic x →
      ∃ s, GlobalVarsSorter.sortByInterdependencies x = some s ∧
        GlobalVarsSorter.sortByInterdependencies s = some s) ∧
    (GlobalVarsSorter.inSortedOrder x = true →
      GlobalVarsSorter.sortByInterdependencies x = some x) := by
  have key : ∀ s, GlobalVarsSorter.sortByInterdependencies x = some s →
      GlobalVarsSorter.sortByInterdependencies s = some s := fun s hs =>
    GlobalVarsSorter.sortFrom_of_inSortedOrder s.length s (le_refl _)
      (GlobalVarsSorter.sortFrom_inSortedOrder _ _ _ hs)
  refine ⟨?_, fun hac => ?_, fun hso => ?_⟩
  · cases hs : GlobalVarsSorter.sortByInterdependencies x with
    | none => rfl
    | some s =>
      simp only [Option.some_bind]
      exact key s hs
  · obtain ⟨r, hr, _⟩ := GlobalVarsSorter.sortFrom_spec x.length x (le_refl _) hac
    exact ⟨r, hr, key r hr⟩
  · exact GlobalVarsSorter.sortFrom_of_inSortedOrder x.length x (le_refl _) hso

/-- The definitions `p = &a; c = b; b = a; a` of the tests are sorted to
`a; p = &a; b = a; c = b`, which sorted again stays as it is; the input
`a; b = a` of the test, already in sorted order, is untouched. -/
theorem sortByInterdependencies_idempotent_witness :
    (∃ s, GlobalVarsSorter.sortByInterdependencies
        [GlobalVarsSorter.defP, GlobalVarsSorter.defC, GlobalVarsSorter.defB,
          GlobalVarsSorter.defA] = some s ∧
      GlobalVarsSorter.sortByInterdependencies s = some s) ∧
    GlobalVarsSorter.sortByInterdependencies [GlobalVarsSorter.defA, GlobalVarsSorter.defB] =
      some [GlobalVarsSorter.defA, GlobalVarsSorter.defB] :=
  ⟨(sortByInterdependencies_idempotent
      [GlobalVarsSorter.defP, GlobalVarsSorter.defC, GlobalVarsSorter.defB,
        GlobalVarsSorter.defA]).2.1
      (GlobalVarsSorter.Acyclic.of_rank _ (fun d => d.var.id) (by decide)),
   (sortByInterdependencies_idempotent
      [GlobalVarsSorter.defA, GlobalVarsSorter.defB]).2.2 (by decide)⟩

/-! ## Theorems: `skipDerefs` and `skipAddresses` -/

/-- C27: the function `skipDerefs` strips exactly the leading dereferences.  For
every expression `e`, `skipDerefs(e)` is `e` itself when `e` is not a
`DerefOpExpr` and is `skipDerefs` of the operand of `e` otherwise; the result is
never a `DerefOpExpr`; a dereference under another operator (under an
address-of, for example) is left in place; and `skipDerefs` is idempotent.
The function `skipAddresses` has the same properties with `AddressOpExpr` in
place of `DerefOpExpr`. -/
theorem skipDerefs_strips_leading (e : Expr) :
    (e.isDerefOpExpr = false → skipDerefs e = e) ∧
    skipDerefs (.derefOpExpr e) = skipDerefs e ∧
    (skipDerefs e).isDerefOpExpr = false ∧
    skipDerefs (.addressOpExpr (.derefOpExpr e)) = .addressOpExpr (.derefOpExpr e) ∧
    skipDerefs (skipDerefs e) = skipDerefs e ∧
    (e.isAddressOpExpr = false → skipAddresses e = e) ∧
    skipAddresses (.addressOpExpr e) = skipAddresses e ∧
    (skipAddresses e).isAddressOpExpr = false ∧
    skipAddresses (.derefOpExpr (.addressOpExpr e)) = .derefOpExpr (.addressOpExpr e) ∧
    skipAddresses (skipAddresses e) = skipAddresses e := by
  have d1 : ∀ x : Expr, x.isDerefOpExpr = false → skipDerefs x = x := by
    intro x hx
    cases x <;> first | rfl | simp [Expr.isDerefOpExpr] at hx
  have d2 : ∀ x : Expr, (skipDerefs x).isDerefOpExpr = false := by
    intro x
    induction x with
    | derefOpExpr operand ih => exact ih
    | _ => rfl
  have a1 : ∀ x : Expr, x.isAddressOpExpr = false → skipAddresses x = x := by
    intro x hx
    cases x <;> first | rfl | simp [Expr.isAddressOpExpr] at hx
  have a2 : ∀ x : Expr, (skipAddresses x).isAddressOpExpr = false := by
    intro x
    induction x with
    | addressOpExpr operand ih => exact ih
    | _ => rfl
  exact ⟨d1 e, rfl, d2 e, rfl, d1 _ (d2 e), a1 e, rfl, a2 e, rfl, a1 _ (a2 e)⟩

/-- The tests of `utils/ir`: `skipDerefs(x)` is `x`, `skipDerefs(**x)` is `x`,
`skipDerefs(&*x)` is `&*x`, and likewise for `skipAddresses`. -/
theorem skipDerefs_strips_leading_witness :
    skipDerefs varX = varX ∧
    skipDerefs (.derefOpExpr (.derefOpExpr varX)) = varX ∧
    skipDerefs (.addressOpExpr (.derefOpExpr varX)) = .addressOpExpr (.derefOpExpr varX) ∧
    skipAddresses varX = varX ∧
    skipAddresses (.addressOpExpr (.addressOpExpr varX)) = varX ∧
    skipAddresses (.derefOpExpr (.addressOpExpr varX)) = .derefOpExpr (.addressOpExpr varX) :=
  ⟨(skipDerefs_strips_leading varX).1 rfl, rfl,
   (skipDerefs_strips_leading varX).2.2.2.1,
   (skipDerefs_strips_leading varX).2.2.2.2.2.1 rfl, rfl,
   (skipDerefs_strips_leading varX).2.2.2.2.2.2.2.2.1⟩

/-! ## Theorems: construction, termination and IDs of the optimizers -/

theorem createSubOptimizers_spec (factory : SubOptimizerFactory)
    (o : SimplifyArithmExprOptimizer) (ev : ArithmExprEvaluator) :
    SimplifyArithmExprOptimizer.createSubOptimizers factory o ev =
      { o with subOptims := o.subOptims ++
          factory.getRegisteredObjects.map fun regObject => factory.createObject regObject ev } := by
  unfold SimplifyArithmExprOptimizer.createSubOptimizers
  generalize factory.getRegisteredObjects = regs
  induction regs generalizing o with
  | nil => simp
  | cons r regs ih => simp [List.foldl_cons, ih]

/-- C28: the constructor of `SimplifyArithmExprOptimizer`.  With a non-null
module and a non-null evaluator it returns an optimizer whose list `subOptims`
is the list of the objects that `createObject` makes for the identifiers of
`getRegisteredObjects`, in order, each with the evaluator given to the
constructor: the list has as many entries as there are identifiers and its i-th
entry is the object of the i-th identifier.  The flag `codeChanged` starts
false.  The constructor fails with the precondition error exactly when the
module or the evaluator is null. -/
theorem constructor_creates_one_subOptimizer_per_id (factory : SubOptimizerFactory)
    (ir : Heap) (module : Option Module) (arithmExprEvaluator : Option ArithmExprEvaluator) :
    (∀ m ev, module = some m → arithmExprEvaluator = some ev →
      ∃ o, SimplifyArithmExprOptimizer.new factory ir module arithmExprEvaluator = .ok o ∧
        o.subOptims = factory.getRegisteredObjects.map
          (fun regObject => factory.createObject regObject ev) ∧
        o.subOptims.length = factory.getRegisteredObjects.length ∧
        (∀ i : Nat, o.subOptims[i]? =
          (factory.getRegisteredObjects[i]?).map fun regObject =>
            factory.createObject regObject ev) ∧
        o.codeChanged = false ∧ o.ir = ir) ∧
    (module = none ∨ arithmExprEvaluator = none ↔
      SimplifyArithmExprOptimizer.new factory ir module arithmExprEvaluator =
        .error .precondition) ∧
    (module = none ∨ arithmExprEvaluator = none ↔
      ∀ o, SimplifyArithmExprOptimizer.new factory ir module arithmExprEvaluator ≠ .ok o) := by
  refine ⟨?_, ?_, ?_⟩
  · rintro m ev rfl rfl
    refine ⟨_, rfl, ?_⟩
    rw [createSubOptimizers_spec]
    simp
  · cases module <;> cases arithmExprEvaluator <;> simp [SimplifyArithmExprOptimizer.new]
  · cases module <;> cases arithmExprEvaluator <;> simp [SimplifyArithmExprOptimizer.new]

/-- Witness of C28: with the registry of the identifiers `"A"` and `"B"` and the
evaluator 7, the constructed optimizer has the two sub-optimizers `"A7"` and
`"B7"`, in this order. -/
theorem constructor_creates_one_subOptimizer_per_id_witness :
    ∃ o, SimplifyArithmExprOptimizer.new exampleFactory addExample.ir
        (some growModule) (some { id := 7 }) = .ok o ∧
      o.subOptims.map (fun s => s.getId) = ["A7", "B7"] := by
  obtain ⟨o, ho, hs, -⟩ :=
    (constructor_creates_one_subOptimizer_per_id exampleFactory addExample.ir
      (some growModule) (some { id := 7 })).1 growModule { id := 7 } rfl rfl
  refine ⟨o, ho, ?_⟩
  rw [hs]
  decide

/-- C30: the optimizer IDs.  `AggressiveDerefOptimizer::getId` returns the string
`"AggressiveDeref"` on every instance, whatever its module and its fields, and
the string is not empty; the IDs of `CopyPropagationOptimizer` and of
`VarDefStmtOptimizer` are not empty. -/
theorem getId_nonEmpty :
    (∀ this : AggressiveDerefOptimizer, this.getId = "AggressiveDeref") ∧
    (∀ this : AggressiveDerefOptimizer, this.getId.isEmpty = false) ∧
    (∀ a b : AggressiveDerefOptimizer, a.getId = b.getId) ∧
    CopyPropagationOptimizer.getId.isEmpty = false ∧
    VarDefStmtOptimizer.getId.isEmpty = false := by
  refine ⟨fun _ => rfl, fun _ => ?_, fun _ _ => rfl, by decide, by decide⟩
  unfold AggressiveDerefOptimizer.getId
  decide

theorem unitsRun_of_doOptimization
    (acceptExpr : SimplifyArithmExprOptimizer → Ptr → Except Err SimplifyArithmExprOptimizer)
    (acceptFunc : SimplifyArithmExprOptimizer → Function → Except Err SimplifyArithmExprOptimizer)
    (module : Module) (fuel : Nat) (o o' : SimplifyArithmExprOptimizer)
    (h : SimplifyArithmExprOptimizer.doOptimization acceptExpr acceptFunc fuel module o = .ok o') :
    UnitsRun (module.passes acceptExpr acceptFunc) o o' := by
  unfold SimplifyArithmExprOptimizer.doOptimization at h
  obtain ⟨o1, h1, h2⟩ := bind_eq_ok h
  exact UnitsRun.append (forEach_run _ fuel _ o o1 h1) (forEach_run _ fuel _ o1 o' h2)

theorem doOptimization_of_unitsRun
    (acceptExpr : SimplifyArithmExprOptimizer → Ptr → Except Err SimplifyArithmExprOptimizer)
    (acceptFunc : SimplifyArithmExprOptimizer → Function → Except Err SimplifyArithmExprOptimizer)
    (module : Module) (o o' : SimplifyArithmExprOptimizer)
    (h : UnitsRun (module.passes acceptExpr acceptFunc) o o') :
    ∃ bound, ∀ fuel, bound ≤ fuel →
      SimplifyArithmExprOptimizer.doOptimization acceptExpr acceptFunc fuel module o = .ok o' := by
  obtain ⟨o1, ha, hb⟩ := UnitsRun.split h
  obtain ⟨b1, h1⟩ := forEach_of_run _ _ o o1 ha
  obtain ⟨b2, h2⟩ := forEach_of_run _ _ o1 o' hb
  refine ⟨max b1 b2, fun fuel hf => ?_⟩
  unfold SimplifyArithmExprOptimizer.doOptimization
  rw [h1 _ (le_trans (le_max_left b1 b2) hf)]
  exact h2 _ (le_trans (le_max_right b1 b2) hf)

theorem FixpointRun.last_traversal
    {pass : SimplifyArithmExprOptimizer → Except Err SimplifyArithmExprOptimizer}
    {I : SimplifyArithmExprOptimizer → Prop}
    (hI : ∀ o o1, I o → pass o = .ok o1 → I o1)
    {n : Nat} {o o' : SimplifyArithmExprOptimizer} (h : FixpointRun pass n o o') (ho : I o) :
    I o' ∧ ∃ ol, I ol ∧ pass ol = .ok o' := by
  induction h with
  | @last o o1 h1 _ => exact ⟨hI o o1 ho h1, o, ho, h1⟩
  | @again _ o o1 _ h1 _ _ ih => exact ih (hI o o1 ho h1)

theorem UnitsRun.never
    {I : SimplifyArithmExprOptimizer → Prop}
    {p : SimplifyArithmExprOptimizer → Except Err SimplifyArithmExprOptimizer}
    (hbad : ∀ o o1, I o → p o = .ok o1 → o1.codeChanged = true)
    {ps : List (SimplifyArithmExprOptimizer → Except Err SimplifyArithmExprOptimizer)}
    (hp : p ∈ ps) (hI : ∀ q ∈ ps, ∀ o o1, I o → q o = .ok o1 → I o1)
    {o o' : SimplifyArithmExprOptimizer} (h : UnitsRun ps o o') (ho : I o) : False := by
  induction h with
  | nil => simp at hp
  | @cons q qs n o o1 o2 hrun _ ih =>
    have hq := FixpointRun.last_traversal (hI q (List.mem_cons_self q qs)) hrun ho
    rcases List.mem_cons.mp hp with rfl | hmem
    · obtain ⟨_, ol, hol, hstep⟩ := hq
      have ht := hbad ol o1 hol hstep
      rw [hrun.codeChanged_false] at ht
      cases ht
    · exact ih hmem (fun r hr => hI r (List.mem_cons_of_mem q hr)) hq.1

theorem doWhileCodeChanged_diverges
    (pass : SimplifyArithmExprOptimizer → Except Err SimplifyArithmExprOptimizer)
    (I : SimplifyArithmExprOptimizer → Prop)
    (hbad : ∀ o, I o → ∃ o1, pass o = .ok o1 ∧ o1.codeChanged = true ∧ I o1)
    (fuel : Nat) (o : SimplifyArithmExprOptimizer) (ho : I o) :
    SimplifyArithmExprOptimizer.doWhileCodeChanged pass fuel o = .error .outOfFuel := by
  induction fuel generalizing o with
  | zero => rfl
  | succ fuel ih =>
    obtain ⟨o1, h1, hc, hi⟩ := hbad o ho
    simp only [SimplifyArithmExprOptimizer.doWhileCodeChanged, h1, Except.bind, hc, if_true]
    exact ih o1 hi

theorem globalVarPass_always (g : GlobalVarDef) (hg : g.getInitializer = some 2)
    (o : SimplifyArithmExprOptimizer) (ho : alwaysInv o) :
    ∃ o1, SimplifyArithmExprOptimizer.globalVarPass (SimplifyArithmExprOptimizer.accept 2) g o =
        .ok o1 ∧ o1.codeChanged = true ∧ alwaysInv o1 := by
  obtain ⟨subOptims, codeChanged, accessedStmts, ir, calls⟩ := o
  obtain ⟨hs, hir⟩ := ho
  simp only at hs hir
  subst hs hir
  refine ⟨{ subOptims := alwaysExample.subOptims, codeChanged := true,
            accessedStmts := accessedStmts, ir := alwaysExample.ir,
            calls := calls ++ [{ subOptim := "always", expr := some 2, result := true }] },
    ?_, rfl, rfl, rfl⟩
  simp only [SimplifyArithmExprOptimizer.globalVarPass, hg]
  rfl

/-- C29: termination of `doOptimization` is conditional.  When every unit of the
module, taken in order from the state its predecessors left, has a run in which
only finitely many successive traversals report a change (`UnitsRun`), the
driver returns the final state of that run: there is a bound from which on every
amount of fuel gives this result, so the number of iterations is limited by the
run alone and not by the driver.  A `do` loop whose every traversal returns with
`codeChanged` set never leaves the loop: for every amount of fuel the model runs
out of fuel.  Hence, when the module has a unit whose every traversal (from the
states that can be reached, described by an invariant that the traversals
maintain) reports a change, the driver returns for no amount of fuel. -/
theorem doOptimization_terminates_conditionally
    (acceptExpr : SimplifyArithmExprOptimizer → Ptr → Except Err SimplifyArithmExprOptimizer)
    (acceptFunc : SimplifyArithmExprOptimizer → Function → Except Err SimplifyArithmExprOptimizer)
    (module : Module) :
    (∀ o o', UnitsRun (module.passes acceptExpr acceptFunc) o o' →
      ∃ bound, ∀ fuel, bound ≤ fuel →
        SimplifyArithmExprOptimizer.doOptimization acceptExpr acceptFunc fuel module o = .ok o') ∧
    (∀ (I : SimplifyArithmExprOptimizer → Prop) pass o, I o →
      (∀ o, I o → ∃ o1, pass o = .ok o1 ∧ o1.codeChanged = true ∧ I o1) →
      ∀ fuel, SimplifyArithmExprOptimizer.doWhileCodeChanged pass fuel o = .error .outOfFuel) ∧
    (∀ (I : SimplifyArithmExprOptimizer → Prop) p o, I o →
      p ∈ module.passes acceptExpr acceptFunc →
      (∀ q ∈ module.passes acceptExpr acceptFunc, ∀ o o1, I o → q o = .ok o1 → I o1) →
      (∀ o o1, I o → p o = .ok o1 → o1.codeChanged = true) →
      ∀ fuel o',
        SimplifyArithmExprOptimizer.doOptimization acceptExpr acceptFunc fuel module o ≠ .ok o') := by
  refine ⟨?_, ?_, ?_⟩
  · intro o o' h
    exact doOptimization_of_unitsRun acceptExpr acceptFunc module o o' h
  · intro I pass o ho hbad fuel
    exact doWhileCodeChanged_diverges pass I hbad fuel o ho
  · intro I p o ho hp hI hbad fuel o' h
    exact UnitsRun.never hbad hp hI
      (unitsRun_of_doOptimization acceptExpr acceptFunc module fuel o o' h) ho

/-- Witness of C29: the unit `x + y` of `growModule`.  With the sub-optimizer
`grow`, whose first two traversals report a change, the driver returns the state
`growFinal` from some amount of fuel on; with the sub-optimizer `always`, whose
every traversal reports a change, the loop runs out of every amount of fuel and
the driver never returns. -/
theorem doOptimization_terminates_conditionally_witness :
    (∃ bound, ∀ fuel, bound ≤ fuel →
      SimplifyArithmExprOptimizer.doOptimization (SimplifyArithmExprOptimizer.accept 2)
        (SimplifyArithmExprOptimizer.acceptFunction 2) fuel growModule growExample =
          .ok growFinal) ∧
    (∀ fuel, SimplifyArithmExprOptimizer.doWhileCodeChanged
      (SimplifyArithmExprOptimizer.globalVarPass (SimplifyArithmExprOptimizer.accept 2)
        { var := some 0, getInitializer := some 2 }) fuel alwaysExample = .error .outOfFuel) ∧
    (∀ fuel o',
      SimplifyArithmExprOptimizer.doOptimization (SimplifyArithmExprOptimizer.accept 2)
        (SimplifyArithmExprOptimizer.acceptFunction 2) fuel growModule alwaysExample ≠ .ok o') := by
  have hmain := doOptimization_terminates_conditionally (SimplifyArithmExprOptimizer.accept 2)
    (SimplifyArithmExprOptimizer.acceptFunction 2) growModule
  have hstep : ∀ o, alwaysInv o → ∃ o1,
      SimplifyArithmExprOptimizer.globalVarPass (SimplifyArithmExprOptimizer.accept 2)
        { var := some 0, getInitializer := some 2 } o = .ok o1 ∧
      o1.codeChanged = true ∧ alwaysInv o1 :=
    fun o ho => globalVarPass_always _ rfl o ho
  refine ⟨?_, ?_, ?_⟩
  · exact hmain.1 growExample growFinal
      (unitsRun_of_doOptimization _ _ growModule 3 growExample growFinal rfl)
  · exact hmain.2.1 alwaysInv _ alwaysExample ⟨rfl, rfl⟩ hstep
  · refine hmain.2.2 alwaysInv
      (SimplifyArithmExprOptimizer.globalVarPass (SimplifyArithmExprOptimizer.accept 2)
        { var := some 0, getInitializer := some 2 }) alwaysExample ⟨rfl, rfl⟩ ?_ ?_ ?_
    · simp [Module.passes, growModule]
    · intro q hq o o1 ho h1
      have hq' : q = SimplifyArithmExprOptimizer.globalVarPass
          (SimplifyArithmExprOptimizer.accept 2) { var := some 0, getInitializer := some 2 } := by
        simpa [Module.passes, growModule, Module.funcDefinitions] using hq
      subst hq'
      obtain ⟨o2, h2, _, hi⟩ := hstep o ho
      rw [h2] at h1
      cases h1
      exact hi
    · intro o o1 ho h1
      obtain ⟨o2, h2, hc, _⟩ := hstep o ho
      rw [h2] at h1
      cases h1
      exact hc

/-! ## Theorems: copy propagation -/

theorem Stmt.substitute_shape (v : Variable) (e : Expr) (s : Stmt) :
    (s.substitute v e).shape = s.shape := by
  obtain ⟨id, label, kind⟩ := s
  cases kind with
  | assignStmt lhs rhs => cases lhs <;> rfl
  | _ => rfl

theorem Stmt.isProtectedDef_of_shape {s t : Stmt} (h : s.shape = t.shape) :
    s.isProtectedDef = t.isProtectedDef := by
  have hd : s.kind.dest = t.kind.dest := by
    have := congrArg (fun x => x.2.2.2) h
    exact this
  unfold Stmt.isProtectedDef
  rw [hd]

theorem protectedDefs_cons (s : Stmt) (rest : List Stmt) :
    CopyPropagationOptimizer.protectedDefs (s :: rest) =
      (if s.isProtectedDef then [s.shape] else []) ++
        CopyPropagationOptimizer.protectedDefs rest := by
  unfold CopyPropagationOptimizer.protectedDefs
  by_cases h : s.isProtectedDef = true <;> simp [List.filter_cons, h]

theorem protectedDefs_cons_congr {s t : Stmt} (h : s.shape = t.shape) {r1 r2 : List Stmt}
    (hr : CopyPropagationOptimizer.protectedDefs r1 = CopyPropagationOptimizer.protectedDefs r2) :
    CopyPropagationOptimizer.protectedDefs (s :: r1) =
      CopyPropagationOptimizer.protectedDefs (t :: r2) := by
  rw [protectedDefs_cons, protectedDefs_cons, Stmt.isProtectedDef_of_shape h, h, hr]

theorem propagate_protectedDefs (pointed : Variable → Bool) (v : Variable) (rhs : Expr)
    (rest r : List Stmt)
    (h : CopyPropagationOptimizer.propagate pointed v rhs rest = some r) :
    CopyPropagationOptimizer.protectedDefs r = CopyPropagationOptimizer.protectedDefs rest := by
  induction rest generalizing r with
  | nil => simp [CopyPropagationOptimizer.propagate] at h
  | cons s rest ih =>
    simp only [CopyPropagationOptimizer.propagate] at h
    split_ifs at h with h1 h2 h3
    · cases h
      exact protectedDefs_cons_congr (Stmt.substitute_shape v rhs s) rfl
    · obtain ⟨r', hr', rfl⟩ := Option.map_eq_some'.mp h
      exact protectedDefs_cons_congr rfl (ih r' hr')

theorem dropValue_protectedDefs (s : Stmt) (v : Variable) (rest : List Stmt)
    (hd : s.kind.dest = some v) (hv : v.isProtected = false) :
    CopyPropagationOptimizer.protectedDefs (CopyPropagationOptimizer.dropValue s v rest) =
      CopyPropagationOptimizer.protectedDefs (s :: rest) := by
  have hs : s.isProtectedDef = false := by simp [Stmt.isProtectedDef, hd, hv]
  have hcons : CopyPropagationOptimizer.protectedDefs (s :: rest) =
      CopyPropagationOptimizer.protectedDefs rest := by
    rw [protectedDefs_cons, hs]
    rfl
  rw [hcons]
  unfold CopyPropagationOptimizer.dropValue
  split
  · split_ifs
    · rw [protectedDefs_cons]
      simp [Stmt.isProtectedDef, StmtKind.dest, hv]
    · rfl
  · rfl

theorem tryOptimize_protectedDefs (pointed : Variable → Bool) (s : Stmt)
    (rest body : List Stmt)
    (h : CopyPropagationOptimizer.tryOptimize pointed s rest = some body) :
    CopyPropagationOptimizer.protectedDefs body =
      CopyPropagationOptimizer.protectedDefs (s :: rest) := by
  unfold CopyPropagationOptimizer.tryOptimize at h
  cases hd : s.kind.dest with
  | none => simp [hd] at h
  | some v =>
    simp only [hd] at h
    by_cases hp : (v.isProtected || pointed v) = true
    · rw [if_pos hp] at h
      cases h
    · rw [if_neg hp] at h
      have hv : v.isProtected = false := by
        cases hvp : v.isProtected
        · rfl
        · simp [hvp] at hp
      have hs : s.isProtectedDef = false := by simp [Stmt.isProtectedDef, hd, hv]
      cases hval : s.kind.value with
      | none =>
        simp only [hval] at h
        by_cases hm : rest.any (Stmt.mentions v) = true
        · rw [if_pos hm] at h
          cases h
        · rw [if_neg hm] at h
          cases h
          rw [protectedDefs_cons, hs]
          rfl
      | some rhs =>
        simp only [hval] at h
        by_cases hc : rhs.hasCall = true
        · rw [if_pos hc] at h
          cases h
        · rw [if_neg hc] at h
          by_cases hn : CopyPropagationOptimizer.neverRead v rest = true
          · rw [if_pos hn] at h
            cases h
            exact dropValue_protectedDefs s v rest hd hv
          · rw [if_neg hn] at h
            by_cases hg : v.isGlobal = true
            · rw [if_pos hg] at h
              cases h
            · rw [if_neg hg] at h
              split_ifs at h
              obtain ⟨r, hr, rfl⟩ := Option.map_eq_some'.mp h
              rw [dropValue_protectedDefs s v r hd hv, protectedDefs_cons, protectedDefs_cons,
                propagate_protectedDefs pointed v rhs rest r hr]

theorem stepFrom_protectedDefs (pointed : Variable → Bool) (body r : List Stmt)
    (h : CopyPropagationOptimizer.stepFrom pointed body = some r) :
    CopyPropagationOptimizer.protectedDefs r = CopyPropagationOptimizer.protectedDefs body := by
  induction body generalizing r with
  | nil => simp [CopyPropagationOptimizer.stepFrom] at h
  | cons s rest ih =>
    simp only [CopyPropagationOptimizer.stepFrom] at h
    split at h
    · rename_i b hb
      cases h
      exact tryOptimize_protectedDefs pointed s rest _ hb
    · obtain ⟨r', hr', rfl⟩ := Option.map_eq_some'.mp h
      exact protectedDefs_cons_congr rfl (ih r' hr')

theorem step_protectedDefs (body r : List Stmt)
    (h : CopyPropagationOptimizer.step body = some r) :
    CopyPropagationOptimizer.protectedDefs r = CopyPropagationOptimizer.protectedDefs body := by
  unfold CopyPropagationOptimizer.step at h
  split_ifs at h
  exact stepFrom_protectedDefs _ body r h

theorem run_protectedDefs (fuel : Nat) (body r : List Stmt)
    (h : CopyPropagationOptimizer.run fuel body = some r) :
    CopyPropagationOptimizer.protectedDefs r = CopyPropagationOptimizer.protectedDefs body := by
  induction fuel generalizing body with
  | zero => simp [CopyPropagationOptimizer.run] at h
  | succ fuel ih =>
    simp only [CopyPropagationOptimizer.run] at h
    split at h
    · cases h
      rfl
    · rename_i b hb
      rw [ih b h, step_protectedDefs body b hb]

theorem withPlaceholder_protectedDefs (body : List Stmt) :
    CopyPropagationOptimizer.protectedDefs (CopyPropagationOptimizer.withPlaceholder body) =
      CopyPropagationOptimizer.protectedDefs body := by
  cases body <;> rfl

theorem tryOptimize_cases (pointed : Variable → Bool) (s : Stmt) (rest body : List Stmt)
    (h : CopyPropagationOptimizer.tryOptimize pointed s rest = some body) :
    ∃ v, s.kind.dest = some v ∧ v.isProtected = false ∧
      (body = rest ∨ body = CopyPropagationOptimizer.dropValue s v rest ∨
        ∃ rhs r, CopyPropagationOptimizer.propagate pointed v rhs rest = some r ∧
          body = CopyPropagationOptimizer.dropValue s v r) := by
  unfold CopyPropagationOptimizer.tryOptimize at h
  cases hd : s.kind.dest with
  | none => simp [hd] at h
  | some v =>
    simp only [hd] at h
    by_cases hp : (v.isProtected || pointed v) = true
    · rw [if_pos hp] at h
      cases h
    · rw [if_neg hp] at h
      have hv : v.isProtected = false := by
        cases hvp : v.isProtected
        · rfl
        · simp [hvp] at hp
      refine ⟨v, rfl, hv, ?_⟩
      cases hval : s.kind.value with
      | none =>
        simp only [hval] at h
        by_cases hm : rest.any (Stmt.mentions v) = true
        · rw [if_pos hm] at h
          cases h
        · rw [if_neg hm] at h
          cases h
          exact Or.inl rfl
      | some rhs =>
        simp only [hval] at h
        by_cases hc : rhs.hasCall = true
        · rw [if_pos hc] at h
          cases h
        · rw [if_neg hc] at h
          by_cases hn : CopyPropagationOptimizer.neverRead v rest = true
          · rw [if_pos hn] at h
            cases h
            exact Or.inr (Or.inl rfl)
          · rw [if_neg hn] at h
            by_cases hg : v.isGlobal = true
            · rw [if_pos hg] at h
              cases h
            · rw [if_neg hg] at h
              split_ifs at h
              obtain ⟨r, hr, rfl⟩ := Option.map_eq_some'.mp h
              exact Or.inr (Or.inr ⟨rhs, r, hr, rfl⟩)

theorem weight_cons_pos (s : Stmt) (rest : List Stmt) :
    CopyPropagationOptimizer.weight rest < CopyPropagationOptimizer.weight (s :: rest) := by
  simp only [CopyPropagationOptimizer.weight]
  split <;> omega

theorem weight_cons_congr {s t : Stmt} (r : List Stmt)
    (h : (match s.kind with
        | .varDefStmt _ (some _) => 2
        | _ => 1) = (match t.kind with
        | .varDefStmt _ (some _) => 2
        | _ => 1)) :
    CopyPropagationOptimizer.weight (s :: r) = CopyPropagationOptimizer.weight (t :: r) := by
  simp only [CopyPropagationOptimizer.weight, h]

theorem weight_substitute (v : Variable) (e : Expr) (s : Stmt) (r : List Stmt) :
    CopyPropagationOptimizer.weight (s.substitute v e :: r) =
      CopyPropagationOptimizer.weight (s :: r) := by
  apply weight_cons_congr
  obtain ⟨id, label, kind⟩ := s
  cases kind with
  | varDefStmt var init => cases init <;> rfl
  | _ => rfl

theorem propagate_weight (pointed : Variable → Bool) (v : Variable) (rhs : Expr)
    (rest r : List Stmt)
    (h : CopyPropagationOptimizer.propagate pointed v rhs rest = some r) :
    CopyPropagationOptimizer.weight r = CopyPropagationOptimizer.weight rest := by
  induction rest generalizing r with
  | nil => simp [CopyPropagationOptimizer.propagate] at h
  | cons s rest ih =>
    simp only [CopyPropagationOptimizer.propagate] at h
    split_ifs at h with h1 h2 h3
    · cases h
      exact weight_substitute v rhs s rest
    · obtain ⟨r', hr', rfl⟩ := Option.map_eq_some'.mp h
      simp only [CopyPropagationOptimizer.weight, ih r' hr']

theorem dropValue_weight (s : Stmt) (v : Variable) (rest : List Stmt) :
    CopyPropagationOptimizer.weight (CopyPropagationOptimizer.dropValue s v rest) <
      CopyPropagationOptimizer.weight (s :: rest) := by
  unfold CopyPropagationOptimizer.dropValue
  split
  · rename_i var init hk
    split_ifs
    · simp only [CopyPropagationOptimizer.weight, hk]
      omega
    · exact weight_cons_pos s rest
  · exact weight_cons_pos s rest

theorem tryOptimize_weight (pointed : Variable → Bool) (s : Stmt) (rest body : List Stmt)
    (h : CopyPropagationOptimizer.tryOptimize pointed s rest = some body) :
    CopyPropagationOptimizer.weight body < CopyPropagationOptimizer.weight (s :: rest) := by
  obtain ⟨v, _, _, hb | hb | ⟨rhs, r, hr, hb⟩⟩ := tryOptimize_cases pointed s rest body h
  · rw [hb]
    exact weight_cons_pos s rest
  · rw [hb]
    exact dropValue_weight s v rest
  · rw [hb]
    have h1 := dropValue_weight s v r
    have h2 := propagate_weight pointed v rhs rest r hr
    simp only [CopyPropagationOptimizer.weight] at h1 ⊢
    omega

theorem stepFrom_weight (pointed : Variable → Bool) (body r : List Stmt)
    (h : CopyPropagationOptimizer.stepFrom pointed body = some r) :
    CopyPropagationOptimizer.weight r < CopyPropagationOptimizer.weight body := by
  induction body generalizing r with
  | nil => simp [CopyPropagationOptimizer.stepFrom] at h
  | cons s rest ih =>
    simp only [CopyPropagationOptimizer.stepFrom] at h
    split at h
    · rename_i b hb
      cases h
      exact tryOptimize_weight pointed s rest _ hb
    · obtain ⟨r', hr', rfl⟩ := Option.map_eq_some'.mp h
      have := ih r' hr'
      simp only [CopyPropagationOptimizer.weight]
      omega

theorem step_weight (body r : List Stmt) (h : CopyPropagationOptimizer.step body = some r) :
    CopyPropagationOptimizer.weight r < CopyPropagationOptimizer.weight body := by
  unfold CopyPropagationOptimizer.step at h
  split_ifs at h
  exact stepFrom_weight _ body r h

theorem weight_le (body : List Stmt) :
    CopyPropagationOptimizer.weight body ≤ 2 * body.length := by
  induction body with
  | nil => simp [CopyPropagationOptimizer.weight]
  | cons s rest ih =>
    simp only [CopyPropagationOptimizer.weight, List.length_cons]
    split <;> omega

theorem run_isSome (fuel : Nat) (body : List Stmt)
    (h : CopyPropagationOptimizer.weight body < fuel) :
    ∃ r, CopyPropagationOptimizer.run fuel body = some r ∧
      CopyPropagationOptimizer.step r = none := by
  induction fuel generalizing body with
  | zero => omega
  | succ fuel ih =>
    simp only [CopyPropagationOptimizer.run]
    cases hs : CopyPropagationOptimizer.step body with
    | none => exact ⟨body, rfl, hs⟩
    | some b =>
      have := step_weight body b hs
      exact ih b (by omega)

theorem runOnFunction_isSome (body : List Stmt) :
    ∃ r, CopyPropagationOptimizer.run (2 * body.length + 1) body = some r ∧
      CopyPropagationOptimizer.step r = none ∧
      CopyPropagationOptimizer.runOnFunction body =
        some (CopyPropagationOptimizer.withPlaceholder r) := by
  obtain ⟨r, hr, hfix⟩ := run_isSome (2 * body.length + 1) body
    (Nat.lt_succ_of_le (weight_le body))
  exact ⟨r, hr, hfix, by simp [CopyPropagationOptimizer.runOnFunction, hr]⟩

/-- C24: copy propagation keeps the definitions and assignments of protected
variables.  On every body the optimizer returns, and the definitions of and
assignments to variables that have a name from debug information or are marked
external are the same statements, in the same order, in the result as in the
body: each has kept its identity, its label, its class and its variable.  So
every such statement of the body is still there, whether its variable is read or
not. -/
theorem copyPropagation_keeps_protected (body : List Stmt) :
    ∃ result, CopyPropagationOptimizer.runOnFunction body = some result ∧
      CopyPropagationOptimizer.protectedDefs result =
        CopyPropagationOptimizer.protectedDefs body ∧
      ∀ s ∈ body, s.isProtectedDef = true →
        ∃ t ∈ result, t.id = s.id ∧ t.label = s.label ∧
          t.kind.isVarDefStmt = s.kind.isVarDefStmt ∧ t.kind.dest = s.kind.dest := by
  obtain ⟨r, hr, _, hres⟩ := runOnFunction_isSome body
  have hp : CopyPropagationOptimizer.protectedDefs (CopyPropagationOptimizer.withPlaceholder r) =
      CopyPropagationOptimizer.protectedDefs body := by
    rw [withPlaceholder_protectedDefs, run_protectedDefs _ body r hr]
  refine ⟨_, hres, hp, fun s hs hprot => ?_⟩
  have hmem : s.shape ∈ CopyPropagationOptimizer.protectedDefs body :=
    List.mem_map.mpr ⟨s, List.mem_filter.mpr ⟨hs, hprot⟩, rfl⟩
  rw [← hp] at hmem
  obtain ⟨t, ht, hshape⟩ := List.mem_map.mp hmem
  refine ⟨t, (List.mem_filter.mp ht).1, ?_⟩
  simp only [Stmt.shape, Prod.mk.injEq] at hshape
  exact hshape

/-- Witness of C24: in the body `a = 1; b = a; return b` with an external `b`,
the definition of `b` (statement 1) is still in the result. -/
theorem copyPropagation_keeps_protected_witness :
    ∃ result, CopyPropagationOptimizer.runOnFunction auxExternalBody = some result ∧
      ∃ t ∈ result, t.id = 1 ∧ t.label = none ∧ t.kind.isVarDefStmt = true ∧
        t.kind.dest = some (externalVar 1) := by
  obtain ⟨result, hres, -, hall⟩ := copyPropagation_keeps_protected auxExternalBody
  exact ⟨result, hres,
    hall { id := 1, label := none,
           kind := .varDefStmt (externalVar 1) (some (.variable (localVar 0))) }
      (by decide) (by decide)⟩

/-- C23: copy propagation collapses a single-use copy chain.  For two different
local variables `a` and `b` that are neither external nor debug-named and a
constant `c`, the optimizer rewrites each of the bodies `a = c; b = a; return b`
and `a = c; b = a; return a`, written with two definitions with initializers or
with two bare declarations followed by two assignments, to the return statement
alone, whose return value is the constant node `c` of the first statement. -/
theorem copyPropagation_collapses_copy_chain (a b : Variable) (node : Nat) (value : Int)
    (i1 i2 i3 i4 i5 : Nat) (l1 l2 l3 l4 l5 : Option String)
    (hab : a ≠ b) (ha : a.isProtected = false) (hb : b.isProtected = false)
    (hga : a.isGlobal = false) (hgb : b.isGlobal = false) :
    CopyPropagationOptimizer.runOnFunction
      [{ id := i1, label := l1, kind := .varDefStmt a (some (.constInt node value)) },
       { id := i2, label := l2, kind := .varDefStmt b (some (.variable a)) },
       { id := i3, label := l3, kind := .returnStmt (some (.variable b)) }] =
      some [{ id := i3, label := l3, kind := .returnStmt (some (.constInt node value)) }] ∧
    CopyPropagationOptimizer.runOnFunction
      [{ id := i1, label := l1, kind := .varDefStmt a (some (.constInt node value)) },
       { id := i2, label := l2, kind := .varDefStmt b (some (.variable a)) },
       { id := i3, label := l3, kind := .returnStmt (some (.variable a)) }] =
      some [{ id := i3, label := l3, kind := .returnStmt (some (.constInt node value)) }] ∧
    CopyPropagationOptimizer.runOnFunction
      [{ id := i1, label := l1, kind := .varDefStmt a none },
       { id := i2, label := l2, kind := .varDefStmt b none },
       { id := i3, label := l3, kind := .assignStmt (.variable a) (.constInt node value) },
       { id := i4, label := l4, kind := .assignStmt (.variable b) (.variable a) },
       { id := i5, label := l5, kind := .returnStmt (some (.variable b)) }] =
      some [{ id := i5, label := l5, kind := .returnStmt (some (.constInt node value)) }] ∧
    CopyPropagationOptimizer.runOnFunction
      [{ id := i1, label := l1, kind := .varDefStmt a none },
       { id := i2, label := l2, kind := .varDefStmt b none },
       { id := i3, label := l3, kind := .assignStmt (.variable a) (.constInt node value) },
       { id := i4, label := l4, kind := .assignStmt (.variable b) (.variable a) },
       { id := i5, label := l5, kind := .returnStmt (some (.variable a)) }] =
      some [{ id := i5, label := l5, kind := .returnStmt (some (.constInt node value)) }] := by
  have hba : b ≠ a := fun h => hab h.symm
  refine ⟨?_, ?_, ?_, ?_⟩ <;>
  simp [CopyPropagationOptimizer.runOnFunction, CopyPropagationOptimizer.run,
    CopyPropagationOptimizer.step, CopyPropagationOptimizer.stepFrom,
    CopyPropagationOptimizer.tryOptimize, CopyPropagationOptimizer.mayBePointed,
    CopyPropagationOptimizer.neverRead, CopyPropagationOptimizer.useCount,
    CopyPropagationOptimizer.propagate, CopyPropagationOptimizer.dropValue,
    CopyPropagationOptimizer.mayModify, CopyPropagationOptimizer.readsInLhs,
    CopyPropagationOptimizer.withPlaceholder,
    StmtKind.dest, StmtKind.value, StmtKind.exprs, StmtKind.reads, StmtKind.hasCall,
    StmtKind.isGotoStmt, StmtKind.isReturnStmt, StmtKind.isIndirectStore,
    Stmt.readCount, Stmt.mentions, Stmt.writes, Stmt.substitute,
    Expr.vars, Expr.occurrences, Expr.hasCall, Expr.isPlain, Expr.addressTaken, Expr.substitute,
    hab, hba, ha, hb, hga, hgb]

/-- Witness of C23: the bodies of the tests `OptimizeNoAssignStmtOneUse`,
`OptimizeWhenOriginalValueIsUsedAfter` and `OptimizeAssignStmtsOneUse` with the
variables `a` and `b` and the constant node 9 of value 1. -/
theorem copyPropagation_collapses_copy_chain_witness :
    CopyPropagationOptimizer.runOnFunction
      [{ id := 0, label := none, kind := .varDefStmt (localVar 0) (some (.constInt 9 1)) },
       { id := 1, label := none,
         kind := .varDefStmt (localVar 1) (some (.variable (localVar 0))) },
       { id := 2, label := none, kind := .returnStmt (some (.variable (localVar 1))) }] =
      some [{ id := 2, label := none, kind := .returnStmt (some (.constInt 9 1)) }] :=
  (copyPropagation_collapses_copy_chain (localVar 0) (localVar 1) 9 1 0 1 2 3 4
    none none none none none (by decide) rfl rfl rfl rfl).1

/-! ## Theorems: declaration motion -/

theorem splitFirst_eq_some_iff {α : Type} (p : α → Bool) (l pre post : List α) (x : α) :
    splitFirst p l = some (pre, x, post) ↔
      l = pre ++ x :: post ∧ (∀ y ∈ pre, p y = false) ∧ p x = true := by
  induction l generalizing pre with
  | nil => simp [splitFirst]
  | cons y ys ih =>
    simp only [splitFirst]
    by_cases hy : p y = true
    · rw [if_pos hy]
      constructor
      · intro h
        cases h
        exact ⟨rfl, by simp, hy⟩
      · rintro ⟨h1, h2, h3⟩
        cases pre with
        | nil =>
          cases h1
          rfl
        | cons z zs =>
          cases h1
          have := h2 y (List.mem_cons_self _ _)
          rw [hy] at this
          cases this
    · rw [if_neg hy]
      have hy' : p y = false := by simpa using hy
      constructor
      · intro h
        obtain ⟨⟨a, b, c⟩, hr, heq⟩ := Option.map_eq_some'.mp h
        cases heq
        obtain ⟨h1, h2, h3⟩ := (ih a).mp hr
        refine ⟨by rw [h1]; rfl, ?_, h3⟩
        intro z hz
        rcases List.mem_cons.mp hz with rfl | hz
        · exact hy'
        · exact h2 z hz
      · rintro ⟨h1, h2, h3⟩
        cases pre with
        | nil =>
          cases h1
          exact absurd h3 hy
        | cons z zs =>
          cases h1
          rw [(ih zs).mpr ⟨rfl, fun w hw => h2 w (List.mem_cons_of_mem _ hw), h3⟩]
          rfl

theorem splitFirst_eq_none_iff {α : Type} (p : α → Bool) (l : List α) :
    splitFirst p l = none ↔ ∀ y ∈ l, p y = false := by
  induction l with
  | nil => simp [splitFirst]
  | cons y ys ih =>
    simp only [splitFirst]
    by_cases hy : p y = true
    · simp [hy]
    · have hy' : p y = false := by simpa using hy
      simp [hy', ih]

theorem StmtKind.isDeclOf_iff (v : Variable) (k : StmtKind) :
    k.isDeclOf v = true ↔ k = .varDefStmt v none := by
  cases k with
  | varDefStmt var init =>
    cases init with
    | none => simp [StmtKind.isDeclOf]
    | some i => simp [StmtKind.isDeclOf]
  | _ => simp [StmtKind.isDeclOf]

theorem initializerFor_eq_some_iff (v : Variable) (s : Stmt) (rhs : Expr) :
    VarDefStmtOptimizer.initializerFor v s = some rhs ↔
      s.kind = .assignStmt (.variable v) rhs ∧ rhs.occurrences v = 0 := by
  unfold VarDefStmtOptimizer.initializerFor
  split
  · rename_i var r hk
    rw [hk]
    by_cases h : var = v ∧ r.occurrences v = 0
    · rw [if_pos h]
      obtain ⟨rfl, h0⟩ := h
      constructor
      · intro h1
        cases h1
        exact ⟨rfl, h0⟩
      · rintro ⟨h1, -⟩
        cases h1
        rfl
    · rw [if_neg h]
      constructor
      · intro h1
        cases h1
      · rintro ⟨h1, h0⟩
        cases h1
        exact absurd ⟨rfl, h0⟩ h
  · rename_i hk
    constructor
    · intro h1
      cases h1
    · rintro ⟨h1, -⟩
      exact absurd h1 (hk v rhs)

theorem tryOptimizeVarDefStmt_of_split (v : Variable) (pre mid post : List Stmt) (d s : Stmt)
    (hd : d.kind = .varDefStmt v none) (hpre : ∀ y ∈ pre, y.kind.isDeclOf v = false)
    (hmid : ∀ y ∈ mid, y.mentions v = false) (hs : s.mentions v = true) :
    VarDefStmtOptimizer.tryOptimizeVarDefStmt v (pre ++ d :: (mid ++ s :: post)) =
      if (VarDefStmtOptimizer.initializerFor v s).isNone && mid.isEmpty then
        pre ++ d :: (mid ++ s :: post)
      else VarDefStmtOptimizer.moveTo v pre d mid s post := by
  unfold VarDefStmtOptimizer.tryOptimizeVarDefStmt
  rw [(splitFirst_eq_some_iff _ _ pre (mid ++ s :: post) d).mpr
    ⟨rfl, hpre, (StmtKind.isDeclOf_iff v d.kind).mpr hd⟩]
  simp only
  rw [(splitFirst_eq_some_iff _ _ mid post s).mpr ⟨rfl, hmid, hs⟩]

theorem tryOptimizeVarDefStmt_cases (v : Variable) (body : List Stmt) :
    VarDefStmtOptimizer.tryOptimizeVarDefStmt v body = body ∨
    ∃ pre d mid s post, body = pre ++ d :: (mid ++ s :: post) ∧
      d.kind = .varDefStmt v none ∧ (∀ y ∈ pre, y.kind.isDeclOf v = false) ∧
      (∀ y ∈ mid, y.mentions v = false) ∧ s.mentions v = true ∧
      VarDefStmtOptimizer.tryOptimizeVarDefStmt v body =
        VarDefStmtOptimizer.moveTo v pre d mid s post := by
  unfold VarDefStmtOptimizer.tryOptimizeVarDefStmt
  cases h1 : splitFirst (fun s => s.kind.isDeclOf v) body with
  | none => exact Or.inl rfl
  | some r1 =>
    obtain ⟨pre, d, after⟩ := r1
    obtain ⟨hb, hpre, hd⟩ := (splitFirst_eq_some_iff _ _ _ _ _).mp h1
    simp only
    cases h2 : splitFirst (Stmt.mentions v) after with
    | none => exact Or.inl rfl
    | some r2 =>
      obtain ⟨mid, s, post⟩ := r2
      obtain ⟨ha, hmid, hs⟩ := (splitFirst_eq_some_iff _ _ _ _ _).mp h2
      simp only
      split_ifs
      · exact Or.inl rfl
      · exact Or.inr ⟨pre, d, mid, s, post, by rw [hb, ha],
          (StmtKind.isDeclOf_iff v d.kind).mp hd, hpre, hmid, hs, rfl⟩

theorem role_congr (a : Variable) {s t : Stmt} (hid : s.id = t.id) (hk : s.kind = t.kind) :
    VarDefStmtOptimizer.role a s = VarDefStmtOptimizer.role a t := by
  unfold VarDefStmtOptimizer.role Stmt.mentions
  rw [hid, hk]

theorem Stmt.retarget_id (f : Nat → Nat) (s : Stmt) : (s.retarget f).id = s.id := by
  unfold Stmt.retarget
  split <;> rfl

theorem Stmt.retarget_label (f : Nat → Nat) (s : Stmt) : (s.retarget f).label = s.label := by
  unfold Stmt.retarget
  split <;> rfl

theorem Stmt.retarget_kind (f : Nat → Nat) (s : Stmt) (h : s.kind.isGotoStmt = false) :
    (s.retarget f).kind = s.kind := by
  unfold Stmt.retarget
  split
  · rename_i t hk
    rw [hk] at h
    cases h
  · rfl

theorem role_retarget (a : Variable) (f : Nat → Nat) (s : Stmt) :
    VarDefStmtOptimizer.role a (s.retarget f) = VarDefStmtOptimizer.role a s := by
  cases hg : s.kind.isGotoStmt with
  | false => exact role_congr a (Stmt.retarget_id f s) (Stmt.retarget_kind f s hg)
  | true =>
    obtain ⟨id, label, kind⟩ := s
    cases kind with
    | gotoStmt t => rfl
    | _ => cases hg

theorem filterMap_role_retarget (a : Variable) (f : Nat → Nat) (l : List Stmt) :
    (l.map (Stmt.retarget f)).filterMap (VarDefStmtOptimizer.role a) =
      l.filterMap (VarDefStmtOptimizer.role a) := by
  rw [List.filterMap_map]
  congr 1
  funext s
  exact role_retarget a f s

theorem role_label (a : Variable) (s : Stmt) (l : Option String) :
    VarDefStmtOptimizer.role a { s with label := l } = VarDefStmtOptimizer.role a s :=
  role_congr a rfl rfl

theorem filterMap_role_transferLabel (a : Variable) (label : Option String) (l : List Stmt) :
    (VarDefStmtOptimizer.transferLabel label l).filterMap (VarDefStmtOptimizer.role a) =
      l.filterMap (VarDefStmtOptimizer.role a) := by
  cases l with
  | nil => rfl
  | cons s rest =>
    simp only [VarDefStmtOptimizer.transferLabel, List.filterMap_cons, role_label]

theorem role_decl_other (a b : Variable) (hab : b ≠ a) (d : Stmt)
    (hd : d.kind = .varDefStmt b none) : VarDefStmtOptimizer.role a d = none := by
  simp [VarDefStmtOptimizer.role, Stmt.mentions, hd, StmtKind.isDeclOf, StmtKind.exprs, hab]

theorem role_decl_self (a : Variable) (d : Stmt) (hd : d.kind = .varDefStmt a none) :
    VarDefStmtOptimizer.role a d = some (.decl d.id) := by
  simp [VarDefStmtOptimizer.role, hd, StmtKind.isDeclOf]

theorem filterMap_role_place (a b : Variable) (hab : b ≠ a) (d s : Stmt) (mid : List Stmt)
    (hd : d.kind = .varDefStmt b none) :
    (VarDefStmtOptimizer.place b d s mid).filterMap (VarDefStmtOptimizer.role a) =
      [s].filterMap (VarDefStmtOptimizer.role a) := by
  have hdl : ∀ l, VarDefStmtOptimizer.role a { d with label := l } = none := fun l =>
    role_decl_other a b hab _ hd
  have hsl : VarDefStmtOptimizer.role a { s with label := none } = VarDefStmtOptimizer.role a s :=
    role_congr a rfl rfl
  cases hi : VarDefStmtOptimizer.initializerFor b s with
  | none =>
    unfold VarDefStmtOptimizer.place
    rw [hi]
    simp only [List.filterMap_cons, List.filterMap_nil, hdl, hsl]
  | some rhs =>
    obtain ⟨hk, -⟩ := (initializerFor_eq_some_iff b s rhs).mp hi
    have hm : ∀ l, VarDefStmtOptimizer.role a
        { d with label := l, kind := .varDefStmt b (some rhs) } = VarDefStmtOptimizer.role a s := by
      intro l
      have hba : a ≠ b := fun h => hab h.symm
      by_cases h0 : List.count a rhs.vars = 0 <;>
      simp [VarDefStmtOptimizer.role, Stmt.mentions, hk, StmtKind.isDeclOf, StmtKind.exprs,
        Expr.occurrences, Expr.vars, hab, hba, h0, List.count_cons]
    unfold VarDefStmtOptimizer.place
    rw [hi]
    cases mid with
    | nil => simp only [List.filterMap_cons, List.filterMap_nil, hm]
    | cons m ms => simp only [List.filterMap_cons, List.filterMap_nil, hm]

theorem filterMap_role_moveTo (a b : Variable) (hab : b ≠ a) (pre mid post : List Stmt)
    (d s : Stmt) (hd : d.kind = .varDefStmt b none) :
    (VarDefStmtOptimizer.moveTo b pre d mid s post).filterMap (VarDefStmtOptimizer.role a) =
      (pre ++ d :: (mid ++ s :: post)).filterMap (VarDefStmtOptimizer.role a) := by
  unfold VarDefStmtOptimizer.moveTo
  rw [filterMap_role_retarget]
  simp only [List.filterMap_append, List.filterMap_cons, filterMap_role_transferLabel,
    filterMap_role_place a b hab d s mid hd, role_decl_other a b hab d hd, List.filterMap_nil,
    List.append_assoc]
  cases VarDefStmtOptimizer.role a s <;> simp

theorem filterMap_role_tryOptimize (a b : Variable) (hab : b ≠ a) (body : List Stmt) :
    (VarDefStmtOptimizer.tryOptimizeVarDefStmt b body).filterMap (VarDefStmtOptimizer.role a) =
      body.filterMap (VarDefStmtOptimizer.role a) := by
  rcases tryOptimizeVarDefStmt_cases b body with h | ⟨pre, d, mid, s, post, hb, hd, -, -, -, h⟩
  · rw [h]
  · rw [h, hb]
    exact filterMap_role_moveTo a b hab pre mid post d s hd

theorem role_eq_decl (a : Variable) (s : Stmt) (i : Nat)
    (h : VarDefStmtOptimizer.role a s = some (.decl i)) :
    s.kind = .varDefStmt a none ∧ s.id = i := by
  unfold VarDefStmtOptimizer.role at h
  by_cases hd : s.kind.isDeclOf a = true
  · rw [if_pos hd] at h
    cases h
    exact ⟨(StmtKind.isDeclOf_iff a s.kind).mp hd, rfl⟩
  · rw [if_neg hd] at h
    split_ifs at h
    split at h
    · split_ifs at h <;> cases h
    · cases h

theorem role_eq_assign (a : Variable) (s : Stmt) (i : Nat) (e : Expr)
    (h : VarDefStmtOptimizer.role a s = some (.assign i e)) :
    s.kind = .assignStmt (.variable a) e ∧ s.id = i ∧ s.mentions a = true := by
  unfold VarDefStmtOptimizer.role at h
  by_cases hd : s.kind.isDeclOf a = true
  · rw [if_pos hd] at h
    cases h
  · rw [if_neg hd] at h
    by_cases hm : s.mentions a = true
    · rw [if_pos hm] at h
      split at h
      · rename_i var rhs hk
        by_cases hv : var = a
        · rw [if_pos hv] at h
          cases h
          exact ⟨by rw [hk, hv], rfl, hm⟩
        · rw [if_neg hv] at h
          cases h
      · cases h
    · rw [if_neg hm] at h
      cases h

theorem role_eq_none (a : Variable) (s : Stmt) (h : VarDefStmtOptimizer.role a s = none) :
    s.kind.isDeclOf a = false ∧ s.mentions a = false := by
  unfold VarDefStmtOptimizer.role at h
  by_cases hd : s.kind.isDeclOf a = true
  · rw [if_pos hd] at h
    cases h
  · rw [if_neg hd] at h
    by_cases hm : s.mentions a = true
    · rw [if_pos hm] at h
      split at h
      · split_ifs at h
      · cases h
    · exact ⟨by simpa using hd, by simpa using hm⟩

theorem role_assign_self (a : Variable) (s : Stmt) (e : Expr)
    (hk : s.kind = .assignStmt (.variable a) e) :
    VarDefStmtOptimizer.role a s = some (.assign s.id e) := by
  simp [VarDefStmtOptimizer.role, Stmt.mentions, hk, StmtKind.isDeclOf, StmtKind.exprs,
    Expr.occurrences, Expr.vars]

theorem role_ne_decl_of_not_isDeclOf (a : Variable) (s : Stmt)
    (h : s.kind.isDeclOf a = false) (u : VarDefStmtOptimizer.Role)
    (hu : VarDefStmtOptimizer.role a s = some u) (i : Nat) : u ≠ .decl i := by
  rintro rfl
  have := (role_eq_decl a s i hu).1
  rw [(StmtKind.isDeclOf_iff a s.kind).mpr this] at h
  cases h

theorem DeclThenAssign.of_split (a : Variable) (e : Expr) (pre mid post : List Stmt)
    (D A : Stmt) (hD : D.kind = .varDefStmt a none) (hA : A.kind = .assignStmt (.variable a) e)
    (hpre : ∀ y ∈ pre, y.kind.isDeclOf a = false)
    (hmid : ∀ y ∈ mid, VarDefStmtOptimizer.role a y = none) :
    VarDefStmtOptimizer.DeclThenAssign a D.id A.id e (pre ++ D :: (mid ++ A :: post)) := by
  refine ⟨pre.filterMap (VarDefStmtOptimizer.role a),
    post.filterMap (VarDefStmtOptimizer.role a), ?_, ?_⟩
  · simp only [List.filterMap_append, List.filterMap_cons, role_decl_self a D hD,
      role_assign_self a A e hA, List.filterMap_eq_nil_iff.mpr hmid, List.nil_append]
  · intro u hu i
    obtain ⟨y, hy, hyu⟩ := List.mem_filterMap.mp hu
    exact role_ne_decl_of_not_isDeclOf a y (hpre y hy) u hyu i

theorem DeclThenAssign.decompose {a : Variable} {dId aId : Nat} {e : Expr} {body : List Stmt}
    (h : VarDefStmtOptimizer.DeclThenAssign a dId aId e body) :
    ∃ pre D mid A post, body = pre ++ D :: (mid ++ A :: post) ∧
      D.id = dId ∧ D.kind = .varDefStmt a none ∧
      (∀ y ∈ pre, y.kind.isDeclOf a = false) ∧
      (∀ y ∈ mid, VarDefStmtOptimizer.role a y = none) ∧
      A.id = aId ∧ A.kind = .assignStmt (.variable a) e ∧ A.mentions a = true := by
  obtain ⟨us, rest, hroles, hus⟩ := h
  obtain ⟨l1, l2, rfl, h1, h2⟩ := List.filterMap_eq_append_iff.mp hroles
  obtain ⟨m1, D, l3, rfl, hm1, hDr, h3⟩ := List.filterMap_eq_cons_iff.mp h2
  obtain ⟨mid, A, post, rfl, hmid, hAr, -⟩ := List.filterMap_eq_cons_iff.mp h3
  obtain ⟨hDk, hDi⟩ := role_eq_decl a D dId hDr
  obtain ⟨hAk, hAi, hAm⟩ := role_eq_assign a A aId e hAr
  refine ⟨l1 ++ m1, D, mid, A, post, by simp, hDi, hDk, ?_, hmid, hAi, hAk, hAm⟩
  intro y hy
  rcases List.mem_append.mp hy with hy | hy
  · cases hdecl : y.kind.isDeclOf a with
    | false => rfl
    | true =>
      have hr : VarDefStmtOptimizer.role a y = some (.decl y.id) :=
        role_decl_self a y ((StmtKind.isDeclOf_iff a y.kind).mp hdecl)
      have hmem : VarDefStmtOptimizer.Role.decl y.id ∈ us := by
        rw [← h1]
        exact List.mem_filterMap.mpr ⟨y, hy, hr⟩
      exact absurd rfl (hus _ hmem y.id)
  · exact (role_eq_none a y (hm1 y hy)).1

theorem mem_map_retarget (f : Nat → Nat) (l : List Stmt) (x : Stmt) (hx : x ∈ l)
    (hg : x.kind.isGotoStmt = false) :
    ∃ t ∈ l.map (Stmt.retarget f), t.id = x.id ∧ t.label = x.label ∧ t.kind = x.kind :=
  ⟨x.retarget f, List.mem_map.mpr ⟨x, hx, rfl⟩, Stmt.retarget_id f x, Stmt.retarget_label f x,
    Stmt.retarget_kind f x hg⟩

theorem mem_transferLabel (label : Option String) (l : List Stmt) (x : Stmt) (hx : x ∈ l) :
    ∃ t ∈ VarDefStmtOptimizer.transferLabel label l, t.id = x.id ∧ t.kind = x.kind := by
  cases l with
  | nil => cases hx
  | cons s rest =>
    rcases List.mem_cons.mp hx with rfl | hx
    · exact ⟨_, List.mem_cons_self _ _, rfl, rfl⟩
    · exact ⟨x, List.mem_cons_of_mem _ hx, rfl, rfl⟩

theorem map_id_transferLabel (label : Option String) (l : List Stmt) :
    (VarDefStmtOptimizer.transferLabel label l).map (fun s => s.id) = l.map fun s => s.id := by
  cases l <;> rfl

theorem map_id_retarget (f : Nat → Nat) (l : List Stmt) :
    (l.map (Stmt.retarget f)).map (fun s => s.id) = l.map fun s => s.id := by
  rw [List.map_map]
  congr 1
  funext s
  exact Stmt.retarget_id f s

theorem place_of_none (v : Variable) (d s : Stmt) (mid : List Stmt)
    (h : VarDefStmtOptimizer.initializerFor v s = none) :
    VarDefStmtOptimizer.place v d s mid =
      [{ d with label := s.label }, { s with label := none }] := by
  unfold VarDefStmtOptimizer.place
  rw [h]

theorem place_of_some (v : Variable) (d s : Stmt) (mid : List Stmt) (rhs : Expr)
    (h : VarDefStmtOptimizer.initializerFor v s = some rhs) :
    ∃ l, VarDefStmtOptimizer.place v d s mid =
      [{ d with label := l, kind := .varDefStmt v (some rhs) }] := by
  unfold VarDefStmtOptimizer.place
  rw [h]
  cases mid with
  | nil => exact ⟨_, rfl⟩
  | cons m ms => exact ⟨_, rfl⟩

theorem moveTo_keeps_def (v : Variable) (pre mid post : List Stmt) (d s t : Stmt)
    (hd : d.kind = .varDefStmt v none)
    (ht : t ∈ pre ++ d :: (mid ++ s :: post)) (w : Variable) (i : Expr)
    (hk : t.kind = .varDefStmt w (some i)) :
    ∃ u ∈ VarDefStmtOptimizer.moveTo v pre d mid s post, u.id = t.id ∧ u.kind = t.kind := by
  have hg : ∀ x : Stmt, x.kind = t.kind → x.kind.isGotoStmt = false := by
    intro x hx
    rw [hx, hk]
    rfl
  have key : ∃ x ∈ pre ++ VarDefStmtOptimizer.transferLabel d.label mid ++
      VarDefStmtOptimizer.place v d s mid ++ post, x.id = t.id ∧ x.kind = t.kind := by
    simp only [List.mem_append, List.mem_cons] at ht
    rcases ht with ht | rfl | ht | rfl | ht
    · exact ⟨t, by simp [ht], rfl, rfl⟩
    · rw [hd] at hk
      cases hk
    · obtain ⟨x, hx, h1, h2⟩ := mem_transferLabel d.label mid t ht
      exact ⟨x, by simp [hx], h1, h2⟩
    · cases hi : VarDefStmtOptimizer.initializerFor v t with
      | none =>
        refine ⟨{ t with label := none }, ?_, rfl, rfl⟩
        rw [place_of_none v d t mid hi]
        simp
      | some rhs =>
        have := ((initializerFor_eq_some_iff v t rhs).mp hi).1
        rw [this] at hk
        cases hk
    · exact ⟨t, by simp [ht], rfl, rfl⟩
  obtain ⟨x, hx, h1, h2⟩ := key
  obtain ⟨u, hu, hu1, -, hu2⟩ := mem_map_retarget _ _ x hx (hg x h2)
  exact ⟨u, hu, hu1.trans h1, hu2.trans h2⟩

theorem tryOptimize_keeps_def (v : Variable) (body : List Stmt) (t : Stmt) (ht : t ∈ body)
    (w : Variable) (i : Expr) (hk : t.kind = .varDefStmt w (some i)) :
    ∃ u ∈ VarDefStmtOptimizer.tryOptimizeVarDefStmt v body, u.id = t.id ∧ u.kind = t.kind := by
  rcases tryOptimizeVarDefStmt_cases v body with h | ⟨pre, d, mid, s, post, hb, hd, -, -, -, h⟩
  · rw [h]
    exact ⟨t, ht, rfl, rfl⟩
  · rw [h]
    rw [hb] at ht
    exact moveTo_keeps_def v pre mid post d s t hd ht w i hk

theorem moveTo_ids (v : Variable) (pre mid post : List Stmt) (d s : Stmt) :
    ∃ l, l.Perm ((pre ++ d :: (mid ++ s :: post)).map fun x => x.id) ∧
      ((VarDefStmtOptimizer.moveTo v pre d mid s post).map fun x => x.id).Sublist l := by
  refine ⟨(pre.map fun x => x.id) ++ ((mid.map fun x => x.id) ++
    (d.id :: s.id :: post.map fun x => x.id)), ?_, ?_⟩
  · simp only [List.map_append, List.map_cons]
    exact List.Perm.append_left _ List.perm_middle
  · unfold VarDefStmtOptimizer.moveTo
    rw [map_id_retarget]
    simp only [List.map_append, map_id_transferLabel, List.append_assoc]
    refine List.Sublist.append (List.Sublist.refl _) (List.Sublist.append (List.Sublist.refl _) ?_)
    cases hi : VarDefStmtOptimizer.initializerFor v s with
    | none =>
      rw [place_of_none v d s mid hi]
      exact List.Sublist.refl _
    | some rhs =>
      obtain ⟨l, hl⟩ := place_of_some v d s mid rhs hi
      rw [hl]
      simp only [List.map_cons, List.map_nil, List.singleton_append]
      exact List.Sublist.cons₂ _ (List.sublist_cons_self _ _)

theorem tryOptimize_ids (v : Variable) (body : List Stmt) :
    ∃ l, l.Perm (body.map fun x => x.id) ∧
      ((VarDefStmtOptimizer.tryOptimizeVarDefStmt v body).map fun x => x.id).Sublist l := by
  rcases tryOptimizeVarDefStmt_cases v body with h | ⟨pre, d, mid, s, post, hb, -, -, -, -, h⟩
  · rw [h]
    exact ⟨_, List.Perm.refl _, List.Sublist.refl _⟩
  · rw [h, hb]
    exact moveTo_ids v pre mid post d s

theorem tryOptimize_nodup (v : Variable) (body : List Stmt)
    (h : (body.map fun x => x.id).Nodup) :
    ((VarDefStmtOptimizer.tryOptimizeVarDefStmt v body).map fun x => x.id).Nodup := by
  obtain ⟨l, hp, hs⟩ := tryOptimize_ids v body
  exact (hp.nodup_iff.mpr h).sublist hs

theorem tryOptimize_id_mem (v : Variable) (body : List Stmt) (i : Nat)
    (h : i ∈ (VarDefStmtOptimizer.tryOptimizeVarDefStmt v body).map fun x => x.id) :
    i ∈ body.map fun x => x.id := by
  obtain ⟨l, hp, hs⟩ := tryOptimize_ids v body
  exact hp.subset (hs.subset h)

theorem not_mem_of_nodup_middle {α : Type} (l1 l2 l3 : List α) (d a : α)
    (h : (l1 ++ d :: (l2 ++ a :: l3)).Nodup) : a ∉ l1 ++ (l2 ++ d :: l3) := by
  have hp : (l1 ++ d :: (l2 ++ a :: l3)).Perm (a :: (l1 ++ (l2 ++ d :: l3))) := by
    have h1 : (l1 ++ d :: (l2 ++ a :: l3)) = (l1 ++ d :: l2) ++ a :: l3 := by simp
    rw [h1]
    refine List.perm_middle.trans (List.Perm.cons a ?_)
    rw [List.append_assoc]
    exact List.Perm.append_left l1 (@List.perm_middle α d l2 l3).symm
  exact (List.nodup_cons.mp (hp.nodup_iff.mp h)).1

theorem tryOptimize_self_merge (a : Variable) (dId aId : Nat) (e : Expr) (body : List Stmt)
    (h : VarDefStmtOptimizer.DeclThenAssign a dId aId e body) (he : e.occurrences a = 0)
    (hn : (body.map fun x => x.id).Nodup) :
    (∃ t ∈ VarDefStmtOptimizer.tryOptimizeVarDefStmt a body,
      t.id = dId ∧ t.kind = .varDefStmt a (some e)) ∧
    aId ∉ (VarDefStmtOptimizer.tryOptimizeVarDefStmt a body).map fun x => x.id := by
  obtain ⟨pre, D, mid, A, post, rfl, hDi, hDk, hpre, hmid, hAi, hAk, hAm⟩ := DeclThenAssign.decompose h
  have hi : VarDefStmtOptimizer.initializerFor a A = some e :=
    (initializerFor_eq_some_iff a A e).mpr ⟨hAk, he⟩
  rw [tryOptimizeVarDefStmt_of_split a pre mid post D A hDk hpre
    (fun y hy => (role_eq_none a y (hmid y hy)).2) hAm, hi]
  simp only [Option.isNone_some, Bool.false_and, Bool.false_eq_true, if_false]
  obtain ⟨l, hl⟩ := place_of_some a D A mid e hi
  unfold VarDefStmtOptimizer.moveTo
  rw [hl]
  constructor
  · obtain ⟨u, hu, hu1, -, hu2⟩ := mem_map_retarget
      (VarDefStmtOptimizer.newTarget D A mid)
      (pre ++ VarDefStmtOptimizer.transferLabel D.label mid ++
        [{ D with label := l, kind := .varDefStmt a (some e) }] ++ post)
      { D with label := l, kind := .varDefStmt a (some e) } (by simp) rfl
    exact ⟨u, hu, hu1.trans hDi, hu2⟩
  · rw [map_id_retarget]
    simp only [List.map_append, List.map_cons, List.map_nil, map_id_transferLabel,
      List.append_assoc, List.singleton_append]
    simp only [List.map_append, List.map_cons] at hn
    rw [← hAi]
    exact not_mem_of_nodup_middle _ _ _ D.id A.id hn

theorem initializerFor_eq_none_of_self (a : Variable) (A : Stmt) (e : Expr)
    (hAk : A.kind = .assignStmt (.variable a) e) (he : e.occurrences a ≠ 0) :
    VarDefStmtOptimizer.initializerFor a A = none := by
  cases hi : VarDefStmtOptimizer.initializerFor a A with
  | none => rfl
  | some rhs =>
    obtain ⟨hk, h0⟩ := (initializerFor_eq_some_iff a A rhs).mp hi
    rw [hAk] at hk
    cases hk
    exact absurd h0 he

theorem tryOptimize_self_keep (a : Variable) (dId aId : Nat) (e : Expr) (body : List Stmt)
    (h : VarDefStmtOptimizer.DeclThenAssign a dId aId e body) (he : e.occurrences a ≠ 0) :
    (VarDefStmtOptimizer.tryOptimizeVarDefStmt a body).filterMap (VarDefStmtOptimizer.role a) =
      body.filterMap (VarDefStmtOptimizer.role a) := by
  obtain ⟨pre, D, mid, A, post, rfl, hDi, hDk, hpre, hmid, hAi, hAk, hAm⟩ :=
    DeclThenAssign.decompose h
  have hi := initializerFor_eq_none_of_self a A e hAk he
  rw [tryOptimizeVarDefStmt_of_split a pre mid post D A hDk hpre
    (fun y hy => (role_eq_none a y (hmid y hy)).2) hAm, hi]
  cases mid with
  | nil => rfl
  | cons m ms =>
    simp only [Option.isNone_none, List.isEmpty_cons, Bool.and_false, Bool.false_eq_true,
      if_false]
    unfold VarDefStmtOptimizer.moveTo
    rw [filterMap_role_retarget, place_of_none a D A (m :: ms) hi]
    simp only [List.filterMap_append, List.filterMap_cons, filterMap_role_transferLabel,
      role_label, role_decl_self a D hDk, role_assign_self a A e hAk,
      List.filterMap_eq_nil_iff.mpr hmid, List.filterMap_nil, List.append_assoc]
    have hm : VarDefStmtOptimizer.role a m = none := hmid m (List.mem_cons_self _ _)
    have hms : ms.filterMap (VarDefStmtOptimizer.role a) = [] :=
      List.filterMap_eq_nil_iff.mpr fun y hy => hmid y (List.mem_cons_of_mem _ hy)
    simp [hm, hms]

theorem foldl_nodup (vars : List Variable) (body : List Stmt)
    (h : (body.map fun x => x.id).Nodup) :
    ((vars.foldl (fun body v => VarDefStmtOptimizer.tryOptimizeVarDefStmt v body) body).map
      fun x => x.id).Nodup := by
  induction vars generalizing body with
  | nil => exact h
  | cons v vars ih => exact ih _ (tryOptimize_nodup v body h)

theorem foldl_keep (a : Variable) (dId aId : Nat) (e : Expr) (he : e.occurrences a ≠ 0)
    (vars : List Variable) (body : List Stmt)
    (h : VarDefStmtOptimizer.DeclThenAssign a dId aId e body) :
    VarDefStmtOptimizer.DeclThenAssign a dId aId e
      (vars.foldl (fun body v => VarDefStmtOptimizer.tryOptimizeVarDefStmt v body) body) := by
  induction vars generalizing body with
  | nil => exact h
  | cons v vars ih =>
    apply ih
    obtain ⟨us, rest, hr, hus⟩ := h
    refine ⟨us, rest, ?_, hus⟩
    by_cases hv : v = a
    · subst hv
      rw [tryOptimize_self_keep v dId aId e body ⟨us, rest, hr, hus⟩ he, hr]
    · rw [filterMap_role_tryOptimize a v hv body, hr]

theorem foldl_merged (a : Variable) (dId aId : Nat) (e : Expr)
    (vars : List Variable) (body : List Stmt)
    (h : (∃ t ∈ body, t.id = dId ∧ t.kind = .varDefStmt a (some e)) ∧
      aId ∉ body.map fun x => x.id) :
    (∃ t ∈ vars.foldl (fun body v => VarDefStmtOptimizer.tryOptimizeVarDefStmt v body) body,
      t.id = dId ∧ t.kind = .varDefStmt a (some e)) ∧
    aId ∉ (vars.foldl (fun body v => VarDefStmtOptimizer.tryOptimizeVarDefStmt v body) body).map
      fun x => x.id := by
  induction vars generalizing body with
  | nil => exact h
  | cons v vars ih =>
    apply ih
    obtain ⟨⟨t, ht, hid, hk⟩, hA⟩ := h
    obtain ⟨u, hu, hu1, hu2⟩ := tryOptimize_keeps_def v body t ht a e hk
    exact ⟨⟨u, hu, hu1.trans hid, hu2.trans hk⟩, fun hmem => hA (tryOptimize_id_mem v body aId hmem)⟩

theorem foldl_merge (a : Variable) (dId aId : Nat) (e : Expr) (he : e.occurrences a = 0)
    (vars : List Variable) (body : List Stmt) (ha : a ∈ vars)
    (h : VarDefStmtOptimizer.DeclThenAssign a dId aId e body)
    (hn : (body.map fun x => x.id).Nodup) :
    (∃ t ∈ vars.foldl (fun body v => VarDefStmtOptimizer.tryOptimizeVarDefStmt v body) body,
      t.id = dId ∧ t.kind = .varDefStmt a (some e)) ∧
    aId ∉ (vars.foldl (fun body v => VarDefStmtOptimizer.tryOptimizeVarDefStmt v body) body).map
      fun x => x.id := by
  induction vars generalizing body with
  | nil => cases ha
  | cons v vars ih =>
    by_cases hv : v = a
    · subst hv
      exact foldl_merged v dId aId e vars _ (tryOptimize_self_merge v dId aId e body h he hn)
    · have ha' : a ∈ vars := by
        rcases List.mem_cons.mp ha with h1 | h1
        · exact absurd h1.symm hv
        · exact h1
      obtain ⟨us, rest, hr, hus⟩ := h
      exact ih _ ha' ⟨us, rest, by rw [filterMap_role_tryOptimize a v hv body, hr], hus⟩
        (tryOptimize_nodup v body hn)

theorem mem_declaredVars (a : Variable) (body : List Stmt) (D : Stmt) (hD : D ∈ body)
    (hk : D.kind = .varDefStmt a none) :
    a ∈ (VarDefStmtOptimizer.declaredVars body).insertionSort fun x y => x.id ≤ y.id := by
  apply (List.perm_insertionSort _ _).mem_iff.mpr
  exact List.mem_filterMap.mpr ⟨D, hD, by rw [hk]⟩

/-- C25: declaration motion merges a declaration with the assignment behind it
exactly when the right-hand side does not mention the variable.  Let the body
be `pre ++ D :: A :: post`, where `D` is the first bare declaration `int a;` and
`A` the assignment `a = e`, with distinct statements.  If `e` does not reference
`a`, the result of the optimizer has the statement `D` as a definition of `a`
with the initializer `e`, and the assignment `A` is gone; the optimization of
`a` alone yields `pre`, the definition and `post`, with the jumps to `A`
redirected.  If `e` references `a`, the statement `D` is in the result as a
declaration without an initializer, the assignment `A` is still there, and the
optimization of `a` alone changes nothing. -/
theorem varDefStmt_merges_iff_rhs_independent (pre post : List Stmt) (D A : Stmt)
    (a : Variable) (e : Expr)
    (hD : D.kind = .varDefStmt a none) (hA : A.kind = .assignStmt (.variable a) e)
    (hpre : ∀ s ∈ pre, s.kind.isDeclOf a = false)
    (hids : ((pre ++ D :: A :: post).map fun s => s.id).Nodup) :
    (e.occurrences a = 0 →
      (∃ t ∈ VarDefStmtOptimizer.runOnFunction (pre ++ D :: A :: post),
        t.id = D.id ∧ t.kind = .varDefStmt a (some e)) ∧
      (∀ t ∈ VarDefStmtOptimizer.runOnFunction (pre ++ D :: A :: post), t.id ≠ A.id) ∧
      VarDefStmtOptimizer.tryOptimizeVarDefStmt a (pre ++ D :: A :: post) =
        (pre ++ { D with
            label := (match D.label with
              | some l => some l
              | none => A.label)
            kind := .varDefStmt a (some e) } :: post).map
          (Stmt.retarget fun target => if target = A.id then D.id else target)) ∧
    (e.occurrences a ≠ 0 →
      (∃ t ∈ VarDefStmtOptimizer.runOnFunction (pre ++ D :: A :: post),
        t.id = D.id ∧ t.kind = .varDefStmt a none) ∧
      (∀ t ∈ VarDefStmtOptimizer.runOnFunction (pre ++ D :: A :: post),
        t.id = D.id → t.kind = .varDefStmt a none) ∧
      (∃ t ∈ VarDefStmtOptimizer.runOnFunction (pre ++ D :: A :: post),
        t.id = A.id ∧ t.kind = A.kind) ∧
      VarDefStmtOptimizer.tryOptimizeVarDefStmt a (pre ++ D :: A :: post) =
        pre ++ D :: A :: post) := by
  have hinit : VarDefStmtOptimizer.DeclThenAssign a D.id A.id e (pre ++ D :: A :: post) :=
    DeclThenAssign.of_split a e pre [] post D A hD hA hpre (fun y hy => by cases hy)
  have hAm : A.mentions a = true := by
    simp [Stmt.mentions, hA, StmtKind.exprs, Expr.occurrences, Expr.vars]
  have hstep := tryOptimizeVarDefStmt_of_split a pre [] post D A hD hpre
    (fun y hy => by cases hy) hAm
  simp only [List.nil_append] at hstep
  constructor
  · intro he
    obtain ⟨h1, h2⟩ := foldl_merge a D.id A.id e he _ (pre ++ D :: A :: post)
      (mem_declaredVars a (pre ++ D :: A :: post) D (by simp) hD) hinit hids
    refine ⟨h1, fun t ht hid => h2 (List.mem_map.mpr ⟨t, ht, hid⟩), ?_⟩
    have hi : VarDefStmtOptimizer.initializerFor a A = some e :=
      (initializerFor_eq_some_iff a A e).mpr ⟨hA, he⟩
    have hnt : VarDefStmtOptimizer.newTarget D A [] =
        fun target => if target = A.id then D.id else target := by
      funext t
      rfl
    rw [hstep, hi]
    simp [VarDefStmtOptimizer.moveTo, VarDefStmtOptimizer.place, hi,
      VarDefStmtOptimizer.transferLabel, hnt]
  · intro he
    have hfin := foldl_keep a D.id A.id e he
      ((VarDefStmtOptimizer.declaredVars (pre ++ D :: A :: post)).insertionSort
        fun x y => x.id ≤ y.id) (pre ++ D :: A :: post) hinit
    obtain ⟨pre', D', mid', A', post', hres, hDi, hDk, -, -, hAi, hAk, -⟩ :=
      DeclThenAssign.decompose hfin
    have hres' : VarDefStmtOptimizer.runOnFunction (pre ++ D :: A :: post) =
        pre' ++ D' :: (mid' ++ A' :: post') := hres
    have hnd := foldl_nodup
      ((VarDefStmtOptimizer.declaredVars (pre ++ D :: A :: post)).insertionSort
        fun x y => x.id ≤ y.id) (pre ++ D :: A :: post) hids
    have hD' : D' ∈ VarDefStmtOptimizer.runOnFunction (pre ++ D :: A :: post) := by
      rw [hres']
      simp
    refine ⟨⟨D', hD', hDi, hDk⟩, ?_, ⟨A', ?_, hAi, by rw [hAk, hA]⟩, ?_⟩
    · intro t ht hid
      have := List.inj_on_of_nodup_map hnd ht hD' (hid.trans hDi.symm)
      rw [this]
      exact hDk
    · rw [hres']
      simp
    · rw [hstep, initializerFor_eq_none_of_self a A e hA he]
      rfl

/-- Witness of C25: the body `int a; a = b + c; return a` of the test
`SimpleOptimizeToAssignStmtOptimize`: the result has the statement 0 as the
definition of `a` with the initializer `b + c`. -/
theorem varDefStmt_merges_iff_rhs_independent_witness :
    ∃ t ∈ VarDefStmtOptimizer.runOnFunction mergeBody,
      t.id = 0 ∧ t.kind = .varDefStmt (localVar 0)
        (some (.binaryOpExpr .addOpExpr (.variable (localVar 1)) (.variable (localVar 2)))) :=
  ((varDefStmt_merges_iff_rhs_independent []
    [{ id := 2, label := none, kind := .returnStmt (some (.variable (localVar 0))) }]
    { id := 0, label := none, kind := .varDefStmt (localVar 0) none }
    { id := 1, label := none,
      kind := .assignStmt (.variable (localVar 0))
        (.binaryOpExpr .addOpExpr (.variable (localVar 1)) (.variable (localVar 2))) }
    (localVar 0)
    (.binaryOpExpr .addOpExpr (.variable (localVar 1)) (.variable (localVar 2)))
    rfl rfl (fun s hs => by cases hs) (by decide)).1 (by decide)).1

theorem mentions_of_goto (v : Variable) (s : Stmt) (t : Nat) (h : s.kind = .gotoStmt t) :
    s.mentions v = false := by
  simp [Stmt.mentions, h, StmtKind.exprs]

theorem retarget_goto (f : Nat → Nat) (s : Stmt) (t : Nat) (h : s.kind = .gotoStmt t) :
    (s.retarget f).kind = .gotoStmt (f t) := by
  unfold Stmt.retarget
  rw [h]

theorem retarget_kind_eq_goto (f : Nat → Nat) (s : Stmt) (t : Nat)
    (h : (s.retarget f).kind = .gotoStmt t) : ∃ u, s.kind = .gotoStmt u ∧ f u = t := by
  cases hk : s.kind with
  | gotoStmt u =>
    rw [retarget_goto f s u hk] at h
    cases h
    exact ⟨u, rfl, rfl⟩
  | _ =>
    rw [Stmt.retarget_kind f s (by rw [hk]; rfl), hk] at h
    cases h

theorem mem_transferLabel_kind (label : Option String) (l : List Stmt) (x : Stmt)
    (hx : x ∈ VarDefStmtOptimizer.transferLabel label l) :
    ∃ y ∈ l, y.id = x.id ∧ y.kind = x.kind := by
  cases l with
  | nil => cases hx
  | cons s rest =>
    rcases List.mem_cons.mp hx with rfl | hx
    · exact ⟨s, List.mem_cons_self _ _, rfl, rfl⟩
    · exact ⟨x, List.mem_cons_of_mem _ hx, rfl, rfl⟩

/-- C26: declaration motion preserves goto targets and labels when it prepends.
Let `d` be the first bare declaration of `v`, and `s`, further down the body,
the first statement behind it that mentions `v`, a statement that the
declaration cannot be merged with.  Let `s` carry a label and be the target of a
`GotoStmt` of the body.  After the optimization of `v` the declaration stands
immediately in front of `s`, it carries the label and is a goto target, and `s`
has no label and is no goto target.  When `v` is the only variable with a bare
declaration, this is the result of the optimizer. -/
theorem varDefStmt_prepend_transfers_label (v : Variable) (pre mid post : List Stmt)
    (d m s : Stmt) (label : String)
    (hd : d.kind = .varDefStmt v none) (hpre : ∀ y ∈ pre, y.kind.isDeclOf v = false)
    (hmid : ∀ y ∈ m :: mid, y.mentions v = false) (hs : s.mentions v = true)
    (hinit : VarDefStmtOptimizer.initializerFor v s = none)
    (hlabel : s.label = some label)
    (htarget : s.isGotoTarget (pre ++ d :: (m :: mid ++ s :: post)) = true)
    (hids : ((pre ++ d :: (m :: mid ++ s :: post)).map fun x => x.id).Nodup) :
    (∃ pre' post' d' s',
      VarDefStmtOptimizer.tryOptimizeVarDefStmt v (pre ++ d :: (m :: mid ++ s :: post)) =
        pre' ++ d' :: s' :: post' ∧
      d'.id = d.id ∧ d'.kind = d.kind ∧ d'.label = some label ∧
      d'.isGotoTarget (pre' ++ d' :: s' :: post') = true ∧
      s'.id = s.id ∧ s'.kind = s.kind ∧ s'.label = none ∧
      s'.isGotoTarget (pre' ++ d' :: s' :: post') = false) ∧
    (VarDefStmtOptimizer.declaredVars (pre ++ d :: (m :: mid ++ s :: post)) = [v] →
      VarDefStmtOptimizer.runOnFunction (pre ++ d :: (m :: mid ++ s :: post)) =
        VarDefStmtOptimizer.tryOptimizeVarDefStmt v (pre ++ d :: (m :: mid ++ s :: post))) := by
  have hds : d.id ≠ s.id := by
    intro h
    have hmem : s ∈ pre ++ d :: (m :: mid ++ s :: post) := by simp
    have heq := List.inj_on_of_nodup_map hids (List.mem_append_right pre (List.mem_cons_self _ _))
      hmem h
    rw [← heq, Stmt.mentions, hd] at hs
    simp [StmtKind.exprs] at hs
  have hms : m.id ≠ s.id := by
    intro h
    have hmem : s ∈ pre ++ d :: (m :: mid ++ s :: post) := by simp
    have hmem' : m ∈ pre ++ d :: (m :: mid ++ s :: post) := by simp
    have heq := List.inj_on_of_nodup_map hids hmem' hmem h
    rw [← heq, hmid m (List.mem_cons_self _ _)] at hs
    cases hs
  have hsg : s.kind.isGotoStmt = false := by
    cases hk : s.kind with
    | gotoStmt t =>
      rw [mentions_of_goto v s t hk] at hs
      cases hs
    | _ => rfl
  have hdg : d.kind.isGotoStmt = false := by
    rw [hd]
    rfl
  have hf_s : VarDefStmtOptimizer.newTarget d s (m :: mid) s.id = d.id := by
    simp [VarDefStmtOptimizer.newTarget]
  have hf_ne : ∀ t, VarDefStmtOptimizer.newTarget d s (m :: mid) t ≠ s.id := by
    intro t
    simp only [VarDefStmtOptimizer.newTarget]
    split_ifs with h1 h2
    · exact hds
    · exact hms
    · exact h1
  constructor
  · refine ⟨(pre ++ VarDefStmtOptimizer.transferLabel d.label (m :: mid)).map
        (Stmt.retarget (VarDefStmtOptimizer.newTarget d s (m :: mid))),
      post.map (Stmt.retarget (VarDefStmtOptimizer.newTarget d s (m :: mid))),
      { d with label := s.label }, { s with label := none }, ?_, rfl, rfl, hlabel, ?_, rfl, rfl,
      rfl, ?_⟩
    · rw [tryOptimizeVarDefStmt_of_split v pre (m :: mid) post d s hd hpre hmid hs, hinit]
      simp only [Option.isNone_none, List.isEmpty_cons, Bool.and_false, Bool.false_eq_true,
        if_false]
      unfold VarDefStmtOptimizer.moveTo
      rw [place_of_none v d s (m :: mid) hinit]
      have e1 : Stmt.retarget (VarDefStmtOptimizer.newTarget d s (m :: mid))
          { d with label := s.label } = { d with label := s.label } := by
        unfold Stmt.retarget
        simp only [hd]
      have e2 : Stmt.retarget (VarDefStmtOptimizer.newTarget d s (m :: mid))
          { s with label := none } = { s with label := none } := by
        cases hk : s.kind with
        | gotoStmt t =>
          rw [hk] at hsg
          cases hsg
        | _ =>
          unfold Stmt.retarget
          simp only [hk]
      simp only [List.map_append, List.map_cons, List.map_nil, e1, e2, List.append_assoc,
        List.cons_append, List.nil_append]
    · simp only [Stmt.isGotoTarget, List.any_eq_true, decide_eq_true_eq] at htarget ⊢
      obtain ⟨g, hg, hgk⟩ := htarget
      have hgd : g ≠ d := by
        rintro rfl
        rw [hd] at hgk
        cases hgk
      have hgs : g ≠ s := by
        rintro rfl
        rw [hgk] at hsg
        cases hsg
      have hgg : g.kind.isGotoStmt = true := by
        rw [hgk]
        rfl
      have key : ∃ x ∈ pre ++ VarDefStmtOptimizer.transferLabel d.label (m :: mid) ++ post,
          x.kind = .gotoStmt s.id := by
        rcases List.mem_append.mp hg with hg | hg
        · exact ⟨g, List.mem_append_left _ (List.mem_append_left _ hg), hgk⟩
        · rcases List.mem_cons.mp hg with hg | hg
          · exact absurd hg hgd
          · have hg' : g ∈ (m :: mid) ++ s :: post := hg
            rcases List.mem_append.mp hg' with hg | hg
            · obtain ⟨x, hx, -, hxk⟩ := mem_transferLabel d.label (m :: mid) g hg
              exact ⟨x, List.mem_append_left _ (List.mem_append_right _ hx), hxk.trans hgk⟩
            · rcases List.mem_cons.mp hg with hg | hg
              · exact absurd hg hgs
              · exact ⟨g, List.mem_append_right _ hg, hgk⟩
      obtain ⟨x, hx, hxk⟩ := key
      refine ⟨x.retarget (VarDefStmtOptimizer.newTarget d s (m :: mid)), ?_, ?_⟩
      · rcases List.mem_append.mp hx with hx | hx
        · exact List.mem_append_left _ (List.mem_map_of_mem _ hx)
        · exact List.mem_append_right _
            (List.mem_cons_of_mem _ (List.mem_cons_of_mem _ (List.mem_map_of_mem _ hx)))
      · rw [retarget_goto _ x s.id hxk, hf_s]
    · cases hgt : Stmt.isGotoTarget { s with label := none }
        ((pre ++ VarDefStmtOptimizer.transferLabel d.label (m :: mid)).map
            (Stmt.retarget (VarDefStmtOptimizer.newTarget d s (m :: mid))) ++
          { d with label := s.label } :: { s with label := none } ::
            post.map (Stmt.retarget (VarDefStmtOptimizer.newTarget d s (m :: mid)))) with
      | false => rfl
      | true =>
        exfalso
        simp only [Stmt.isGotoTarget, List.any_eq_true, decide_eq_true_eq] at hgt
        obtain ⟨g, hg, hgk⟩ := hgt
        simp only [List.mem_append, List.mem_cons, List.mem_map] at hg
        rcases hg with ⟨x, -, rfl⟩ | rfl | rfl | ⟨x, -, rfl⟩
        · obtain ⟨u, -, hu⟩ := retarget_kind_eq_goto _ x s.id hgk
          exact hf_ne u hu
        · rw [hgk] at hdg
          cases hdg
        · rw [hgk] at hsg
          cases hsg
        · obtain ⟨u, -, hu⟩ := retarget_kind_eq_goto _ x s.id hgk
          exact hf_ne u hu
  · intro hv
    unfold VarDefStmtOptimizer.runOnFunction
    rw [hv]
    rfl

/-- Witness of C26: the body `int a; g = 1; my_label: g = a; goto my_label` of
the test `PreservesGotoTargetsAndLabelsWhenPrepending`.  The declaration
(statement 0) ends up in front of `g = a` (statement 2), with the label and as
the goto target, and this is the result of the optimizer. -/
theorem varDefStmt_prepend_transfers_label_witness :
    (∃ pre' post' d' s',
      VarDefStmtOptimizer.tryOptimizeVarDefStmt (localVar 0) gotoBody =
        pre' ++ d' :: s' :: post' ∧
      d'.id = 0 ∧ d'.kind = .varDefStmt (localVar 0) none ∧ d'.label = some "my_label" ∧
      d'.isGotoTarget (pre' ++ d' :: s' :: post') = true ∧
      s'.id = 2 ∧
      s'.kind = .assignStmt (.variable (globalVar 1)) (.variable (localVar 0)) ∧
      s'.label = none ∧
      s'.isGotoTarget (pre' ++ d' :: s' :: post') = false) ∧
    VarDefStmtOptimizer.runOnFunction gotoBody =
      VarDefStmtOptimizer.tryOptimizeVarDefStmt (localVar 0) gotoBody :=
  ⟨(varDefStmt_prepend_transfers_label (localVar 0) [] []
      [{ id := 3, label := none, kind := .gotoStmt 2 }]
      { id := 0, label := none, kind := .varDefStmt (localVar 0) none }
      { id := 1, label := none, kind := .assignStmt (.variable (globalVar 1)) (.constInt 9 1) }
      { id := 2, label := some "my_label",
        kind := .assignStmt (.variable (globalVar 1)) (.variable (localVar 0)) }
      "my_label" rfl (fun y hy => by cases hy) (by decide) (by decide) (by decide) rfl
      (by decide) (by decide)).1,
   (varDefStmt_prepend_transfers_label (localVar 0) [] []
      [{ id := 3, label := none, kind := .gotoStmt 2 }]
      { id := 0, label := none, kind := .varDefStmt (localVar 0) none }
      { id := 1, label := none, kind := .assignStmt (.variable (globalVar 1)) (.constInt 9 1) }
      { id := 2, label := some "my_label",
        kind := .assignStmt (.variable (globalVar 1)) (.variable (localVar 0)) }
      "my_label" rfl (fun y hy => by cases hy) (by decide) (by decide) (by decide) rfl
      (by decide) (by decide)).2 (by decide)⟩

/-! ## Theorems: the flag `codeChanged` after a run of the driver -/

theorem UnitsRun.flag_false_at_end
    {ps : List (SimplifyArithmExprOptimizer → Except Err SimplifyArithmExprOptimizer)}
    {o o' : SimplifyArithmExprOptimizer} (h : UnitsRun ps o o') (hne : ps ≠ []) :
    o'.codeChanged = false := by
  induction h with
  | nil => exact absurd rfl hne
  | @cons p qs n o o1 o2 hrun hrest ih =>
    cases qs with
    | nil =>
      cases hrest
      exact hrun.codeChanged_false
    | cons q qs => exact ih (by simp)

/-- C38: the flag `codeChanged` does not survive the run.  Whenever
`doOptimization` returns on a module with at least one global variable or at
least one function definition, `codeChanged` is false in the final state,
whatever its value in the initial state and whatever the traversals did.  On a
module with neither, the driver returns the state it was given, flag
included. -/
theorem doOptimization_resets_codeChanged
    (acceptExpr : SimplifyArithmExprOptimizer → Ptr → Except Err SimplifyArithmExprOptimizer)
    (acceptFunc : SimplifyArithmExprOptimizer → Function → Except Err SimplifyArithmExprOptimizer)
    (module : Module) :
    (module.globalVars ≠ [] ∨ module.funcDefinitions ≠ [] →
      ∀ fuel o o',
        SimplifyArithmExprOptimizer.doOptimization acceptExpr acceptFunc fuel module o = .ok o' →
        o'.codeChanged = false) ∧
    (module.globalVars = [] → module.funcDefinitions = [] →
      ∀ fuel o,
        SimplifyArithmExprOptimizer.doOptimization acceptExpr acceptFunc fuel module o = .ok o) := by
  constructor
  · intro hne fuel o o' h
    refine UnitsRun.flag_false_at_end
      (unitsRun_of_doOptimization acceptExpr acceptFunc module fuel o o' h) ?_
    simp only [Module.passes, ne_eq, List.append_eq_nil, List.map_eq_nil_iff, not_and]
    intro hg
    rcases hne with hne | hne
    · exact absurd hg hne
    · exact hne
  · intro hg hf fuel o
    simp [SimplifyArithmExprOptimizer.doOptimization, hg, hf,
      SimplifyArithmExprOptimizer.forEach, Except.bind]

/-- Witness of C38: the run of `growExample` on `growModule` rewrites the IR
twice and returns `growFinal`, in which `codeChanged` is false; started with the
flag set, the run of the idle `addExample` on `idleModule` also ends with the
flag false. -/
theorem doOptimization_resets_codeChanged_witness :
    growFinal.ir ≠ growExample.ir ∧ growFinal.codeChanged = false ∧
    ∀ o', SimplifyArithmExprOptimizer.doOptimization (SimplifyArithmExprOptimizer.accept 2)
        (SimplifyArithmExprOptimizer.acceptFunction 2) 3 idleModule
        { addExample with codeChanged := true } = .ok o' → o'.codeChanged = false :=
  ⟨by decide,
   (doOptimization_resets_codeChanged (SimplifyArithmExprOptimizer.accept 2)
      (SimplifyArithmExprOptimizer.acceptFunction 2) growModule).1 (Or.inl (by decide))
      3 growExample growFinal rfl,
   fun o' ho => (doOptimization_resets_codeChanged (SimplifyArithmExprOptimizer.accept 2)
      (SimplifyArithmExprOptimizer.acceptFunction 2) idleModule).1 (Or.inl (by decide))
      3 _ o' ho⟩

/-! ## Theorems: the type of `EqOpExpr` and `OrOpExpr` -/

theorem Heap.lookup_spec (n : Node) (h : Heap) (t : Nat) (ht : h.lookup n = some t) :
    h.node (some t) = some n := by
  induction h generalizing t with
  | nil => simp [Heap.lookup] at ht
  | cons c cs ih =>
    simp only [Heap.lookup] at ht
    by_cases hc : c.node = n
    · rw [if_pos hc] at ht
      cases ht
      simp [Heap.node, hc]
    · rw [if_neg hc] at ht
      obtain ⟨a, ha, rfl⟩ := Option.map_eq_some'.mp ht
      have := ih a ha
      simpa [Heap.node] using this

theorem IntType.create_spec (h : Heap) (size : Nat) :
    (IntType.create h size).2.node (some (IntType.create h size).1) =
      some (IntType.node size) ∧
    h <+: (IntType.create h size).2 := by
  unfold IntType.create
  cases hl : h.lookup (IntType.node size) with
  | none =>
    simp only [Heap.alloc]
    exact ⟨Heap.node_alloc h _, List.prefix_append h _⟩
  | some t => exact ⟨Heap.lookup_spec _ h t hl, List.prefix_refl h⟩

/-- C36: the type of an equality and of a logical or is the integer type of
width 1.  For every `EqOpExpr` and every `OrOpExpr`, whatever its two operands
are, `getType()` returns what `IntType::create(1)` returns: a node of the
integer type of width 1.  The call changes no existing cell of the heap (it can
only allocate the type), so the expression, its operands, their observers and
every other node are as before. -/
theorem getType_is_bool (h : Heap) (this : Nat) (op1 op2 : Ptr) :
    (h.node (some this) = some (.eqOpExpr op1 op2) →
      EqOpExpr.getType h this = .ok (IntType.create h 1)) ∧
    (h.node (some this) = some (.orOpExpr op1 op2) →
      OrOpExpr.getType h this = .ok (IntType.create h 1)) ∧
    (IntType.create h 1).2.node (some (IntType.create h 1).1) =
      some (.other .intType "1" []) ∧
    h <+: (IntType.create h 1).2 ∧
    (∀ a, a < h.length →
      (IntType.create h 1).2.node (some a) = h.node (some a) ∧
      (∀ o, Subject.hasObserver (IntType.create h 1).2 a o = Subject.hasObserver h a o) ∧
      Statement.getSuccessor (IntType.create h 1).2 a = Statement.getSuccessor h a ∧
      Value.getMetadata (IntType.create h 1).2 a = Value.getMetadata h a ∧
      Value.getAddress (IntType.create h 1).2 a = Value.getAddress h a) := by
  obtain ⟨hnode, hpre⟩ := IntType.create_spec h 1
  refine ⟨fun hn => ?_, fun hn => ?_, hnode, hpre, fun a ha => ?_⟩
  · simp only [EqOpExpr.getType, eqOpExpr_operands_eq_some.2 hn]
  · simp only [OrOpExpr.getType, orOpExpr_operands_eq_some.2 hn]
  · exact ⟨Heap.untouched_node hpre ha, fun o => Heap.untouched_hasObserver hpre ha o,
      Heap.untouched_fields hpre ha⟩

/-- Witness of C36: on `typedHeap` the types of `i == c` (cell 5), of `c || s`
(cell 6) and of `i == (c || s)` (cell 8) are all the integer type of width 1,
which the first call allocates in cell 9. -/
theorem getType_is_bool_witness :
    EqOpExpr.getType typedHeap 5 = .ok (9, typedHeap ++ [Cell.leaf .intType "1"]) ∧
    OrOpExpr.getType typedHeap 6 = .ok (IntType.create typedHeap 1) ∧
    EqOpExpr.getType typedHeap 8 = .ok (IntType.create typedHeap 1) ∧
    EqOpExpr.getType (typedHeap ++ [Cell.leaf .intType "1"]) 8 =
      .ok (9, typedHeap ++ [Cell.leaf .intType "1"]) :=
  ⟨by decide,
   (getType_is_bool typedHeap 6 (some 1) (some 2)).2.1 (by decide),
   (getType_is_bool typedHeap 8 (some 0) (some 6)).1 (by decide),
   by decide⟩

/-! ## Theorems: `isEqualTo` lifts an equivalence relation -/

theorem callStmt_isEqualTo_iff (v : Heap → Ptr → Ptr → Except Err Bool) (h : Heap)
    (e : Nat) (call other : Ptr) (hn : h.node (some e) = some (.callStmt call)) :
    CallStmt.isEqualTo v h e other = .ok true ↔
      ∃ oc, h.node other = some (.callStmt oc) ∧ v h call oc = .ok true := by
  unfold CallStmt.isEqualTo
  rw [CallStmt.getCall_eq_ok.2 hn, bind_ok]
  cases ho : CallStmt.callOf h other with
  | none =>
    constructor
    · intro hx
      simp at hx
    · rintro ⟨oc, hx, _⟩
      rw [CallStmt.callOf_eq_some.2 hx] at ho
      cases ho
  | some oc =>
    have hx := CallStmt.callOf_eq_some.1 ho
    constructor
    · intro hh
      exact ⟨oc, hx, hh⟩
    · rintro ⟨c, hc, hh⟩
      rw [hx] at hc
      cases hc
      exact hh

theorem value_isEqualTo_lifted (fuel : Nat) (h : Heap) (vals : List Ptr) (x y : Ptr)
    (hx : h.builtFrom vals x = true) :
    Value.isEqualTo (fuel + 1) h x y = .ok true ↔
      h.LiftedEq (fun a b => Value.isEqualTo fuel h a b = .ok true) x y := by
  cases x with
  | none => simp [Heap.builtFrom, Heap.node] at hx
  | some e =>
    cases hn : h.node (some e) with
    | none => simp [Heap.builtFrom, hn] at hx
    | some n =>
      cases n with
      | eqOpExpr a b =>
        have h1 := (eqOpExpr_isEqualTo_iff (fun h x y => Value.isEqualTo fuel h x y)
          h e a b y hn).1
        simp only [Value.isEqualTo, hn]
        rw [h1]
        constructor
        · rintro ⟨o1, o2, hy, r1, r2⟩
          exact Or.inl ⟨a, b, o1, o2, hn, hy, r1, r2⟩
        · rintro (⟨a1, b1, a2, b2, e1, e2, r1, r2⟩ | ⟨a1, b1, a2, b2, e1, _⟩ | ⟨c, c', e1, _⟩)
          · rw [hn] at e1
            cases e1
            exact ⟨a2, b2, e2, r1, r2⟩
          · rw [hn] at e1
            cases e1
          · rw [hn] at e1
            cases e1
      | orOpExpr a b =>
        have h1 := (orOpExpr_isEqualTo_iff (fun h x y => Value.isEqualTo fuel h x y)
          h e a b y hn).1
        simp only [Value.isEqualTo, hn]
        rw [h1]
        constructor
        · rintro ⟨o1, o2, hy, r1, r2⟩
          exact Or.inr (Or.inl ⟨a, b, o1, o2, hn, hy, r1, r2⟩)
        · rintro (⟨a1, b1, a2, b2, e1, _⟩ | ⟨a1, b1, a2, b2, e1, e2, r1, r2⟩ | ⟨c, c', e1, _⟩)
          · rw [hn] at e1
            cases e1
          · rw [hn] at e1
            cases e1
            exact ⟨a2, b2, e2, r1, r2⟩
          · rw [hn] at e1
            cases e1
      | callStmt c =>
        have h1 := callStmt_isEqualTo_iff (fun h x y => Value.isEqualTo fuel h x y) h e c y hn
        simp only [Value.isEqualTo, hn]
        rw [h1]
        constructor
        · rintro ⟨oc, hy, r1⟩
          exact Or.inr (Or.inr ⟨c, oc, hn, hy, r1⟩)
        · rintro (⟨a1, b1, a2, b2, e1, _⟩ | ⟨a1, b1, a2, b2, e1, _⟩ | ⟨c1, c2, e1, e2, r1⟩)
          · rw [hn] at e1
            cases e1
          · rw [hn] at e1
            cases e1
          · rw [hn] at e1
            cases e1
            exact ⟨c2, e2, r1⟩
      | uforLoopStmt a b c d e' => simp [Heap.builtFrom, hn] at hx
      | other cls d ops => simp [Heap.builtFrom, hn] at hx

theorem Heap.builtFrom_eq {h : Heap} {vals : List Ptr} {x a b : Ptr}
    (hx : h.builtFrom vals x = true) (hn : h.node x = some (.eqOpExpr a b)) :
    a ∈ vals ∧ b ∈ vals := by
  simpa [Heap.builtFrom, hn] using hx

theorem Heap.builtFrom_or {h : Heap} {vals : List Ptr} {x a b : Ptr}
    (hx : h.builtFrom vals x = true) (hn : h.node x = some (.orOpExpr a b)) :
    a ∈ vals ∧ b ∈ vals := by
  simpa [Heap.builtFrom, hn] using hx

theorem Heap.builtFrom_call {h : Heap} {vals : List Ptr} {x c : Ptr}
    (hx : h.builtFrom vals x = true) (hn : h.node x = some (.callStmt c)) :
    c ∈ vals := by
  simpa [Heap.builtFrom, hn] using hx

theorem Heap.LiftedEq.lifted_refl {h : Heap} {r : Ptr → Ptr → Prop} {vals : List Ptr}
    (hr : ∀ a ∈ vals, r a a) (x : Ptr) (hx : h.builtFrom vals x = true) :
    h.LiftedEq r x x := by
  cases hn : h.node x with
  | none => simp [Heap.builtFrom, hn] at hx
  | some n =>
    cases n with
    | eqOpExpr a b =>
      obtain ⟨ha, hb⟩ := Heap.builtFrom_eq hx hn
      exact Or.inl ⟨a, b, a, b, hn, hn, hr a ha, hr b hb⟩
    | orOpExpr a b =>
      obtain ⟨ha, hb⟩ := Heap.builtFrom_or hx hn
      exact Or.inr (Or.inl ⟨a, b, a, b, hn, hn, hr a ha, hr b hb⟩)
    | callStmt c =>
      exact Or.inr (Or.inr ⟨c, c, hn, hn, hr c (Heap.builtFrom_call hx hn)⟩)
    | uforLoopStmt a b c d e' => simp [Heap.builtFrom, hn] at hx
    | other cls d ops => simp [Heap.builtFrom, hn] at hx

theorem Heap.LiftedEq.lifted_symm {h : Heap} {r : Ptr → Ptr → Prop} {vals : List Ptr}
    (hr : ∀ a ∈ vals, ∀ b ∈ vals, r a b → r b a) (x y : Ptr)
    (hx : h.builtFrom vals x = true) (hy : h.builtFrom vals y = true)
    (hxy : h.LiftedEq r x y) : h.LiftedEq r y x := by
  rcases hxy with ⟨a, b, a', b', e1, e2, r1, r2⟩ | ⟨a, b, a', b', e1, e2, r1, r2⟩ |
    ⟨c, c', e1, e2, r1⟩
  · obtain ⟨ha, hb⟩ := Heap.builtFrom_eq hx e1
    obtain ⟨ha', hb'⟩ := Heap.builtFrom_eq hy e2
    exact Or.inl ⟨a', b', a, b, e2, e1, hr a ha a' ha' r1, hr b hb b' hb' r2⟩
  · obtain ⟨ha, hb⟩ := Heap.builtFrom_or hx e1
    obtain ⟨ha', hb'⟩ := Heap.builtFrom_or hy e2
    exact Or.inr (Or.inl ⟨a', b', a, b, e2, e1, hr a ha a' ha' r1, hr b hb b' hb' r2⟩)
  · exact Or.inr (Or.inr ⟨c', c, e2, e1,
      hr c (Heap.builtFrom_call hx e1) c' (Heap.builtFrom_call hy e2) r1⟩)

theorem Heap.LiftedEq.lifted_trans {h : Heap} {r : Ptr → Ptr → Prop} {vals : List Ptr}
    (hr : ∀ a ∈ vals, ∀ b ∈ vals, ∀ c ∈ vals, r a b → r b c → r a c) (x y z : Ptr)
    (hx : h.builtFrom vals x = true) (hy : h.builtFrom vals y = true)
    (hz : h.builtFrom vals z = true)
    (hxy : h.LiftedEq r x y) (hyz : h.LiftedEq r y z) : h.LiftedEq r x z := by
  rcases hxy with ⟨a, b, a', b', e1, e2, r1, r2⟩ | ⟨a, b, a', b', e1, e2, r1, r2⟩ |
    ⟨c, c', e1, e2, r1⟩
  · rcases hyz with ⟨p, q, p', q', f1, f2, s1, s2⟩ | ⟨p, q, p', q', f1, _⟩ | ⟨p, p', f1, _⟩
    · rw [e2] at f1
      cases f1
      obtain ⟨ha, hb⟩ := Heap.builtFrom_eq hx e1
      obtain ⟨ha', hb'⟩ := Heap.builtFrom_eq hy e2
      obtain ⟨hp', hq'⟩ := Heap.builtFrom_eq hz f2
      exact Or.inl ⟨a, b, p', q', e1, f2, hr a ha a' ha' p' hp' r1 s1,
        hr b hb b' hb' q' hq' r2 s2⟩
    · rw [e2] at f1
      cases f1
    · rw [e2] at f1
      cases f1
  · rcases hyz with ⟨p, q, p', q', f1, _⟩ | ⟨p, q, p', q', f1, f2, s1, s2⟩ | ⟨p, p', f1, _⟩
    · rw [e2] at f1
      cases f1
    · rw [e2] at f1
      cases f1
      obtain ⟨ha, hb⟩ := Heap.builtFrom_or hx e1
      obtain ⟨ha', hb'⟩ := Heap.builtFrom_or hy e2
      obtain ⟨hp', hq'⟩ := Heap.builtFrom_or hz f2
      exact Or.inr (Or.inl ⟨a, b, p', q', e1, f2, hr a ha a' ha' p' hp' r1 s1,
        hr b hb b' hb' q' hq' r2 s2⟩)
    · rw [e2] at f1
      cases f1
  · rcases hyz with ⟨p, q, p', q', f1, _⟩ | ⟨p, q, p', q', f1, _⟩ | ⟨p, p', f1, f2, s1⟩
    · rw [e2] at f1
      cases f1
    · rw [e2] at f1
      cases f1
    · rw [e2] at f1
      cases f1
      exact Or.inr (Or.inr ⟨c, p', e1, f2,
        hr c (Heap.builtFrom_call hx e1) c' (Heap.builtFrom_call hy e2) p'
          (Heap.builtFrom_call hz f2) r1 s1⟩)

/-- C35: `isEqualTo` lifts an equivalence relation. If `isEqualTo` (answering
`true`) is reflexive, symmetric and transitive on the operand values `vals`,
then it is reflexive, symmetric and transitive on the `EqOpExpr`, `OrOpExpr` and
`CallStmt` nodes whose operands (contained call) are among `vals`; the
comparison of such a node returns, and it is `true` exactly when the other node
has the same class and the operands are `isEqualTo` each other position by
position. The nodes are compared one level above their operands (`fuel + 1`). -/
theorem isEqualTo_lifts_equivalence (fuel : Nat) (h : Heap) (vals : List Ptr)
    (hrefl : ∀ a ∈ vals, Value.isEqualTo fuel h a a = .ok true)
    (hsymm : ∀ a ∈ vals, ∀ b ∈ vals,
      Value.isEqualTo fuel h a b = .ok true → Value.isEqualTo fuel h b a = .ok true)
    (htrans : ∀ a ∈ vals, ∀ b ∈ vals, ∀ c ∈ vals,
      Value.isEqualTo fuel h a b = .ok true → Value.isEqualTo fuel h b c = .ok true →
        Value.isEqualTo fuel h a c = .ok true) :
    (∀ x, h.builtFrom vals x = true → Value.isEqualTo (fuel + 1) h x x = .ok true) ∧
    (∀ x y, h.builtFrom vals x = true → h.builtFrom vals y = true →
      Value.isEqualTo (fuel + 1) h x y = .ok true →
        Value.isEqualTo (fuel + 1) h y x = .ok true) ∧
    (∀ x y z, h.builtFrom vals x = true → h.builtFrom vals y = true →
      h.builtFrom vals z = true →
      Value.isEqualTo (fuel + 1) h x y = .ok true →
      Value.isEqualTo (fuel + 1) h y z = .ok true →
        Value.isEqualTo (fuel + 1) h x z = .ok true) ∧
    (∀ x y, h.builtFrom vals x = true →
      (Value.isEqualTo (fuel + 1) h x y = .ok true ↔
        h.LiftedEq (fun a b => Value.isEqualTo fuel h a b = .ok true) x y)) := by
  refine ⟨fun x hx => ?_, fun x y hx hy hxy => ?_, fun x y z hx hy hz hxy hyz => ?_,
    fun x y hx => value_isEqualTo_lifted fuel h vals x y hx⟩
  · exact (value_isEqualTo_lifted fuel h vals x x hx).2
      (Heap.LiftedEq.lifted_refl hrefl x hx)
  · exact (value_isEqualTo_lifted fuel h vals y x hy).2
      (Heap.LiftedEq.lifted_symm hsymm x y hx hy
        ((value_isEqualTo_lifted fuel h vals x y hx).1 hxy))
  · exact (value_isEqualTo_lifted fuel h vals x z hx).2
      (Heap.LiftedEq.lifted_trans htrans x y z hx hy hz
        ((value_isEqualTo_lifted fuel h vals x y hx).1 hxy)
        ((value_isEqualTo_lifted fuel h vals y z hy).1 hyz))

/-- In `eqOrHeap` the variables `i` and `c` are each equal to itself only; the two
nodes `i == c` of cells 5 and 8 are equal to themselves and to each other, and
`i == c` is not equal to `c == i` of cell 7. -/
theorem isEqualTo_lifts_equivalence_witness :
    (∀ a ∈ [some 0, some 1], Value.isEqualTo 1 eqOrHeap a a = .ok true) ∧
    Value.isEqualTo 1 eqOrHeap (some 0) (some 1) = .ok false ∧
    eqOrHeap.builtFrom [some 0, some 1] (some 5) = true ∧
    eqOrHeap.builtFrom [some 0, some 1] (some 8) = true ∧
    Value.isEqualTo 2 eqOrHeap (some 5) (some 5) = .ok true ∧
    Value.isEqualTo 2 eqOrHeap (some 5) (some 8) = .ok true ∧
    Value.isEqualTo 2 eqOrHeap (some 8) (some 5) = .ok true ∧
    Value.isEqualTo 2 eqOrHeap (some 5) (some 7) = .ok false := by
  have hw := isEqualTo_lifts_equivalence 1 eqOrHeap [some 0, some 1]
    (by decide) (by decide) (by decide)
  have h58 : Value.isEqualTo 2 eqOrHeap (some 5) (some 8) = .ok true := by decide
  exact ⟨by decide, by decide, by decide, by decide, hw.1 (some 5) (by decide), h58,
    hw.2.1 (some 5) (some 8) (by decide) (by decide) h58, by decide⟩

/-! ## Theorems: what the comparison of two statements reads -/

theorem Heap.SameParts.node_cases {h h' : Heap} (hs : h.SameParts h') (p : Ptr) :
    (h.node p = none ∧ h'.node p = none) ∨
    (∃ a b, h.node p = some (.eqOpExpr a b) ∧ h'.node p = some (.eqOpExpr a b)) ∨
    (∃ a b, h.node p = some (.orOpExpr a b) ∧ h'.node p = some (.orOpExpr a b)) ∨
    (∃ c, h.node p = some (.callStmt c) ∧ h'.node p = some (.callStmt c)) ∨
    (∃ i d d' c s b, h.node p = some (.uforLoopStmt i d c s b) ∧
      h'.node p = some (.uforLoopStmt i d' c s b)) ∨
    (∃ cls d ops, h.node p = some (.other cls d ops) ∧ h'.node p = some (.other cls d ops)) := by
  have e := hs p
  cases hn : h.node p with
  | none =>
    cases hn' : h'.node p with
    | none => exact Or.inl ⟨rfl, rfl⟩
    | some n' => simp [hn, hn'] at e
  | some n =>
    cases hn' : h'.node p with
    | none => simp [hn, hn'] at e
    | some n' =>
      rw [hn, hn'] at e
      simp only [Option.map_some', Option.some.injEq] at e
      cases n <;> cases n' <;> simp only [Node.parts] at e <;> cases e
      · exact Or.inr (Or.inl ⟨_, _, rfl, rfl⟩)
      · exact Or.inr (Or.inr (Or.inl ⟨_, _, rfl, rfl⟩))
      · exact Or.inr (Or.inr (Or.inr (Or.inl ⟨_, rfl, rfl⟩)))
      · exact Or.inr (Or.inr (Or.inr (Or.inr (Or.inl ⟨_, _, _, _, _, _, rfl, rfl⟩))))
      · exact Or.inr (Or.inr (Or.inr (Or.inr (Or.inr ⟨_, _, _, rfl, rfl⟩))))

theorem Heap.SameParts.of_update (h : Heap) (a : Nat) (f : Cell → Cell)
    (hf : ∀ c, (f c).node.parts = c.node.parts) : h.SameParts (h.update a f) := by
  intro p
  cases p with
  | none => rfl
  | some b =>
    simp only [Heap.node, Heap.getElem?_update]
    by_cases hab : a = b
    · simp only [hab, if_true]
      cases h[b]? <;> simp [hf]
    · simp [hab]

theorem Other.operandsEqual_congr (v v' : Heap → Ptr → Ptr → Except Err Bool) (h h' : Heap)
    (hv : ∀ a b, v' h' a b = v h a b) :
    ∀ ps qs, Other.operandsEqual v' h' ps qs = Other.operandsEqual v h ps qs := by
  intro ps
  induction ps with
  | nil =>
    intro qs
    cases qs <;> simp [Other.operandsEqual]
  | cons p ps ih =>
    intro qs
    cases qs with
    | nil => cases p <;> simp [Other.operandsEqual]
    | cons q qs =>
      cases p <;> cases q <;> simp [Other.operandsEqual, ih, hv]

theorem value_isEqualTo_sameParts {h h' : Heap} (hs : h.SameParts h') :
    ∀ fuel x y, Value.isEqualTo fuel h' x y = Value.isEqualTo fuel h x y := by
  intro fuel
  induction fuel with
  | zero =>
    intro x y
    rfl
  | succ fuel ih =>
    intro x y
    cases x with
    | none => rfl
    | some this =>
      have hops := Other.operandsEqual_congr (fun h x y => Value.isEqualTo fuel h x y)
        (fun h x y => Value.isEqualTo fuel h x y) h h' (fun a b => ih a b)
      rcases hs.node_cases (some this) with ⟨e1, e2⟩ | ⟨a, b, e1, e2⟩ | ⟨a, b, e1, e2⟩ |
        ⟨c, e1, e2⟩ | ⟨i, d, d', c, s, b, e1, e2⟩ | ⟨cls, d, ops, e1, e2⟩
      · simp only [Value.isEqualTo, e1, e2]
      · simp only [Value.isEqualTo, e1, e2, EqOpExpr.isEqualTo, EqOpExpr.operands]
        rcases hs.node_cases y with ⟨f1, f2⟩ | ⟨a, b, f1, f2⟩ | ⟨a, b, f1, f2⟩ |
          ⟨c, f1, f2⟩ | ⟨i, d, d', c, s, b, f1, f2⟩ | ⟨cls, d, ops, f1, f2⟩ <;>
          simp only [f1, f2, ih]
      · simp only [Value.isEqualTo, e1, e2, OrOpExpr.isEqualTo, OrOpExpr.operands]
        rcases hs.node_cases y with ⟨f1, f2⟩ | ⟨a, b, f1, f2⟩ | ⟨a, b, f1, f2⟩ |
          ⟨c, f1, f2⟩ | ⟨i, d, d', c, s, b, f1, f2⟩ | ⟨cls, d, ops, f1, f2⟩ <;>
          simp only [f1, f2, ih]
      · simp only [Value.isEqualTo, e1, e2, CallStmt.isEqualTo, CallStmt.getCall,
          CallStmt.callOf]
        rcases hs.node_cases y with ⟨f1, f2⟩ | ⟨a, b, f1, f2⟩ | ⟨a, b, f1, f2⟩ |
          ⟨c, f1, f2⟩ | ⟨i, d, d', c, s, b, f1, f2⟩ | ⟨cls, d, ops, f1, f2⟩ <;>
          simp only [f1, f2, ih]
      · simp only [Value.isEqualTo, e1, e2, UForLoopStmt.isEqualTo]
        rcases hs.node_cases y with ⟨f1, f2⟩ | ⟨a, b, f1, f2⟩ | ⟨a, b, f1, f2⟩ |
          ⟨c, f1, f2⟩ | ⟨i, d, d', c, s, b, f1, f2⟩ | ⟨cls, d, ops, f1, f2⟩ <;>
          simp only [f1, f2, ih]
      · simp only [Value.isEqualTo, e1, e2, Other.isEqualTo, Other.fields]
        rcases hs.node_cases y with ⟨f1, f2⟩ | ⟨a, b, f1, f2⟩ | ⟨a, b, f1, f2⟩ |
          ⟨c, f1, f2⟩ | ⟨i, d, d', c, s, b, f1, f2⟩ | ⟨cls, d, ops, f1, f2⟩ <;>
          simp only [f1, f2, hops]

theorem Node.parts_eq_cases {n m : Node} (hp : n.parts = m.parts) :
    m = n ∨ ∃ i d d' c s b, n = .uforLoopStmt i d c s b ∧ m = .uforLoopStmt i d' c s b := by
  cases n <;> cases m <;> simp only [Node.parts] at hp <;> cases hp
  · exact Or.inl rfl
  · exact Or.inl rfl
  · exact Or.inl rfl
  · exact Or.inr ⟨_, _, _, _, _, _, rfl, rfl⟩
  · exact Or.inl rfl

/-- Two nodes with the same parts cannot be told apart by `isEqualTo`, neither
as the receiver nor as the argument of the call. -/
theorem value_isEqualTo_same_node_parts (h : Heap) (s t : Nat)
    (hst : (h.node (some s)).map Node.parts = (h.node (some t)).map Node.parts)
    (fuel : Nat) (x : Ptr) :
    Value.isEqualTo fuel h (some s) x = Value.isEqualTo fuel h (some t) x ∧
    Value.isEqualTo fuel h x (some s) = Value.isEqualTo fuel h x (some t) := by
  cases fuel with
  | zero => exact ⟨rfl, rfl⟩
  | succ f =>
    cases hs : h.node (some s) with
    | none =>
      cases ht : h.node (some t) with
      | some m => simp [hs, ht] at hst
      | none =>
        refine ⟨by simp only [Value.isEqualTo, hs, ht], ?_⟩
        cases x with
        | none => rfl
        | some this =>
          cases hn : h.node (some this) with
          | none => simp only [Value.isEqualTo, hn]
          | some n =>
            cases n <;>
              simp only [Value.isEqualTo, hn, EqOpExpr.isEqualTo, EqOpExpr.operands,
                OrOpExpr.isEqualTo, OrOpExpr.operands, CallStmt.isEqualTo, CallStmt.getCall,
                CallStmt.callOf, UForLoopStmt.isEqualTo, Other.isEqualTo, Other.fields, hs, ht]
    | some n =>
      cases ht : h.node (some t) with
      | none => simp [hs, ht] at hst
      | some m =>
        rw [hs, ht] at hst
        simp only [Option.map_some', Option.some.injEq] at hst
        have harg : Value.isEqualTo (f + 1) h x (some s) =
            Value.isEqualTo (f + 1) h x (some t) := by
          cases x with
          | none => rfl
          | some this =>
            cases hn : h.node (some this) with
            | none => simp only [Value.isEqualTo, hn]
            | some k =>
              rcases Node.parts_eq_cases hst with hm | ⟨i, d, d', c, st, b, e1, e2⟩
              · subst hm
                cases k <;>
                  simp only [Value.isEqualTo, hn, EqOpExpr.isEqualTo, EqOpExpr.operands,
                    OrOpExpr.isEqualTo, OrOpExpr.operands, CallStmt.isEqualTo,
                    CallStmt.getCall, CallStmt.callOf, UForLoopStmt.isEqualTo,
                    Other.isEqualTo, Other.fields, hs, ht]
              · subst e1
                subst e2
                cases k <;>
                  simp only [Value.isEqualTo, hn, EqOpExpr.isEqualTo, EqOpExpr.operands,
                    OrOpExpr.isEqualTo, OrOpExpr.operands, CallStmt.isEqualTo,
                    CallStmt.getCall, CallStmt.callOf, UForLoopStmt.isEqualTo,
                    Other.isEqualTo, Other.fields, hs, ht]
        refine ⟨?_, harg⟩
        rcases Node.parts_eq_cases hst with hm | ⟨i, d, d', c, st, b, e1, e2⟩
        · subst hm
          cases m <;>
            simp only [Value.isEqualTo, EqOpExpr.isEqualTo, EqOpExpr.operands,
              OrOpExpr.isEqualTo, OrOpExpr.operands, CallStmt.isEqualTo,
              CallStmt.getCall, CallStmt.callOf, UForLoopStmt.isEqualTo,
              Other.isEqualTo, Other.fields, hs, ht]
        · subst e1
          subst e2
          simp only [Value.isEqualTo, UForLoopStmt.isEqualTo, hs, ht]

/-- C34: the comparison of two statements reads the owned sub-parts only. The
answer of `isEqualTo` on two call statements is the answer of `isEqualTo` on the
two contained calls, and on two loops it is the short-circuit conjunction of the
answers on the inits, the conds, the steps and the bodies; no comparison changes
when successors, addresses, metadata, observers or the flag `initIsDefinition`
change anywhere in the heap (also through `setSuccessor`, `setMetadata` and
`markInitAsDefinition`); two nodes with the same sub-parts cannot be told apart
by `isEqualTo`, neither as the receiver nor as the argument, so that
`s->isEqualTo(t)` returns what `s->isEqualTo(s)` returns; and two statements
with the same sub-parts, each of which is `isEqualTo` itself, are `isEqualTo`
each other whatever their successors, addresses, metadata and flags are. -/
theorem statement_isEqualTo_reads_parts (fuel : Nat) (h : Heap) (s : Nat) (t : Ptr) :
    (∀ c1 c2, h.node (some s) = some (.callStmt c1) → h.node t = some (.callStmt c2) →
      Value.isEqualTo (fuel + 1) h (some s) t = Value.isEqualTo fuel h c1 c2) ∧
    (∀ i d c st b i' d' c' st' b', h.node (some s) = some (.uforLoopStmt i d c st b) →
      h.node t = some (.uforLoopStmt i' d' c' st' b') →
      Value.isEqualTo (fuel + 1) h (some s) t =
        andAlso (Value.isEqualTo fuel h i i')
          (andAlso (Value.isEqualTo fuel h c c')
            (andAlso (Value.isEqualTo fuel h st st') (Value.isEqualTo fuel h b b')))) ∧
    (∀ h', h.SameParts h' → ∀ n x y, Value.isEqualTo n h' x y = Value.isEqualTo n h x y) ∧
    (∀ h' a p md, Statement.setSuccessor h a p = .ok h' ∨ Value.setMetadata h a md = .ok h' ∨
        UForLoopStmt.markInitAsDefinition h a = .ok h' →
      ∀ n x y, Value.isEqualTo n h' x y = Value.isEqualTo n h x y) ∧
    (∀ u, (h.node (some s)).map Node.parts = (h.node (some u)).map Node.parts →
      ∀ n x, Value.isEqualTo n h (some s) x = Value.isEqualTo n h (some u) x ∧
        Value.isEqualTo n h x (some s) = Value.isEqualTo n h x (some u)) ∧
    (∀ c, h.node (some s) = some (.callStmt c) → h.node t = some (.callStmt c) →
      Value.isEqualTo fuel h c c = .ok true →
      Value.isEqualTo (fuel + 1) h (some s) t = .ok true) ∧
    (∀ i d d' c st b, h.node (some s) = some (.uforLoopStmt i d c st b) →
      h.node t = some (.uforLoopStmt i d' c st b) →
      Value.isEqualTo fuel h i i = .ok true → Value.isEqualTo fuel h c c = .ok true →
      Value.isEqualTo fuel h st st = .ok true → Value.isEqualTo fuel h b b = .ok true →
      Value.isEqualTo (fuel + 1) h (some s) t = .ok true) := by
  have hcall : ∀ c1 c2, h.node (some s) = some (.callStmt c1) →
      h.node t = some (.callStmt c2) →
      Value.isEqualTo (fuel + 1) h (some s) t = Value.isEqualTo fuel h c1 c2 := by
    intro c1 c2 hs ht
    simp only [Value.isEqualTo, hs, CallStmt.isEqualTo, CallStmt.getCall, CallStmt.callOf, ht,
      bind_ok]
  have hloop : ∀ i d c st b i' d' c' st' b',
      h.node (some s) = some (.uforLoopStmt i d c st b) →
      h.node t = some (.uforLoopStmt i' d' c' st' b') →
      Value.isEqualTo (fuel + 1) h (some s) t =
        andAlso (Value.isEqualTo fuel h i i')
          (andAlso (Value.isEqualTo fuel h c c')
            (andAlso (Value.isEqualTo fuel h st st') (Value.isEqualTo fuel h b b'))) := by
    intro i d c st b i' d' c' st' b' hs ht
    simp only [Value.isEqualTo, hs, UForLoopStmt.isEqualTo, ht]
  refine ⟨hcall, hloop, fun h' hs n x y => value_isEqualTo_sameParts hs n x y, ?_,
    fun u hu n x => value_isEqualTo_same_node_parts h s u hu n x, ?_, ?_⟩
  · intro h' a p md hset n x y
    refine value_isEqualTo_sameParts ?_ n x y
    rcases hset with hset | hset | hset
    · rw [Statement.setSuccessor_ok _ (Statement.setSuccessor_lt hset)] at hset
      cases hset
      exact Heap.SameParts.of_update h a _ (fun _ => rfl)
    · simp only [Value.setMetadata] at hset
      split at hset
      · cases hset
        exact Heap.SameParts.of_update h a _ (fun _ => rfl)
      · cases hset
    · simp only [UForLoopStmt.markInitAsDefinition] at hset
      cases hg : UForLoopStmt.getInit h a with
      | error e =>
        rw [hg] at hset
        cases hset
      | ok v =>
        rw [hg] at hset
        cases hset
        refine Heap.SameParts.of_update h a _ (fun c => ?_)
        cases hc : c.node <;> simp [Node.withInitIsDefinition, Node.parts, hc]
  · intro c hs ht hc
    rw [hcall c c hs ht]
    exact hc
  · intro i d d' c st b hs ht hi hc hst hb
    rw [hloop i d c st b i d' c st b hs ht]
    exact andAlso_eq_true.2 ⟨hi, andAlso_eq_true.2 ⟨hc, andAlso_eq_true.2 ⟨hst, hb⟩⟩⟩

/-- In `variantHeap` the call statements of cells 6 and 7 differ in successor,
address and metadata and are equal; the loops of cells 8 and 9 differ in
successor, address, metadata and flag and are equal. -/
theorem statement_isEqualTo_reads_parts_witness :
    Statement.getSuccessor variantHeap 6 = .ok none ∧
    Statement.getSuccessor variantHeap 7 = .ok (some 6) ∧
    Value.getAddress variantHeap 6 = .ok 0 ∧ Value.getAddress variantHeap 7 = .ok 42 ∧
    Value.getMetadata variantHeap 6 = .ok "" ∧ Value.getMetadata variantHeap 7 = .ok "md" ∧
    Value.isEqualTo 3 variantHeap (some 6) (some 7) = .ok true ∧
    Value.isEqualTo 3 variantHeap (some 7) (some 6) = .ok true ∧
    UForLoopStmt.isInitDefinition variantHeap 8 = .ok false ∧
    UForLoopStmt.isInitDefinition variantHeap 9 = .ok true ∧
    Statement.getSuccessor variantHeap 8 = .ok none ∧
    Statement.getSuccessor variantHeap 9 = .ok (some 7) ∧
    Value.getAddress variantHeap 8 = .ok 7 ∧ Value.getAddress variantHeap 9 = .ok 9 ∧
    Value.isEqualTo 2 variantHeap (some 8) (some 9) = .ok true ∧
    Value.isEqualTo 2 variantHeap (some 9) (some 8) = .ok true :=
  ⟨by decide, by decide, by decide, by decide, by decide, by decide,
    (statement_isEqualTo_reads_parts 2 variantHeap 6 (some 7)).2.2.2.2.2.1 (some 5)
      (by decide) (by decide) (by decide),
    (statement_isEqualTo_reads_parts 2 variantHeap 7 (some 6)).2.2.2.2.2.1 (some 5)
      (by decide) (by decide) (by decide),
    by decide, by decide, by decide, by decide, by decide, by decide,
    (statement_isEqualTo_reads_parts 1 variantHeap 8 (some 9)).2.2.2.2.2.2 (some 0) false true
      (some 1) (some 2) (some 3) (by decide) (by decide) (by decide) (by decide) (by decide)
      (by decide),
    (statement_isEqualTo_reads_parts 1 variantHeap 9 (some 8)).2.2.2.2.2.2 (some 0) true false
      (some 1) (some 2) (some 3) (by decide) (by decide) (by decide) (by decide) (by decide)
      (by decide)⟩

/-! ## Theorems: the frame of the operations on a loop -/

theorem BinaryOpExpr.setFirstOperand_fields {h h' : Heap} {x : Nat} {first : Ptr}
    (hs : BinaryOpExpr.setFirstOperand h x first = .ok h') (a : Nat) :
    Statement.getSuccessor h' a = Statement.getSuccessor h a ∧
    Value.getMetadata h' a = Value.getMetadata h a ∧
    Value.getAddress h' a = Value.getAddress h a := by
  cases first with
  | none => simp [BinaryOpExpr.setFirstOperand] at hs
  | some e =>
    simp only [BinaryOpExpr.setFirstOperand] at hs
    obtain ⟨⟨op1, op2⟩, _, hs⟩ := bind_eq_ok hs
    exact rewire_fields _ h h' x e op1 hs a

theorem BinaryOpExpr.setSecondOperand_fields {h h' : Heap} {x : Nat} {second : Ptr}
    (hs : BinaryOpExpr.setSecondOperand h x second = .ok h') (a : Nat) :
    Statement.getSuccessor h' a = Statement.getSuccessor h a ∧
    Value.getMetadata h' a = Value.getMetadata h a ∧
    Value.getAddress h' a = Value.getAddress h a := by
  cases second with
  | none => simp [BinaryOpExpr.setSecondOperand] at hs
  | some e =>
    simp only [BinaryOpExpr.setSecondOperand] at hs
    obtain ⟨⟨op1, op2⟩, _, hs⟩ := bind_eq_ok hs
    exact rewire_fields _ h h' x e op2 hs a

theorem Other.setOperand_fields {h h' : Heap} {x i : Nat} {newOp : Ptr}
    (hs : Other.setOperand h x i newOp = .ok h') (a : Nat) :
    Statement.getSuccessor h' a = Statement.getSuccessor h a ∧
    Value.getMetadata h' a = Value.getMetadata h a ∧
    Value.getAddress h' a = Value.getAddress h a := by
  cases newOp with
  | none => simp [Other.setOperand] at hs
  | some e =>
    simp only [Other.setOperand] at hs
    cases hf : Other.fields h (some x) with
    | none => simp [hf] at hs
    | some y =>
      obtain ⟨cls, d, ops⟩ := y
      simp only [hf] at hs
      exact rewire_fields _ h h' x e _ hs a

theorem binaryOpExpr_replace_fields (v : Heap → Ptr → Ptr → Ptr → Except Err Heap)
    (hv : ∀ g p o n g', v g p o n = .ok g' → ∀ a,
      Statement.getSuccessor g' a = Statement.getSuccessor g a ∧
      Value.getMetadata g' a = Value.getMetadata g a ∧
      Value.getAddress g' a = Value.getAddress g a)
    (h h' : Heap) (x : Nat) (oldExpr newExpr : Ptr)
    (hr : BinaryOpExpr.replace v h x oldExpr newExpr = .ok h') (a : Nat) :
    Statement.getSuccessor h' a = Statement.getSuccessor h a ∧
    Value.getMetadata h' a = Value.getMetadata h a ∧
    Value.getAddress h' a = Value.getAddress h a := by
  unfold BinaryOpExpr.replace at hr
  obtain ⟨⟨op1, q1⟩, _, hr⟩ := bind_eq_ok hr
  obtain ⟨h1, e1, hr⟩ := bind_eq_ok hr
  obtain ⟨⟨q2, op2⟩, _, hr⟩ := bind_eq_ok hr
  dsimp only at e1 hr
  have v1 : Statement.getSuccessor h1 a = Statement.getSuccessor h a ∧
      Value.getMetadata h1 a = Value.getMetadata h a ∧
      Value.getAddress h1 a = Value.getAddress h a := by
    by_cases c1 : oldExpr = op1
    · rw [if_pos c1] at e1
      exact BinaryOpExpr.setFirstOperand_fields e1 a
    · rw [if_neg c1] at e1
      by_cases c2 : op1.isSome = true
      · rw [if_pos c2] at e1
        exact hv _ _ _ _ _ e1 a
      · rw [if_neg c2] at e1
        cases e1
        exact ⟨rfl, rfl, rfl⟩
  have v2 : Statement.getSuccessor h' a = Statement.getSuccessor h1 a ∧
      Value.getMetadata h' a = Value.getMetadata h1 a ∧
      Value.getAddress h' a = Value.getAddress h1 a := by
    by_cases c1 : oldExpr = op2
    · rw [if_pos c1] at hr
      exact BinaryOpExpr.setSecondOperand_fields hr a
    · rw [if_neg c1] at hr
      by_cases c2 : op2.isSome = true
      · rw [if_pos c2] at hr
        exact hv _ _ _ _ _ hr a
      · rw [if_neg c2] at hr
        cases hr
        exact ⟨rfl, rfl, rfl⟩
  exact ⟨v2.1.trans v1.1, v2.2.1.trans v1.2.1, v2.2.2.trans v1.2.2⟩

theorem Other.replaceFrom_fields (v : Heap → Ptr → Ptr → Ptr → Except Err Heap)
    (hv : ∀ g p o n g', v g p o n = .ok g' → ∀ a,
      Statement.getSuccessor g' a = Statement.getSuccessor g a ∧
      Value.getMetadata g' a = Value.getMetadata g a ∧
      Value.getAddress g' a = Value.getAddress g a)
    (x : Nat) (oldExpr newExpr : Ptr) (ops : List Ptr) (i : Nat)
    (h h' : Heap) (hr : Other.replaceFrom v x oldExpr newExpr ops i h = .ok h') (a : Nat) :
    Statement.getSuccessor h' a = Statement.getSuccessor h a ∧
    Value.getMetadata h' a = Value.getMetadata h a ∧
    Value.getAddress h' a = Value.getAddress h a := by
  induction ops generalizing i h with
  | nil =>
    simp only [Other.replaceFrom] at hr
    cases hr
    exact ⟨rfl, rfl, rfl⟩
  | cons op ops ih =>
    simp only [Other.replaceFrom] at hr
    obtain ⟨h1, e1, hr⟩ := bind_eq_ok hr
    have v1 : Statement.getSuccessor h1 a = Statement.getSuccessor h a ∧
        Value.getMetadata h1 a = Value.getMetadata h a ∧
        Value.getAddress h1 a = Value.getAddress h a := by
      by_cases c1 : oldExpr = op
      · rw [if_pos c1] at e1
        exact Other.setOperand_fields e1 a
      · rw [if_neg c1] at e1
        by_cases c2 : op.isSome = true
        · rw [if_pos c2] at e1
          exact hv _ _ _ _ _ e1 a
        · rw [if_neg c2] at e1
          cases e1
          exact ⟨rfl, rfl, rfl⟩
    have v2 := ih (i + 1) h1 hr
    exact ⟨v2.1.trans v1.1, v2.2.1.trans v1.2.1, v2.2.2.trans v1.2.2⟩

/-- The virtual call `replace` on an expression changes neither the successor,
nor the metadata, nor the address of any node. -/
theorem expression_replace_fields (fuel : Nat) (h h' : Heap) (p oldExpr newExpr : Ptr)
    (hr : Expression.replace fuel h p oldExpr newExpr = .ok h') (a : Nat) :
    Statement.getSuccessor h' a = Statement.getSuccessor h a ∧
    Value.getMetadata h' a = Value.getMetadata h a ∧
    Value.getAddress h' a = Value.getAddress h a := by
  induction fuel generalizing h h' p oldExpr newExpr a with
  | zero => simp [Expression.replace] at hr
  | succ f ih =>
    cases p with
    | none => simp [Expression.replace] at hr
    | some x =>
      have hv : ∀ g p o n g', Expression.replace f g p o n = .ok g' → ∀ a,
          Statement.getSuccessor g' a = Statement.getSuccessor g a ∧
          Value.getMetadata g' a = Value.getMetadata g a ∧
          Value.getAddress g' a = Value.getAddress g a :=
        fun g p o n g' hx a => ih g g' p o n hx a
      cases hn : h.node (some x) with
      | none => simp [Expression.replace, hn] at hr
      | some n =>
        cases n with
        | eqOpExpr u w =>
          simp only [Expression.replace, hn] at hr
          exact binaryOpExpr_replace_fields _ hv h h' x _ _ hr a
        | orOpExpr u w =>
          simp only [Expression.replace, hn] at hr
          exact binaryOpExpr_replace_fields _ hv h h' x _ _ hr a
        | callStmt u => simp [Expression.replace, hn] at hr
        | uforLoopStmt u b c d e => simp [Expression.replace, hn] at hr
        | other cls d ops =>
          simp only [Expression.replace, hn] at hr
          by_cases hcls : cls.isExpression = true
          · simp only [hcls, if_true, Other.replace, Other.fields_eq_some.2 hn] at hr
            exact Other.replaceFrom_fields _ hv x _ _ ops 0 h h' hr a
          · simp [hcls] at hr

theorem UForLoopStmt.Frame.frame_refl (this : Nat) (h : Heap) : UForLoopStmt.Frame this h h :=
  ⟨rfl, fun _ => ⟨rfl, rfl, rfl⟩, fun _ _ _ _ hn => hn⟩

theorem UForLoopStmt.Frame.frame_trans {this : Nat} {h1 h2 h3 : Heap}
    (h12 : UForLoopStmt.Frame this h1 h2) (h23 : UForLoopStmt.Frame this h2 h3) :
    UForLoopStmt.Frame this h1 h3 :=
  ⟨h23.1.trans h12.1,
    fun a => ⟨((h23.2.1 a).1).trans (h12.2.1 a).1, ((h23.2.1 a).2.1).trans (h12.2.1 a).2.1,
      ((h23.2.1 a).2.2).trans (h12.2.1 a).2.2⟩,
    fun a nd ha hnd hn => h23.2.2 a nd ha hnd (h12.2.2 a nd ha hnd hn)⟩

theorem rewire_frame (g : Node → Node) (h h' : Heap) (this e : Nat) (old : Ptr)
    (hset : ((Subject.removeObserver h old this).bind fun h1 =>
      (Subject.addObserver h1 (some e) this).bind fun h2 =>
        .ok (h2.update this fun c => { c with node := g c.node })) = .ok h') :
    UForLoopStmt.Frame this h h' := by
  obtain ⟨iv, _, _, _, hl, hnode, _⟩ := rewire_spec g h h' this e old hset
  refine ⟨hl, fun a => rewire_fields g h h' this e old hset a, fun a nd ha _ hn => ?_⟩
  rw [hnode, if_neg ha]
  exact hn

theorem expression_replace_loopFrame (this : Nat) (fuel : Nat) (h h' : Heap)
    (p oldExpr newExpr : Ptr) (hr : Expression.replace fuel h p oldExpr newExpr = .ok h') :
    UForLoopStmt.Frame this h h' :=
  ⟨expression_replace_length fuel h h' p oldExpr newExpr hr,
    fun a => expression_replace_fields fuel h h' p oldExpr newExpr hr a,
    fun a nd _ hnd hn =>
      (expression_replace_frame a nd hnd fuel h h' p oldExpr newExpr hn hr).1.trans hn⟩

theorem Heap.node_update_node (h : Heap) (a : Nat) (g : Node → Node) (b : Nat) :
    (h.update a fun c => { c with node := g c.node }).node (some b) =
      if b = a then (h.node (some b)).map g else h.node (some b) := by
  simp only [Heap.node, Heap.getElem?_update]
  by_cases hab : b = a
  · subst hab
    simp only [if_true]
    cases h[b]? <;> simp
  · have hba : ¬ a = b := fun x => hab x.symm
    simp only [hab, hba, if_false]

theorem UForLoopStmt.setInit_node {h h' : Heap} {this : Nat} {p i c s b : Ptr} {d : Bool}
    (hn : h.node (some this) = some (.uforLoopStmt i d c s b))
    (hs : UForLoopStmt.setInit h this p = .ok h') :
    h'.node (some this) = some (.uforLoopStmt p d c s b) ∧ UForLoopStmt.Frame this h h' := by
  cases p with
  | none => simp [UForLoopStmt.setInit] at hs
  | some e =>
    simp only [UForLoopStmt.setInit] at hs
    obtain ⟨init, _, hs⟩ := bind_eq_ok hs
    obtain ⟨iv, _, _, _, _, hnode, _⟩ := rewire_spec _ h h' this e init hs
    refine ⟨?_, rewire_frame _ h h' this e init hs⟩
    rw [hnode, if_pos rfl, hn]
    rfl

theorem UForLoopStmt.setCond_node {h h' : Heap} {this : Nat} {p i c s b : Ptr} {d : Bool}
    (hn : h.node (some this) = some (.uforLoopStmt i d c s b))
    (hs : UForLoopStmt.setCond h this p = .ok h') :
    h'.node (some this) = some (.uforLoopStmt i d p s b) ∧ UForLoopStmt.Frame this h h' := by
  cases p with
  | none => simp [UForLoopStmt.setCond] at hs
  | some e =>
    simp only [UForLoopStmt.setCond] at hs
    obtain ⟨cond, _, hs⟩ := bind_eq_ok hs
    obtain ⟨cv, _, _, _, _, hnode, _⟩ := rewire_spec _ h h' this e cond hs
    refine ⟨?_, rewire_frame _ h h' this e cond hs⟩
    rw [hnode, if_pos rfl, hn]
    rfl

theorem UForLoopStmt.setStep_node {h h' : Heap} {this : Nat} {p i c s b : Ptr} {d : Bool}
    (hn : h.node (some this) = some (.uforLoopStmt i d c s b))
    (hs : UForLoopStmt.setStep h this p = .ok h') :
    h'.node (some this) = some (.uforLoopStmt i d c p b) ∧ UForLoopStmt.Frame this h h' := by
  cases p with
  | none => simp [UForLoopStmt.setStep] at hs
  | some e =>
    simp only [UForLoopStmt.setStep] at hs
    obtain ⟨step, _, hs⟩ := bind_eq_ok hs
    obtain ⟨sv, _, _, _, _, hnode, _⟩ := rewire_spec _ h h' this e step hs
    refine ⟨?_, rewire_frame _ h h' this e step hs⟩
    rw [hnode, if_pos rfl, hn]
    rfl

theorem UForLoopStmt.setBody_node {h h' : Heap} {this : Nat} {p i c s b : Ptr} {d : Bool}
    (hn : h.node (some this) = some (.uforLoopStmt i d c s b))
    (hs : UForLoopStmt.setBody h this p = .ok h') :
    h'.node (some this) = some (.uforLoopStmt i d c s p) ∧ UForLoopStmt.Frame this h h' := by
  cases p with
  | none => simp [UForLoopStmt.setBody] at hs
  | some e =>
    simp only [UForLoopStmt.setBody] at hs
    obtain ⟨body, _, hs⟩ := bind_eq_ok hs
    obtain ⟨bv, _, _, _, _, hnode, _⟩ := rewire_spec _ h h' this e body hs
    refine ⟨?_, rewire_frame _ h h' this e body hs⟩
    rw [hnode, if_pos rfl, hn]
    rfl

/-- A forwarded call of `replace` on a retained part: the loop keeps its node. -/
theorem UForLoopStmt.retained_node {g g' : Heap} {this fuel : Nat} {p o n : Ptr}
    {i c s b : Ptr} {d : Bool}
    (hn : g.node (some this) = some (.uforLoopStmt i d c s b))
    (hr : (if p.isSome then Expression.replace fuel g p o n else .ok g) = .ok g') :
    g'.node (some this) = some (.uforLoopStmt i d c s b) ∧ UForLoopStmt.Frame this g g' := by
  refine ⟨(UForLoopStmt.retained_sameView hn hr).1.trans hn, ?_⟩
  by_cases hp : p.isSome = true
  · rw [if_pos hp] at hr
    exact expression_replace_loopFrame this fuel g g' p o n hr
  · rw [if_neg hp] at hr
    cases hr
    exact UForLoopStmt.Frame.frame_refl this _

/-- The node of the loop after `UForLoopStmt::replace`, when it returns: `init`
and `step` are tested on their own, `cond`, the flag and the body are kept; and
the frame of the call. -/
theorem UForLoopStmt.replace_node {h h' : Heap} {this fuel : Nat} {o n i c s b : Ptr}
    {d : Bool} (hn : h.node (some this) = some (.uforLoopStmt i d c s b))
    (hr : UForLoopStmt.replace (Expression.replace fuel) h this o n = .ok h') :
    h'.node (some this) =
      some (.uforLoopStmt (if o = i then n else i) d c (if o = s then n else s) b) ∧
    UForLoopStmt.Frame this h h' := by
  unfold UForLoopStmt.replace at hr
  rw [UForLoopStmt.getInit_of_node hn, bind_ok] at hr
  obtain ⟨h1, e1, hr⟩ := bind_eq_ok hr
  have p1 : h1.node (some this) = some (.uforLoopStmt (if o = i then n else i) d c s b) ∧
      UForLoopStmt.Frame this h h1 := by
    by_cases a1 : o = i
    · rw [if_pos a1] at e1
      rw [if_pos a1]
      exact UForLoopStmt.setInit_node hn e1
    · rw [if_neg a1] at e1
      rw [if_neg a1]
      exact UForLoopStmt.retained_node hn e1
  obtain ⟨hn1, f1⟩ := p1
  rw [UForLoopStmt.getCond_of_node hn1, bind_ok] at hr
  obtain ⟨h2, e2, hr⟩ := bind_eq_ok hr
  have p2 : h2.node (some this) = some (.uforLoopStmt (if o = i then n else i) d c s b) ∧
      UForLoopStmt.Frame this h1 h2 := by
    by_cases a2 : o = c
    · rw [if_pos a2] at e2
      exact UForLoopStmt.setCond_node hn1 e2
    · rw [if_neg a2] at e2
      exact UForLoopStmt.retained_node hn1 e2
  obtain ⟨hn2, f2⟩ := p2
  rw [UForLoopStmt.getStep_of_node hn2, bind_ok] at hr
  have p3 : h'.node (some this) =
      some (.uforLoopStmt (if o = i then n else i) d c (if o = s then n else s) b) ∧
      UForLoopStmt.Frame this h2 h' := by
    by_cases a3 : o = s
    · rw [if_pos a3] at hr
      rw [if_pos a3]
      exact UForLoopStmt.setStep_node hn2 hr
    · rw [if_neg a3] at hr
      rw [if_neg a3]
      exact UForLoopStmt.retained_node hn2 hr
  exact ⟨p3.1, (f1.frame_trans f2).frame_trans p3.2⟩

/-- The node of the loop after `UForLoopStmt::update`, when it returns: at most
one of the four parts is assigned, the flag is kept; and the frame of the call. -/
theorem UForLoopStmt.update_node {h h' : Heap} {this : Nat} {subject arg i c s b : Ptr}
    {d : Bool} (hn : h.node (some this) = some (.uforLoopStmt i d c s b))
    (hu : UForLoopStmt.update h this subject arg = .ok h') :
    (h'.node (some this) = some (.uforLoopStmt i d c s b) ∨
      (subject = b ∧ h'.node (some this) = some (.uforLoopStmt i d c s arg)) ∨
      (subject = i ∧ h'.node (some this) = some (.uforLoopStmt arg d c s b)) ∨
      (subject ≠ i ∧ subject = c ∧ h'.node (some this) = some (.uforLoopStmt i d arg s b)) ∨
      (subject ≠ i ∧ subject ≠ c ∧ subject = s ∧
        h'.node (some this) = some (.uforLoopStmt i d c arg b))) ∧
    UForLoopStmt.Frame this h h' := by
  have hcast : ∀ (isT : Node → Bool), (cast isT h arg).isSome = true → cast isT h arg = arg :=
    fun isT hc => isa_cast hc
  cases subject with
  | none => simp [UForLoopStmt.update] at hu
  | some e =>
    simp only [UForLoopStmt.update, UForLoopStmt.getBody_of_node hn, bind_ok] at hu
    by_cases hb : some e = b ∧ (cast Node.isStatement h arg).isSome = true
    · rw [if_pos hb] at hu
      have hx := UForLoopStmt.setBody_node hn hu
      rw [hcast _ hb.2] at hx
      exact ⟨Or.inr (Or.inl ⟨hb.1, hx.1⟩), hx.2⟩
    · rw [if_neg hb] at hu
      by_cases hx : (cast Node.isExpression h arg).isSome = false
      · rw [if_pos hx] at hu
        cases hu
        exact ⟨Or.inl hn, UForLoopStmt.Frame.frame_refl this _⟩
      · rw [if_neg hx] at hu
        have hx' : (cast Node.isExpression h arg).isSome = true := by
          cases hq : (cast Node.isExpression h arg).isSome
          · exact absurd hq hx
          · rfl
        rw [UForLoopStmt.getInit_of_node hn, bind_ok, UForLoopStmt.getCond_of_node hn, bind_ok,
          UForLoopStmt.getStep_of_node hn, bind_ok, hcast _ hx'] at hu
        by_cases h1 : some e = i
        · rw [if_pos h1] at hu
          have hy := UForLoopStmt.setInit_node hn hu
          exact ⟨Or.inr (Or.inr (Or.inl ⟨h1, hy.1⟩)), hy.2⟩
        · rw [if_neg h1] at hu
          by_cases h2 : some e = c
          · rw [if_pos h2] at hu
            have hy := UForLoopStmt.setCond_node hn hu
            exact ⟨Or.inr (Or.inr (Or.inr (Or.inl ⟨h1, h2, hy.1⟩))), hy.2⟩
          · rw [if_neg h2] at hu
            by_cases h3 : some e = s
            · rw [if_pos h3] at hu
              have hy := UForLoopStmt.setStep_node hn hu
              exact ⟨Or.inr (Or.inr (Or.inr (Or.inr ⟨h1, h2, h3, hy.1⟩))), hy.2⟩
            · rw [if_neg h3] at hu
              cases hu
              exact ⟨Or.inl hn, UForLoopStmt.Frame.frame_refl this _⟩

/-! ## Theorems: the flag `initIsDefinition` -/

theorem Heap.update_idem (h : Heap) (a : Nat) (f : Cell → Cell) (hf : ∀ c, f (f c) = f c) :
    (h.update a f).update a f = h.update a f := by
  apply List.ext_getElem?
  intro b
  rw [Heap.getElem?_update, Heap.getElem?_update]
  by_cases hab : a = b
  · simp only [hab, if_true]
    cases h[b]? <;> simp [hf]
  · simp only [hab, if_false]

theorem UForLoopStmt.isInitDefinition_of_node {h : Heap} {this : Nat} {i c s b : Ptr} {d : Bool}
    (hn : h.node (some this) = some (.uforLoopStmt i d c s b)) :
    UForLoopStmt.isInitDefinition h this = .ok d := by
  simp [UForLoopStmt.isInitDefinition, hn]

theorem UForLoopStmt.isInitDefinition_eq_ok {h : Heap} {this : Nat} {d : Bool}
    (hg : UForLoopStmt.isInitDefinition h this = .ok d) :
    ∃ i c s b, h.node (some this) = some (.uforLoopStmt i d c s b) := by
  unfold UForLoopStmt.isInitDefinition at hg
  split at hg
  · cases hg
    exact ⟨_, _, _, _, by assumption⟩
  · cases hg

/-- Every call on a loop that returns keeps the flag `initIsDefinition`. -/
theorem UForLoopStmt.Op.keeps_flag {this : Nat} {h h' : Heap} {d : Bool}
    (hop : UForLoopStmt.Op this h h') (hd : UForLoopStmt.isInitDefinition h this = .ok d) :
    UForLoopStmt.isInitDefinition h' this = .ok d := by
  obtain ⟨i, c, s, b, hn⟩ := UForLoopStmt.isInitDefinition_eq_ok hd
  cases hop with
  | setInit p hs => exact UForLoopStmt.isInitDefinition_of_node (UForLoopStmt.setInit_node hn hs).1
  | setCond p hs => exact UForLoopStmt.isInitDefinition_of_node (UForLoopStmt.setCond_node hn hs).1
  | setStep p hs => exact UForLoopStmt.isInitDefinition_of_node (UForLoopStmt.setStep_node hn hs).1
  | setBody p hs => exact UForLoopStmt.isInitDefinition_of_node (UForLoopStmt.setBody_node hn hs).1
  | replace fuel o n hr =>
    exact UForLoopStmt.isInitDefinition_of_node (UForLoopStmt.replace_node hn hr).1
  | update subject arg hu =>
    rcases (UForLoopStmt.update_node hn hu).1 with hx | ⟨_, hx⟩ | ⟨_, hx⟩ | ⟨_, _, hx⟩ |
      ⟨_, _, _, hx⟩ <;> exact UForLoopStmt.isInitDefinition_of_node hx

theorem UForLoopStmt.Op.keeps_flag_star {this : Nat} {h h' : Heap} {d : Bool}
    (hops : Relation.ReflTransGen (UForLoopStmt.Op this) h h')
    (hd : UForLoopStmt.isInitDefinition h this = .ok d) :
    UForLoopStmt.isInitDefinition h' this = .ok d := by
  induction hops with
  | refl => exact hd
  | tail _ hop ih => exact hop.keeps_flag ih

/-- The effect of `UForLoopStmt::markInitAsDefinition` on a loop. -/
theorem UForLoopStmt.markInitAsDefinition_spec {h : Heap} {this : Nat} {i c s b : Ptr}
    {d : Bool} (hn : h.node (some this) = some (.uforLoopStmt i d c s b)) :
    ∃ h', UForLoopStmt.markInitAsDefinition h this = .ok h' ∧
      h'.node (some this) = some (.uforLoopStmt i true c s b) ∧
      h'.length = h.length ∧
      (∀ a, a ≠ this → h'.node (some a) = h.node (some a)) ∧
      (∀ a, Statement.getSuccessor h' a = Statement.getSuccessor h a ∧
        Value.getMetadata h' a = Value.getMetadata h a ∧
        Value.getAddress h' a = Value.getAddress h a) ∧
      (∀ v o, Subject.hasObserver h' v o = Subject.hasObserver h v o) ∧
      UForLoopStmt.markInitAsDefinition h' this = .ok h' := by
  have hnode := Heap.node_update_node h this (Node.withInitIsDefinition true)
  have hn' : (h.update this fun c => { c with node := c.node.withInitIsDefinition true }).node
      (some this) = some (.uforLoopStmt i true c s b) := by
    rw [hnode, if_pos rfl, hn]
    rfl
  refine ⟨h.update this fun c => { c with node := c.node.withInitIsDefinition true }, ?_, hn',
    Heap.length_update _ _ _, fun a ha => ?_, fun a => ?_, fun v o => ?_, ?_⟩
  · simp only [UForLoopStmt.markInitAsDefinition, UForLoopStmt.getInit_of_node hn, bind_ok]
  · rw [hnode, if_neg ha]
  · exact Heap.fields_update h this
      (fun c => { c with node := c.node.withInitIsDefinition true })
      (fun _ => ⟨rfl, rfl, rfl⟩) a
  · exact Subject.hasObserver_update_same h this
      (fun c => { c with node := c.node.withInitIsDefinition true }) (fun _ => rfl) v o
  · simp only [UForLoopStmt.markInitAsDefinition, UForLoopStmt.getInit_of_node hn', bind_ok]
    rw [Heap.update_idem]
    intro c
    cases hc : c.node <;> simp [Node.withInitIsDefinition, hc]

/-- C37: the flag init-is-definition of a universal for-loop.
`isInitDefinition()` is false on every loop just returned by
`UForLoopStmt::create`. On every loop `markInitAsDefinition()` returns, the flag
is true afterwards, `init`, `cond`, `step` and `body` are the same, every node
keeps its successor, metadata and address, every observer registration is the
same, every other node is the same, and a second `markInitAsDefinition()`
returns the same heap. The value of the flag (true in particular) is kept by
every sequence of calls of `setInit`, `setCond`, `setStep`, `setBody`, `replace`
and `update` on the loop that return, whatever their arguments. -/
theorem initIsDefinition_flag (h : Heap) (this : Nat) :
    (∀ init cond step body succ a h',
      UForLoopStmt.create h init cond step body succ a = .ok (this, h') →
        UForLoopStmt.isInitDefinition h' this = .ok false) ∧
    (∀ i d c s b, h.node (some this) = some (.uforLoopStmt i d c s b) →
      ∃ h', UForLoopStmt.markInitAsDefinition h this = .ok h' ∧
        UForLoopStmt.isInitDefinition h' this = .ok true ∧
        UForLoopStmt.getInit h' this = .ok i ∧ UForLoopStmt.getCond h' this = .ok c ∧
        UForLoopStmt.getStep h' this = .ok s ∧ UForLoopStmt.getBody h' this = .ok b ∧
        (∀ a, Statement.getSuccessor h' a = Statement.getSuccessor h a ∧
          Value.getMetadata h' a = Value.getMetadata h a ∧
          Value.getAddress h' a = Value.getAddress h a) ∧
        (∀ v o, Subject.hasObserver h' v o = Subject.hasObserver h v o) ∧
        (∀ a, a ≠ this → h'.node (some a) = h.node (some a)) ∧
        UForLoopStmt.markInitAsDefinition h' this = .ok h') ∧
    (∀ d h', UForLoopStmt.isInitDefinition h this = .ok d →
      Relation.ReflTransGen (UForLoopStmt.Op this) h h' →
        UForLoopStmt.isInitDefinition h' this = .ok d) := by
  refine ⟨fun init cond step body succ a h' hc => ?_, fun i d c s b hn => ?_,
    fun d h' hd hops => UForLoopStmt.Op.keeps_flag_star hops hd⟩
  · exact UForLoopStmt.isInitDefinition_of_node (uForLoopStmt_create_spec hc).2.1
  · obtain ⟨h', hm, hn', _, hother, hfields, hobs, hidem⟩ :=
      UForLoopStmt.markInitAsDefinition_spec hn
    exact ⟨h', hm, UForLoopStmt.isInitDefinition_of_node hn',
      UForLoopStmt.getInit_of_node hn', UForLoopStmt.getCond_of_node hn',
      UForLoopStmt.getStep_of_node hn', UForLoopStmt.getBody_of_node hn', hfields, hobs,
      hother, hidem⟩

/-- The loop `for (i; c; s) {}` built by `create` on `leaves` is not marked; once
marked, it is still marked after `replace(i, n)` followed by `update(s, i)`. -/
theorem initIsDefinition_flag_witness :
    UForLoopStmt.create leaves (some 0) (some 1) (some 2) (some 3) none 7 = .ok (5, loopHeap) ∧
    UForLoopStmt.isInitDefinition loopHeap 5 = .ok false ∧
    UForLoopStmt.markInitAsDefinition loopHeap 5 = .ok markedLoop ∧
    UForLoopStmt.isInitDefinition markedLoop 5 = .ok true ∧
    UForLoopStmt.replace (Expression.replace 2) markedLoop 5 (some 0) (some 4) =
      .ok markedLoopReplaced ∧
    UForLoopStmt.update markedLoopReplaced 5 (some 2) (some 0) = .ok markedLoopChanged ∧
    UForLoopStmt.isInitDefinition markedLoopChanged 5 = .ok true := by
  have h1 : UForLoopStmt.create leaves (some 0) (some 1) (some 2) (some 3) none 7 =
      .ok (5, loopHeap) := by decide
  have r1 : UForLoopStmt.replace (Expression.replace 2) markedLoop 5 (some 0) (some 4) =
      .ok markedLoopReplaced := by decide
  have r2 : UForLoopStmt.update markedLoopReplaced 5 (some 2) (some 0) =
      .ok markedLoopChanged := by decide
  exact ⟨h1, (initIsDefinition_flag leaves 5).1 _ _ _ _ _ _ _ h1, by decide, by decide, r1, r2,
    (initIsDefinition_flag markedLoop 5).2.2 true markedLoopChanged (by decide)
      ((Relation.ReflTransGen.single (UForLoopStmt.Op.replace 2 (some 0) (some 4) r1)).tail
        (UForLoopStmt.Op.update (some 2) (some 0) r2))⟩

/-! ## Theorems: the frame of `UForLoopStmt::replace` -/

theorem UForLoopStmt.forwardOnlyTo_of_mem {parts : List Ptr}
    {v : Heap → Ptr → Ptr → Ptr → Except Err Heap} {p : Ptr} (hp : p ∈ parts)
    (g : Heap) (o n : Ptr) : UForLoopStmt.forwardOnlyTo parts v g p o n = v g p o n := by
  simp [UForLoopStmt.forwardOnlyTo, hp]

/-- The function `UForLoopStmt::replace` forwards the call to the parts `init`,
`cond` and `step` only: it is the same function when the virtual call fails on
every other receiver. -/
theorem UForLoopStmt.replace_forwards {h : Heap} {this fuel : Nat} {o n i c s b : Ptr}
    {d : Bool} (hn : h.node (some this) = some (.uforLoopStmt i d c s b)) :
    UForLoopStmt.replace (Expression.replace fuel) h this o n =
      UForLoopStmt.replace (UForLoopStmt.forwardOnlyTo [i, c, s] (Expression.replace fuel))
        h this o n := by
  have gi : ∀ g, UForLoopStmt.forwardOnlyTo [i, c, s] (Expression.replace fuel) g i o n =
      Expression.replace fuel g i o n :=
    fun g => UForLoopStmt.forwardOnlyTo_of_mem (by simp) g o n
  have gc : ∀ g, UForLoopStmt.forwardOnlyTo [i, c, s] (Expression.replace fuel) g c o n =
      Expression.replace fuel g c o n :=
    fun g => UForLoopStmt.forwardOnlyTo_of_mem (by simp) g o n
  have gs : ∀ g, UForLoopStmt.forwardOnlyTo [i, c, s] (Expression.replace fuel) g s o n =
      Expression.replace fuel g s o n :=
    fun g => UForLoopStmt.forwardOnlyTo_of_mem (by simp) g o n
  unfold UForLoopStmt.replace
  simp only [UForLoopStmt.getInit_of_node hn, bind_ok, gi]
  cases e1 : (if o = i then UForLoopStmt.setInit h this n
      else if i.isSome = true then Expression.replace fuel h i o n else .ok h) with
  | error e => rfl
  | ok h1 =>
    have hn1 : h1.node (some this) =
        some (.uforLoopStmt (if o = i then n else i) d c s b) := by
      by_cases a1 : o = i
      · rw [if_pos a1] at e1
        rw [if_pos a1]
        exact (UForLoopStmt.setInit_node hn e1).1
      · rw [if_neg a1] at e1
        rw [if_neg a1]
        exact (UForLoopStmt.retained_node hn e1).1
    simp only [bind_ok, UForLoopStmt.getCond_of_node hn1, gc]
    cases e2 : (if o = c then UForLoopStmt.setCond h1 this c
        else if c.isSome = true then Expression.replace fuel h1 c o n else .ok h1) with
    | error e => rfl
    | ok h2 =>
      have hn2 : h2.node (some this) =
          some (.uforLoopStmt (if o = i then n else i) d c s b) := by
        by_cases a2 : o = c
        · rw [if_pos a2] at e2
          exact (UForLoopStmt.setCond_node hn1 e2).1
        · rw [if_neg a2] at e2
          exact (UForLoopStmt.retained_node hn1 e2).1
      simp only [bind_ok, UForLoopStmt.getStep_of_node hn2, gs]

/-- C32: the frame of `UForLoopStmt::replace`. When `replace(oldExpr, newExpr)`
returns on a loop, the loop has the same body, the same successor and the same
flag init-is-definition as before; moreover every node of the heap keeps its
successor, metadata and address, no node is allocated, and every statement other
than the loop (every node that is not an expression, the statements of the body
among them) keeps its fields. The call is forwarded to `init`, `cond` and `step`
only: `replace` is the same function, on every input, when the virtual call
fails on any other receiver. -/
theorem uForLoopStmt_replace_frame (fuel : Nat) (h h' : Heap) (this : Nat)
    (oldExpr newExpr init cond step body : Ptr) (d : Bool)
    (hn : h.node (some this) = some (.uforLoopStmt init d cond step body))
    (hr : UForLoopStmt.replace (Expression.replace fuel) h this oldExpr newExpr = .ok h') :
    UForLoopStmt.getBody h' this = .ok body ∧
    Statement.getSuccessor h' this = Statement.getSuccessor h this ∧
    UForLoopStmt.isInitDefinition h' this = .ok d ∧
    h'.length = h.length ∧
    (∀ a, Statement.getSuccessor h' a = Statement.getSuccessor h a ∧
      Value.getMetadata h' a = Value.getMetadata h a ∧
      Value.getAddress h' a = Value.getAddress h a) ∧
    (∀ a nd, a ≠ this → nd.isExpression = false → h.node (some a) = some nd →
      h'.node (some a) = some nd) ∧
    UForLoopStmt.replace
      (UForLoopStmt.forwardOnlyTo [init, cond, step] (Expression.replace fuel))
      h this oldExpr newExpr = .ok h' := by
  obtain ⟨hn', hl, hf, hs⟩ := UForLoopStmt.replace_node hn hr
  exact ⟨UForLoopStmt.getBody_of_node hn', (hf this).1,
    UForLoopStmt.isInitDefinition_of_node hn', hl, hf, hs,
    (UForLoopStmt.replace_forwards hn).symm.trans hr⟩

/-- In `bodyLoop` the call `replace(i, n)` on the marked loop
`for (i; c; s) x(i);` returns: `n` is the `init` part, the body is still the
statement of cell 6 and its call still has the argument `i`, the successor is
still the empty statement and the loop is still marked. -/
theorem uForLoopStmt_replace_frame_witness :
    UForLoopStmt.replace (Expression.replace 2) bodyLoop 7 (some 0) (some 4) =
      .ok bodyLoopReplaced ∧
    UForLoopStmt.getInit bodyLoopReplaced 7 = .ok (some 4) ∧
    UForLoopStmt.getBody bodyLoopReplaced 7 = .ok (some 6) ∧
    Statement.getSuccessor bodyLoopReplaced 7 = .ok (some 3) ∧
    UForLoopStmt.isInitDefinition bodyLoopReplaced 7 = .ok true ∧
    bodyLoopReplaced.node (some 6) = some (.callStmt (some 5)) ∧
    bodyLoopReplaced.node (some 5) = some (.other .callExpr "" [some 0]) := by
  have hr : UForLoopStmt.replace (Expression.replace 2) bodyLoop 7 (some 0) (some 4) =
      .ok bodyLoopReplaced := by decide
  have hw := uForLoopStmt_replace_frame 2 bodyLoop bodyLoopReplaced 7 (some 0) (some 4)
    (some 0) (some 1) (some 2) (some 6) true (by decide) hr
  exact ⟨hr, by decide, hw.1, hw.2.1.trans (by decide), hw.2.2.1,
    hw.2.2.2.2.2.1 6 _ (by decide) rfl (by decide), by decide⟩

/-! ## Theorems: `update` replaces one slot, `replace` tests each slot -/

/-- C31: the function `UForLoopStmt::update` replaces at most one slot. On a loop
with the parts `init`, `cond`, `step`, the call `update(e, arg)` with a node `e`
and an expression `arg` returns; the first of the slots `init`, `cond`, `step`
that holds `e` becomes `arg` and every other slot, the later slots that hold
`e` among them, is as before; nothing changes when no slot holds `e`. The
function `UForLoopStmt::replace` tests each slot on its own: when
`replace(e, arg)` returns, `init` is `arg` if it was `e` and `step` is `arg` if
it was `e`, whatever the other slots hold (`cond` is tested on its own as well,
and is then assigned its old value); and it does return when `init` and `step`
both hold `e` and `cond` holds `e` or is absent, with `arg` in both slots. -/
theorem update_replaces_first_slot_only (h : Heap) (this e arg : Nat) (i c s b : Ptr)
    (d : Bool) (hn : h.node (some this) = some (.uforLoopStmt i d c s b))
    (he : e < h.length) (harg : isa Node.isExpression h (some arg) = true) :
    (some e = i → ∃ h', UForLoopStmt.update h this (some e) (some arg) = .ok h' ∧
      h'.node (some this) = some (.uforLoopStmt (some arg) d c s b)) ∧
    (some e ≠ i → some e = c →
      ∃ h', UForLoopStmt.update h this (some e) (some arg) = .ok h' ∧
        h'.node (some this) = some (.uforLoopStmt i d (some arg) s b)) ∧
    (some e ≠ i → some e ≠ c → some e = s →
      ∃ h', UForLoopStmt.update h this (some e) (some arg) = .ok h' ∧
        h'.node (some this) = some (.uforLoopStmt i d c (some arg) b)) ∧
    (some e ≠ i → some e ≠ c → some e ≠ s →
      UForLoopStmt.update h this (some e) (some arg) = .ok h) ∧
    (∀ fuel h',
      UForLoopStmt.replace (Expression.replace fuel) h this (some e) (some arg) = .ok h' →
      h'.node (some this) =
        some (.uforLoopStmt (if some e = i then some arg else i) d c
          (if some e = s then some arg else s) b)) ∧
    (some e = i → some e = s → c = some e ∨ c = none →
      ∀ fuel, ∃ h',
        UForLoopStmt.replace (Expression.replace fuel) h this (some e) (some arg) = .ok h' ∧
        h'.node (some this) = some (.uforLoopStmt (some arg) d c (some arg) b)) := by
  have hu := @UForLoopStmt.update_expression h this i c s b d (some e) (some arg) hn rfl harg
  have hal := isa_lt harg
  refine ⟨fun h1 => ?_, fun h1 h2 => ?_, fun h1 h2 h3 => ?_, fun h1 h2 h3 => ?_,
    fun fuel h' hr => (UForLoopStmt.replace_node hn hr).1, fun h1 h3 h2 fuel => ?_⟩
  · rw [hu, if_pos h1]
    subst h1
    obtain ⟨h', hs⟩ := UForLoopStmt.setInit_ok (e := arg) hn he hal
    exact ⟨h', hs, (UForLoopStmt.setInit_node hn hs).1⟩
  · rw [hu, if_neg h1, if_pos h2]
    subst h2
    obtain ⟨h', hs⟩ := UForLoopStmt.setCond_ok (e := arg) hn he hal
    exact ⟨h', hs, (UForLoopStmt.setCond_node hn hs).1⟩
  · rw [hu, if_neg h1, if_neg h2, if_pos h3]
    subst h3
    obtain ⟨h', hs⟩ := UForLoopStmt.setStep_ok (e := arg) hn he hal
    exact ⟨h', hs, (UForLoopStmt.setStep_node hn hs).1⟩
  · rw [hu, if_neg h1, if_neg h2, if_neg h3]
  · subst h1
    subst h3
    unfold UForLoopStmt.replace
    rw [UForLoopStmt.getInit_of_node hn, bind_ok, if_pos rfl]
    obtain ⟨g1, hs1⟩ := UForLoopStmt.setInit_ok (e := arg) hn he hal
    obtain ⟨hn1, f1⟩ := UForLoopStmt.setInit_node hn hs1
    rw [hs1, bind_ok, UForLoopStmt.getCond_of_node hn1, bind_ok]
    have stage2 : ∃ g2, (if some e = c then UForLoopStmt.setCond g1 this c
        else if c.isSome = true then Expression.replace fuel g1 c (some e) (some arg)
        else .ok g1) = .ok g2 ∧
        g2.node (some this) = some (.uforLoopStmt (some arg) d c (some e) b) ∧
        g2.length = h.length := by
      rcases h2 with h2 | h2
      · subst h2
        rw [if_pos rfl]
        obtain ⟨g2, hs2⟩ := UForLoopStmt.setCond_ok (e := e) hn1 (by rw [f1.1]; exact he)
          (by rw [f1.1]; exact he)
        obtain ⟨hn2, f2⟩ := UForLoopStmt.setCond_node hn1 hs2
        exact ⟨g2, hs2, hn2, f2.1.trans f1.1⟩
      · subst h2
        exact ⟨g1, by simp, hn1, f1.1⟩
    obtain ⟨g2, hs2, hn2, hl2⟩ := stage2
    rw [hs2, bind_ok, UForLoopStmt.getStep_of_node hn2, bind_ok, if_pos rfl]
    obtain ⟨g3, hs3⟩ := UForLoopStmt.setStep_ok (e := arg) hn2 (by rw [hl2]; exact he)
      (by rw [hl2]; exact hal)
    exact ⟨g3, hs3, (UForLoopStmt.setStep_node hn2 hs3).1⟩

/-- In `twinLoop` the variable `i` is both the `init` and the `step` part of
`for (i; c; i) {}`: after `update(i, n)` only `init` is `n`, after
`replace(i, n)` both `init` and `step` are `n`. -/
theorem update_replaces_first_slot_only_witness :
    UForLoopStmt.update twinLoop 5 (some 0) (some 4) = .ok twinLoopUpdated ∧
    twinLoopUpdated.node (some 5) =
      some (.uforLoopStmt (some 4) false (some 1) (some 0) (some 3)) ∧
    UForLoopStmt.replace (Expression.replace 2) twinLoop 5 (some 0) (some 4) =
      .ok twinLoopReplaced ∧
    twinLoopReplaced.node (some 5) =
      some (.uforLoopStmt (some 4) false (some 1) (some 4) (some 3)) := by
  have hw := update_replaces_first_slot_only twinLoop 5 0 4 (some 0) (some 1) (some 0) (some 3)
    false (by decide) (by decide) (by decide)
  have hu : UForLoopStmt.update twinLoop 5 (some 0) (some 4) = .ok twinLoopUpdated := by decide
  have hr : UForLoopStmt.replace (Expression.replace 2) twinLoop 5 (some 0) (some 4) =
      .ok twinLoopReplaced := by decide
  obtain ⟨g, hg, hnode⟩ := hw.1 rfl
  rw [hu] at hg
  cases hg
  exact ⟨hu, hnode, hr, hw.2.2.2.2.1 2 twinLoopReplaced hr⟩

/-! ## Theorems: the successor of a clone -/

theorem Statement.getSuccessor_setSuccessor {h h' : Heap} {a : Nat} {s : Ptr}
    (hs : Statement.setSuccessor h a s = .ok h') : Statement.getSuccessor h' a = .ok s := by
  have ha := Statement.setSuccessor_lt hs
  rw [Statement.setSuccessor_ok _ ha] at hs
  cases hs
  simp only [Statement.getSuccessor, Heap.cell, Heap.getElem?_update, if_true]
  rw [List.getElem?_eq_getElem ha]
  rfl

theorem Subject.addObserver_fields {h h' : Heap} {p : Ptr} {o : Nat}
    (hp : Subject.addObserver h p o = .ok h') (a : Nat) :
    Statement.getSuccessor h' a = Statement.getSuccessor h a ∧
    Value.getMetadata h' a = Value.getMetadata h a ∧
    Value.getAddress h' a = Value.getAddress h a := by
  cases p with
  | none => simp [Subject.addObserver] at hp
  | some x =>
    rw [Subject.addObserver_ok _ (Subject.addObserver_lt hp)] at hp
    cases hp
    exact Heap.fields_update h x (Cell.addObserver o) (fun _ => ⟨rfl, rfl, rfl⟩) a

theorem Subject.addObserver_if_fields {h h' : Heap} {p : Ptr} {o : Nat}
    (hp : (if p.isSome then Subject.addObserver h p o else .ok h) = .ok h') (a : Nat) :
    Statement.getSuccessor h' a = Statement.getSuccessor h a ∧
    Value.getMetadata h' a = Value.getMetadata h a ∧
    Value.getAddress h' a = Value.getAddress h a := by
  split at hp
  · exact Subject.addObserver_fields hp a
  · cases hp
    exact ⟨rfl, rfl, rfl⟩

theorem Value.setMetadata_succ {h h' : Heap} {a : Nat} {md : String}
    (hp : Value.setMetadata h a md = .ok h') (b : Nat) :
    Statement.getSuccessor h' b = Statement.getSuccessor h b := by
  simp only [Value.setMetadata] at hp
  split at hp
  · cases hp
    simp only [Statement.getSuccessor, Heap.cell, Heap.getElem?_update]
    by_cases hab : a = b
    · simp only [hab, if_true]
      cases h[b]? <;> simp [Except.map]
    · simp [hab]
  · cases hp

theorem callStmt_create_succ {g g' : Heap} {call succ : Ptr} {a e : Nat}
    (hc : CallStmt.create g call succ a = .ok (e, g')) :
    Statement.getSuccessor g' e = .ok succ := by
  cases call with
  | none => simp [CallStmt.create] at hc
  | some x =>
    simp only [CallStmt.create, Heap.alloc] at hc
    obtain ⟨h1, e1, hc⟩ := bind_eq_ok hc
    obtain ⟨h2, e2, hc⟩ := bind_eq_ok hc
    cases hc
    rw [(Subject.addObserver_fields e2 g.length).1]
    exact Statement.getSuccessor_setSuccessor e1

theorem uForLoopStmt_create_succ {g g' : Heap} {i c s b succ : Ptr} {a e : Nat}
    (hc : UForLoopStmt.create g i c s b succ a = .ok (e, g')) :
    Statement.getSuccessor g' e = .ok succ := by
  cases b with
  | none => simp [UForLoopStmt.create] at hc
  | some x =>
    simp only [UForLoopStmt.create, UForLoopStmt.new, Heap.alloc] at hc
    obtain ⟨h1, e1, hc⟩ := bind_eq_ok hc
    obtain ⟨h2, e2, hc⟩ := bind_eq_ok hc
    obtain ⟨h3, e3, hc⟩ := bind_eq_ok hc
    obtain ⟨h4, e4, hc⟩ := bind_eq_ok hc
    obtain ⟨h5, e5, hc⟩ := bind_eq_ok hc
    cases hc
    rw [(Subject.addObserver_fields e5 g.length).1, (Subject.addObserver_if_fields e4 g.length).1,
      (Subject.addObserver_if_fields e3 g.length).1, (Subject.addObserver_if_fields e2 g.length).1]
    exact Statement.getSuccessor_setSuccessor e1

/-- The statement returned by `CallStmt::clone` has no successor. -/
theorem callStmt_clone_succ (v : Heap → Ptr → Except Err (Ptr × Heap))
    (h h' : Heap) (this : Nat) (c : Ptr) (hc : CallStmt.clone v h this = .ok (c, h')) :
    ∃ x, c = some x ∧ Statement.getSuccessor h' x = .ok none := by
  unfold CallStmt.clone at hc
  obtain ⟨call, _, hc⟩ := bind_eq_ok hc
  obtain ⟨⟨c1, h1⟩, _, hc⟩ := bind_eq_ok hc
  obtain ⟨a, _, hc⟩ := bind_eq_ok hc
  obtain ⟨⟨l, h2⟩, e2, hc⟩ := bind_eq_ok hc
  obtain ⟨md, _, hc⟩ := bind_eq_ok hc
  obtain ⟨h3, e3, hc⟩ := bind_eq_ok hc
  cases hc
  exact ⟨l, rfl, (Value.setMetadata_succ e3 l).trans (callStmt_create_succ e2)⟩

/-- The statement returned by `UForLoopStmt::clone` has no successor. -/
theorem uForLoopStmt_clone_succ (v vs : Heap → Ptr → Except Err (Ptr × Heap))
    (h h' : Heap) (this : Nat) (c : Ptr) (hc : UForLoopStmt.clone v vs h this = .ok (c, h')) :
    ∃ x, c = some x ∧ Statement.getSuccessor h' x = .ok none := by
  unfold UForLoopStmt.clone at hc
  cases hn : h.node (some this) with
  | none => simp [hn] at hc
  | some n =>
    cases n with
    | uforLoopStmt i d cd s b =>
      simp only [hn] at hc
      obtain ⟨⟨ci, h1⟩, _, hc⟩ := bind_eq_ok hc
      obtain ⟨⟨cc, h2⟩, _, hc⟩ := bind_eq_ok hc
      obtain ⟨⟨cs, h3⟩, _, hc⟩ := bind_eq_ok hc
      obtain ⟨⟨cb, h4⟩, _, hc⟩ := bind_eq_ok hc
      obtain ⟨a, _, hc⟩ := bind_eq_ok hc
      obtain ⟨⟨l, h5⟩, e5, hc⟩ := bind_eq_ok hc
      obtain ⟨md, _, hc⟩ := bind_eq_ok hc
      obtain ⟨h6, e6, hc⟩ := bind_eq_ok hc
      cases hc
      exact ⟨l, rfl, (Value.setMetadata_succ e6 l).trans (uForLoopStmt_create_succ e5)⟩
    | _ => simp [hn] at hc

theorem Statement.cloneStatements_isSome {v : Heap → Ptr → Except Err (Ptr × Heap)}
    {n : Nat} {h h' : Heap} {s : Nat} {c : Ptr}
    (hc : Statement.cloneStatements v n h (some s) = .ok (c, h')) : ∃ x, c = some x := by
  cases n with
  | zero => simp [Statement.cloneStatements] at hc
  | succ n =>
    simp only [Statement.cloneStatements] at hc
    obtain ⟨⟨c0, h1⟩, _, hc⟩ := bind_eq_ok hc
    obtain ⟨next, _, hc⟩ := bind_eq_ok hc
    obtain ⟨⟨rest, h2⟩, _, hc⟩ := bind_eq_ok hc
    cases c0 with
    | none => simp at hc
    | some x =>
      simp only at hc
      obtain ⟨h3, _, hc⟩ := bind_eq_ok hc
      cases hc
      exact ⟨x, rfl⟩

/-- The function `UForLoopStmt::clone` returns when the clones of the four parts do. -/
theorem uForLoopStmt_clone_ok (f : Nat) (h : Heap) (n : Nat) (i c s : Ptr) (b : Nat) (d : Bool)
    (ci cc cs cb : Ptr) (h1 h2 h3 h4 : Heap)
    (hn : h.node (some n) = some (.uforLoopStmt i d c s (some b)))
    (hc1 : Value.clone f h i = .ok (ci, h1)) (hc2 : Value.clone f h1 c = .ok (cc, h2))
    (hc3 : Value.clone f h2 s = .ok (cs, h3))
    (hc4 : Statement.cloneStatements (fun h x => Value.clone f h x) f h3 (some b) =
      .ok (cb, h4)) :
    ∃ x h', Value.clone (f + 1) h (some n) = .ok (some x, h') := by
  have hv : ∀ h p c h', (fun h x => Value.clone f h x) h p = .ok (c, h') →
      Heap.Fresh h c h' := fun h p c h' => value_clone_fresh f h h' p c
  have f1 := value_clone_fresh f h h1 i ci hc1
  have f2 := value_clone_fresh f h1 h2 c cc hc2
  have f3 := value_clone_fresh f h2 h3 s cs hc3
  have f4 := Statement.cloneStatements_fresh _ hv f h3 h4 (some b) cb hc4
  obtain ⟨a1, rfl⟩ := value_clone_isSome hc1
  obtain ⟨a2, rfl⟩ := value_clone_isSome hc2
  obtain ⟨a3, rfl⟩ := value_clone_isSome hc3
  obtain ⟨a4, rfl⟩ := Statement.cloneStatements_isSome hc4
  have l1 : a1 < h4.length :=
    lt_of_lt_of_le (f1.2 a1 rfl).2 ((f2.1.trans (f3.1.trans f4.1)).length_le)
  have l2 : a2 < h4.length := lt_of_lt_of_le (f2.2 a2 rfl).2 ((f3.1.trans f4.1).length_le)
  have l3 : a3 < h4.length := lt_of_lt_of_le (f3.2 a3 rfl).2 f4.1.length_le
  have l4 : a4 < h4.length := (f4.2 a4 rfl).2
  have ln4 : n < h4.length :=
    lt_of_lt_of_le (Heap.node_lt hn) ((f1.1.trans (f2.1.trans (f3.1.trans f4.1))).length_le)
  obtain ⟨ad, ead⟩ := Value.getAddress_ok ln4
  obtain ⟨h5, e5⟩ := uForLoopStmt_create_ok none ad l1 l2 l3 l4
  obtain ⟨_, hnode, x5⟩ := uForLoopStmt_create_spec e5
  have ln : n < h5.length := lt_of_lt_of_le ln4 x5.length_le
  obtain ⟨md, emd⟩ := Value.getMetadata_ok ln
  obtain ⟨h6, e6⟩ := Value.setMetadata_ok md (Heap.node_lt hnode)
  refine ⟨h4.length, h6, ?_⟩
  simp only [Value.clone, hn, UForLoopStmt.clone, hc1, hc2, hc3, hc4, bind_ok, ead, e5, emd, e6]

/-- C33: a cloned statement has no successor. For a `CallStmt` `s` whose call can
be cloned, and for a `UForLoopStmt` `s` whose `init`, `cond`, `step` and body
can be cloned (hence are present, in the order in which `clone()` clones them):
`s->clone()` returns a statement allocated by the call whose successor is null,
whatever the successor of `s` is, and `s` has the same successor as before.
Whenever `clone()` of a `CallStmt` or of a `UForLoopStmt` returns, the returned
statement has no successor and the original keeps its own. The sub-parts are
given the fuel `fuel`, the statement itself `fuel + 1`. -/
theorem clone_has_no_successor (fuel : Nat) (h : Heap) (s : Nat) :
    (∀ call c1 h1, h.node (some s) = some (.callStmt call) →
      Value.clone fuel h call = .ok (c1, h1) →
      ∃ x h', Value.clone (fuel + 1) h (some s) = .ok (some x, h') ∧ h.length ≤ x ∧
        Statement.getSuccessor h' x = .ok none ∧
        Statement.getSuccessor h' s = Statement.getSuccessor h s) ∧
    (∀ i d c st b ci cc cs cb h1 h2 h3 h4,
      h.node (some s) = some (.uforLoopStmt i d c st (some b)) →
      Value.clone fuel h i = .ok (ci, h1) → Value.clone fuel h1 c = .ok (cc, h2) →
      Value.clone fuel h2 st = .ok (cs, h3) →
      Statement.cloneStatements (fun h x => Value.clone fuel h x) fuel h3 (some b) =
        .ok (cb, h4) →
      ∃ x h', Value.clone (fuel + 1) h (some s) = .ok (some x, h') ∧ h.length ≤ x ∧
        Statement.getSuccessor h' x = .ok none ∧
        Statement.getSuccessor h' s = Statement.getSuccessor h s) ∧
    (∀ c h', ((∃ call, h.node (some s) = some (.callStmt call)) ∨
        ∃ i d cd st b, h.node (some s) = some (.uforLoopStmt i d cd st b)) →
      Value.clone fuel h (some s) = .ok (c, h') →
      ∃ x, c = some x ∧ h.length ≤ x ∧ Statement.getSuccessor h' x = .ok none ∧
        Statement.getSuccessor h' s = Statement.getSuccessor h s) := by
  have key : ∀ n c h', ((∃ call, h.node (some s) = some (.callStmt call)) ∨
        ∃ i d cd st b, h.node (some s) = some (.uforLoopStmt i d cd st b)) →
      Value.clone n h (some s) = .ok (c, h') →
      ∃ x, c = some x ∧ h.length ≤ x ∧ Statement.getSuccessor h' x = .ok none ∧
        Statement.getSuccessor h' s = Statement.getSuccessor h s := by
    intro n c h' hk hc
    have hf := value_clone_fresh n h h' (some s) c hc
    have hlt : s < h.length := by
      rcases hk with ⟨call, hn⟩ | ⟨i, d, cd, st, b, hn⟩
      · exact Heap.node_lt hn
      · exact Heap.node_lt hn
    have hsame := (Heap.untouched_fields hf.1 hlt).1
    cases n with
    | zero => simp [Value.clone] at hc
    | succ n =>
      rcases hk with ⟨call, hn⟩ | ⟨i, d, cd, st, b, hn⟩
      · simp only [Value.clone, hn] at hc
        obtain ⟨x, rfl, hx⟩ := callStmt_clone_succ _ h h' s c hc
        exact ⟨x, rfl, (hf.2 x rfl).1, hx, hsame⟩
      · simp only [Value.clone, hn] at hc
        obtain ⟨x, rfl, hx⟩ := uForLoopStmt_clone_succ _ _ h h' s c hc
        exact ⟨x, rfl, (hf.2 x rfl).1, hx, hsame⟩
  refine ⟨fun call c1 h1 hn hc1 => ?_,
    fun i d c st b ci cc cs cb h1 h2 h3 h4 hn hc1 hc2 hc3 hc4 => ?_,
    fun c h' hk hc => key fuel c h' hk hc⟩
  · obtain ⟨c, h', hc⟩ := callStmt_clone_ok fuel h s call c1 h1 hn hc1
    obtain ⟨x, rfl, hx⟩ := key (fuel + 1) c h' (Or.inl ⟨call, hn⟩) hc
    exact ⟨x, h', hc, hx⟩
  · obtain ⟨x, h', hc⟩ :=
      uForLoopStmt_clone_ok fuel h s i c st b d ci cc cs cb h1 h2 h3 h4 hn hc1 hc2 hc3 hc4
    obtain ⟨y, hy, hx⟩ := key (fuel + 1) (some x) h' (Or.inr ⟨i, d, c, st, some b, hn⟩) hc
    cases hy
    exact ⟨x, h', hc, hx⟩

/-- In `variantHeap` the call statement of cell 7 has the successor of cell 6 and
the loop of cell 9 the successor of cell 7: their clones are new nodes without
a successor, and the originals keep their successors. -/
theorem clone_has_no_successor_witness :
    Statement.getSuccessor variantHeap 7 = .ok (some 6) ∧
    (∃ x h', Value.clone 3 variantHeap (some 7) = .ok (some x, h') ∧ 10 ≤ x ∧
      Statement.getSuccessor h' x = .ok none ∧
      Statement.getSuccessor h' 7 = .ok (some 6)) ∧
    Statement.getSuccessor variantHeap 9 = .ok (some 7) ∧
    (∃ x h', Value.clone 3 variantHeap (some 9) = .ok (some x, h') ∧ 10 ≤ x ∧
      Statement.getSuccessor h' x = .ok none ∧
      Statement.getSuccessor h' 9 = .ok (some 7)) := by
  have s7 : Statement.getSuccessor variantHeap 7 = .ok (some 6) := by decide
  have s9 : Statement.getSuccessor variantHeap 9 = .ok (some 7) := by decide
  refine ⟨s7, ?_, s9, ?_⟩
  · obtain ⟨x, h', hc, hx, hs, ho⟩ := (clone_has_no_successor 2 variantHeap 7).1 (some 5)
      (some 11) (variantHeap ++
        [{ Cell.leaf .variable "i" with observers := [11] },
         Cell.fresh (.other .callExpr "" [some 10]) 0]) (by decide) (by decide)
    exact ⟨x, h', hc, hx, hs, ho.trans s7⟩
  · obtain ⟨x, h', hc, hx, hs, ho⟩ := (clone_has_no_successor 2 variantHeap 9).2.1
      (some 0) true (some 1) (some 2) 3 (some 10) (some 11) (some 12) (some 13)
      (variantHeap ++ [Cell.leaf .variable "i"])
      (variantHeap ++ [Cell.leaf .variable "i", Cell.leaf .variable "c"])
      (variantHeap ++ [Cell.leaf .variable "i", Cell.leaf .variable "c",
        Cell.leaf .variable "s"])
      (variantHeap ++ [Cell.leaf .variable "i", Cell.leaf .variable "c",
        Cell.leaf .variable "s", Cell.leaf .emptyStmt ""])
      (by decide) (by decide) (by decide) (by decide) (by decide)
    exact ⟨x, h', hc, hx, hs, ho.trans s9⟩

end Retdec
